import Mathlib

/-!
# History archives of a community (status-go, `protocol/communities`)

A shallow embedding of `manager_archive_file.go`: the archive builder
`createHistoryArchiveTorrent`, the index loader
`LoadHistoryArchiveIndexFromFile` and the reader
`ExtractMessagesFromHistoryArchive`, followed by theorems about them.  Three
smaller functions of other packages are embedded after it: `ParseAppState`
(`api/app_state.go`), `Database.SetTopics` (`services/mailservers/database.go`)
and `ReadMultiTransactions` (`services/wallet/transfer/multi_transaction_db.go`).

Conventions of the embedding.

* A byte is a `Nat`; a `[]byte` is a `List Nat`.  No definition depends on a
  byte being below 256.
* A `time.Time` is an instant, counted in nanoseconds since the Unix epoch
  (`Int`); a `time.Duration` is a number of nanoseconds.  `Unix()` is the floor
  of the instant in seconds.
* Go `int` values (lengths, sizes) are `Int`, `uint64` values are `Nat`.
  `uint64(t.Unix())` is reduction modulo `2^64`, since `Unix()` is negative
  before 1970.  `uint64(x)` of a length, size or padding is `Int.toNat`: the
  code keeps these non-negative and a Go `int` is below `2^63`, so the
  conversion is exact.  Sums of `uint64` byte offsets are not reduced: an
  offset is a position in the data file, and the sums are those of the code
  as long as they stay below `2^64`.
* A Go `map[string]V` is an association list whose insertion replaces the
  entry of an existing key.
* The collaborators defined outside this file (protobuf codec, Keccak, the
  encryptor, the persistence layer, the file system's failures, the two
  package constants) are the fields of `Env`.
* The `for { ... }` loop over the sub-windows is run with fuel: `none` means
  the loop did not finish within the fuel.
* The loop state carries a trace `produced` of the archives, entries and
  encoded bytes the loop computed.  No definition reads it; the theorems use it
  to name "the archives a call created".
* `World` holds the files of the one community a call is for.
* A table of a database is the list of its rows; each statement can fail.
  Functions of the Go standard library are parameters or are modelled next to
  the function that calls them.
-/

namespace Communities

/-! ## Data model -/

abbrev Bytes := List Nat

/-- Instant in nanoseconds since the Unix epoch (`time.Time`). -/
abbrev Time := Int

/-- Number of nanoseconds (`time.Duration`). -/
abbrev Duration := Int

/-- Seconds since the epoch, rounded down (`time.Time.Unix`). -/
def Time.Unix (t : Time) : Int := t / 1000000000

/-- Instant shifted by a duration (`time.Time.Add`). -/
def Time.Add (t : Time) (d : Duration) : Time := t + d

/-- Strictly later (`time.Time.After`). -/
def Time.After (t u : Time) : Bool := decide (u < t)

/-- Same instant (`time.Time.Equal`). -/
def Time.Equal (t u : Time) : Bool := decide (t = u)

/-- Conversion of a signed integer to `uint64`. -/
def uint64 (x : Int) : Nat := (x % 18446744073709551616).toNat

/-- Envelope message of `types.Message`. -/
structure Message where
  Sig : Bytes
  Timestamp : Nat
  Topic : Bytes
  Payload : Bytes
  Padding : Bytes
  Hash : Bytes
  ThirdPartyID : Bytes
deriving DecidableEq, Repr

/-- Archived message of `protobuf.WakuMessage`. -/
structure WakuMessage where
  Sig : Bytes
  Timestamp : Nat
  Topic : Bytes
  Payload : Bytes
  Padding : Bytes
  Hash : Bytes
  ThirdPartyId : Bytes
deriving DecidableEq, Repr

/-- Window and topics of an archive (`protobuf.WakuMessageArchiveMetadata`). -/
structure WakuMessageArchiveMetadata where
  From : Nat
  To : Nat
  ContentTopic : List Bytes
deriving DecidableEq, Repr

/-- One archive (`protobuf.WakuMessageArchive`). -/
structure WakuMessageArchive where
  Metadata : WakuMessageArchiveMetadata
  Messages : List WakuMessage
deriving DecidableEq, Repr

/-- Index entry of one archive (`protobuf.WakuMessageArchiveIndexMetadata`). -/
structure WakuMessageArchiveIndexMetadata where
  Metadata : WakuMessageArchiveMetadata
  Offset : Nat
  Size : Nat
  Padding : Nat
deriving DecidableEq, Repr

/-- The `Archives` map of `protobuf.WakuMessageArchiveIndex`, keyed by archive ID. -/
abbrev WakuMessageArchiveIndex := List (String × WakuMessageArchiveIndexMetadata)

/-- Encoded archive waiting to be written (`EncodedArchiveData`). -/
structure EncodedArchiveData where
  bytes : Bytes
  padding : Int
deriving DecidableEq, Repr

/-- Envelope of the encryptor (`encryption.ProtocolMessage`), kept abstract. -/
structure ProtocolMessage where
  raw : Bytes
deriving DecidableEq, Repr

/-- Events handed to the publisher. -/
inductive Signal where
  | CreatingHistoryArchivesSignal (communityID : Bytes)
  | HistoryArchivesCreatedSignal (communityID : Bytes) (From To : Int)
  | NoHistoryArchivesCreatedSignal (communityID : Bytes) (From To : Int)
deriving DecidableEq, Repr

/-- The step at which a call gave up. -/
inductive BuildError where
  | mkdirArchiveDir
  | mkdirTorrentDir
  | readIndex
  | unmarshalIndex
  | unmarshalProtocolMessage
  | decompressPubkey
  | handleMessage
  | getWakuMessages
  | marshalArchive
  | buildHashRatchetMessage
  | marshalProtocolMessage
  | marshalIndexMetadata
  | marshalIndex
  | writeIndex
  | openData
  | writeData
  | buildTorrent
  | writeTorrent
  | getLastMessageArchiveEndDate
  | saveLastMessageArchiveEndDate
  | openDataForRead
  | seekData
  | readData
  | unmarshalArchive
deriving DecidableEq, Repr

/-- Fallible operating-system and database steps. -/
inductive Step where
  | mkdirArchiveDir
  | mkdirTorrentDir
  | readIndex
  | writeIndex
  | openData
  | writeData
  | writeTorrent
  | getLastMessageArchiveEndDate
  | saveLastMessageArchiveEndDate
  | openDataForRead
deriving DecidableEq, Repr

/-- Collaborators of the archive manager that live outside
`manager_archive_file.go`. -/
structure Env where
  /-- Package constant `maxArchiveSizeInBytes`. -/
  maxArchiveSizeInBytes : Int
  /-- Package constant `pieceLength`. -/
  pieceLength : Int
  /-- Serialisation of an archive, `proto.Marshal`. -/
  marshalArchive : WakuMessageArchive → Option Bytes
  /-- Parsing of an archive, `proto.Unmarshal`. -/
  unmarshalArchive : Bytes → Option WakuMessageArchive
  /-- Serialisation of an index entry, `proto.Marshal`. -/
  marshalIndexMetadata : WakuMessageArchiveIndexMetadata → Option Bytes
  /-- Serialisation of the index, `proto.Marshal`. -/
  marshalIndex : WakuMessageArchiveIndex → Option Bytes
  /-- Parsing of the index, `proto.Unmarshal`. -/
  unmarshalIndex : Bytes → Option WakuMessageArchiveIndex
  /-- Serialisation of an envelope, `proto.Marshal`. -/
  marshalProtocolMessage : ProtocolMessage → Option Bytes
  /-- Parsing of an envelope, `proto.Unmarshal`. -/
  unmarshalProtocolMessage : Bytes → Option ProtocolMessage
  /-- Hash of the entry bytes as text, `crypto.Keccak256Hash(..).String()`. -/
  keccak256Hash : Bytes → String
  /-- Encryption for a community, `encryptor.BuildHashRatchetMessage`. -/
  buildHashRatchetMessage : Bytes → Bytes → Option ProtocolMessage
  /-- Public key of a community, `crypto.DecompressPubkey`. -/
  decompressPubkey : Bytes → Option Bytes
  /-- Decryption with the node identity, `encryptor.HandleMessage`. -/
  handleMessage : Bytes → ProtocolMessage → Option Bytes
  /-- Stored messages of a topic set and range,
  `persistence.GetWakuMessagesByFilterTopic`. -/
  getWakuMessagesByFilterTopic : List Bytes → Nat → Nat → Option (List Message)
  /-- Swarm descriptor of the archive directory: `info.BuildFromFilePath`
  followed by the two `bencode.Marshal` calls, from the index and data files. -/
  buildTorrent : Option Bytes → Option Bytes → Option Bytes
  /-- Whether an operating-system or database step fails. -/
  fails : Step → Bool

/-- The files, directories, cursor row and published events of one community. -/
structure World where
  archiveDirExists : Bool
  torrentDirExists : Bool
  indexFile : Option Bytes
  dataFile : Option Bytes
  torrentFile : Option Bytes
  lastMessageArchiveEndDate : Option Nat
  published : List Signal
deriving DecidableEq, Repr

/-! ## Maps -/

/-- Assignment `m[k] = v` of a Go map. -/
def mapInsert {V : Type} (m : List (String × V)) (k : String) (v : V) : List (String × V) :=
  m.filter (fun p => !(p.1 == k)) ++ [(k, v)]

/-! ## Size and padding of an encoded archive (lines 192-202) -/

/-- The pair `(size, padding)` computed from `rawSize` and `pieceLength`. -/
def sizeAndPadding (rawSize pieceLength : Int) : Int × Int :=
  if rawSize > pieceLength then
    let size := rawSize + pieceLength - (rawSize % pieceLength)
    (size, size - rawSize)
  else
    let padding := pieceLength - rawSize
    (rawSize + padding, padding)

/-! ## Chunking of the messages of one sub-window (lines 152-171) -/

/-- Variables of the chunking loop. -/
structure ChunkState where
  messageChunks : List (List Message)
  currentChunkSize : Int
  currentChunk : List Message
deriving DecidableEq, Repr

/-- Value of `len(msg.Payload) + len(msg.Sig)`. -/
def msgSize (msg : Message) : Int := (msg.Payload.length : Int) + (msg.Sig.length : Int)

/-- One iteration of `for _, msg := range messages`. -/
def chunkStep (maxArchiveSizeInBytes : Int) (st : ChunkState) (msg : Message) : ChunkState :=
  if msgSize msg > maxArchiveSizeInBytes then
    st
  else
    let st1 : ChunkState :=
      if st.currentChunkSize + msgSize msg > maxArchiveSizeInBytes then
        { messageChunks := st.messageChunks ++ [st.currentChunk]
          currentChunkSize := 0
          currentChunk := [] }
      else st
    { messageChunks := st1.messageChunks
      currentChunkSize := st1.currentChunkSize + msgSize msg
      currentChunk := st1.currentChunk ++ [msg] }

/-- The chunks `messageChunks` after the loop and the final append. -/
def chunkMessages (maxArchiveSizeInBytes : Int) (messages : List Message) : List (List Message) :=
  let st := messages.foldl (chunkStep maxArchiveSizeInBytes)
    { messageChunks := [], currentChunkSize := 0, currentChunk := [] }
  st.messageChunks ++ [st.currentChunk]

/-- Total of `len(payload) + len(sig)` over a chunk. -/
def chunkSize (chunk : List Message) : Int := (chunk.map msgSize).sum

/-! ## Building archives (`createHistoryArchiveTorrent`) -/

/-- Modelled from the spec: `topicsAsByteArrays` is defined outside the
sources at hand; a content topic is modelled by its 4-byte array, so the
conversion is the identity. -/
def topicsAsByteArrays (topics : List Bytes) : List Bytes := topics

/-- Modelled from the spec: `types.TopicTypeToByteArray` is defined outside the
sources at hand; a content topic is modelled by its 4-byte array. -/
def TopicTypeToByteArray (topic : Bytes) : Bytes := topic

/-- The `protobuf.WakuMessage` built from one message (lines 346-355). -/
def toWakuMessage (msg : Message) : WakuMessage :=
  { Sig := msg.Sig
    Timestamp := msg.Timestamp
    Topic := TopicTypeToByteArray msg.Topic
    Payload := msg.Payload
    Padding := msg.Padding
    Hash := msg.Hash
    ThirdPartyId := msg.ThirdPartyID }

/-- Archive of a window and a chunk (`createWakuMessageArchive`). -/
def createWakuMessageArchive (from_ to_ : Time) (messages : List Message) (topics : List Bytes) :
    WakuMessageArchive :=
  { Metadata :=
      { From := uint64 (Time.Unix from_)
        To := uint64 (Time.Unix to_)
        ContentTopic := topics }
    Messages := messages.map toWakuMessage }

/-- What one pass of the chunk loop computed: kept for stating properties,
read by no definition. -/
structure Produced where
  archiveID : String
  entry : WakuMessageArchiveIndexMetadata
  archive : WakuMessageArchive
  encoded : EncodedArchiveData
deriving DecidableEq, Repr

/-- Variables of the window loop. -/
structure BuildState where
  from_ : Time
  to_ : Time
  offset : Nat
  archiveIDs : List String
  wakuMessageArchiveIndex : WakuMessageArchiveIndex
  encodedArchives : List EncodedArchiveData
  produced : List Produced
deriving DecidableEq, Repr

/-- The bytes to store: the input, or its encrypted envelope re-serialised
(lines 180-190 and 245-254). -/
def encryptBytes (env : Env) (communityID : Bytes) (encrypt : Bool) (plain : Bytes) :
    Except BuildError Bytes :=
  if encrypt then
    match env.buildHashRatchetMessage communityID plain with
    | none => .error .buildHashRatchetMessage
    | some message =>
      match env.marshalProtocolMessage message with
      | none => .error .marshalProtocolMessage
      | some bytes => .ok bytes
  else .ok plain

/-- Index entry of an encoded archive at an offset (lines 192-209). -/
def indexEntry (env : Env) (metadata : WakuMessageArchiveMetadata) (offset : Nat)
    (encodedArchive : Bytes) : WakuMessageArchiveIndexMetadata :=
  { Metadata := metadata
    Offset := offset
    Size := (sizeAndPadding (encodedArchive.length : Int) env.pieceLength).1.toNat
    Padding := (sizeAndPadding (encodedArchive.length : Int) env.pieceLength).2.toNat }

/-- One pass of `for _, messages := range messageChunks` (lines 174-220).  The
offset advances by the size written; the `uint64` of line 220 holds the same
value as long as the sum is below `2^64`. -/
def encodeChunk (env : Env) (communityID : Bytes) (encrypt : Bool) (topics : List Bytes)
    (st : BuildState) (messages : List Message) : BuildState × Option BuildError :=
  let wakuMessageArchive := createWakuMessageArchive st.from_ st.to_ messages topics
  match env.marshalArchive wakuMessageArchive with
  | none => (st, some .marshalArchive)
  | some plain =>
    match encryptBytes env communityID encrypt plain with
    | .error e => (st, some e)
    | .ok encodedArchive =>
      let padding := (sizeAndPadding (encodedArchive.length : Int) env.pieceLength).2
      let entry := indexEntry env wakuMessageArchive.Metadata st.offset encodedArchive
      match env.marshalIndexMetadata entry with
      | none => (st, some .marshalIndexMetadata)
      | some entryBytes =>
        let archiveID := env.keccak256Hash entryBytes
        let encoded : EncodedArchiveData := { bytes := encodedArchive, padding := padding }
        ({ from_ := st.from_
           to_ := st.to_
           offset := st.offset + encodedArchive.length + padding.toNat
           archiveIDs := st.archiveIDs ++ [archiveID]
           wakuMessageArchiveIndex := mapInsert st.wakuMessageArchiveIndex archiveID entry
           encodedArchives := st.encodedArchives ++ [encoded]
           produced := st.produced ++
             [{ archiveID := archiveID, entry := entry, archive := wakuMessageArchive,
                encoded := encoded }] }, none)

/-- The chunk loop, stopping at the first error. -/
def encodeChunks (env : Env) (communityID : Bytes) (encrypt : Bool) (topics : List Bytes) :
    List (List Message) → BuildState → BuildState × Option BuildError
  | [], st => (st, none)
  | messages :: rest, st =>
    match encodeChunk env communityID encrypt topics st messages with
    | (st1, some e) => (st1, some e)
    | (st1, none) => encodeChunks env communityID encrypt topics rest st1

/-- The step to the next sub-window (lines 139-143 and 223-227). -/
def advance (endDate : Time) (partition : Duration) (st : BuildState) : BuildState :=
  { st with
    from_ := st.to_
    to_ := if Time.After (Time.Add st.to_ partition) endDate then endDate
          else Time.Add st.to_ partition }

/-- The messages of a sub-window (lines 122-134). -/
def selectMessages (env : Env) (loadFromDB : Bool) (msgs : List Message) (topics : List Bytes)
    (from_ to_ : Time) : Except BuildError (List Message) :=
  if loadFromDB then
    match env.getWakuMessagesByFilterTopic topics (uint64 (Time.Unix from_))
        (uint64 (Time.Unix to_)) with
    | none => .error .getWakuMessages
    | some messages => .ok messages
  else
    .ok (msgs.filter fun msg =>
      decide ((msg.Timestamp : Int) ≥ Time.Unix from_) && decide ((msg.Timestamp : Int) < Time.Unix to_))

/-- Body of the window loop after the exit test (lines 117-227). -/
def processWindow (env : Env) (communityID : Bytes) (encrypt : Bool) (loadFromDB : Bool)
    (msgs : List Message) (topics : List Bytes) (endDate : Time) (partition : Duration)
    (st : BuildState) : BuildState × Option BuildError :=
  match selectMessages env loadFromDB msgs topics st.from_ st.to_ with
  | .error e => (st, some e)
  | .ok messages =>
    if messages.length = 0 then
      (advance endDate partition st, none)
    else
      match encodeChunks env communityID encrypt (topicsAsByteArrays topics)
          (chunkMessages env.maxArchiveSizeInBytes messages) st with
      | (st1, some e) => (st1, some e)
      | (st1, none) => (advance endDate partition st1, none)

/-- The window loop `for { ... }` (lines 113-228), with fuel. -/
def windowLoop (env : Env) (communityID : Bytes) (encrypt : Bool) (loadFromDB : Bool)
    (msgs : List Message) (topics : List Bytes) (endDate : Time) (partition : Duration) :
    Nat → BuildState → Option (BuildState × Option BuildError)
  | 0, _ => none
  | fuel + 1, st =>
    if Time.Equal st.from_ endDate || Time.After st.from_ endDate then
      some (st, none)
    else
      match processWindow env communityID encrypt loadFromDB msgs topics endDate partition st with
      | (st1, some e) => some (st1, some e)
      | (st1, none) =>
        windowLoop env communityID encrypt loadFromDB msgs topics endDate partition fuel st1

/-- Index of a community read from its file (`LoadHistoryArchiveIndexFromFile`). -/
def LoadHistoryArchiveIndexFromFile (env : Env) (w : World) (communityID : Bytes) :
    Except BuildError WakuMessageArchiveIndex :=
  match (if env.fails .readIndex then none else w.indexFile) with
  | none => .error .readIndex
  | some indexData =>
    match env.unmarshalIndex indexData with
    | none => .error .unmarshalIndex
    | some archives =>
      if archives.length = 0 ∧ indexData.length > 0 then
        match env.unmarshalProtocolMessage indexData with
        | none => .error .unmarshalProtocolMessage
        | some protocolMessage =>
          match env.decompressPubkey communityID with
          | none => .error .decompressPubkey
          | some pk =>
            match env.handleMessage pk protocolMessage with
            | none => .error .handleMessage
            | some decryptedBytes =>
              match env.unmarshalIndex decryptedBytes with
              | none => .error .unmarshalIndex
              | some decrypted => .ok decrypted
      else .ok archives

/-- The index the builder starts from: the one in the index file when
`os.Stat(indexPath)` finds the file, the empty one otherwise (lines 86-92). -/
def existingArchives (env : Env) (w : World) (communityID : Bytes) :
    Except BuildError WakuMessageArchiveIndex :=
  if w.indexFile.isSome then LoadHistoryArchiveIndexFromFile env w communityID else .ok []

/-- The running offset and the copied map after
`for hash, metadata := range wakuMessageArchiveIndexProto.Archives` (lines 94-99).
The offset is the sum of the sizes; the `uint64` of the code holds the same
value as long as the sum is below `2^64`. -/
def existingIndex (archives : WakuMessageArchiveIndex) : Nat × WakuMessageArchiveIndex :=
  archives.foldl (fun acc p => (acc.1 + p.2.Size, mapInsert acc.2 p.1 p.2)) (0, [])

/-- The bytes appended to the data file (lines 232-237). -/
def dataBytes (encodedArchives : List EncodedArchiveData) : Bytes :=
  encodedArchives.foldl (fun acc e => acc ++ e.bytes ++ List.replicate e.padding.toNat 0) []

/-- The write phase and the completion signal (lines 230-320). -/
def writeArchives (env : Env) (communityID : Bytes) (encrypt : Bool) (startDate endDate : Time)
    (w : World) (st : BuildState) : World × Option BuildError :=
  if st.encodedArchives.length > 0 then
    match env.marshalIndex st.wakuMessageArchiveIndex with
    | none => (w, some .marshalIndex)
    | some plainIndex =>
      match encryptBytes env communityID encrypt plainIndex with
      | .error e => (w, some e)
      | .ok indexBytes =>
        if env.fails .writeIndex then (w, some .writeIndex)
        else
          let w1 := { w with indexFile := some indexBytes }
          if env.fails .openData then (w1, some .openData)
          else
            let w2 := { w1 with dataFile := some (w1.dataFile.getD []) }
            if env.fails .writeData then (w2, some .writeData)
            else
              let w3 := { w2 with
                dataFile := some (w2.dataFile.getD [] ++ dataBytes st.encodedArchives) }
              match env.buildTorrent w3.indexFile w3.dataFile with
              | none => (w3, some .buildTorrent)
              | some metaInfoBytes =>
                if env.fails .writeTorrent then (w3, some .writeTorrent)
                else
                  ({ w3 with
                     torrentFile := some metaInfoBytes
                     published := w3.published ++
                       [Signal.HistoryArchivesCreatedSignal communityID (Time.Unix startDate)
                          (Time.Unix endDate)] }, none)
  else
    ({ w with
       published := w.published ++
         [Signal.NoHistoryArchivesCreatedSignal communityID (Time.Unix startDate)
            (Time.Unix endDate)] }, none)

/-- Modelled from the spec: the persistence layer's
`GetLastMessageArchiveEndDate`, `UpdateLastMessageArchiveEndDate` and
`SaveLastMessageArchiveEndDate` are defined outside the sources at hand.  The
cursor is one optional row; reading an absent row gives 0, updating rewrites
an existing row and saving inserts the row.  The function is lines 322-334. -/
def saveCursor (env : Env) (w : World) (from_ : Time) : World × Option BuildError :=
  if env.fails .getLastMessageArchiveEndDate then (w, some .getLastMessageArchiveEndDate)
  else
    let lastMessageArchiveEndDate := w.lastMessageArchiveEndDate.getD 0
    if env.fails .saveLastMessageArchiveEndDate then (w, some .saveLastMessageArchiveEndDate)
    else if lastMessageArchiveEndDate > 0 then
      ({ w with
         lastMessageArchiveEndDate :=
           w.lastMessageArchiveEndDate.map fun _ => uint64 (Time.Unix from_) }, none)
    else
      ({ w with lastMessageArchiveEndDate := some (uint64 (Time.Unix from_)) }, none)

/-- What a call returns and leaves behind. -/
structure BuildResult where
  world : World
  archiveIDs : List String
  err : Option BuildError
  final : BuildState
deriving DecidableEq, Repr

/-- The variables on entry of the window loop (lines 58-62, 69-71). -/
def initialState (startDate endDate : Time) (partition : Duration) : BuildState :=
  { from_ := startDate
    to_ := if Time.After (Time.Add startDate partition) endDate then endDate
          else Time.Add startDate partition
    offset := 0
    archiveIDs := []
    wakuMessageArchiveIndex := []
    encodedArchives := []
    produced := [] }

/-- Directories, existing index and the first signal (lines 73-106): the world
and loop state before the window loop, or the error returned. -/
def setup (env : Env) (w : World) (communityID : Bytes) (startDate endDate : Time)
    (partition : Duration) : Except (World × BuildError) (World × BuildState) :=
  if (!w.archiveDirExists) && env.fails .mkdirArchiveDir then .error (w, .mkdirArchiveDir)
  else
    let w1 := { w with archiveDirExists := true }
    if (!w1.torrentDirExists) && env.fails .mkdirTorrentDir then .error (w1, .mkdirTorrentDir)
    else
      let w2 := { w1 with torrentDirExists := true }
      match existingArchives env w2 communityID with
      | .error e => .error (w2, e)
      | .ok archives =>
        let st0 := initialState startDate endDate partition
        .ok ({ w2 with
               published := w2.published ++ [Signal.CreatingHistoryArchivesSignal communityID] },
             { st0 with
               offset := (existingIndex archives).1
               wakuMessageArchiveIndex := (existingIndex archives).2 })

/-- The archive builder `createHistoryArchiveTorrent` (lines 54-336). -/
def createHistoryArchiveTorrent (env : Env) (fuel : Nat) (w : World) (communityID : Bytes)
    (msgs : List Message) (topics : List Bytes) (startDate endDate : Time)
    (partition : Duration) (encrypt : Bool) : Option BuildResult :=
  let loadFromDB := decide (msgs.length = 0)
  match setup env w communityID startDate endDate partition with
  | .error (w1, e) =>
    some { world := w1, archiveIDs := [], err := some e,
           final := initialState startDate endDate partition }
  | .ok (w1, st1) =>
    match windowLoop env communityID encrypt loadFromDB msgs topics endDate partition fuel st1 with
    | none => none
    | some (st2, some e) => some { world := w1, archiveIDs := st2.archiveIDs, err := some e, final := st2 }
    | some (st2, none) =>
      match writeArchives env communityID encrypt startDate endDate w1 st2 with
      | (w2, some e) => some { world := w2, archiveIDs := st2.archiveIDs, err := some e, final := st2 }
      | (w2, none) =>
        match saveCursor env w2 st2.from_ with
        | (w3, some e) => some { world := w3, archiveIDs := st2.archiveIDs, err := some e, final := st2 }
        | (w3, none) => some { world := w3, archiveIDs := st2.archiveIDs, err := none, final := st2 }

/-- The public entry with an explicit list (`CreateHistoryArchiveTorrentFromMessages`). -/
def CreateHistoryArchiveTorrentFromMessages (env : Env) (fuel : Nat) (w : World)
    (communityID : Bytes) (messages : List Message) (topics : List Bytes)
    (startDate endDate : Time) (partition : Duration) (encrypt : Bool) : Option BuildResult :=
  createHistoryArchiveTorrent env fuel w communityID messages topics startDate endDate partition
    encrypt

/-- The public entry reading from the database (`CreateHistoryArchiveTorrentFromDB`). -/
def CreateHistoryArchiveTorrentFromDB (env : Env) (fuel : Nat) (w : World)
    (communityID : Bytes) (topics : List Bytes)
    (startDate endDate : Time) (partition : Duration) (encrypt : Bool) : Option BuildResult :=
  createHistoryArchiveTorrent env fuel w communityID [] topics startDate endDate partition encrypt

/-! ## Reading an archive back (`ExtractMessagesFromHistoryArchive`) -/

/-- How a call of `ExtractMessagesFromHistoryArchive` ends. -/
inductive ExtractOutcome where
  | messages (msgs : List WakuMessage)
  | error (e : BuildError)
  | nilDereference
  | lenOutOfRange
deriving DecidableEq, Repr

/-- The buffer after `dataFile.Seek(offset, 0)` and `dataFile.Read(data)` with
`len(data) = n`: the bytes available from the offset, the rest left zero;
`none` is the end-of-file error of a read that gets no byte.  The buffer of
`n` bytes is given: whether it can be allocated is not decided here. -/
def readAt (file : Bytes) (offset n : Nat) : Option Bytes :=
  let got := (file.drop offset).take n
  if n > 0 ∧ got.length = 0 then none
  else some (got ++ List.replicate (n - got.length) 0)

/-- The decrypt-then-parse fallback of the reader (lines 450-472). -/
def decryptArchive (env : Env) (communityID : Bytes) (data : Bytes) : ExtractOutcome :=
  match env.unmarshalProtocolMessage data with
  | none => .error .unmarshalProtocolMessage
  | some protocolMessage =>
    match env.decompressPubkey communityID with
    | none => .error .decompressPubkey
    | some pk =>
      match env.handleMessage pk protocolMessage with
      | none => .error .handleMessage
      | some decryptedBytes =>
        match env.unmarshalArchive decryptedBytes with
        | none => .error .unmarshalArchive
        | some archive => .messages archive.Messages

/-- The reader `ExtractMessagesFromHistoryArchive` (lines 413-475).  A missing
entry is the nil dereference of `metadata.Offset`; `Size < Padding` makes the
`uint64` length of `make` wrap around, which is the run-time error of a length
out of range; an offset of `2^63` or more is negative as `int64` and `Seek`
refuses it.  For `Padding ≤ Size` the allocation of line 438 is taken to
succeed: the length at which `make` gives up depends on the platform and is
not part of this definition. -/
def ExtractMessagesFromHistoryArchive (env : Env) (w : World) (communityID : Bytes)
    (archiveID : String) : ExtractOutcome :=
  match LoadHistoryArchiveIndexFromFile env w communityID with
  | .error e => .error e
  | .ok index =>
    match (if env.fails .openDataForRead then none else w.dataFile) with
    | none => .error .openDataForRead
    | some file =>
      match index.lookup archiveID with
      | none => .nilDereference
      | some metadata =>
        if metadata.Offset ≥ 9223372036854775808 then .error .seekData
        else if metadata.Size < metadata.Padding then .lenOutOfRange
        else
          match readAt file metadata.Offset (metadata.Size - metadata.Padding) with
          | none => .error .readData
          | some data =>
            match env.unmarshalArchive data with
            | some archive => .messages archive.Messages
            | none => decryptArchive env communityID data

/-! ## Predicates used in the statements -/

/-- A chunk boundary that the size bound forces: the first message of the next
chunk does not fit into the previous chunk. -/
def Forced (maxArchiveSizeInBytes : Int) (c d : List Message) : Prop :=
  ∃ m rest, d = m :: rest ∧ chunkSize c + msgSize m > maxArchiveSizeInBytes

/-- Invariant of the chunking loop behind the size bound. -/
def ChunkBounded (mx : Int) (st : ChunkState) : Prop :=
  st.currentChunkSize = chunkSize st.currentChunk ∧
  (∀ c ∈ st.messageChunks, chunkSize c ≤ mx) ∧
  chunkSize st.currentChunk ≤ mx

/-- Invariant of the chunking loop behind the greedy characterisation. -/
def ChunkGreedy (mx : Int) (done : List Message) (st : ChunkState) : Prop :=
  st.currentChunkSize = chunkSize st.currentChunk ∧
  (st.messageChunks ++ [st.currentChunk]).flatten
    = done.filter (fun m => decide (msgSize m ≤ mx)) ∧
  List.Chain' (Forced mx) (st.messageChunks ++ [st.currentChunk]) ∧
  (st.messageChunks ≠ [] → st.currentChunk ≠ [])

/-- Entries laid out back to back from an offset: each entry starts where the
previous one ends. -/
def ChainFrom : Nat → List WakuMessageArchiveIndexMetadata → Prop
  | _, [] => True
  | o, e :: es => e.Offset = o ∧ ChainFrom (o + e.Size) es

/-- The entries of an index, put in a suitable order, are laid out back to back
from offset 0. -/
def Contiguous (index : WakuMessageArchiveIndex) : Prop :=
  ∃ l : List WakuMessageArchiveIndexMetadata, l.Perm (index.map Prod.snd) ∧ ChainFrom 0 l

/-- Number of sub-windows of `[startDate, endDate)`: the quotient
`(endDate - startDate) / partition` rounded up. -/
def windowCount (startDate endDate : Time) (partition : Duration) : Nat :=
  ((endDate - startDate + partition - 1) / partition).toNat

/-- The archives a call created, in order. -/
def BuildResult.archives (r : BuildResult) : List WakuMessageArchive :=
  r.final.produced.map (·.archive)

/-- The index entries a call created, in order. -/
def BuildResult.entries (r : BuildResult) : List WakuMessageArchiveIndexMetadata :=
  r.final.produced.map (·.entry)

/-- The facts that tie one trace record to the values the chunk loop computed. -/
def Produced.WellFormed (env : Env) (communityID : Bytes) (encrypt : Bool) (p : Produced) : Prop :=
  p.entry = indexEntry env p.archive.Metadata p.entry.Offset p.encoded.bytes ∧
  p.encoded.padding = (sizeAndPadding (p.encoded.bytes.length : Int) env.pieceLength).2 ∧
  (∃ plain, env.marshalArchive p.archive = some plain ∧
    encryptBytes env communityID encrypt plain = .ok p.encoded.bytes) ∧
  (∃ entryBytes, env.marshalIndexMetadata p.entry = some entryBytes ∧
    p.archiveID = env.keccak256Hash entryBytes)

/-- Number of bytes one trace record adds to the data file. -/
def Produced.written (p : Produced) : Nat := p.encoded.bytes.length + p.encoded.padding.toNat

/-- The recorded entries start at the running offset of the loop. -/
def OffsetsFrom : Nat → List Produced → Prop
  | _, [] => True
  | o, p :: ps => p.entry.Offset = o ∧ OffsetsFrom (o + p.written) ps

/-- The loop variables agree with the trace: invariant of the window loop,
relative to the index and offset the loop starts from. -/
def TraceInv (env : Env) (communityID : Bytes) (encrypt : Bool)
    (idx0 : WakuMessageArchiveIndex) (off0 : Nat) (st : BuildState) : Prop :=
  st.archiveIDs = st.produced.map (·.archiveID) ∧
  st.encodedArchives = st.produced.map (·.encoded) ∧
  st.wakuMessageArchiveIndex
    = st.produced.foldl (fun m p => mapInsert m p.archiveID p.entry) idx0 ∧
  st.offset = off0 + (st.produced.map Produced.written).sum ∧
  OffsetsFrom off0 st.produced ∧
  ∀ p ∈ st.produced, p.WellFormed env communityID encrypt

/-- The end of the current sub-window is its start plus the partition, cut at
`endDate` (lines 59-62 and 224-227): invariant of the window loop. -/
def Clipped (endDate : Time) (partition : Duration) (st : BuildState) : Prop :=
  st.to_ = if Time.After (Time.Add st.from_ partition) endDate then endDate
           else Time.Add st.from_ partition

/-- The archives the body of the loop creates for a list of selected messages:
none for an empty selection, one per chunk otherwise. -/
def windowArchives (env : Env) (topics : List Bytes) (from_ to_ : Time)
    (selected : List Message) : List WakuMessageArchive :=
  (if selected.length = 0 then [] else chunkMessages env.maxArchiveSizeInBytes selected).map
    fun c => createWakuMessageArchive from_ to_ c (topicsAsByteArrays topics)

/-- An archived message lies in the window of its archive and in the range of the call. -/
def InWindow (startDate endDate : Time) (a : WakuMessageArchive) : Prop :=
  ∀ m ∈ a.Messages,
    a.Metadata.From ≤ m.Timestamp ∧ m.Timestamp < a.Metadata.To ∧
    Time.Unix startDate ≤ (m.Timestamp : Int) ∧ (m.Timestamp : Int) < Time.Unix endDate

/-- Invariant of the window loop behind the window containment of archived messages. -/
def WindowInv (startDate endDate : Time) (st : BuildState) : Prop :=
  (startDate ≤ st.from_ ∧ startDate ≤ st.to_ ∧ st.to_ ≤ endDate) ∧
  ∀ a ∈ st.produced.map (·.archive), InWindow startDate endDate a

/-- The messages of the archives whose `Metadata.From` is a given second, in order. -/
def messagesFrom (archives : List WakuMessageArchive) (second : Int) : List WakuMessage :=
  (archives.filter fun a => decide ((a.Metadata.From : Int) = second)).flatMap (·.Messages)

/-- The listed messages of sub-window `k` that are not too big: timestamp in
`[startDate, endDate)`, `len(payload) + len(sig) <= maxArchiveSizeInBytes` and
`floor((timestamp - startDate) / partition) = k`, all in seconds. -/
def eligible (env : Env) (msgs : List Message) (startDate endDate : Time) (partition : Duration)
    (k : Nat) : List Message :=
  msgs.filter fun m =>
    decide (Time.Unix startDate ≤ (m.Timestamp : Int)) &&
    decide ((m.Timestamp : Int) < Time.Unix endDate) &&
    decide (msgSize m ≤ env.maxArchiveSizeInBytes) &&
    decide (((m.Timestamp : Int) - Time.Unix startDate) / (partition / 1000000000) = (k : Int))

/-- Invariant of the window loop behind the assignment of messages to windows:
`j` sub-windows are done, and the archives of sub-window `k` hold the eligible
messages of that sub-window when `k < j` and nothing otherwise. -/
def AssignInv (env : Env) (msgs : List Message) (startDate endDate : Time)
    (partition : Duration) (st : BuildState) : Prop :=
  ∃ j : Nat,
    (st.from_ = startDate + j * partition ∨
      (st.from_ = endDate ∧ endDate ≤ startDate + j * partition)) ∧
    Clipped endDate partition st ∧
    ∀ k : Nat,
      messagesFrom (st.produced.map (·.archive))
          (Time.Unix startDate + k * (partition / 1000000000))
        = if k < j then (eligible env msgs startDate endDate partition k).map toWakuMessage
          else []

instance decidableChainFrom :
    (o : Nat) → (l : List WakuMessageArchiveIndexMetadata) → Decidable (ChainFrom o l)
  | _, [] => isTrue trivial
  | o, e :: es => @instDecidableAnd _ _ inferInstance (decidableChainFrom (o + e.Size) es)

/-- The bytes one trace record adds to the data file: the encoded archive
followed by its zero padding. -/
def Produced.blob (p : Produced) : Bytes :=
  p.encoded.bytes ++ List.replicate p.encoded.padding.toNat 0

/-- An archive holds the conversion of a sublist of the messages the call was
given (of some list of messages when the call reads from the database). -/
def FromInput (loadFromDB : Bool) (msgs : List Message) (topics : List Bytes)
    (a : WakuMessageArchive) : Prop :=
  ∃ (from_ to_ : Time) (ms : List Message),
    a = createWakuMessageArchive from_ to_ ms (topicsAsByteArrays topics) ∧
    (loadFromDB = false → ms.Sublist msgs)

/-- The `k`-th sub-window of `[startDate, endDate)`: it starts `k` partitions
after `startDate` and ends one partition later, or at `endDate` if that is
earlier. -/
def subWindow (startDate endDate : Time) (partition : Duration) (k : Nat) : Time × Time :=
  (startDate + k * partition,
   if endDate < startDate + k * partition + partition then endDate
   else startDate + k * partition + partition)

/-! ## A small environment for the examples

A length-prefixed codec over lists of numbers, an encryptor that wraps the
bytes unchanged, a hash that reads the entry bytes as characters, and a file
system that never fails. -/

/-- A byte string behind its length. -/
def demoEncBytes (b : Bytes) : Bytes := b.length :: b

/-- Inverse of `demoEncBytes`, with the rest of the input. -/
def demoDecBytes : Bytes → Option (Bytes × Bytes)
  | [] => none
  | n :: rest => if n ≤ rest.length then some (rest.take n, rest.drop n) else none

/-- One number, with the rest of the input. -/
def demoDecNat : Bytes → Option (Nat × Bytes)
  | [] => none
  | n :: rest => some (n, rest)

/-- A given number of items, with the rest of the input. -/
def demoDecList {α : Type} (dec : Bytes → Option (α × Bytes)) : Nat → Bytes → Option (List α × Bytes)
  | 0, l => some ([], l)
  | n + 1, l =>
    match dec l with
    | none => none
    | some (a, l1) =>
      match demoDecList dec n l1 with
      | none => none
      | some (as, l2) => some (a :: as, l2)

/-- Serialisation of a message: its seven fields in order. -/
def demoMarshalMessage (m : WakuMessage) : Bytes :=
  demoEncBytes m.Sig ++ [m.Timestamp] ++ demoEncBytes m.Topic ++ demoEncBytes m.Payload ++
    demoEncBytes m.Padding ++ demoEncBytes m.Hash ++ demoEncBytes m.ThirdPartyId

/-- Parser of a message, with the rest of the input. -/
def demoUnmarshalMessage (l : Bytes) : Option (WakuMessage × Bytes) :=
  (demoDecBytes l).bind fun (sig, l) =>
  (demoDecNat l).bind fun (timestamp, l) =>
  (demoDecBytes l).bind fun (topic, l) =>
  (demoDecBytes l).bind fun (payload, l) =>
  (demoDecBytes l).bind fun (padding, l) =>
  (demoDecBytes l).bind fun (hash, l) =>
  (demoDecBytes l).bind fun (thirdPartyId, l) =>
  some ({ Sig := sig, Timestamp := timestamp, Topic := topic, Payload := payload,
          Padding := padding, Hash := hash, ThirdPartyId := thirdPartyId }, l)

/-- Serialisation of the window and topics of an archive. -/
def demoMarshalMetadata (md : WakuMessageArchiveMetadata) : Bytes :=
  [md.From, md.To, md.ContentTopic.length] ++ md.ContentTopic.flatMap demoEncBytes

/-- Parser of the window and topics, with the rest of the input. -/
def demoUnmarshalMetadata (l : Bytes) : Option (WakuMessageArchiveMetadata × Bytes) :=
  (demoDecNat l).bind fun (from_, l) =>
  (demoDecNat l).bind fun (to_, l) =>
  (demoDecNat l).bind fun (n, l) =>
  (demoDecList demoDecBytes n l).bind fun (topics, l) =>
  some ({ From := from_, To := to_, ContentTopic := topics }, l)

/-- Serialisation of an archive: metadata, number of messages, messages. -/
def demoMarshalArchive (a : WakuMessageArchive) : Bytes :=
  demoMarshalMetadata a.Metadata ++ [a.Messages.length] ++ a.Messages.flatMap demoMarshalMessage

/-- Parser of an archive; the input has to be used up. -/
def demoUnmarshalArchive (l : Bytes) : Option WakuMessageArchive :=
  (demoUnmarshalMetadata l).bind fun (md, l) =>
  (demoDecNat l).bind fun (n, l) =>
  (demoDecList demoUnmarshalMessage n l).bind fun (messages, l) =>
  if l.length = 0 then some { Metadata := md, Messages := messages } else none

/-- Serialisation of an index entry. -/
def demoMarshalEntry (e : WakuMessageArchiveIndexMetadata) : Bytes :=
  demoMarshalMetadata e.Metadata ++ [e.Offset, e.Size, e.Padding]

/-- Parser of an index entry, with the rest of the input. -/
def demoUnmarshalEntry (l : Bytes) : Option (WakuMessageArchiveIndexMetadata × Bytes) :=
  (demoUnmarshalMetadata l).bind fun (md, l) =>
  (demoDecNat l).bind fun (offset, l) =>
  (demoDecNat l).bind fun (size, l) =>
  (demoDecNat l).bind fun (padding, l) =>
  some ({ Metadata := md, Offset := offset, Size := size, Padding := padding }, l)

/-- Serialisation of an index: number of entries, then each key and entry. -/
def demoMarshalIndex (index : WakuMessageArchiveIndex) : Bytes :=
  [index.length] ++
    index.flatMap fun p => demoEncBytes (p.1.toList.map Char.toNat) ++ demoMarshalEntry p.2

/-- Parser of an index; the input has to be used up. -/
def demoUnmarshalIndex (l : Bytes) : Option WakuMessageArchiveIndex :=
  (demoDecNat l).bind fun (n, l) =>
  (demoDecList
      (fun l => (demoDecBytes l).bind fun (key, l) =>
        (demoUnmarshalEntry l).bind fun (entry, l) =>
        some ((String.mk (key.map Char.ofNat), entry), l)) n l).bind fun (index, l) =>
  if l.length = 0 then some index else none

/-- The example environment with the two package constants as parameters. -/
def demoEnv (maxArchiveSizeInBytes pieceLength : Int) : Env :=
  { maxArchiveSizeInBytes := maxArchiveSizeInBytes
    pieceLength := pieceLength
    marshalArchive := fun a => some (demoMarshalArchive a)
    unmarshalArchive := demoUnmarshalArchive
    marshalIndexMetadata := fun e => some (demoMarshalEntry e)
    marshalIndex := fun index => some (demoMarshalIndex index)
    unmarshalIndex := demoUnmarshalIndex
    marshalProtocolMessage := fun m => some m.raw
    unmarshalProtocolMessage := fun b => some { raw := b }
    keccak256Hash := fun b => String.mk (b.map Char.ofNat)
    buildHashRatchetMessage := fun _ b => some { raw := b }
    decompressPubkey := fun b => some b
    handleMessage := fun _ m => some m.raw
    getWakuMessagesByFilterTopic := fun _ _ _ => some []
    buildTorrent := fun index data => some (index.getD [] ++ data.getD [])
    fails := fun _ => false }

/-- A community without files. -/
def demoWorld : World :=
  { archiveDirExists := false, torrentDirExists := false, indexFile := none, dataFile := none,
    torrentFile := none, lastMessageArchiveEndDate := none, published := [] }

/-- The message `buildMessage(timestamp, topic, hash)` of the tests. -/
def demoMessage (timestamp : Nat) (hash : Nat) : Message :=
  { Sig := [1], Timestamp := timestamp, Topic := [0, 0, 0, 1], Payload := [1], Padding := [1],
    Hash := [hash], ThirdPartyID := [] }

/-- Four messages in three windows of 7 seconds and one after the range. -/
def demoMessages : List Message :=
  [demoMessage 1 1, demoMessage 2 2, demoMessage 8 3, demoMessage 14 4, demoMessage 30 5]

/-- The example call: the range of 21 seconds from the epoch, cut in windows of
7 seconds, chunks of at most 4 bytes and pieces of 16 bytes. -/
def demoRun : Option BuildResult :=
  CreateHistoryArchiveTorrentFromMessages (demoEnv 4 16) 5 demoWorld [7] demoMessages
    [[0, 0, 0, 1]] 0 21000000000 7000000000 false

/-- The community after the example call. -/
def demoWorld1 : World := (demoRun.map (·.world)).getD demoWorld

/-- The index the example call wrote, as the builder reads it back. -/
def demoIndex1 : WakuMessageArchiveIndex :=
  match existingArchives (demoEnv 4 16) demoWorld1 [7] with
  | .ok index => index
  | .error _ => []

/-- A second call on the same community, for the next 21 seconds. -/
def demoRun2 : Option BuildResult :=
  CreateHistoryArchiveTorrentFromMessages (demoEnv 4 16) 5 demoWorld1 [7] demoMessages
    [[0, 0, 0, 1]] 21000000000 42000000000 7000000000 false

/-- What a call returns when it runs out of fuel in the examples: never reached. -/
def demoNoResult : BuildResult :=
  { world := demoWorld, archiveIDs := [], err := some .readIndex, final := initialState 0 0 0 }

/-- The result of the example call. -/
def demoResult : BuildResult := demoRun.getD demoNoResult

/-- The result of the second example call. -/
def demoResult2 : BuildResult := demoRun2.getD demoNoResult

/-- The example call made a second time, with the same arguments. -/
def demoRun3 : Option BuildResult :=
  CreateHistoryArchiveTorrentFromMessages (demoEnv 4 16) 5 demoWorld1 [7] demoMessages
    [[0, 0, 0, 1]] 0 21000000000 7000000000 false

/-- The result of the repeated example call. -/
def demoResult3 : BuildResult := demoRun3.getD demoNoResult

/-- Number of entries of the index file of a community, when it loads. -/
def indexCount (env : Env) (w : World) (communityID : Bytes) : Option Nat :=
  (LoadHistoryArchiveIndexFromFile env w communityID).toOption.map List.length

/-! ## Further notions used in the statements -/

/-- The environment with another persistence gateway. -/
def Env.withGateway (env : Env)
    (gateway : List Bytes → Nat → Nat → Option (List Message)) : Env :=
  { env with getWakuMessagesByFilterTopic := gateway }

/-- The environment with another decryptor: envelope parser, key decompression
and decryption. -/
def Env.withDecryptor (env : Env) (unmarshalProtocolMessage : Bytes → Option ProtocolMessage)
    (decompressPubkey : Bytes → Option Bytes)
    (handleMessage : Bytes → ProtocolMessage → Option Bytes) : Env :=
  { env with
    unmarshalProtocolMessage := unmarshalProtocolMessage
    decompressPubkey := decompressPubkey
    handleMessage := handleMessage }

/-- The environment in which the parsed index map is iterated in another order:
`reorder` rearranges the entries the parser returns. -/
def Env.withIndexOrder (env : Env)
    (reorder : WakuMessageArchiveIndex → WakuMessageArchiveIndex) : Env :=
  { env with unmarshalIndex := fun data => (env.unmarshalIndex data).map reorder }

/-- The loop variables without the index map. -/
def BuildState.forget (st : BuildState) : BuildState :=
  { st with wakuMessageArchiveIndex := [] }

/-- Two loop states that agree on every variable and hold the same index map,
possibly enumerated in another order. -/
def BuildState.SameMap (st st' : BuildState) : Prop :=
  st'.forget = st.forget ∧ st'.wakuMessageArchiveIndex.Perm st.wakuMessageArchiveIndex

/-- The index behind an encrypted envelope, in the words of the description of
the loader: parse the bytes as an envelope, decompress the community key,
decrypt, parse the plain bytes; an error if one of the four fails. -/
def decryptedIndex (env : Env) (communityID : Bytes) (indexData : Bytes) :
    Except BuildError WakuMessageArchiveIndex :=
  match env.unmarshalProtocolMessage indexData with
  | none => .error .unmarshalProtocolMessage
  | some envelope =>
    match env.decompressPubkey communityID with
    | none => .error .decompressPubkey
    | some pk =>
      match env.handleMessage pk envelope with
      | none => .error .handleMessage
      | some plain =>
        match env.unmarshalIndex plain with
        | none => .error .unmarshalIndex
        | some index => .ok index

/-- The errors of the window loop: loading messages, serialising an archive,
encrypting it, serialising its index entry. -/
def BuildError.inLoop (e : BuildError) : Prop :=
  e = .getWakuMessages ∨ e = .marshalArchive ∨ e = .buildHashRatchetMessage ∨
    e = .marshalProtocolMessage ∨ e = .marshalIndexMetadata

/-! ## The task scheduler -/

/-- Modelled from the spec: the registry of the per-community archive tasks
(`historyArchiveTasks`) is defined outside the sources at hand; the tests only
count its entries.  It maps a community ID to the handle of its running task. -/
abbrev TaskRegistry := List (Bytes × Nat)

/-- Modelled from the spec: `StartHistoryArchiveTasksInterval` is defined
outside the sources at hand.  "If already running for this community, no-op
(never double-register).  Otherwise registers a repeating timer." -/
def StartHistoryArchiveTasksInterval (registry : TaskRegistry) (community : Bytes)
    (task : Nat) : TaskRegistry :=
  if registry.any (fun p => p.1 == community) then registry
  else registry ++ [(community, task)]

/-- Modelled from the spec: `StopHistoryArchiveTasksInterval` is defined outside
the sources at hand.  It "cancels the timer, waits for any in-flight build to
finish, removes the task entry". -/
def StopHistoryArchiveTasksInterval (registry : TaskRegistry) (community : Bytes) :
    TaskRegistry :=
  registry.filter (fun p => !(p.1 == community))

/-- Modelled from the spec: `stopHistoryArchiveTasksIntervals` is defined
outside the sources at hand.  It "applies `StopInterval` to every registered
community". -/
def stopHistoryArchiveTasksIntervals (registry : TaskRegistry) : TaskRegistry :=
  (registry.map Prod.fst).foldl StopHistoryArchiveTasksInterval registry

/-- The number of registered tasks (`getHistoryTasksCount` of the tests). -/
def getHistoryTasksCount (registry : TaskRegistry) : Nat := registry.length

/-- A call on the scheduler. -/
inductive SchedulerCall where
  | start (community : Bytes) (task : Nat)
  | stop (community : Bytes)
  | stopAll
deriving DecidableEq, Repr

/-- The registry after one call. -/
def schedulerStep (registry : TaskRegistry) : SchedulerCall → TaskRegistry
  | .start community task => StartHistoryArchiveTasksInterval registry community task
  | .stop community => StopHistoryArchiveTasksInterval registry community
  | .stopAll => stopHistoryArchiveTasksIntervals registry

/-- The registry after a sequence of calls on a manager without tasks. -/
def runScheduler (calls : List SchedulerCall) : TaskRegistry :=
  calls.foldl schedulerStep []

/-- Whether a community has been started and not stopped since, after one more call. -/
def activeStep (community : Bytes) (active : Bool) : SchedulerCall → Bool
  | .start c _ => active || (c == community)
  | .stop c => active && !(c == community)
  | .stopAll => false

/-- Whether a community has been started and not stopped since. -/
def startedNotStopped (calls : List SchedulerCall) (community : Bytes) : Bool :=
  calls.foldl (activeStep community) false

/-- The communities a sequence of calls started, one entry per start. -/
def startedCommunities (calls : List SchedulerCall) : List Bytes :=
  calls.filterMap fun
    | .start c _ => some c
    | _ => none

/-! ## More examples -/

/-- A message of 6 bytes of payload and signature, above the bound of 4. -/
def demoOversized : Message :=
  { Sig := [1], Timestamp := 1, Topic := [0, 0, 0, 1], Payload := [1, 2, 3, 4, 5], Padding := [1],
    Hash := [9], ThirdPartyID := [] }

/-- A call whose only window selects one message, which is too big. -/
def demoRunOversized : Option BuildResult :=
  CreateHistoryArchiveTorrentFromMessages (demoEnv 4 16) 5 demoWorld [7] [demoOversized]
    [[0, 0, 0, 1]] 0 7000000000 7000000000 false

/-- The result of the call with the oversized message. -/
def demoResultOversized : BuildResult := demoRunOversized.getD demoNoResult

/-- A gateway that stores one message, at second 1. -/
def demoGateway (_topics : List Bytes) (from_ to_ : Nat) : Option (List Message) :=
  some (if from_ ≤ 1 ∧ 1 < to_ then [demoMessage 1 1] else [])

/-- The call of `CreateHistoryArchiveTorrentFromMessages` with an empty list. -/
def demoRunEmptyList (gateway : List Bytes → Nat → Nat → Option (List Message)) :
    Option BuildResult :=
  CreateHistoryArchiveTorrentFromMessages ((demoEnv 4 16).withGateway gateway) 5 demoWorld [7] []
    [[0, 0, 0, 1]] 0 7000000000 7000000000 false

/-- A call over three windows of which only the first has a message. -/
def demoRunTrailing : Option BuildResult :=
  CreateHistoryArchiveTorrentFromMessages (demoEnv 4 16) 5 demoWorld [7] [demoMessage 1 1]
    [[0, 0, 0, 1]] 0 21000000000 7000000000 false

/-- The result of the call with trailing empty windows. -/
def demoResultTrailing : BuildResult := demoRunTrailing.getD demoNoResult

/-- A call for the first 7 seconds on the community after the example call,
whose cursor is 21. -/
def demoRunEarlier : Option BuildResult :=
  CreateHistoryArchiveTorrentFromMessages (demoEnv 4 16) 5 demoWorld1 [7] demoMessages
    [[0, 0, 0, 1]] 0 7000000000 7000000000 false

/-- The result of the call for the first 7 seconds. -/
def demoResultEarlier : BuildResult := demoRunEarlier.getD demoNoResult

/-- The example environment, except that an index entry serialises at offset 0 only. -/
def demoEnvEntryFails : Env :=
  { demoEnv 4 16 with
    marshalIndexMetadata := fun e => if e.Offset = 0 then some (demoMarshalEntry e) else none }

/-- The example call in the environment in which the second entry fails to serialise. -/
def demoRunEntryFails : Option BuildResult :=
  CreateHistoryArchiveTorrentFromMessages demoEnvEntryFails 5 demoWorld [7] demoMessages
    [[0, 0, 0, 1]] 0 21000000000 7000000000 false

/-- The example environment, except that writing to the data file fails. -/
def demoEnvWriteFails : Env :=
  { demoEnv 4 16 with fails := fun step => decide (step = Step.writeData) }

/-- The example call in the environment in which the data file cannot be written. -/
def demoRunWriteFails : Option BuildResult :=
  CreateHistoryArchiveTorrentFromMessages demoEnvWriteFails 5 demoWorld [7] demoMessages
    [[0, 0, 0, 1]] 0 21000000000 7000000000 false

/-- The result of the call in which the data file cannot be written. -/
def demoResultWriteFails : BuildResult := demoRunWriteFails.getD demoNoResult

/-- The second example call when the existing index map is iterated in the
reverse order. -/
def demoRunReversed : Option BuildResult :=
  CreateHistoryArchiveTorrentFromMessages ((demoEnv 4 16).withIndexOrder List.reverse) 5
    demoWorld1 [7] demoMessages [[0, 0, 0, 1]] 21000000000 42000000000 7000000000 false

/-- The result of the second example call with the reversed order. -/
def demoResultReversed : BuildResult := demoRunReversed.getD demoNoResult

/-- The example messages with other hashes: another content of the same lengths. -/
def demoMessagesAlt : List Message :=
  [demoMessage 1 6, demoMessage 2 7, demoMessage 8 8, demoMessage 14 9, demoMessage 30 5]

/-- The example call with the other messages. -/
def demoRunAlt : Option BuildResult :=
  CreateHistoryArchiveTorrentFromMessages (demoEnv 4 16) 5 demoWorld [7] demoMessagesAlt
    [[0, 0, 0, 1]] 0 21000000000 7000000000 false

/-- The result of the example call with the other messages. -/
def demoResultAlt : BuildResult := demoRunAlt.getD demoNoResult

/-- A call for an empty range, on the community after the example call. -/
def demoRunEmptyRange : Option BuildResult :=
  CreateHistoryArchiveTorrentFromMessages (demoEnv 4 16) 5 demoWorld1 [7] demoMessages
    [[0, 0, 0, 1]] 30000000000 21000000000 7000000000 false

/-- The result of the call for an empty range. -/
def demoResultEmptyRange : BuildResult := demoRunEmptyRange.getD demoNoResult

/-- Metadata and serialised length of the three archives of the example call. -/
def demoShapes : List (WakuMessageArchiveMetadata × Option Nat) :=
  [({ From := 0, To := 7, ContentTopic := [[0, 0, 0, 1]] }, some 39),
   ({ From := 7, To := 14, ContentTopic := [[0, 0, 0, 1]] }, some 24),
   ({ From := 14, To := 21, ContentTopic := [[0, 0, 0, 1]] }, some 24)]

/-- The ID of the first archive of the example call. -/
def demoArchiveID : String := demoResult.archiveIDs.headD ""

/-- The index entry of the first archive of the example call. -/
def demoEntry : WakuMessageArchiveIndexMetadata :=
  (demoIndex1.lookup demoArchiveID).getD
    { Metadata := { From := 0, To := 0, ContentTopic := [] }, Offset := 0, Size := 0, Padding := 0 }

/-- The bytes of the first archive of the example call, as the reader gets them. -/
def demoArchiveData : Bytes :=
  (readAt (demoWorld1.dataFile.getD []) demoEntry.Offset
    (demoEntry.Size - demoEntry.Padding)).getD []

/-! ## The sub-windows of a call -/

/-- The sub-windows the window loop iterates: the values of `from` and `to` at
each pass of the body of `windowLoop`, the pass that ends with an error
included.  Read by no definition of the builder. -/
def iteratedWindows (env : Env) (communityID : Bytes) (encrypt : Bool) (loadFromDB : Bool)
    (msgs : List Message) (topics : List Bytes) (endDate : Time) (partition : Duration) :
    Nat → BuildState → List (Time × Time)
  | 0, _ => []
  | fuel + 1, st =>
    if Time.Equal st.from_ endDate || Time.After st.from_ endDate then []
    else
      (st.from_, st.to_) ::
        match processWindow env communityID encrypt loadFromDB msgs topics endDate partition st with
        | (_, some _) => []
        | (st1, none) =>
          iteratedWindows env communityID encrypt loadFromDB msgs topics endDate partition fuel st1

/-- The sub-windows a call of the builder iterates. -/
def callWindows (env : Env) (fuel : Nat) (w : World) (communityID : Bytes)
    (msgs : List Message) (topics : List Bytes) (startDate endDate : Time)
    (partition : Duration) (encrypt : Bool) : List (Time × Time) :=
  match setup env w communityID startDate endDate partition with
  | .error _ => []
  | .ok (_, st1) =>
    iteratedWindows env communityID encrypt (decide (msgs.length = 0)) msgs topics endDate
      partition fuel st1

/-- The messages the loop selects for a sub-window, none when the selection fails. -/
def windowSelection (env : Env) (loadFromDB : Bool) (msgs : List Message) (topics : List Bytes)
    (window : Time × Time) : List Message :=
  match selectMessages env loadFromDB msgs topics window.1 window.2 with
  | .ok selected => selected
  | .error _ => []

/-- The sub-windows of `[startDate, endDate)` in steps of `partition`, in order. -/
def tiling (startDate endDate : Time) (partition : Duration) : List (Time × Time) :=
  (List.range (windowCount startDate endDate partition)).map
    (subWindow startDate endDate partition)

/-- The archive ID of an index entry with the given fields: the hash of its
serialisation. -/
def archiveIDOf (env : Env) (from_ to_ : Nat) (contentTopic : List Bytes)
    (offset size padding : Nat) : Option String :=
  (env.marshalIndexMetadata
    { Metadata := { From := from_, To := to_, ContentTopic := contentTopic }
      Offset := offset, Size := size, Padding := padding }).map env.keccak256Hash

/-- What the archive ID of an archive is computed from, besides the offset: its
metadata and the length of its serialisation. -/
def archiveShape (env : Env) (a : WakuMessageArchive) :
    WakuMessageArchiveMetadata × Option Nat :=
  (a.Metadata, (env.marshalArchive a).map List.length)

/-! ## App states (`api/app_state.go`) -/

/-- State of the app: in the foreground, in the background or some other
state (`type AppState string`). -/
abbrev AppState := String

/-- The string of a state (`AppState.String`). -/
def AppState.String (a : AppState) : String := a

/-- The app is in the foreground. -/
def AppStateForeground : AppState := "active"

/-- The app is in the background. -/
def AppStateBackground : AppState := "background"

/-- The app is inactive. -/
def AppStateInactive : AppState := "inactive"

/-- No state. -/
def AppStateInvalid : AppState := ""

/-- The valid states, in the order of `validAppStates`. -/
def validAppStates : List AppState :=
  [AppStateInactive, AppStateBackground, AppStateForeground]

/-- Whether a state is one of the valid ones (`AppState.IsValid`). -/
def AppState.IsValid (a : AppState) : Bool :=
  validAppStates.any fun state => a == state

/-- The state a string names (`ParseAppState`): the state and the error, if
any.  `strings.ToLower` and `strings.TrimSpace` of the standard library are
parameters. -/
def ParseAppState (ToLower TrimSpace : String → String) (stateString : String) :
    AppState × Option String :=
  let stateString := ToLower (TrimSpace stateString)
  match validAppStates.find? (fun state => stateString == AppState.String state) with
  | some state => (state, none)
  | none => (AppStateInvalid, some ("could not parse app state: " ++ stateString))

/-- Lower case of the ASCII letters, for the examples. -/
def asciiToLower (s : String) : String := String.mk (s.data.map Char.toLower)

/-- Removal of leading and trailing ASCII white space, for the examples. -/
def asciiTrimSpace (s : String) : String :=
  String.mk ((s.data.dropWhile Char.isWhitespace).reverse.dropWhile Char.isWhitespace).reverse

/-! ## Topics of the mailserver database (`services/mailservers/database.go`) -/

/-- A row of the table `mailserver_topics` (`MailserverTopic`). -/
structure MailserverTopic where
  PubsubTopic : String
  ContentTopic : String
  ChatIDs : List String
  LastRequest : Int
  Discovery : Bool
  Negotiated : Bool
deriving DecidableEq, Repr

/-- The fields of `transport.Filter` that `SetTopics` reads; `ContentTopic` is
the value of `filter.ContentTopic.String()`. -/
structure Filter where
  PubsubTopic : String
  ContentTopic : String
  Discovery : Bool
  Negotiated : Bool
deriving DecidableEq, Repr

/-- The calls of `SetTopics` on the database, each of which can fail. -/
inductive SqlStep where
  | beginTx
  | deleteTopics (pubsubTopic : String)
  | selectTopic (contentTopic pubsubTopic : String)
  | insertTopic (contentTopic pubsubTopic : String)
  | commitTx
deriving DecidableEq, Repr

/-- The call at which `SetTopics` gave up. -/
inductive SetTopicsError where
  | beginTx
  | deleteTopics
  | selectTopic
  | insertTopic
  | commitTx
deriving DecidableEq, Repr

/-- The map `contentTopicsPerPubsubTopic` after the first loop of `SetTopics`:
for each pubsub topic of the filters the set of their content topics. -/
def contentTopicsPerPubsubTopic (filters : List Filter) : List (String × List String) :=
  filters.foldl (fun m filter =>
    let contentTopics := (m.lookup filter.PubsubTopic).getD []
    mapInsert m filter.PubsubTopic
      (if filter.ContentTopic ∈ contentTopics then contentTopics
       else contentTopics ++ [filter.ContentTopic])) []

/-- The rows left by `DELETE FROM mailserver_topics WHERE pubsub_topic = ? AND
topic NOT IN (...)`. -/
def deleteOtherTopics (rows : List MailserverTopic) (pubsubTopic : String)
    (contentTopics : List String) : List MailserverTopic :=
  rows.filter fun row =>
    !(row.PubsubTopic == pubsubTopic && !(contentTopics.contains row.ContentTopic))

/-- The loop over `contentTopicsPerPubsubTopic`: one `DELETE` per pubsub topic;
the error of a `DELETE` is assigned to `err` and not tested. -/
def deleteLoop (fails : SqlStep → Bool) :
    List (String × List String) → List MailserverTopic → Option SetTopicsError →
      List MailserverTopic × Option SetTopicsError
  | [], rows, err => (rows, err)
  | (pubsubTopic, contentTopics) :: rest, rows, _ =>
    if fails (.deleteTopics pubsubTopic) then deleteLoop fails rest rows (some .deleteTopics)
    else deleteLoop fails rest (deleteOtherTopics rows pubsubTopic contentTopics) none

/-- The loop "insert if not existing": a `SELECT` per filter and an `INSERT`
when it finds no row. -/
def insertMissing (fails : SqlStep → Bool) (lastRequest : Int) :
    List Filter → List MailserverTopic → Option SetTopicsError →
      List MailserverTopic × Option SetTopicsError
  | [], rows, err => (rows, err)
  | filter :: rest, rows, _ =>
    if fails (.selectTopic filter.ContentTopic filter.PubsubTopic) then (rows, some .selectTopic)
    else if rows.any (fun row =>
        row.ContentTopic == filter.ContentTopic && row.PubsubTopic == filter.PubsubTopic) then
      insertMissing fails lastRequest rest rows none
    else if fails (.insertTopic filter.ContentTopic filter.PubsubTopic) then
      (rows, some .insertTopic)
    else
      insertMissing fails lastRequest rest
        (rows ++ [{ PubsubTopic := filter.PubsubTopic
                    ContentTopic := filter.ContentTopic
                    ChatIDs := []
                    LastRequest := lastRequest
                    Discovery := filter.Discovery
                    Negotiated := filter.Negotiated }]) none

/-- The table after `Database.SetTopics` and the error returned (lines
397-460).  The statements run in a transaction: it is committed when the body
ends with `err == nil` and rolled back otherwise.  `now` is `time.Now()`. -/
def SetTopics (fails : SqlStep → Bool) (now : Time) (db : List MailserverTopic)
    (filters : List Filter) : List MailserverTopic × Option SetTopicsError :=
  if fails .beginTx then (db, some .beginTx)
  else
    let body : List MailserverTopic × Option SetTopicsError :=
      if filters.length = 0 then (db, none)
      else
        let deleted := deleteLoop fails (contentTopicsPerPubsubTopic filters) db none
        let lastRequest := Time.Unix (Time.Add now (-24 * 3600000000000))
        insertMissing fails lastRequest filters deleted.1 deleted.2
    match body.2 with
    | none => if fails .commitTx then (db, some .commitTx) else (body.1, none)
    | some err => (db, some err)

/-- A database on which no call fails. -/
def sqlNeverFails (_ : SqlStep) : Bool := false

/-- The pairs of pubsub topic and content topic the rows of a table hold. -/
def storedPairs (rows : List MailserverTopic) : List (String × String) :=
  rows.map fun row => (row.PubsubTopic, row.ContentTopic)

/-- The pairs of pubsub topic and content topic the filters name. -/
def namedPairs (filters : List Filter) : List (String × String) :=
  filters.map fun filter => (filter.PubsubTopic, filter.ContentTopic)

/-- A stored topic, for the examples. -/
def demoTopic (pubsubTopic contentTopic : String) (lastRequest : Int) : MailserverTopic :=
  { PubsubTopic := pubsubTopic, ContentTopic := contentTopic, ChatIDs := [],
    LastRequest := lastRequest, Discovery := false, Negotiated := false }

/-- A filter, for the examples. -/
def demoFilter (pubsubTopic contentTopic : String) : Filter :=
  { PubsubTopic := pubsubTopic, ContentTopic := contentTopic, Discovery := false,
    Negotiated := false }

/-- What the map of content topics per pubsub topic holds for a list of
filters: its keys are the pubsub topics of the filters, each with the content
topics the filters give it. -/
def TopicsMapOf (m : List (String × List String)) (filters : List Filter) : Prop :=
  (∀ p cts, (p, cts) ∈ m →
    (∃ f ∈ filters, f.PubsubTopic = p) ∧
    ∀ t, t ∈ cts ↔ ∃ f ∈ filters, f.PubsubTopic = p ∧ f.ContentTopic = t) ∧
  ∀ f ∈ filters, ∃ cts, (f.PubsubTopic, cts) ∈ m

/-! ## Reading multi-transactions (`services/wallet/transfer/multi_transaction_db.go`) -/

/-- An address (`common.Address`, 20 bytes) read as a number; `common.Address{}`
is 0. -/
abbrev Address := Nat

/-- The filters of a query (`MultiTxDetails`); `Type_` is the field `Type`. -/
structure MultiTxDetails where
  IDs : List Int
  AnyAddress : Address
  FromAddress : Address
  ToAddress : Address
  ToChainID : Nat
  CrossTxID : String
  Type_ : Nat
deriving DecidableEq, Repr

/-- The invalid type of the database (`MultiTransactionDBTypeInvalid`). -/
def MultiTransactionDBTypeInvalid : Nat := 0

/-- The details with no filter set (`NewMultiTxDetails`). -/
def NewMultiTxDetails : MultiTxDetails :=
  { IDs := [], AnyAddress := 0, FromAddress := 0, ToAddress := 0, ToChainID := 0,
    CrossTxID := "", Type_ := 0 }

/-- The type of a transaction for a type of the database (`mtDBTypeToMTType`);
the constant `MultiTransactionTypeInvalid` is a parameter. -/
def mtDBTypeToMTType (MultiTransactionTypeInvalid : Nat) (mtDBType : Nat) : Nat :=
  if mtDBType = MultiTransactionDBTypeInvalid then MultiTransactionTypeInvalid
  else mtDBType - 1

/-- An argument bound to a placeholder of the query. -/
inductive SqlArg where
  | id (value : Int)
  | address (value : Address)
  | chainID (value : Nat)
  | text (value : String)
  | txType (value : Nat)
deriving DecidableEq, Repr

/-- The elements of a list joined by a separator (`strings.Join`). -/
def stringsJoin : List String → String → String
  | [], _ => ""
  | [a], _ => a
  | a :: b :: rest, sep => a ++ sep ++ stringsJoin (b :: rest) sep

/-- How `ReadMultiTransactions` goes on after its arguments are checked and
the clause is built: the error returned, the run-time error of the slice
expression with its upper bound, or the statement prepared with the trimmed
clause and the arguments bound. -/
inductive ReadOutcome where
  | error (message : String)
  | sliceOutOfRange (bound : Int)
  | prepared (whereClause : String) (args : List SqlArg)
deriving DecidableEq, Repr

/-- The query `ReadMultiTransactions` builds (lines 87-130); `none` is the nil
pointer. -/
def ReadMultiTransactions (MultiTransactionTypeInvalid : Nat) (details : Option MultiTxDetails) :
    ReadOutcome :=
  match details with
  | none => .error "details is nil"
  | some details =>
    let q0 : String × List SqlArg := ("", [])
    let q1 :=
      if details.IDs.length > 0 then
        (q0.1 ++ ("id in (" ++ stringsJoin (details.IDs.map fun _ => "?") "," ++ ") AND "),
         q0.2 ++ details.IDs.map SqlArg.id)
      else q0
    let q2 :=
      if details.AnyAddress ≠ 0 then
        (q1.1 ++ "(from_address=? OR to_address=?) AND ",
         q1.2 ++ [SqlArg.address details.AnyAddress, SqlArg.address details.AnyAddress])
      else q1
    let q3 :=
      if details.FromAddress ≠ 0 then
        (q2.1 ++ "from_address=? AND ", q2.2 ++ [SqlArg.address details.FromAddress])
      else q2
    let q4 :=
      if details.ToAddress ≠ 0 then
        (q3.1 ++ "to_address=? AND ", q3.2 ++ [SqlArg.address details.ToAddress])
      else q3
    let q5 :=
      if details.ToChainID ≠ 0 then
        (q4.1 ++ "to_network_id=? AND ", q4.2 ++ [SqlArg.chainID details.ToChainID])
      else q4
    let q6 :=
      if details.CrossTxID ≠ "" then
        (q5.1 ++ "cross_tx_id=? AND ", q5.2 ++ [SqlArg.text details.CrossTxID])
      else q5
    let q7 :=
      if details.Type_ ≠ MultiTransactionDBTypeInvalid then
        (q6.1 ++ "type=? AND ",
         q6.2 ++ [SqlArg.txType (mtDBTypeToMTType MultiTransactionTypeInvalid details.Type_)])
      else q6
    if (q7.1.length : Int) - 5 < 0 then .sliceOutOfRange ((q7.1.length : Int) - 5)
    else .prepared (String.mk (q7.1.data.take (q7.1.length - 5))) q7.2

/-- The filters that are set, in the order of the code, each with its condition
and the arguments it binds. -/
def activeFilters (MultiTransactionTypeInvalid : Nat) (d : MultiTxDetails) :
    List (String × List SqlArg) :=
  (if d.IDs.length > 0 then
      [("id in (" ++ stringsJoin (d.IDs.map fun _ => "?") "," ++ ")", d.IDs.map SqlArg.id)]
    else []) ++
  (if d.AnyAddress ≠ 0 then
      [("(from_address=? OR to_address=?)",
        [SqlArg.address d.AnyAddress, SqlArg.address d.AnyAddress])]
    else []) ++
  (if d.FromAddress ≠ 0 then [("from_address=?", [SqlArg.address d.FromAddress])] else []) ++
  (if d.ToAddress ≠ 0 then [("to_address=?", [SqlArg.address d.ToAddress])] else []) ++
  (if d.ToChainID ≠ 0 then [("to_network_id=?", [SqlArg.chainID d.ToChainID])] else []) ++
  (if d.CrossTxID ≠ "" then [("cross_tx_id=?", [SqlArg.text d.CrossTxID])] else []) ++
  (if d.Type_ ≠ MultiTransactionDBTypeInvalid then
      [("type=?", [SqlArg.txType (mtDBTypeToMTType MultiTransactionTypeInvalid d.Type_)])]
    else [])

/-- At least one filter is set. -/
def anyFilterSet (d : MultiTxDetails) : Prop :=
  d.IDs ≠ [] ∨ d.AnyAddress ≠ 0 ∨ d.FromAddress ≠ 0 ∨ d.ToAddress ≠ 0 ∨ d.ToChainID ≠ 0 ∨
    d.CrossTxID ≠ "" ∨ d.Type_ ≠ MultiTransactionDBTypeInvalid

/-- Number of placeholders `?` of a text. -/
def placeholders (s : String) : Nat := s.data.count '?'

/-- The conditions of a list each followed by a separator. -/
def withSeparators (conditions : List String) (sep : String) : String :=
  conditions.foldr (fun c acc => c ++ sep ++ acc) ""

/-- The clause and the arguments after one more `if` of the code. -/
def addFilters (q : String × List SqlArg) (filters : List (String × List SqlArg)) :
    String × List SqlArg :=
  (q.1 ++ withSeparators (filters.map Prod.fst) " AND ", q.2 ++ (filters.map Prod.snd).flatten)

/-- Details with two filters, for the examples. -/
def demoDetails : MultiTxDetails :=
  { IDs := [4, 5, 6], AnyAddress := 0, FromAddress := 0, ToAddress := 9, ToChainID := 0,
    CrossTxID := "", Type_ := 0 }

/-! ## Size and padding -/

theorem sizeAndPadding_fst (r p : Int) :
    (sizeAndPadding r p).1 = if p < r then r + p - r % p else p := by
  unfold sizeAndPadding
  split <;> simp_all

theorem sizeAndPadding_snd (r p : Int) :
    (sizeAndPadding r p).2 = (sizeAndPadding r p).1 - r := by
  unfold sizeAndPadding
  split <;> simp

theorem sizeAndPadding_dvd (r p : Int) : p ∣ (sizeAndPadding r p).1 := by
  rw [sizeAndPadding_fst r p]
  split
  · refine ⟨r / p + 1, ?_⟩
    have h := Int.emod_add_ediv r p
    linarith
  · exact dvd_refl p

theorem sizeAndPadding_bounds (r p : Int) (hr : 0 ≤ r) (hp : 0 < p) :
    0 < (sizeAndPadding r p).1 ∧ r ≤ (sizeAndPadding r p).1 ∧
      (sizeAndPadding r p).1 - r ≤ p ∧ ((sizeAndPadding r p).1 - r = 0 ↔ r = p) := by
  rw [sizeAndPadding_fst r p]
  have h1 := Int.emod_nonneg r (ne_of_gt hp)
  have h2 := Int.emod_lt_of_pos r hp
  split <;> refine ⟨?_, ?_, ?_, ?_⟩ <;> omega


/-- Size and padding of the entry built for an encoded archive. -/
theorem indexEntry_spec (env : Env) (metadata : WakuMessageArchiveMetadata)
    (offset : Nat) (encodedArchive : Bytes) (hp : 0 < env.pieceLength) :
    ((encodedArchive.length : Int) > env.pieceLength →
      ((indexEntry env metadata offset encodedArchive).Size : Int)
        = encodedArchive.length + env.pieceLength - encodedArchive.length % env.pieceLength ∧
      ((indexEntry env metadata offset encodedArchive).Padding : Int)
        = (indexEntry env metadata offset encodedArchive).Size - encodedArchive.length) ∧
    ((encodedArchive.length : Int) ≤ env.pieceLength →
      ((indexEntry env metadata offset encodedArchive).Padding : Int)
        = env.pieceLength - encodedArchive.length ∧
      ((indexEntry env metadata offset encodedArchive).Size : Int) = env.pieceLength) ∧
    env.pieceLength ∣ ((indexEntry env metadata offset encodedArchive).Size : Int) ∧
    0 < (indexEntry env metadata offset encodedArchive).Size ∧
    (indexEntry env metadata offset encodedArchive).Size
      = encodedArchive.length + (indexEntry env metadata offset encodedArchive).Padding ∧
    ((indexEntry env metadata offset encodedArchive).Padding : Int) ≤ env.pieceLength ∧
    (indexEntry env metadata offset encodedArchive).Size
      - (indexEntry env metadata offset encodedArchive).Padding = encodedArchive.length ∧
    ((indexEntry env metadata offset encodedArchive).Padding = 0 ↔
      (encodedArchive.length : Int) = env.pieceLength) := by
  have hr : (0 : Int) ≤ encodedArchive.length := Int.ofNat_nonneg _
  obtain ⟨b1, b2, b3, b4⟩ := sizeAndPadding_bounds _ _ hr hp
  have hsnd := sizeAndPadding_snd (encodedArchive.length : Int) env.pieceLength
  have hfst := sizeAndPadding_fst (encodedArchive.length : Int) env.pieceLength
  have hdvd := sizeAndPadding_dvd (encodedArchive.length : Int) env.pieceLength
  have hS : ((indexEntry env metadata offset encodedArchive).Size : Int)
      = (sizeAndPadding (encodedArchive.length : Int) env.pieceLength).1 := by
    simp only [indexEntry]; exact Int.toNat_of_nonneg (le_of_lt b1)
  have hP : ((indexEntry env metadata offset encodedArchive).Padding : Int)
      = (sizeAndPadding (encodedArchive.length : Int) env.pieceLength).2 := by
    simp only [indexEntry]; exact Int.toNat_of_nonneg (by rw [hsnd]; omega)
  generalize (indexEntry env metadata offset encodedArchive).Size = S at *
  generalize (indexEntry env metadata offset encodedArchive).Padding = P at *
  refine ⟨?_, ?_, ?_, ?_, ?_, ?_, ?_, ?_⟩
  · intro h; rw [if_pos h] at hfst; constructor <;> omega
  · intro h; rw [if_neg (by omega)] at hfst; constructor <;> omega
  · rw [hS]; exact hdvd
  · omega
  · omega
  · omega
  · omega
  · omega

/-! ## Chunking -/

theorem chunkSize_nil : chunkSize [] = 0 := rfl

theorem chunkSize_append (c : List Message) (m : Message) :
    chunkSize (c ++ [m]) = chunkSize c + msgSize m := by
  simp [chunkSize]

theorem chunkStep_bounded (mx : Int) (st : ChunkState) (m : Message)
    (h : ChunkBounded mx st) : ChunkBounded mx (chunkStep mx st m) := by
  obtain ⟨h1, h2, h3⟩ := h
  unfold chunkStep
  by_cases hm : msgSize m > mx
  · simp only [hm, if_true]; exact ⟨h1, h2, h3⟩
  · simp only [hm, if_false]
    by_cases ho : st.currentChunkSize + msgSize m > mx
    · simp only [ho, if_true]
      refine ⟨?_, ?_, ?_⟩
      · simp [chunkSize]
      · intro c hc
        rcases List.mem_append.1 hc with hc | hc
        · exact h2 c hc
        · simp at hc; subst hc; exact h3
      · show chunkSize ([] ++ [m]) ≤ mx
        rw [chunkSize_append, chunkSize_nil]; omega
    · simp only [ho, if_false]
      refine ⟨?_, h2, ?_⟩
      · show st.currentChunkSize + msgSize m = chunkSize (st.currentChunk ++ [m])
        rw [chunkSize_append, h1]
      · show chunkSize (st.currentChunk ++ [m]) ≤ mx
        rw [chunkSize_append, ← h1]; omega

theorem foldl_chunkStep_bounded (mx : Int) (ms : List Message) :
    ∀ st, ChunkBounded mx st → ChunkBounded mx (ms.foldl (chunkStep mx) st) := by
  induction ms with
  | nil => intro st h; exact h
  | cons m ms ih => intro st h; exact ih _ (chunkStep_bounded mx st m h)

theorem chunkStep_greedy (mx : Int) (done : List Message) (st : ChunkState) (m : Message)
    (h : ChunkGreedy mx done st) : ChunkGreedy mx (done ++ [m]) (chunkStep mx st m) := by
  obtain ⟨h1, h2, h3, h4⟩ := h
  unfold chunkStep
  by_cases hm : msgSize m > mx
  · simp only [hm, if_true]
    refine ⟨h1, ?_, h3, h4⟩
    rw [List.filter_append, h2]
    have : ¬ msgSize m ≤ mx := by omega
    simp [this]
  · simp only [hm, if_false]
    have hle : msgSize m ≤ mx := by omega
    by_cases ho : st.currentChunkSize + msgSize m > mx
    · simp only [ho, if_true]
      refine ⟨by simp [chunkSize], ?_, ?_, by simp⟩
      · rw [List.filter_append, ← h2]
        simp [hle]
      · refine List.Chain'.append h3 (by simp) ?_
        intro x hx y hy
        simp at hx hy
        subst hx; subst hy
        exact ⟨m, [], rfl, by rw [← h1]; exact ho⟩
    · simp only [ho, if_false]
      refine ⟨by rw [chunkSize_append, h1], ?_, ?_, by simp⟩
      · rw [List.filter_append, ← h2]
        simp [hle]
      · rw [List.chain'_append] at h3 ⊢
        obtain ⟨c1, _, c3⟩ := h3
        refine ⟨c1, by simp, ?_⟩
        intro x hx y hy
        simp at hy
        subst hy
        have hne : st.messageChunks ≠ [] := by
          intro he; rw [he] at hx; simp at hx
        obtain ⟨m0, rest, hd, hsz⟩ := c3 x hx st.currentChunk (by simp)
        exact ⟨m0, rest ++ [m], by rw [hd]; rfl, hsz⟩

theorem foldl_chunkStep_greedy (mx : Int) (ms : List Message) :
    ∀ done st, ChunkGreedy mx done st →
      ChunkGreedy mx (done ++ ms) (ms.foldl (chunkStep mx) st) := by
  induction ms with
  | nil => intro done st h; simpa using h
  | cons m ms ih =>
    intro done st h
    have := ih (done ++ [m]) _ (chunkStep_greedy mx done st m h)
    simpa using this

theorem chunkMessages_bound (mx : Int) (hmx : 0 ≤ mx) (messages : List Message) :
    ∀ c ∈ chunkMessages mx messages, chunkSize c ≤ mx := by
  have h := foldl_chunkStep_bounded mx messages
    { messageChunks := [], currentChunkSize := 0, currentChunk := [] }
    ⟨rfl, by simp, by simpa [chunkSize] using hmx⟩
  obtain ⟨_, h2, h3⟩ := h
  intro c hc
  unfold chunkMessages at hc
  rcases List.mem_append.1 hc with hc | hc
  · exact h2 c hc
  · simp at hc; subst hc; exact h3

theorem chunkMessages_flatten (mx : Int) (messages : List Message) :
    (chunkMessages mx messages).flatten = messages.filter (fun m => decide (msgSize m ≤ mx)) := by
  have h := foldl_chunkStep_greedy mx messages []
    { messageChunks := [], currentChunkSize := 0, currentChunk := [] }
    ⟨rfl, by simp, by simp, by simp⟩
  unfold chunkMessages
  exact h.2.1

theorem chunkMessages_forced (mx : Int) (messages : List Message) :
    List.Chain' (Forced mx) (chunkMessages mx messages) := by
  have h := foldl_chunkStep_greedy mx messages []
    { messageChunks := [], currentChunkSize := 0, currentChunk := [] }
    ⟨rfl, by simp, by simp, by simp⟩
  exact h.2.2.1

theorem chunkMessages_sublist (mx : Int) (messages : List Message) :
    ∀ c ∈ chunkMessages mx messages, c.Sublist messages := by
  intro c hc
  have h1 : c.Sublist (chunkMessages mx messages).flatten := List.sublist_flatten_of_mem hc
  rw [chunkMessages_flatten] at h1
  exact h1.trans (List.filter_sublist _)

/-! ## The chunk loop -/

theorem encodeChunk_err (env : Env) (cid : Bytes) (enc : Bool) (topics : List Bytes)
    (st st1 : BuildState) (ms : List Message) (e : BuildError)
    (h : encodeChunk env cid enc topics st ms = (st1, some e)) : st1 = st := by
  unfold encodeChunk at h
  dsimp only at h
  split at h
  · simp at h; exact h.1.symm
  · split at h
    · simp at h; exact h.1.symm
    · split at h
      · simp at h; exact h.1.symm
      · simp at h

theorem encodeChunk_ok (env : Env) (cid : Bytes) (enc : Bool) (topics : List Bytes)
    (st st1 : BuildState) (ms : List Message)
    (h : encodeChunk env cid enc topics st ms = (st1, none)) :
    ∃ p : Produced,
      p.archive = createWakuMessageArchive st.from_ st.to_ ms topics ∧
      p.entry.Offset = st.offset ∧
      p.WellFormed env cid enc ∧
      st1 = { from_ := st.from_
              to_ := st.to_
              offset := st.offset + p.written
              archiveIDs := st.archiveIDs ++ [p.archiveID]
              wakuMessageArchiveIndex := mapInsert st.wakuMessageArchiveIndex p.archiveID p.entry
              encodedArchives := st.encodedArchives ++ [p.encoded]
              produced := st.produced ++ [p] } := by
  unfold encodeChunk at h
  dsimp only at h
  split at h
  · simp at h
  · rename_i plain hplain
    split at h
    · simp at h
    · rename_i bytes hbytes
      split at h
      · simp at h
      · rename_i entryBytes hentry
        simp only [Prod.mk.injEq, and_true] at h
        refine ⟨{ archiveID := env.keccak256Hash entryBytes
                  entry := indexEntry env (createWakuMessageArchive st.from_ st.to_ ms topics).Metadata
                    st.offset bytes
                  archive := createWakuMessageArchive st.from_ st.to_ ms topics
                  encoded := { bytes := bytes
                               padding := (sizeAndPadding (bytes.length : Int) env.pieceLength).2 } },
          rfl, rfl, ⟨rfl, rfl, ⟨plain, hplain, hbytes⟩, ⟨entryBytes, hentry, rfl⟩⟩, ?_⟩
        rw [← h]
        simp [Produced.written, Nat.add_assoc]



theorem encodeChunks_times (env : Env) (cid : Bytes) (enc : Bool) (topics : List Bytes)
    (chunks : List (List Message)) :
    ∀ (st st1 : BuildState) (e : Option BuildError),
      encodeChunks env cid enc topics chunks st = (st1, e) →
      st1.from_ = st.from_ ∧ st1.to_ = st.to_ := by
  induction chunks with
  | nil => intro st st1 e h; simp [encodeChunks] at h; rw [← h.1]; exact ⟨rfl, rfl⟩
  | cons c cs ih =>
    intro st st1 e h
    unfold encodeChunks at h
    split at h
    · rename_i st2 e2 h2
      simp only [Prod.mk.injEq] at h
      rw [← h.1, encodeChunk_err env cid enc topics st st2 c e2 h2]
      exact ⟨rfl, rfl⟩
    · rename_i st2 h2
      obtain ⟨p, _, _, _, hst2⟩ := encodeChunk_ok env cid enc topics st st2 c h2
      obtain ⟨h3, h4⟩ := ih st2 st1 e h
      rw [h3, h4, hst2]
      exact ⟨rfl, rfl⟩

/-- The chunk loop appends to the trace one archive per chunk, in order; when it
stops at an error the chunks encoded so far are an initial segment. -/
theorem encodeChunks_archives (env : Env) (cid : Bytes) (enc : Bool) (topics : List Bytes)
    (chunks : List (List Message)) :
    ∀ (st st1 : BuildState) (e : Option BuildError),
      encodeChunks env cid enc topics chunks st = (st1, e) →
      ∃ done : List (List Message), done <+: chunks ∧ (e = none → done = chunks) ∧
        st1.produced.map (·.archive) = st.produced.map (·.archive) ++
          done.map (fun c => createWakuMessageArchive st.from_ st.to_ c topics) := by
  induction chunks with
  | nil =>
    intro st st1 e h
    simp [encodeChunks] at h
    exact ⟨[], List.prefix_refl _, fun _ => rfl, by rw [← h.1]; simp⟩
  | cons c cs ih =>
    intro st st1 e h
    unfold encodeChunks at h
    split at h
    · rename_i st2 e2 h2
      simp only [Prod.mk.injEq] at h
      refine ⟨[], List.nil_prefix, ?_, ?_⟩
      · intro he; rw [he] at h; simp at h
      · rw [← h.1, encodeChunk_err env cid enc topics st st2 c e2 h2]; simp
    · rename_i st2 h2
      obtain ⟨p, hp1, _, _, hst2⟩ := encodeChunk_ok env cid enc topics st st2 c h2
      obtain ⟨done, hd1, hd2, hd3⟩ := ih st2 st1 e h
      refine ⟨c :: done, ?_, ?_, ?_⟩
      · exact (List.prefix_cons_inj c).2 hd1
      · intro he; rw [hd2 he]
      · rw [hd3, hst2]
        simp [hp1]

/-- Any property of the loop variables that one pass of the chunk loop keeps is
kept by the whole chunk loop. -/
theorem encodeChunks_preserves (env : Env) (cid : Bytes) (enc : Bool) (topics : List Bytes)
    (P : BuildState → Prop)
    (hP : ∀ (st st1 : BuildState) (c : List Message),
      P st → encodeChunk env cid enc topics st c = (st1, none) → P st1)
    (chunks : List (List Message)) :
    ∀ (st st1 : BuildState) (e : Option BuildError),
      P st → encodeChunks env cid enc topics chunks st = (st1, e) → P st1 := by
  induction chunks with
  | nil => intro st st1 e hst h; simp [encodeChunks] at h; rw [← h.1]; exact hst
  | cons c cs ih =>
    intro st st1 e hst h
    unfold encodeChunks at h
    split at h
    · rename_i st2 e2 h2
      simp only [Prod.mk.injEq] at h
      rw [← h.1, encodeChunk_err env cid enc topics st st2 c e2 h2]
      exact hst
    · rename_i st2 h2
      exact ih st2 st1 e (hP st st2 c hst h2) h

/-! ## One sub-window -/

theorem processWindow_times (env : Env) (cid : Bytes) (enc : Bool) (loadFromDB : Bool)
    (msgs : List Message) (topics : List Bytes) (endDate : Time) (partition : Duration)
    (st st1 : BuildState)
    (h : processWindow env cid enc loadFromDB msgs topics endDate partition st = (st1, none)) :
    st1.from_ = st.to_ ∧
    st1.to_ = (if Time.After (Time.Add st.to_ partition) endDate then endDate
               else Time.Add st.to_ partition) := by
  unfold processWindow at h
  split at h
  · simp at h
  · split at h
    · simp only [Prod.mk.injEq, and_true] at h
      rw [← h]; exact ⟨rfl, rfl⟩
    · split at h
      · simp at h
      · rename_i st2 h2
        simp only [Prod.mk.injEq, and_true] at h
        obtain ⟨_, h4⟩ := encodeChunks_times env cid enc _ _ st st2 none h2
        rw [← h, ← h4]; exact ⟨rfl, rfl⟩

/-- Any property of the loop variables that one pass of the chunk loop and the
step to the next sub-window keep is kept by the body of the window loop. -/
theorem processWindow_preserves (env : Env) (cid : Bytes) (enc : Bool) (loadFromDB : Bool)
    (msgs : List Message) (topics : List Bytes) (endDate : Time) (partition : Duration)
    (P : BuildState → Prop)
    (hP : ∀ (st st1 : BuildState) (c : List Message),
      P st → encodeChunk env cid enc (topicsAsByteArrays topics) st c = (st1, none) → P st1)
    (hA : ∀ st, P st → P (advance endDate partition st))
    (st st1 : BuildState) (e : Option BuildError) (hst : P st)
    (h : processWindow env cid enc loadFromDB msgs topics endDate partition st = (st1, e)) :
    P st1 := by
  unfold processWindow at h
  split at h
  · simp only [Prod.mk.injEq] at h; rw [← h.1]; exact hst
  · split at h
    · simp only [Prod.mk.injEq] at h; rw [← h.1]; exact hA st hst
    · split at h
      · rename_i st2 e2 h2
        simp only [Prod.mk.injEq] at h; rw [← h.1]
        exact encodeChunks_preserves env cid enc _ P hP _ st st2 (some e2) hst h2
      · rename_i st2 h2
        simp only [Prod.mk.injEq] at h; rw [← h.1]
        exact hA st2 (encodeChunks_preserves env cid enc _ P hP _ st st2 none hst h2)

/-! ## The window loop -/

/-- Invariant rule of the window loop: a property that the body keeps on every
pass the loop makes (so with `from` before `endDate`) holds when the loop returns. -/
theorem windowLoop_invariant (env : Env) (cid : Bytes) (enc : Bool) (loadFromDB : Bool)
    (msgs : List Message) (topics : List Bytes) (endDate : Time) (partition : Duration)
    (P : BuildState → Prop)
    (hP : ∀ (st st1 : BuildState) (e : Option BuildError), P st → st.from_ < endDate →
      processWindow env cid enc loadFromDB msgs topics endDate partition st = (st1, e) → P st1)
    (fuel : Nat) :
    ∀ (st st1 : BuildState) (e : Option BuildError), P st →
      windowLoop env cid enc loadFromDB msgs topics endDate partition fuel st = some (st1, e) →
      P st1 := by
  induction fuel with
  | zero => intro st st1 e _ h; simp [windowLoop] at h
  | succ n ih =>
    intro st st1 e hst h
    unfold windowLoop at h
    split at h
    · simp only [Option.some.injEq, Prod.mk.injEq] at h; rw [← h.1]; exact hst
    · rename_i hexit
      have hlt : st.from_ < endDate := by
        simp [Time.Equal, Time.After] at hexit
        unfold Time at *
        omega
      split at h
      · rename_i st2 e2 h2
        simp only [Option.some.injEq, Prod.mk.injEq] at h; rw [← h.1]
        exact hP st st2 (some e2) hst hlt h2
      · rename_i st2 h2
        exact ih st2 st1 e (hP st st2 none hst hlt h2) h

/-- When the window loop returns without error, `from` has reached `endDate`. -/
theorem windowLoop_exit (env : Env) (cid : Bytes) (enc : Bool) (loadFromDB : Bool)
    (msgs : List Message) (topics : List Bytes) (endDate : Time) (partition : Duration)
    (fuel : Nat) :
    ∀ (st st1 : BuildState),
      windowLoop env cid enc loadFromDB msgs topics endDate partition fuel st = some (st1, none) →
      endDate ≤ st1.from_ := by
  induction fuel with
  | zero => intro st st1 h; simp [windowLoop] at h
  | succ n ih =>
    intro st st1 h
    unfold windowLoop at h
    split at h
    · rename_i hexit
      simp only [Option.some.injEq, Prod.mk.injEq, and_true] at h
      rw [← h]
      simp [Time.Equal, Time.After] at hexit
      unfold Time at *
      omega
    · split at h
      · simp at h
      · rename_i st2 h2
        exact ih st2 st1 h


/-! ## Number of sub-windows -/

theorem windowCount_pos (from_ endDate : Int) (partition : Int) (hp : 0 < partition)
    (hlt : from_ < endDate) : 0 < windowCount from_ endDate partition := by
  unfold windowCount
  have h : 1 ≤ (endDate - from_ + partition - 1) / partition := by
    rw [Int.le_ediv_iff_mul_le hp]
    omega
  omega

theorem windowCount_of_le (from_ endDate : Int) (partition : Int) (hp : 0 < partition)
    (hle : endDate ≤ from_) : windowCount from_ endDate partition = 0 := by
  unfold windowCount
  have h : (endDate - from_ + partition - 1) / partition < 1 := by
    rw [Int.ediv_lt_iff_lt_mul hp]
    omega
  omega

theorem windowCount_step (from_ endDate : Int) (partition : Int) (hp : 0 < partition)
    (hlt : from_ < endDate) :
    windowCount (if endDate < from_ + partition then endDate else from_ + partition) endDate
      partition + 1 = windowCount from_ endDate partition := by
  split
  · rename_i h
    rw [windowCount_of_le endDate endDate partition hp (le_refl _)]
    unfold windowCount
    have h1 : 1 ≤ (endDate - from_ + partition - 1) / partition := by
      rw [Int.le_ediv_iff_mul_le hp]; omega
    have h2 : (endDate - from_ + partition - 1) / partition < 2 := by
      rw [Int.ediv_lt_iff_lt_mul hp]; omega
    omega
  · rename_i h
    unfold windowCount
    have h1 : 1 ≤ (endDate - from_ + partition - 1) / partition := by
      rw [Int.le_ediv_iff_mul_le hp]; omega
    have h2 : (endDate - (from_ + partition) + partition - 1) / partition
        = (endDate - from_ + partition - 1) / partition - 1 := by
      have := Int.add_mul_ediv_right (endDate - from_ + partition - 1) (-1) (ne_of_gt hp)
      have e : endDate - (from_ + partition) + partition - 1
          = endDate - from_ + partition - 1 + -1 * partition := by ring
      rw [e, this]; ring
    rw [h2]
    omega


theorem advance_clipped (endDate : Time) (partition : Duration) (st : BuildState) :
    Clipped endDate partition (advance endDate partition st) := rfl

theorem initialState_clipped (startDate endDate : Time) (partition : Duration) :
    Clipped endDate partition (initialState startDate endDate partition) := rfl

theorem processWindow_clipped (env : Env) (cid : Bytes) (enc : Bool) (loadFromDB : Bool)
    (msgs : List Message) (topics : List Bytes) (endDate : Time) (partition : Duration)
    (st st1 : BuildState)
    (h : processWindow env cid enc loadFromDB msgs topics endDate partition st = (st1, none)) :
    Clipped endDate partition st1 := by
  obtain ⟨h1, h2⟩ := processWindow_times env cid enc loadFromDB msgs topics endDate partition st st1 h
  unfold Clipped
  rw [h1, h2]

/-- With a positive partition and more fuel than sub-windows the window loop returns. -/
theorem windowLoop_terminates (env : Env) (cid : Bytes) (enc : Bool) (loadFromDB : Bool)
    (msgs : List Message) (topics : List Bytes) (endDate : Time) (partition : Duration)
    (hp : 0 < partition) (fuel : Nat) :
    ∀ st : BuildState, Clipped endDate partition st →
      windowCount st.from_ endDate partition < fuel →
      ∃ r, windowLoop env cid enc loadFromDB msgs topics endDate partition fuel st = some r := by
  induction fuel with
  | zero => intro st _ h; omega
  | succ n ih =>
    intro st hc hf
    unfold windowLoop
    split
    · exact ⟨_, rfl⟩
    · rename_i hexit
      have hlt : st.from_ < endDate := by
        simp [Time.Equal, Time.After] at hexit
        unfold Time at *
        omega
      split
      · exact ⟨_, rfl⟩
      · rename_i st2 h2
        obtain ⟨h3, _⟩ :=
          processWindow_times env cid enc loadFromDB msgs topics endDate partition st st2 h2
        refine ih st2 (processWindow_clipped env cid enc loadFromDB msgs topics endDate
          partition st st2 h2) ?_
        have hstep := windowCount_step st.from_ endDate partition hp hlt
        have hto : st2.from_ = if endDate < st.from_ + partition then endDate
            else st.from_ + partition := by
          rw [h3, hc]
          simp [Time.After, Time.Add]
        rw [hto]
        omega

/-- What the body of the window loop adds to the trace: the archives of the
selected messages, or an initial segment of them when it stops at an error. -/
theorem processWindow_archives (env : Env) (cid : Bytes) (enc : Bool) (loadFromDB : Bool)
    (msgs : List Message) (topics : List Bytes) (endDate : Time) (partition : Duration)
    (st st1 : BuildState) (e : Option BuildError)
    (h : processWindow env cid enc loadFromDB msgs topics endDate partition st = (st1, e)) :
    (∃ err, selectMessages env loadFromDB msgs topics st.from_ st.to_ = .error err ∧
      st1 = st ∧ e = some err) ∨
    (∃ selected new, selectMessages env loadFromDB msgs topics st.from_ st.to_ = .ok selected ∧
      new <+: windowArchives env topics st.from_ st.to_ selected ∧
      (e = none → new = windowArchives env topics st.from_ st.to_ selected) ∧
      st1.produced.map (·.archive) = st.produced.map (·.archive) ++ new) := by
  unfold processWindow at h
  split at h
  · rename_i err herr
    simp only [Prod.mk.injEq] at h
    exact Or.inl ⟨err, herr, h.1.symm, h.2.symm⟩
  · rename_i selected hsel
    refine Or.inr ⟨selected, ?_⟩
    split at h
    · rename_i hzero
      simp only [Prod.mk.injEq] at h
      refine ⟨[], hsel, List.nil_prefix, ?_, ?_⟩
      · intro _; simp [windowArchives, hzero]
      · rw [← h.1]; simp [advance]
    · rename_i hzero
      have hw : windowArchives env topics st.from_ st.to_ selected
          = (chunkMessages env.maxArchiveSizeInBytes selected).map
              fun c => createWakuMessageArchive st.from_ st.to_ c (topicsAsByteArrays topics) := by
        simp [windowArchives, hzero]
      split at h
      · rename_i st2 e2 h2
        simp only [Prod.mk.injEq] at h
        obtain ⟨done, hd1, _, hd3⟩ := encodeChunks_archives env cid enc _ _ st st2 (some e2) h2
        refine ⟨_, hsel, ?_, ?_, by rw [← h.1]; exact hd3⟩
        · rw [hw]; exact List.IsPrefix.map _ hd1
        · intro he; rw [he] at h; simp at h
      · rename_i st2 h2
        simp only [Prod.mk.injEq] at h
        obtain ⟨done, _, hd2, hd3⟩ := encodeChunks_archives env cid enc _ _ st st2 none h2
        refine ⟨_, hsel, ?_, ?_, by rw [← h.1]; simpa [advance] using hd3⟩
        · rw [hw, hd2 rfl]
        · intro _; rw [hw, hd2 rfl]


/-! ## The whole call -/

theorem existingArchives_dirs (env : Env) (w : World) (cid : Bytes) (a b : Bool) :
    existingArchives env { w with archiveDirExists := a, torrentDirExists := b } cid
      = existingArchives env w cid := rfl

/-- What `setup` leaves when it succeeds. -/
theorem setup_ok (env : Env) (w w1 : World) (cid : Bytes) (startDate endDate : Time)
    (partition : Duration) (st1 : BuildState)
    (h : setup env w cid startDate endDate partition = .ok (w1, st1)) :
    ∃ idx, existingArchives env w cid = .ok idx ∧
      st1 = { initialState startDate endDate partition with
              offset := (existingIndex idx).1
              wakuMessageArchiveIndex := (existingIndex idx).2 } ∧
      w1 = { w with
             archiveDirExists := true
             torrentDirExists := true
             published := w.published ++ [Signal.CreatingHistoryArchivesSignal cid] } := by
  unfold setup at h
  split at h
  · simp at h
  · dsimp only at h
    split at h
    · simp at h
    · rw [existingArchives_dirs] at h
      split at h
      · simp at h
      · rename_i idx hidx
        simp only [Except.ok.injEq, Prod.mk.injEq] at h
        exact ⟨idx, hidx, h.2.symm, h.1.symm⟩

/-- A failing `setup` leaves the files, the cursor and the published events as
they were. -/
theorem setup_error (env : Env) (w w1 : World) (cid : Bytes) (startDate endDate : Time)
    (partition : Duration) (e : BuildError)
    (h : setup env w cid startDate endDate partition = .error (w1, e)) :
    w1.indexFile = w.indexFile ∧ w1.dataFile = w.dataFile ∧ w1.torrentFile = w.torrentFile ∧
      w1.lastMessageArchiveEndDate = w.lastMessageArchiveEndDate ∧ w1.published = w.published := by
  unfold setup at h
  split at h
  · simp only [Except.error.injEq, Prod.mk.injEq] at h
    rw [← h.1]; simp
  · dsimp only at h
    split at h
    · simp only [Except.error.injEq, Prod.mk.injEq] at h
      rw [← h.1]; simp
    · split at h
      · simp only [Except.error.injEq, Prod.mk.injEq] at h
        rw [← h.1]; simp
      · simp at h

/-- The ways a call of the builder ends. -/
theorem build_cases (env : Env) (fuel : Nat) (w : World) (cid : Bytes) (msgs : List Message)
    (topics : List Bytes) (startDate endDate : Time) (partition : Duration) (enc : Bool)
    (r : BuildResult)
    (h : createHistoryArchiveTorrent env fuel w cid msgs topics startDate endDate partition enc
      = some r) :
    (∃ w1 e, setup env w cid startDate endDate partition = .error (w1, e) ∧
      r = { world := w1, archiveIDs := [], err := some e,
            final := initialState startDate endDate partition }) ∨
    (∃ w1 st1 st2 e, setup env w cid startDate endDate partition = .ok (w1, st1) ∧
      windowLoop env cid enc (decide (msgs.length = 0)) msgs topics endDate partition fuel st1
        = some (st2, e) ∧
      r.final = st2 ∧ r.archiveIDs = st2.archiveIDs ∧
      ((∃ err, e = some err ∧ r.err = some err ∧ r.world = w1) ∨
       (e = none ∧ ∃ w2 e2, writeArchives env cid enc startDate endDate w1 st2 = (w2, e2) ∧
          ((∃ err, e2 = some err ∧ r.err = some err ∧ r.world = w2) ∨
           (e2 = none ∧ ∃ w3 e3, saveCursor env w2 st2.from_ = (w3, e3) ∧
              r.err = e3 ∧ r.world = w3))))) := by
  unfold createHistoryArchiveTorrent at h
  dsimp only at h
  split at h
  · rename_i w1 e hs
    simp only [Option.some.injEq] at h
    exact Or.inl ⟨w1, e, hs, h.symm⟩
  · rename_i w1 st1 hs
    refine Or.inr ⟨w1, st1, ?_⟩
    split at h
    · simp at h
    · rename_i st2 e hl
      simp only [Option.some.injEq] at h
      refine ⟨st2, some e, hs, hl, ?_, ?_, Or.inl ⟨e, rfl, ?_, ?_⟩⟩ <;> rw [← h]
    · rename_i st2 hl
      refine ⟨st2, none, hs, hl, ?_⟩
      split at h
      · rename_i w2 e2 hw
        simp only [Option.some.injEq] at h
        refine ⟨?_, ?_, Or.inr ⟨rfl, w2, some e2, hw, Or.inl ⟨e2, rfl, ?_, ?_⟩⟩⟩ <;> rw [← h]
      · rename_i w2 hw
        split at h
        · rename_i w3 e3 hc
          simp only [Option.some.injEq] at h
          refine ⟨?_, ?_, Or.inr ⟨rfl, w2, none, hw, Or.inr ⟨rfl, w3, some e3, hc, ?_, ?_⟩⟩⟩ <;>
            rw [← h]
        · rename_i w3 hc
          simp only [Option.some.injEq] at h
          refine ⟨?_, ?_, Or.inr ⟨rfl, w2, none, hw, Or.inr ⟨rfl, w3, none, hc, ?_, ?_⟩⟩⟩ <;>
            rw [← h]

/-- A call that returns without error went through every phase. -/
theorem build_success (env : Env) (fuel : Nat) (w : World) (cid : Bytes) (msgs : List Message)
    (topics : List Bytes) (startDate endDate : Time) (partition : Duration) (enc : Bool)
    (r : BuildResult)
    (h : createHistoryArchiveTorrent env fuel w cid msgs topics startDate endDate partition enc
      = some r) (hok : r.err = none) :
    ∃ w1 st1 w2, setup env w cid startDate endDate partition = .ok (w1, st1) ∧
      windowLoop env cid enc (decide (msgs.length = 0)) msgs topics endDate partition fuel st1
        = some (r.final, none) ∧
      r.archiveIDs = r.final.archiveIDs ∧
      writeArchives env cid enc startDate endDate w1 r.final = (w2, none) ∧
      saveCursor env w2 r.final.from_ = (r.world, none) := by
  rcases build_cases env fuel w cid msgs topics startDate endDate partition enc r h with
    ⟨w1, e, _, hr⟩ | ⟨w1, st1, st2, e, hs, hl, hf, hids, hrest⟩
  · rw [hr] at hok; simp at hok
  · rcases hrest with ⟨err, _, herr, _⟩ | ⟨he, w2, e2, hw, hrest⟩
    · rw [herr] at hok; simp at hok
    · rcases hrest with ⟨err, _, herr, _⟩ | ⟨he2, w3, e3, hc, herr, hwd⟩
      · rw [herr] at hok; simp at hok
      · subst he; subst he2
        rw [hok] at herr; subst herr
        refine ⟨w1, st1, w2, hs, ?_, ?_, ?_, ?_⟩
        · rw [hf]; exact hl
        · rw [hf]; exact hids
        · rw [hf]; exact hw
        · rw [hf, hwd]; exact hc

/-- With a positive partition and more fuel than sub-windows the builder returns. -/
theorem build_returns (env : Env) (fuel : Nat) (w : World) (cid : Bytes) (msgs : List Message)
    (topics : List Bytes) (startDate endDate : Time) (partition : Duration) (enc : Bool)
    (hp : 0 < partition) (hfuel : windowCount startDate endDate partition < fuel) :
    ∃ r, createHistoryArchiveTorrent env fuel w cid msgs topics startDate endDate partition enc
      = some r := by
  unfold createHistoryArchiveTorrent
  dsimp only
  split
  · exact ⟨_, rfl⟩
  · rename_i w1 st1 hs
    obtain ⟨idx, _, hst1, _⟩ := setup_ok env w w1 cid startDate endDate partition st1 hs
    have hc : Clipped endDate partition st1 := by rw [hst1]; rfl
    have hfrom : st1.from_ = startDate := by rw [hst1]; rfl
    obtain ⟨⟨st2, e⟩, hl⟩ := windowLoop_terminates env cid enc (decide (msgs.length = 0)) msgs
      topics endDate partition hp fuel st1 hc (by rw [hfrom]; exact hfuel)
    rw [hl]
    cases e with
    | some e => exact ⟨_, rfl⟩
    | none =>
      dsimp only
      split
      · exact ⟨_, rfl⟩
      · split
        · exact ⟨_, rfl⟩
        · exact ⟨_, rfl⟩


/-! ## Messages and their windows -/

theorem uint64_of_range (x : Int) (h0 : 0 ≤ x) (h1 : x < 18446744073709551616) :
    (uint64 x : Int) = x := by
  unfold uint64
  rw [Int.emod_eq_of_lt h0 h1]
  exact Int.toNat_of_nonneg h0

theorem Unix_mono (a b : Time) (h : a ≤ b) : Time.Unix a ≤ Time.Unix b := by
  unfold Time.Unix
  exact Int.ediv_le_ediv (by norm_num) h

theorem mem_chunkMessages (mx : Int) (messages : List Message) (c : List Message)
    (hc : c ∈ chunkMessages mx messages) (m : Message) (hm : m ∈ c) :
    m ∈ messages ∧ msgSize m ≤ mx := by
  have h : m ∈ (chunkMessages mx messages).flatten := List.mem_flatten.2 ⟨c, hc, hm⟩
  rw [chunkMessages_flatten] at h
  simpa using h

theorem processWindow_times_err (env : Env) (cid : Bytes) (enc : Bool) (loadFromDB : Bool)
    (msgs : List Message) (topics : List Bytes) (endDate : Time) (partition : Duration)
    (st st1 : BuildState) (e : BuildError)
    (h : processWindow env cid enc loadFromDB msgs topics endDate partition st = (st1, some e)) :
    st1.from_ = st.from_ ∧ st1.to_ = st.to_ := by
  unfold processWindow at h
  split at h
  · simp only [Prod.mk.injEq] at h; rw [← h.1]; exact ⟨rfl, rfl⟩
  · split at h
    · simp at h
    · split at h
      · rename_i st2 e2 h2
        simp only [Prod.mk.injEq] at h; rw [← h.1]
        exact encodeChunks_times env cid enc _ _ st st2 (some e2) h2
      · simp at h

theorem mem_windowArchives (env : Env) (topics : List Bytes) (from_ to_ : Time)
    (selected : List Message) (a : WakuMessageArchive)
    (ha : a ∈ windowArchives env topics from_ to_ selected) :
    ∃ c, c ∈ chunkMessages env.maxArchiveSizeInBytes selected ∧
      a = createWakuMessageArchive from_ to_ c (topicsAsByteArrays topics) := by
  unfold windowArchives at ha
  split at ha
  · simp at ha
  · obtain ⟨c, hc, hca⟩ := List.mem_map.1 ha
    exact ⟨c, hc, hca.symm⟩

theorem windowArchives_inWindow (env : Env) (msgs : List Message) (topics : List Bytes)
    (startDate endDate from_ to_ : Time) (selected : List Message)
    (hstart : 0 ≤ startDate) (hend : Time.Unix endDate < 9223372036854775808)
    (h1 : startDate ≤ from_) (h2 : to_ ≤ endDate)
    (hsel : selectMessages env false msgs topics from_ to_ = .ok selected)
    (a : WakuMessageArchive) (ha : a ∈ windowArchives env topics from_ to_ selected) :
    InWindow startDate endDate a := by
  obtain ⟨c, hc, hac⟩ := mem_windowArchives env topics from_ to_ selected a ha
  intro m hm
  rw [hac] at hm ⊢
  simp only [createWakuMessageArchive, List.mem_map] at hm ⊢
  obtain ⟨msg, hmsg, hm⟩ := hm
  have hin := (mem_chunkMessages _ _ c hc msg hmsg).1
  simp only [selectMessages, Bool.false_eq_true, if_false, Except.ok.injEq] at hsel
  rw [← hsel] at hin
  simp only [List.mem_filter, Bool.and_eq_true, decide_eq_true_eq] at hin
  obtain ⟨_, hge, hlt⟩ := hin
  have hts : m.Timestamp = msg.Timestamp := by rw [← hm]; rfl
  have hs0 : 0 ≤ Time.Unix startDate := by
    unfold Time.Unix; exact Int.ediv_nonneg hstart (by norm_num)
  have hsf := Unix_mono startDate from_ h1
  have hte := Unix_mono to_ endDate h2
  have hf : (uint64 (Time.Unix from_) : Int) = Time.Unix from_ :=
    uint64_of_range _ (by omega) (by omega)
  have ht : (uint64 (Time.Unix to_) : Int) = Time.Unix to_ :=
    uint64_of_range _ (by omega) (by omega)
  rw [hts]
  refine ⟨?_, ?_, ?_, ?_⟩
  · have : (uint64 (Time.Unix from_) : Int) ≤ (msg.Timestamp : Int) := by rw [hf]; exact hge
    exact_mod_cast this
  · have : (msg.Timestamp : Int) < (uint64 (Time.Unix to_) : Int) := by rw [ht]; exact hlt
    exact_mod_cast this
  · omega
  · omega

theorem processWindow_windowInv (env : Env) (cid : Bytes) (enc : Bool)
    (msgs : List Message) (topics : List Bytes) (startDate endDate : Time) (partition : Duration)
    (hstart : 0 ≤ startDate) (hend : Time.Unix endDate < 9223372036854775808)
    (hlt : startDate < endDate) (hp : 0 < partition)
    (st st1 : BuildState) (e : Option BuildError) (hst : WindowInv startDate endDate st)
    (h : processWindow env cid enc false msgs topics endDate partition st = (st1, e)) :
    WindowInv startDate endDate st1 := by
  obtain ⟨⟨t1, t2, t3⟩, hgood⟩ := hst
  constructor
  · cases e with
    | some err =>
      obtain ⟨e1, e2⟩ := processWindow_times_err env cid enc false msgs topics endDate partition
        st st1 err h
      rw [e1, e2]; exact ⟨t1, t2, t3⟩
    | none =>
      obtain ⟨e1, e2⟩ := processWindow_times env cid enc false msgs topics endDate partition
        st st1 h
      rw [e1, e2]
      simp only [Time.After, Time.Add, decide_eq_true_eq]
      unfold Time Duration at *
      refine ⟨t2, ?_, ?_⟩ <;> split <;> omega
  · rcases processWindow_archives env cid enc false msgs topics endDate partition st st1 e h with
      ⟨err, _, hst1, _⟩ | ⟨selected, new, hsel, hpre, _, hnew⟩
    · rw [hst1]; exact hgood
    · intro a ha
      rw [hnew] at ha
      rcases List.mem_append.1 ha with ha | ha
      · exact hgood a ha
      · exact windowArchives_inWindow env msgs topics startDate endDate st.from_ st.to_ selected
          hstart hend t1 t3 hsel a (hpre.subset ha)

/-! ## Messages and their sub-window -/

theorem windowLoop_invariant_ok (env : Env) (cid : Bytes) (enc : Bool) (loadFromDB : Bool)
    (msgs : List Message) (topics : List Bytes) (endDate : Time) (partition : Duration)
    (P : BuildState → Prop)
    (hP : ∀ (st st1 : BuildState), P st → st.from_ < endDate →
      processWindow env cid enc loadFromDB msgs topics endDate partition st = (st1, none) → P st1)
    (fuel : Nat) :
    ∀ (st st1 : BuildState), P st →
      windowLoop env cid enc loadFromDB msgs topics endDate partition fuel st = some (st1, none) →
      P st1 := by
  induction fuel with
  | zero => intro st st1 _ h; simp [windowLoop] at h
  | succ n ih =>
    intro st st1 hst h
    unfold windowLoop at h
    split at h
    · simp only [Option.some.injEq, Prod.mk.injEq, and_true] at h; rw [← h]; exact hst
    · rename_i hexit
      have hlt : st.from_ < endDate := by
        simp [Time.Equal, Time.After] at hexit
        unfold Time at *
        omega
      split at h
      · simp at h
      · rename_i st2 h2
        exact ih st2 st1 (hP st st2 hst hlt h2) h

theorem ediv_eq_iff_of_pos (x p k : Int) (hp : 0 < p) :
    x / p = k ↔ k * p ≤ x ∧ x < (k + 1) * p := by
  constructor
  · intro h
    subst h
    exact ⟨Int.ediv_mul_le x (ne_of_gt hp), Int.lt_ediv_add_one_mul_self x hp⟩
  · intro ⟨h1, h2⟩
    apply le_antisymm
    · have := (Int.ediv_lt_iff_lt_mul hp).2 h2
      omega
    · exact (Int.le_ediv_iff_mul_le hp).2 h1

theorem Unix_whole (s : Int) : Time.Unix (1000000000 * s) = s := by
  unfold Time.Unix
  exact Int.mul_ediv_cancel_left s (by norm_num)

theorem messagesFrom_append (l1 l2 : List WakuMessageArchive) (f : Int) :
    messagesFrom (l1 ++ l2) f = messagesFrom l1 f ++ messagesFrom l2 f := by
  simp [messagesFrom, List.filter_append, List.flatMap_append]

theorem windowArchives_metadata (env : Env) (topics : List Bytes) (from_ to_ : Time)
    (selected : List Message) (a : WakuMessageArchive)
    (ha : a ∈ windowArchives env topics from_ to_ selected) :
    a.Metadata.From = uint64 (Time.Unix from_) := by
  obtain ⟨c, _, hac⟩ := mem_windowArchives env topics from_ to_ selected a ha
  rw [hac]; rfl

theorem windowArchives_messages (env : Env) (topics : List Bytes) (from_ to_ : Time)
    (selected : List Message) :
    (windowArchives env topics from_ to_ selected).flatMap (·.Messages)
      = (selected.filter fun m => decide (msgSize m ≤ env.maxArchiveSizeInBytes)).map
          toWakuMessage := by
  unfold windowArchives
  split
  · rename_i h
    have : selected = [] := List.length_eq_zero.1 h
    subst this; simp
  · rw [← chunkMessages_flatten]
    simp only [List.flatMap, List.map_map, List.map_flatten]
    rfl

theorem messagesFrom_of_all (l : List WakuMessageArchive) (f g : Int)
    (h : ∀ a ∈ l, (a.Metadata.From : Int) = g) :
    messagesFrom l f = if f = g then l.flatMap (·.Messages) else [] := by
  unfold messagesFrom
  split
  · rename_i hfg
    subst hfg
    rw [List.filter_eq_self.2]
    intro a ha; simp [h a ha]
  · rename_i hfg
    rw [List.filter_eq_nil_iff.2]
    · simp
    · intro a ha; simp [h a ha]; exact fun hh => hfg hh.symm

theorem Unix_window (s ps : Int) (j : Nat) :
    Time.Unix (1000000000 * s + (j : Int) * (1000000000 * ps)) = s + j * ps := by
  have : 1000000000 * s + (j : Int) * (1000000000 * ps) = 1000000000 * (s + j * ps) := by ring
  rw [this, Unix_whole]

theorem processWindow_assignInv (env : Env) (cid : Bytes) (enc : Bool)
    (msgs : List Message) (topics : List Bytes) (startDate endDate : Time) (partition : Duration)
    (hstart : 0 ≤ startDate) (hend : Time.Unix endDate < 9223372036854775808)
    (hp : 0 < partition)
    (hs : startDate % 1000000000 = 0) (hps : partition % 1000000000 = 0)
    (st st1 : BuildState) (hst : AssignInv env msgs startDate endDate partition st)
    (hfrom : st.from_ < endDate)
    (h : processWindow env cid enc false msgs topics endDate partition st = (st1, none)) :
    AssignInv env msgs startDate endDate partition st1 := by
  obtain ⟨j, hj, hclip, hk⟩ := hst
  -- whole seconds
  obtain ⟨s, hsE⟩ : ∃ s : Int, startDate = 1000000000 * s := ⟨startDate / 1000000000, by
    unfold Time at *; omega⟩
  obtain ⟨ps, hpsE⟩ : ∃ ps : Int, partition = 1000000000 * ps := ⟨partition / 1000000000, by
    unfold Duration at *; omega⟩
  have hps0 : 0 < ps := by unfold Duration at *; omega
  have hs0 : 0 ≤ s := by unfold Time at *; omega
  have hUs : Time.Unix startDate = s := by rw [hsE, Unix_whole]
  have hUp : partition / 1000000000 = ps := by
    rw [hpsE]; exact Int.mul_ediv_cancel_left ps (by norm_num)
  have hfromE : st.from_ = startDate + j * partition := by
    rcases hj with hj | ⟨hj, _⟩
    · exact hj
    · unfold Time at *; omega
  have hUf : Time.Unix st.from_ = s + j * ps := by
    rw [hfromE, hsE, hpsE, Unix_window]
  have hjps : 0 ≤ (j : Int) * ps := mul_nonneg (Int.ofNat_nonneg j) (le_of_lt hps0)
  have hUfe : Time.Unix st.from_ ≤ Time.Unix endDate := Unix_mono _ _ (le_of_lt hfrom)
  have hg : (uint64 (Time.Unix st.from_) : Int) = s + j * ps := by
    rw [uint64_of_range _ (by omega) (by omega), hUf]
  obtain ⟨t1, t2⟩ := processWindow_times env cid enc false msgs topics endDate partition st st1 h
  have hclip1 := processWindow_clipped env cid enc false msgs topics endDate partition st st1 h
  have htoE : st.to_ = if endDate < st.from_ + partition then endDate else st.from_ + partition := by
    rw [hclip]; simp [Time.After, Time.Add]
  refine ⟨j + 1, ?_, hclip1, ?_⟩
  · rw [t1, htoE]
    have e1 : startDate + ((j + 1 : Nat) : Int) * partition = st.from_ + partition := by
      rw [hfromE]; push_cast; ring
    rw [e1]
    split
    · right; exact ⟨rfl, by unfold Time Duration at *; omega⟩
    · left; rfl
  · rcases processWindow_archives env cid enc false msgs topics endDate partition st st1 none h
      with ⟨err, _, _, he⟩ | ⟨selected, new, hsel, _, hnewE, hnew⟩
    · simp at he
    · have hnew2 := hnewE rfl
      subst hnew2
      intro k
      rw [hnew, messagesFrom_append, hk k,
        messagesFrom_of_all _ _ (s + j * ps) (fun a ha => by
          rw [windowArchives_metadata env topics _ _ selected a ha]; exact hg)]
      rw [hUs, hUp]
      have hkj : (s + (k : Int) * ps = s + (j : Int) * ps) ↔ k = j := by
        constructor
        · intro hh
          have : (k : Int) * ps = (j : Int) * ps := by omega
          have := mul_right_cancel₀ (ne_of_gt hps0) this
          exact_mod_cast this
        · intro hh; rw [hh]
      by_cases hlt : k < j
      · have hne : ¬ (s + (k : Int) * ps = s + (j : Int) * ps) := by rw [hkj]; omega
        simp [hlt, hne, Nat.lt_succ_of_lt hlt]
      · by_cases heq : k = j
        · subst heq
          simp only [lt_self_iff_false, if_false, List.nil_append, if_true, Nat.lt_succ_self]
          rw [windowArchives_messages]
          congr 1
          simp only [selectMessages, Bool.false_eq_true, if_false, Except.ok.injEq] at hsel
          rw [← hsel, List.filter_filter]
          unfold eligible
          apply List.filter_congr
          intro m _
          rw [hUs, hUp, hUf, Bool.eq_iff_iff]
          simp only [Bool.and_eq_true, decide_eq_true_eq]
          rw [ediv_eq_iff_of_pos _ _ _ hps0]
          have hUt : Time.Unix st.to_ = if endDate < st.from_ + partition then Time.Unix endDate
              else s + k * ps + ps := by
            rw [htoE]
            split
            · rfl
            · rw [hfromE, hsE, hpsE]
              have : 1000000000 * s + (k : Int) * (1000000000 * ps) + 1000000000 * ps
                  = 1000000000 * s + ((k + 1 : Nat) : Int) * (1000000000 * ps) := by
                push_cast; ring
              rw [this, Unix_window]; push_cast; ring
          have hUle : endDate < st.from_ + partition → Time.Unix endDate ≤ s + k * ps + ps := by
            intro hh
            have := Unix_mono endDate (st.from_ + partition) (le_of_lt hh)
            rw [hfromE, hsE, hpsE] at this
            have e2 : 1000000000 * s + (k : Int) * (1000000000 * ps) + 1000000000 * ps
                = 1000000000 * s + ((k + 1 : Nat) : Int) * (1000000000 * ps) := by
              push_cast; ring
            rw [e2, Unix_window] at this
            push_cast at this
            linarith
          have hUge : ¬ endDate < st.from_ + partition → s + k * ps + ps ≤ Time.Unix endDate := by
            intro hh
            have := Unix_mono (st.from_ + partition) endDate (by unfold Time Duration at *; omega)
            rw [hfromE, hsE, hpsE] at this
            have e2 : 1000000000 * s + (k : Int) * (1000000000 * ps) + 1000000000 * ps
                = 1000000000 * s + ((k + 1 : Nat) : Int) * (1000000000 * ps) := by
              push_cast; ring
            rw [e2, Unix_window] at this
            push_cast at this
            linarith
          rw [hUt]
          have e3 : ((k : Int) + 1) * ps = k * ps + ps := by ring
          rw [e3]
          generalize (k : Int) * ps = A at *
          generalize Time.Unix endDate = Ue at *
          generalize (m.Timestamp : Int) = ts at *
          by_cases hc : endDate < st.from_ + partition
          · have := hUle hc
            simp only [hc, if_true]
            constructor
            · rintro ⟨h1, h2, h3⟩; refine ⟨⟨⟨?_, ?_⟩, h1⟩, ?_, ?_⟩ <;> omega
            · rintro ⟨⟨⟨h1, h2⟩, h3⟩, h4, h5⟩; refine ⟨h3, ?_, ?_⟩ <;> omega
          · have := hUge hc
            simp only [hc, if_false]
            constructor
            · rintro ⟨h1, h2, h3⟩; refine ⟨⟨⟨?_, ?_⟩, h1⟩, ?_, ?_⟩ <;> omega
            · rintro ⟨⟨⟨h1, h2⟩, h3⟩, h4, h5⟩; refine ⟨h3, ?_, ?_⟩ <;> omega
        · have hne : ¬ (s + (k : Int) * ps = s + (j : Int) * ps) := by rw [hkj]; exact heq
          have hnlt : ¬ k < j + 1 := by omega
          simp [hlt, hne, hnlt]


/-! ## The trace of a call -/

theorem OffsetsFrom_append (ps : List Produced) (p : Produced) :
    ∀ o, OffsetsFrom o (ps ++ [p]) ↔
      OffsetsFrom o ps ∧ p.entry.Offset = o + (ps.map Produced.written).sum := by
  induction ps with
  | nil => intro o; simp [OffsetsFrom]
  | cons q qs ih =>
    intro o
    show (q.entry.Offset = o ∧ OffsetsFrom (o + q.written) (qs ++ [p])) ↔
      (q.entry.Offset = o ∧ OffsetsFrom (o + q.written) qs) ∧
        p.entry.Offset = o + ((q :: qs).map Produced.written).sum
    rw [ih, List.map_cons, List.sum_cons]
    constructor
    · rintro ⟨h1, h2, h3⟩; exact ⟨⟨h1, h2⟩, by omega⟩
    · rintro ⟨⟨h1, h2⟩, h3⟩; exact ⟨h1, h2, by omega⟩

theorem encodeChunk_trace (env : Env) (cid : Bytes) (enc : Bool) (topics : List Bytes)
    (idx0 : WakuMessageArchiveIndex) (off0 : Nat) (st st1 : BuildState) (c : List Message)
    (hst : TraceInv env cid enc idx0 off0 st)
    (h : encodeChunk env cid enc topics st c = (st1, none)) :
    TraceInv env cid enc idx0 off0 st1 := by
  obtain ⟨h1, h2, h3, h4, h5, h6⟩ := hst
  obtain ⟨p, _, hoff, hwf, hst1⟩ := encodeChunk_ok env cid enc topics st st1 c h
  subst hst1
  refine ⟨?_, ?_, ?_, ?_, ?_, ?_⟩
  · simp [h1]
  · simp [h2]
  · simp [h3, List.foldl_append]
  · simp [h4]; omega
  · rw [OffsetsFrom_append]; exact ⟨h5, by rw [hoff, h4]⟩
  · intro q hq
    rcases List.mem_append.1 hq with hq | hq
    · exact h6 q hq
    · simp at hq; subst hq; exact hwf

theorem advance_trace (env : Env) (cid : Bytes) (enc : Bool)
    (idx0 : WakuMessageArchiveIndex) (off0 : Nat) (endDate : Time) (partition : Duration)
    (st : BuildState) (hst : TraceInv env cid enc idx0 off0 st) :
    TraceInv env cid enc idx0 off0 (advance endDate partition st) := hst

/-- The loop variables agree with the trace when the window loop returns. -/
theorem windowLoop_trace (env : Env) (cid : Bytes) (enc : Bool) (loadFromDB : Bool)
    (msgs : List Message) (topics : List Bytes) (endDate : Time) (partition : Duration)
    (idx0 : WakuMessageArchiveIndex) (off0 : Nat) (fuel : Nat) (st st1 : BuildState)
    (e : Option BuildError) (hst : TraceInv env cid enc idx0 off0 st)
    (h : windowLoop env cid enc loadFromDB msgs topics endDate partition fuel st = some (st1, e)) :
    TraceInv env cid enc idx0 off0 st1 :=
  windowLoop_invariant env cid enc loadFromDB msgs topics endDate partition
    (TraceInv env cid enc idx0 off0)
    (fun st st1 e hst _ h =>
      processWindow_preserves env cid enc loadFromDB msgs topics endDate partition
        (TraceInv env cid enc idx0 off0)
        (fun st st1 c hst h => encodeChunk_trace env cid enc _ idx0 off0 st st1 c hst h)
        (fun st hst => advance_trace env cid enc idx0 off0 endDate partition st hst)
        st st1 e hst h)
    fuel st st1 e hst h

/-- The trace invariant at the end of a call that returns without error. -/
theorem build_trace (env : Env) (fuel : Nat) (w : World) (cid : Bytes) (msgs : List Message)
    (topics : List Bytes) (startDate endDate : Time) (partition : Duration) (enc : Bool)
    (r : BuildResult) (idx : WakuMessageArchiveIndex)
    (hidx : existingArchives env w cid = .ok idx)
    (h : createHistoryArchiveTorrent env fuel w cid msgs topics startDate endDate partition enc
      = some r) (hok : r.err = none) :
    TraceInv env cid enc (existingIndex idx).2 (existingIndex idx).1 r.final := by
  rcases build_cases env fuel w cid msgs topics startDate endDate partition enc r h with
    ⟨w1, e, hs, hr⟩ | ⟨w1, st1, st2, e, hs, hl, hf, _, _⟩
  · rw [hr] at hok; simp at hok
  · obtain ⟨idx', hidx', hst1, _⟩ := setup_ok env w w1 cid startDate endDate partition st1 hs
    rw [hidx] at hidx'
    simp only [Except.ok.injEq] at hidx'
    subst hidx'
    rw [hf]
    refine windowLoop_trace env cid enc _ msgs topics endDate partition _ _ fuel st1 st2 e ?_ hl
    rw [hst1]
    exact ⟨rfl, rfl, rfl, by simp [initialState], trivial, by simp [initialState]⟩


/-! ## Maps and the existing index -/

theorem mapInsert_fresh {V : Type} (m : List (String × V)) (k : String) (v : V)
    (h : k ∉ m.map Prod.fst) : mapInsert m k v = m ++ [(k, v)] := by
  unfold mapInsert
  congr 1
  rw [List.filter_eq_self]
  intro p hp
  have : p.1 ≠ k := fun he => h (List.mem_map.2 ⟨p, hp, he⟩)
  simp [this]

theorem foldl_mapInsert_fresh (ps : List Produced) :
    ∀ m : WakuMessageArchiveIndex, (m.map Prod.fst ++ ps.map (·.archiveID)).Nodup →
      ps.foldl (fun m p => mapInsert m p.archiveID p.entry) m
        = m ++ ps.map (fun p => (p.archiveID, p.entry)) := by
  induction ps with
  | nil => intro m _; simp
  | cons p ps ih =>
    intro m h
    have hp : p.archiveID ∉ m.map Prod.fst := by
      intro hin
      rw [List.nodup_append] at h
      exact h.2.2 hin (by simp)
    rw [List.foldl_cons, mapInsert_fresh m _ _ hp, ih]
    · simp
    · have : (m ++ [(p.archiveID, p.entry)]).map Prod.fst ++ ps.map (·.archiveID)
          = m.map Prod.fst ++ (p :: ps).map (·.archiveID) := by simp
      rw [this]; exact h

theorem existingIndex_foldl (l : WakuMessageArchiveIndex) :
    ∀ (a : Nat) (m : WakuMessageArchiveIndex),
      (l.foldl (fun acc p => (acc.1 + p.2.Size, mapInsert acc.2 p.1 p.2)) (a, m)).1
        = a + (l.map (·.2.Size)).sum := by
  induction l with
  | nil => intro a m; simp
  | cons p l ih => intro a m; rw [List.foldl_cons, ih]; simp; omega

/-- The offset the loop starts from is the sum of the sizes of the existing entries. -/
theorem existingIndex_fst (idx : WakuMessageArchiveIndex) :
    (existingIndex idx).1 = (idx.map (·.2.Size)).sum := by
  unfold existingIndex
  rw [existingIndex_foldl]; simp

/-- That offset does not depend on the order in which the map is iterated. -/
theorem existingIndex_fst_perm (idx idx' : WakuMessageArchiveIndex) (h : idx'.Perm idx) :
    (existingIndex idx').1 = (existingIndex idx).1 := by
  rw [existingIndex_fst, existingIndex_fst]
  exact (h.map _).sum_eq

theorem existingIndex_snd_foldl (l : WakuMessageArchiveIndex) :
    ∀ (a : Nat) (m : WakuMessageArchiveIndex), (m.map Prod.fst ++ l.map Prod.fst).Nodup →
      (l.foldl (fun acc p => (acc.1 + p.2.Size, mapInsert acc.2 p.1 p.2)) (a, m)).2 = m ++ l := by
  induction l with
  | nil => intro a m _; simp
  | cons p l ih =>
    intro a m h
    have hp : p.1 ∉ m.map Prod.fst := by
      intro hin
      rw [List.nodup_append] at h
      exact h.2.2 hin (by simp)
    rw [List.foldl_cons]
    dsimp only
    rw [mapInsert_fresh m _ _ hp, ih]
    · simp
    · have : (m ++ [(p.1, p.2)]).map Prod.fst ++ l.map Prod.fst
          = m.map Prod.fst ++ (p :: l).map Prod.fst := by simp
      rw [this]; exact h

/-- A parsed index with distinct keys is copied unchanged. -/
theorem existingIndex_snd (idx : WakuMessageArchiveIndex) (h : (idx.map Prod.fst).Nodup) :
    (existingIndex idx).2 = idx := by
  unfold existingIndex
  rw [existingIndex_snd_foldl _ _ _ (by simpa using h)]; simp

theorem lookup_of_mem {V : Type} (m : List (String × V)) (h : (m.map Prod.fst).Nodup)
    (k : String) (v : V) (hm : (k, v) ∈ m) : m.lookup k = some v := by
  induction m with
  | nil => simp at hm
  | cons p m ih =>
    obtain ⟨a, b⟩ := p
    simp only [List.map_cons, List.nodup_cons] at h
    rcases List.mem_cons.1 hm with hm | hm
    · simp only [Prod.mk.injEq] at hm
      rw [hm.1, hm.2]; simp [List.lookup]
    · have hne : k ≠ a := by
        intro he
        apply h.1
        rw [← he]
        exact List.mem_map.2 ⟨(k, v), hm, rfl⟩
      rw [List.lookup_cons]
      have : (k == a) = false := by simpa using hne
      rw [this]
      exact ih h.2 hm

/-! ## Entries laid out back to back -/

theorem ChainFrom_append (l1 l2 : List WakuMessageArchiveIndexMetadata) :
    ∀ o, ChainFrom o (l1 ++ l2) ↔
      ChainFrom o l1 ∧ ChainFrom (o + (l1.map (·.Size)).sum) l2 := by
  induction l1 with
  | nil => intro o; simp [ChainFrom]
  | cons e es ih =>
    intro o
    show (e.Offset = o ∧ ChainFrom (o + e.Size) (es ++ l2)) ↔
      (e.Offset = o ∧ ChainFrom (o + e.Size) es) ∧
        ChainFrom (o + ((e :: es).map (·.Size)).sum) l2
    rw [ih, List.map_cons, List.sum_cons, Nat.add_assoc, and_assoc]

theorem ChainFrom_lower (l : List WakuMessageArchiveIndexMetadata) :
    ∀ o, ChainFrom o l → ∀ e ∈ l, o ≤ e.Offset := by
  induction l with
  | nil => intro o _ e he; simp at he
  | cons a l ih =>
    intro o h e he
    obtain ⟨h1, h2⟩ := h
    rcases List.mem_cons.1 he with he | he
    · subst he; omega
    · have := ih _ h2 e he; omega

/-- Entries laid out back to back occupy disjoint byte ranges, in order. -/
theorem ChainFrom_disjoint (l : List WakuMessageArchiveIndexMetadata) :
    ∀ o, ChainFrom o l → l.Pairwise (fun a b => a.Offset + a.Size ≤ b.Offset) := by
  induction l with
  | nil => intro o _; exact List.Pairwise.nil
  | cons a l ih =>
    intro o h
    obtain ⟨h1, h2⟩ := h
    refine List.Pairwise.cons ?_ (ih _ h2)
    intro b hb
    have := ChainFrom_lower l _ h2 b hb
    omega

theorem OffsetsFrom_chain (ps : List Produced) (hsz : ∀ p ∈ ps, p.entry.Size = p.written) :
    ∀ o, OffsetsFrom o ps → ChainFrom o (ps.map (·.entry)) := by
  induction ps with
  | nil => intro o _; trivial
  | cons p ps ih =>
    intro o h
    obtain ⟨h1, h2⟩ := h
    refine ⟨h1, ?_⟩
    rw [hsz p (by simp)]
    exact ih (fun q hq => hsz q (by simp [hq])) _ h2

/-- Size and padding of a recorded entry, for a positive piece length. -/
theorem WellFormed_sizes (env : Env) (cid : Bytes) (enc : Bool) (p : Produced)
    (hp : 0 < env.pieceLength) (h : p.WellFormed env cid enc) :
    p.entry.Size = p.written ∧ p.entry.Padding = p.encoded.padding.toNat ∧
      0 < p.entry.Size ∧ p.entry.Size - p.entry.Padding = p.encoded.bytes.length ∧
      p.entry.Padding ≤ p.entry.Size := by
  obtain ⟨h1, h2, _, _⟩ := h
  have hc := indexEntry_spec env p.archive.Metadata p.entry.Offset p.encoded.bytes hp
  rw [← h1] at hc
  obtain ⟨_, _, _, c4, c5, _, c7, _⟩ := hc
  have hpad : p.entry.Padding = p.encoded.padding.toNat := by
    rw [h2]; conv_lhs => rw [h1]
    rfl
  refine ⟨?_, hpad, c4, c7, by omega⟩
  unfold Produced.written
  rw [← hpad]; exact c5

/-- The merged index of a successful call without hash collision: the existing
entries followed by the recorded ones; the recorded entries start at the sum of
the existing sizes and lie back to back. -/
theorem build_index (env : Env) (fuel : Nat) (w : World) (cid : Bytes) (msgs : List Message)
    (topics : List Bytes) (startDate endDate : Time) (partition : Duration) (enc : Bool)
    (r : BuildResult) (idx : WakuMessageArchiveIndex)
    (hp : 0 < env.pieceLength)
    (hidx : existingArchives env w cid = .ok idx)
    (h : createHistoryArchiveTorrent env fuel w cid msgs topics startDate endDate partition enc
      = some r) (hok : r.err = none)
    (hfresh : (idx.map Prod.fst ++ r.archiveIDs).Nodup) :
    r.archiveIDs = r.final.produced.map (·.archiveID) ∧
    r.final.wakuMessageArchiveIndex
      = idx ++ r.final.produced.map (fun p => (p.archiveID, p.entry)) ∧
    ChainFrom ((idx.map (·.2.Size)).sum) r.entries ∧
    r.final.offset = (idx.map (·.2.Size)).sum + (r.final.produced.map Produced.written).sum ∧
    OffsetsFrom ((idx.map (·.2.Size)).sum) r.final.produced ∧
    ∀ p ∈ r.final.produced, p.WellFormed env cid enc := by
  have hkeys : (idx.map Prod.fst).Nodup := (List.nodup_append.1 hfresh).1
  obtain ⟨t1, _, t3, t4, t5, t6⟩ := build_trace env fuel w cid msgs topics startDate endDate
    partition enc r idx hidx h hok
  obtain ⟨_, _, _, _, _, hids, _, _⟩ := build_success env fuel w cid msgs topics startDate endDate
    partition enc r h hok
  rw [existingIndex_snd idx hkeys] at t3
  rw [existingIndex_fst] at t4 t5
  rw [hids, t1] at hfresh
  refine ⟨by rw [hids, t1], ?_, ?_, t4, t5, t6⟩
  · rw [t3]; exact foldl_mapInsert_fresh _ _ hfresh
  · exact OffsetsFrom_chain _ (fun p hp' => (WellFormed_sizes env cid enc p hp (t6 p hp')).1) _ t5


theorem mem_of_lookup {V : Type} (m : List (String × V)) (k : String) (v : V)
    (h : m.lookup k = some v) : (k, v) ∈ m := by
  induction m with
  | nil => simp at h
  | cons p m ih =>
    obtain ⟨a, b⟩ := p
    rw [List.lookup_cons] at h
    by_cases hk : k = a
    · subst hk
      simp at h
      rw [h]; exact List.mem_cons_self _ _
    · have : (k == a) = false := by simpa using hk
      rw [this] at h
      exact List.mem_cons_of_mem _ (ih h)

/-! ## The write phase -/

/-- The bytes one encoded archive adds to the data file. -/
theorem dataBytes_foldl (l : List EncodedArchiveData) :
    ∀ acc : Bytes,
      l.foldl (fun acc e => acc ++ e.bytes ++ List.replicate e.padding.toNat 0) acc
        = acc ++ l.flatMap (fun e => e.bytes ++ List.replicate e.padding.toNat 0) := by
  induction l with
  | nil => intro acc; simp
  | cons e l ih => intro acc; rw [List.foldl_cons, ih]; simp

theorem dataBytes_eq (l : List EncodedArchiveData) :
    dataBytes l = l.flatMap (fun e => e.bytes ++ List.replicate e.padding.toNat 0) := by
  unfold dataBytes
  rw [dataBytes_foldl]; simp

/-- What a successful write phase leaves. -/
theorem writeArchives_ok (env : Env) (cid : Bytes) (enc : Bool) (startDate endDate : Time)
    (w w2 : World) (st : BuildState)
    (h : writeArchives env cid enc startDate endDate w st = (w2, none)) :
    (st.encodedArchives = [] ∧
      w2 = { w with
             published := w.published ++
               [Signal.NoHistoryArchivesCreatedSignal cid (Time.Unix startDate)
                  (Time.Unix endDate)] }) ∨
    (st.encodedArchives ≠ [] ∧ ∃ plain indexBytes metaInfoBytes,
      env.marshalIndex st.wakuMessageArchiveIndex = some plain ∧
      encryptBytes env cid enc plain = .ok indexBytes ∧
      w2 = { w with
             indexFile := some indexBytes
             dataFile := some (w.dataFile.getD [] ++ dataBytes st.encodedArchives)
             torrentFile := some metaInfoBytes
             published := w.published ++
               [Signal.HistoryArchivesCreatedSignal cid (Time.Unix startDate)
                  (Time.Unix endDate)] }) := by
  unfold writeArchives at h
  split at h
  · rename_i hlen
    have hne : st.encodedArchives ≠ [] := by
      intro he; rw [he] at hlen; simp at hlen
    refine Or.inr ⟨hne, ?_⟩
    split at h
    · simp at h
    · rename_i plain hplain
      split at h
      · simp at h
      · rename_i indexBytes hbytes
        split at h
        · simp at h
        · dsimp only at h
          split at h
          · simp at h
          · split at h
            · simp at h
            · split at h
              · simp at h
              · rename_i metaInfoBytes _
                split at h
                · simp at h
                · simp only [Prod.mk.injEq, and_true] at h
                  refine ⟨plain, indexBytes, metaInfoBytes, hplain, hbytes, ?_⟩
                  rw [← h]
                  simp
  · rename_i hlen
    simp only [Prod.mk.injEq, and_true] at h
    refine Or.inl ⟨?_, h.symm⟩
    cases hl : st.encodedArchives with
    | nil => rfl
    | cons a l => rw [hl] at hlen; simp at hlen

/-- A successful cursor update leaves the files and the published events as they are. -/
theorem saveCursor_ok (env : Env) (w w3 : World) (from_ : Time)
    (h : saveCursor env w from_ = (w3, none)) :
    w3 = { w with lastMessageArchiveEndDate := some (uint64 (Time.Unix from_)) } := by
  unfold saveCursor at h
  split at h
  · simp at h
  · dsimp only at h
    split at h
    · simp at h
    · split at h
      · rename_i hpos
        simp only [Prod.mk.injEq, and_true] at h
        rw [← h]
        cases hl : w.lastMessageArchiveEndDate with
        | none => rw [hl] at hpos; simp at hpos
        | some v => simp
      · simp only [Prod.mk.injEq, and_true] at h
        rw [← h]

/-- The files a call that returns without error leaves behind. -/
theorem build_files (env : Env) (fuel : Nat) (w : World) (cid : Bytes) (msgs : List Message)
    (topics : List Bytes) (startDate endDate : Time) (partition : Duration) (enc : Bool)
    (r : BuildResult)
    (h : createHistoryArchiveTorrent env fuel w cid msgs topics startDate endDate partition enc
      = some r) (hok : r.err = none) :
    (r.final.encodedArchives = [] ∧ r.world.indexFile = w.indexFile ∧
      r.world.dataFile = w.dataFile ∧ r.world.torrentFile = w.torrentFile ∧
      r.world.published = w.published ++
        [Signal.CreatingHistoryArchivesSignal cid,
         Signal.NoHistoryArchivesCreatedSignal cid (Time.Unix startDate) (Time.Unix endDate)]) ∨
    (r.final.encodedArchives ≠ [] ∧ ∃ plain indexBytes metaInfoBytes,
      env.marshalIndex r.final.wakuMessageArchiveIndex = some plain ∧
      encryptBytes env cid enc plain = .ok indexBytes ∧
      r.world.indexFile = some indexBytes ∧
      r.world.dataFile = some (w.dataFile.getD [] ++ dataBytes r.final.encodedArchives) ∧
      r.world.torrentFile = some metaInfoBytes ∧
      r.world.published = w.published ++
        [Signal.CreatingHistoryArchivesSignal cid,
         Signal.HistoryArchivesCreatedSignal cid (Time.Unix startDate) (Time.Unix endDate)]) := by
  obtain ⟨w1, st1, w2, hsetup, _, _, hwrite, hsave⟩ := build_success env fuel w cid msgs topics
    startDate endDate partition enc r h hok
  obtain ⟨_, _, _, hw1⟩ := setup_ok env w w1 cid startDate endDate partition st1 hsetup
  have hw3 := saveCursor_ok env w2 r.world _ hsave
  rcases writeArchives_ok env cid enc startDate endDate w1 w2 r.final hwrite with
    ⟨he, hw2⟩ | ⟨hne, plain, indexBytes, metaInfoBytes, hplain, hbytes, hw2⟩
  · refine Or.inl ⟨he, ?_⟩
    rw [hw3, hw2, hw1]; simp
  · refine Or.inr ⟨hne, plain, indexBytes, metaInfoBytes, hplain, hbytes, ?_⟩
    rw [hw3, hw2, hw1]; simp


/-! ## Reading archives back -/

theorem blob_length (p : Produced) : p.blob.length = p.written := by
  simp [Produced.blob, Produced.written]

/-- In the data file every recorded archive starts at the offset of its entry. -/
theorem drop_at_offset (ps : List Produced) :
    ∀ (o : Nat) (pre : Bytes), pre.length = o → OffsetsFrom o ps →
      ∀ p ∈ ps, ∃ rest, (pre ++ ps.flatMap Produced.blob).drop p.entry.Offset = p.blob ++ rest := by
  induction ps with
  | nil => intro o pre _ _ p hp; simp at hp
  | cons q qs ih =>
    intro o pre hpre h p hp
    obtain ⟨h1, h2⟩ := h
    have hsplit : pre ++ (q :: qs).flatMap Produced.blob
        = (pre ++ q.blob) ++ qs.flatMap Produced.blob := by
      simp [List.flatMap_cons]
    rcases List.mem_cons.1 hp with hp | hp
    · subst hp
      refine ⟨qs.flatMap Produced.blob, ?_⟩
      rw [h1, ← hpre]
      simp [List.flatMap_cons]
    · rw [hsplit]
      exact ih (o + q.written) (pre ++ q.blob) (by simp [blob_length, hpre]) h2 p hp

theorem processWindow_fromInput (env : Env) (cid : Bytes) (enc : Bool) (loadFromDB : Bool)
    (msgs : List Message) (topics : List Bytes) (endDate : Time) (partition : Duration)
    (st st1 : BuildState) (e : Option BuildError)
    (hst : ∀ a ∈ st.produced.map (·.archive), FromInput loadFromDB msgs topics a)
    (h : processWindow env cid enc loadFromDB msgs topics endDate partition st = (st1, e)) :
    ∀ a ∈ st1.produced.map (·.archive), FromInput loadFromDB msgs topics a := by
  rcases processWindow_archives env cid enc loadFromDB msgs topics endDate partition st st1 e h
    with ⟨err, _, hst1, _⟩ | ⟨selected, new, hsel, hpre, _, hnew⟩
  · rw [hst1]; exact hst
  · intro a ha
    rw [hnew] at ha
    rcases List.mem_append.1 ha with ha | ha
    · exact hst a ha
    · obtain ⟨c, hc, hac⟩ := mem_windowArchives env topics _ _ selected a (hpre.subset ha)
      refine ⟨st.from_, st.to_, c, hac, ?_⟩
      intro hdb
      subst hdb
      simp only [selectMessages, Bool.false_eq_true, if_false, Except.ok.injEq] at hsel
      have := chunkMessages_sublist _ _ c hc
      rw [← hsel] at this
      exact this.trans (List.filter_sublist _)

/-- Every archive of a call holds the conversion of a sublist of the input messages. -/
theorem build_fromInput (env : Env) (fuel : Nat) (w : World) (cid : Bytes) (msgs : List Message)
    (topics : List Bytes) (startDate endDate : Time) (partition : Duration) (enc : Bool)
    (r : BuildResult)
    (h : createHistoryArchiveTorrent env fuel w cid msgs topics startDate endDate partition enc
      = some r) :
    ∀ a ∈ r.archives, FromInput (decide (msgs.length = 0)) msgs topics a := by
  rcases build_cases env fuel w cid msgs topics startDate endDate partition enc r h with
    ⟨w1, e, _, hr⟩ | ⟨w1, st1, st2, e, hs, hl, hf, _, _⟩
  · intro a ha; rw [hr] at ha; simp [BuildResult.archives, initialState] at ha
  · obtain ⟨idx, _, hst1, _⟩ := setup_ok env w w1 cid startDate endDate partition st1 hs
    unfold BuildResult.archives
    rw [hf]
    refine windowLoop_invariant env cid enc _ msgs topics endDate partition
      (fun st => ∀ a ∈ st.produced.map (·.archive), FromInput (decide (msgs.length = 0)) msgs topics a)
      (fun st st1 e hst _ h => processWindow_fromInput env cid enc _ msgs topics endDate partition
        st st1 e hst h) fuel st1 st2 e ?_ hl
    rw [hst1]; simp [initialState]

theorem readAt_within (file : Bytes) (offset n : Nat) (h : offset + n ≤ file.length) :
    readAt file offset n = some ((file.drop offset).take n) := by
  unfold readAt
  have hlen : ((file.drop offset).take n).length = n := by
    rw [List.length_take, List.length_drop]; omega
  dsimp only
  rw [hlen]
  have : ¬ (n > 0 ∧ n = 0) := by omega
  simp [this]

/-- The reader on a world whose index and data file hold an entry and its bytes. -/
theorem extract_of_lookup (env : Env) (w : World) (cid : Bytes) (archiveID : String)
    (index : WakuMessageArchiveIndex) (data : Bytes) (entry : WakuMessageArchiveIndexMetadata)
    (archive : WakuMessageArchive)
    (hload : LoadHistoryArchiveIndexFromFile env w cid = .ok index)
    (hopen : env.fails .openDataForRead = false)
    (hdata : w.dataFile = some data)
    (hlookup : index.lookup archiveID = some entry)
    (hoff : entry.Offset + entry.Size ≤ data.length)
    (hlen : data.length < 9223372036854775808)
    (hpad : entry.Padding ≤ entry.Size)
    (hparse : env.unmarshalArchive ((data.drop entry.Offset).take (entry.Size - entry.Padding))
      = some archive) :
    ExtractMessagesFromHistoryArchive env w cid archiveID = .messages archive.Messages := by
  unfold ExtractMessagesFromHistoryArchive
  rw [hload]
  dsimp only
  rw [hopen, hdata]
  simp only [Bool.false_eq_true, if_false]
  rw [hlookup]
  dsimp only
  rw [if_neg (by omega), if_neg (by omega), readAt_within _ _ _ (by omega)]
  dsimp only
  rw [hparse]

/-- The layout of the data file after a call that returned without error. -/
theorem build_layout (env : Env) (fuel : Nat) (w : World) (cid : Bytes) (msgs : List Message)
    (topics : List Bytes) (startDate endDate : Time) (partition : Duration) (enc : Bool)
    (r : BuildResult) (idx : WakuMessageArchiveIndex)
    (hp : 0 < env.pieceLength)
    (hidx : existingArchives env w cid = .ok idx)
    (hlen : (w.dataFile.getD []).length = (idx.map (·.2.Size)).sum)
    (h : createHistoryArchiveTorrent env fuel w cid msgs topics startDate endDate partition enc
      = some r) (hok : r.err = none) :
    ∀ p ∈ r.final.produced, ∃ data,
      r.world.dataFile = some data ∧
      data = w.dataFile.getD [] ++ r.final.produced.flatMap Produced.blob ∧
      p.entry.Offset + p.entry.Size ≤ data.length ∧
      (data.drop p.entry.Offset).take (p.entry.Size - p.entry.Padding) = p.encoded.bytes ∧
      (data.drop (p.entry.Offset + (p.entry.Size - p.entry.Padding))).take p.entry.Padding
        = List.replicate p.entry.Padding 0 := by
  intro p hp'
  obtain ⟨_, t2, _, _, t5, t6⟩ := build_trace env fuel w cid msgs topics startDate endDate
    partition enc r idx hidx h hok
  rw [existingIndex_fst] at t5
  have hne : r.final.encodedArchives ≠ [] := by
    rw [t2]; intro he
    rw [List.map_eq_nil_iff] at he
    rw [he] at hp'; simp at hp'
  rcases build_files env fuel w cid msgs topics startDate endDate partition enc r h hok with
    ⟨he, _⟩ | ⟨_, _, _, _, _, _, _, hdata, _, _⟩
  · exact absurd he hne
  · have hblob : dataBytes r.final.encodedArchives = r.final.produced.flatMap Produced.blob := by
      rw [dataBytes_eq, t2, List.flatMap_map]; rfl
    rw [hblob] at hdata
    obtain ⟨rest, hdrop⟩ := drop_at_offset r.final.produced _ (w.dataFile.getD []) hlen t5 p hp'
    obtain ⟨s1, s2, s3, s4, s5⟩ := WellFormed_sizes env cid enc p hp (t6 p hp')
    refine ⟨_, hdata, rfl, ?_, ?_, ?_⟩
    · have hl := congrArg List.length hdrop
      simp only [List.length_drop, List.length_append, blob_length] at hl ⊢
      rw [← s1] at hl
      omega
    · rw [hdrop, s4]
      simp [Produced.blob]
    · have : p.entry.Offset + (p.entry.Size - p.entry.Padding)
          = p.entry.Offset + p.encoded.bytes.length := by rw [s4]
      rw [this, ← List.drop_drop, hdrop, s2]
      simp [Produced.blob]


/-! ## Windows without messages -/

/-- The function `setup` succeeds when the two directories exist or can be created and the
existing index, if any, loads. -/
theorem setup_succeeds (env : Env) (w : World) (cid : Bytes) (startDate endDate : Time)
    (partition : Duration) (idx : WakuMessageArchiveIndex)
    (hd1 : w.archiveDirExists = true ∨ env.fails .mkdirArchiveDir = false)
    (hd2 : w.torrentDirExists = true ∨ env.fails .mkdirTorrentDir = false)
    (hidx : existingArchives env w cid = .ok idx) :
    setup env w cid startDate endDate partition
      = .ok ({ w with
               archiveDirExists := true
               torrentDirExists := true
               published := w.published ++ [Signal.CreatingHistoryArchivesSignal cid] },
             { initialState startDate endDate partition with
               offset := (existingIndex idx).1
               wakuMessageArchiveIndex := (existingIndex idx).2 }) := by
  unfold setup
  have h1 : ((!w.archiveDirExists) && env.fails .mkdirArchiveDir) = false := by
    rcases hd1 with h | h <;> simp [h]
  have h2 : ((!w.torrentDirExists) && env.fails .mkdirTorrentDir) = false := by
    rcases hd2 with h | h <;> simp [h]
  rw [h1]
  simp only [Bool.false_eq_true, if_false]
  rw [h2]
  simp only [Bool.false_eq_true, if_false]
  rw [existingArchives_dirs, hidx]

/-- A window loop in which no sub-window selects a message returns without
error and leaves every variable but `from` and `to` as it was. -/
theorem windowLoop_empty (env : Env) (cid : Bytes) (enc : Bool) (loadFromDB : Bool)
    (msgs : List Message) (topics : List Bytes) (startDate endDate : Time) (partition : Duration)
    (hp : 0 < partition)
    (hsel : ∀ k : Nat, (subWindow startDate endDate partition k).1 < endDate →
      selectMessages env loadFromDB msgs topics (subWindow startDate endDate partition k).1
        (subWindow startDate endDate partition k).2 = .ok [])
    (fuel : Nat) :
    ∀ st : BuildState, Clipped endDate partition st →
      (endDate ≤ st.from_ ∨ ∃ j : Nat, st.from_ = startDate + j * partition) →
      windowCount st.from_ endDate partition < fuel →
      ∃ st1, windowLoop env cid enc loadFromDB msgs topics endDate partition fuel st
          = some (st1, none) ∧
        st1.offset = st.offset ∧ st1.archiveIDs = st.archiveIDs ∧
        st1.wakuMessageArchiveIndex = st.wakuMessageArchiveIndex ∧
        st1.encodedArchives = st.encodedArchives ∧ st1.produced = st.produced := by
  induction fuel with
  | zero => intro st _ _ h; omega
  | succ n ih =>
    intro st hc hs hf
    unfold windowLoop
    split
    · exact ⟨st, rfl, rfl, rfl, rfl, rfl, rfl⟩
    · rename_i hexit
      have hlt : st.from_ < endDate := by
        simp [Time.Equal, Time.After] at hexit
        unfold Time at *
        omega
      obtain ⟨j, hj⟩ : ∃ j : Nat, st.from_ = startDate + j * partition := by
        rcases hs with hs | hs
        · unfold Time at *; omega
        · exact hs
      have hto : st.to_ = if endDate < st.from_ + partition then endDate
          else st.from_ + partition := by
        rw [hc]; simp [Time.After, Time.Add]
      have hpw : processWindow env cid enc loadFromDB msgs topics endDate partition st
          = (advance endDate partition st, none) := by
        unfold processWindow
        have := hsel j (by show startDate + (j : Int) * partition < endDate; rw [← hj]; exact hlt)
        simp only [subWindow] at this
        rw [← hj, ← hto] at this
        rw [this]
        simp
      rw [hpw]
      dsimp only
      have hstep := windowCount_step st.from_ endDate partition hp hlt
      obtain ⟨st1, h1, h2, h3, h4, h5, h6⟩ := ih (advance endDate partition st)
        (advance_clipped endDate partition st)
        (by
          show endDate ≤ st.to_ ∨ ∃ j' : Nat, st.to_ = startDate + j' * partition
          rw [hto]
          split
          · exact Or.inl (le_refl _)
          · exact Or.inr ⟨j + 1, by rw [hj]; push_cast; ring⟩)
        (by show windowCount st.to_ endDate partition < n; rw [hto]; omega)
      exact ⟨st1, h1, h2, h3, h4, h5, h6⟩

theorem writeArchives_none (env : Env) (cid : Bytes) (enc : Bool) (startDate endDate : Time)
    (w : World) (st : BuildState) (h : st.encodedArchives = []) :
    writeArchives env cid enc startDate endDate w st
      = ({ w with
           published := w.published ++
             [Signal.NoHistoryArchivesCreatedSignal cid (Time.Unix startDate)
                (Time.Unix endDate)] }, none) := by
  unfold writeArchives
  rw [h]
  simp

theorem saveCursor_succeeds (env : Env) (w : World) (from_ : Time)
    (h1 : env.fails .getLastMessageArchiveEndDate = false)
    (h2 : env.fails .saveLastMessageArchiveEndDate = false) :
    saveCursor env w from_
      = ({ w with lastMessageArchiveEndDate := some (uint64 (Time.Unix from_)) }, none) := by
  unfold saveCursor
  rw [h1, h2]
  simp only [Bool.false_eq_true, if_false]
  split
  · rename_i hpos
    cases hl : w.lastMessageArchiveEndDate with
    | none => rw [hl] at hpos; simp at hpos
    | some v => simp
  · rfl

/-! ## Two calls with the same arguments -/

theorem selectMessages_ok_of_processWindow (env : Env) (cid : Bytes) (enc : Bool)
    (loadFromDB : Bool) (msgs : List Message) (topics : List Bytes) (endDate : Time)
    (partition : Duration) (st st1 : BuildState)
    (h : processWindow env cid enc loadFromDB msgs topics endDate partition st = (st1, none)) :
    ∃ selected, selectMessages env loadFromDB msgs topics st.from_ st.to_ = .ok selected ∧
      st1.produced.map (·.archive) = st.produced.map (·.archive) ++
        windowArchives env topics st.from_ st.to_ selected := by
  rcases processWindow_archives env cid enc loadFromDB msgs topics endDate partition st st1 none h
    with ⟨err, _, _, he⟩ | ⟨selected, new, hsel, _, hnewE, hnew⟩
  · simp at he
  · exact ⟨selected, hsel, by rw [hnew, hnewE rfl]⟩

/-- Two window loops over the same range, messages and topics that return
without error add the same archives to their traces. -/
theorem windowLoop_same_archives (env : Env) (cid : Bytes) (enc : Bool) (loadFromDB : Bool)
    (msgs : List Message) (topics : List Bytes) (endDate : Time) (partition : Duration)
    (fuel : Nat) :
    ∀ (fuel' : Nat) (st st' s1 s1' : BuildState), st.from_ = st'.from_ → st.to_ = st'.to_ →
      windowLoop env cid enc loadFromDB msgs topics endDate partition fuel st = some (s1, none) →
      windowLoop env cid enc loadFromDB msgs topics endDate partition fuel' st'
        = some (s1', none) →
      ∃ new, s1.produced.map (·.archive) = st.produced.map (·.archive) ++ new ∧
        s1'.produced.map (·.archive) = st'.produced.map (·.archive) ++ new := by
  induction fuel with
  | zero => intro fuel' st st' s1 s1' _ _ h _; simp [windowLoop] at h
  | succ n ih =>
    intro fuel' st st' s1 s1' hf ht h h'
    cases fuel' with
    | zero => simp [windowLoop] at h'
    | succ n' =>
      unfold windowLoop at h h'
      rw [← hf] at h'
      split at h
      · rename_i hexit
        rw [if_pos hexit] at h'
        simp only [Option.some.injEq, Prod.mk.injEq, and_true] at h h'
        exact ⟨[], by rw [← h]; simp, by rw [← h']; simp⟩
      · rename_i hexit
        rw [if_neg hexit] at h'
        split at h
        · simp at h
        · rename_i st2 h2
          split at h'
          · simp at h'
          · rename_i st2' h2'
            obtain ⟨sel, hsel, ha⟩ := selectMessages_ok_of_processWindow env cid enc loadFromDB
              msgs topics endDate partition st st2 h2
            obtain ⟨sel', hsel', ha'⟩ := selectMessages_ok_of_processWindow env cid enc loadFromDB
              msgs topics endDate partition st' st2' h2'
            rw [← hf, ← ht, hsel] at hsel'
            simp only [Except.ok.injEq] at hsel'
            subst hsel'
            obtain ⟨t1, t2⟩ := processWindow_times env cid enc loadFromDB msgs topics endDate
              partition st st2 h2
            obtain ⟨t1', t2'⟩ := processWindow_times env cid enc loadFromDB msgs topics endDate
              partition st' st2' h2'
            obtain ⟨new, hn, hn'⟩ := ih n' st2 st2' s1 s1' (by rw [t1, t1', ht])
              (by rw [t2, t2', ht]) h h'
            refine ⟨windowArchives env topics st.from_ st.to_ sel ++ new, ?_, ?_⟩
            · rw [hn, ha, List.append_assoc]
            · rw [hn', ha', ← hf, ← ht, List.append_assoc]

/-- Without encryption the encoded bytes and padding of a trace record are
determined by its archive. -/
theorem encoded_of_archive (env : Env) (cid : Bytes) (p q : Produced)
    (hp : p.WellFormed env cid false) (hq : q.WellFormed env cid false)
    (h : p.archive = q.archive) : p.encoded = q.encoded := by
  obtain ⟨_, p2, ⟨plain, p3, p4⟩, _⟩ := hp
  obtain ⟨_, q2, ⟨plain', q3, q4⟩, _⟩ := hq
  simp only [encryptBytes, Bool.false_eq_true, if_false, Except.ok.injEq] at p4 q4
  rw [h, q3] at p3
  simp only [Option.some.injEq] at p3
  have hb : p.encoded.bytes = q.encoded.bytes := by rw [← p4, ← q4, p3]
  have hpad : p.encoded.padding = q.encoded.padding := by rw [p2, q2, hb]
  cases hpe : p.encoded
  cases hqe : q.encoded
  rw [hpe] at hb hpad
  rw [hqe] at hb hpad
  simp only at hb hpad
  rw [hb, hpad]

theorem map_encoded_of_archives (env : Env) (cid : Bytes) (l1 : List Produced) :
    ∀ l2 : List Produced, (∀ p ∈ l1, p.WellFormed env cid false) →
      (∀ p ∈ l2, p.WellFormed env cid false) →
      l1.map (·.archive) = l2.map (·.archive) → l1.map (·.encoded) = l2.map (·.encoded) := by
  induction l1 with
  | nil =>
    intro l2 _ _ h
    cases l2 with
    | nil => rfl
    | cons q l2 => simp at h
  | cons p l1 ih =>
    intro l2 h1 h2 h
    cases l2 with
    | nil => simp at h
    | cons q l2 =>
      simp only [List.map_cons, List.cons.injEq] at h ⊢
      exact ⟨encoded_of_archive env cid p q (h1 p (by simp)) (h2 q (by simp)) h.1,
        ih l2 (fun x hx => h1 x (by simp [hx])) (fun x hx => h2 x (by simp [hx])) h.2⟩

/-- The data file grows by the bytes of the encoded archives. -/
theorem build_data_length (env : Env) (fuel : Nat) (w : World) (cid : Bytes)
    (msgs : List Message) (topics : List Bytes) (startDate endDate : Time)
    (partition : Duration) (enc : Bool) (r : BuildResult)
    (h : createHistoryArchiveTorrent env fuel w cid msgs topics startDate endDate partition enc
      = some r) (hok : r.err = none) :
    (r.world.dataFile.getD []).length
      = (w.dataFile.getD []).length + (dataBytes r.final.encodedArchives).length := by
  rcases build_files env fuel w cid msgs topics startDate endDate partition enc r h hok with
    ⟨he, _, hd, _⟩ | ⟨_, _, _, _, _, _, _, hd, _⟩
  · rw [hd, he]; simp [dataBytes]
  · rw [hd]; simp


/-- Two calls with the same arguments but for the files they start from, both
returning without error, create the same archives. -/
theorem build_same_archives (env : Env) (fuel fuel' : Nat) (w w' : World) (cid : Bytes)
    (msgs : List Message) (topics : List Bytes) (startDate endDate : Time)
    (partition : Duration) (enc : Bool) (r r' : BuildResult)
    (h : createHistoryArchiveTorrent env fuel w cid msgs topics startDate endDate partition enc
      = some r) (hok : r.err = none)
    (h' : createHistoryArchiveTorrent env fuel' w' cid msgs topics startDate endDate partition enc
      = some r') (hok' : r'.err = none) :
    r'.archives = r.archives := by
  obtain ⟨w1, st1, _, hs, hl, _⟩ := build_success env fuel w cid msgs topics startDate endDate
    partition enc r h hok
  obtain ⟨w1', st1', _, hs', hl', _⟩ := build_success env fuel' w' cid msgs topics startDate
    endDate partition enc r' h' hok'
  obtain ⟨_, _, hst1, _⟩ := setup_ok env w w1 cid startDate endDate partition st1 hs
  obtain ⟨_, _, hst1', _⟩ := setup_ok env w' w1' cid startDate endDate partition st1' hs'
  obtain ⟨new, hn, hn'⟩ := windowLoop_same_archives env cid enc _ msgs topics endDate partition
    fuel fuel' st1 st1' r.final r'.final (by rw [hst1, hst1']) (by rw [hst1, hst1']) hl hl'
  unfold BuildResult.archives
  rw [hn, hn', hst1, hst1']

theorem dataBytes_length_pos (env : Env) (cid : Bytes) (enc : Bool) (ps : List Produced)
    (hp : 0 < env.pieceLength) (hW : ∀ p ∈ ps, p.WellFormed env cid enc) (hne : ps ≠ []) :
    0 < (dataBytes (ps.map (·.encoded))).length := by
  cases ps with
  | nil => exact absurd rfl hne
  | cons p ps =>
    obtain ⟨s1, _, s3, _⟩ := WellFormed_sizes env cid enc p hp (hW p (by simp))
    rw [dataBytes_eq]
    simp only [List.map_cons, List.flatMap_cons, List.length_append, List.length_replicate]
    unfold Produced.written at s1
    omega

/-! ## Oversized messages -/

theorem foldl_chunkStep_oversized (mx : Int) (ms : List Message)
    (h : ∀ m ∈ ms, msgSize m > mx) (st : ChunkState) :
    ms.foldl (chunkStep mx) st = st := by
  induction ms with
  | nil => rfl
  | cons m ms ih =>
    rw [List.foldl_cons]
    have hm : msgSize m > mx := h m (by simp)
    have : chunkStep mx st m = st := by simp [chunkStep, hm]
    rw [this]
    exact ih (fun x hx => h x (by simp [hx]))

/-- Messages that are all too big leave one chunk, which is empty. -/
theorem chunkMessages_all_oversized (mx : Int) (ms : List Message)
    (h : ∀ m ∈ ms, msgSize m > mx) : chunkMessages mx ms = [[]] := by
  unfold chunkMessages
  rw [foldl_chunkStep_oversized mx ms h]
  rfl

/-! ## The persistence gateway -/

theorem encodeChunk_withGateway (env : Env)
    (g : List Bytes → Nat → Nat → Option (List Message)) (cid : Bytes) (enc : Bool)
    (topics : List Bytes) (st : BuildState) (c : List Message) :
    encodeChunk (env.withGateway g) cid enc topics st c = encodeChunk env cid enc topics st c :=
  rfl

theorem encodeChunks_withGateway (env : Env)
    (g : List Bytes → Nat → Nat → Option (List Message)) (cid : Bytes) (enc : Bool)
    (topics : List Bytes) (chunks : List (List Message)) :
    ∀ st, encodeChunks (env.withGateway g) cid enc topics chunks st
      = encodeChunks env cid enc topics chunks st := by
  induction chunks with
  | nil => intro st; rfl
  | cons c cs ih =>
    intro st
    unfold encodeChunks
    rw [encodeChunk_withGateway]
    split
    · rfl
    · exact ih _

theorem processWindow_withGateway (env : Env)
    (g : List Bytes → Nat → Nat → Option (List Message)) (cid : Bytes) (enc : Bool)
    (msgs : List Message) (topics : List Bytes) (endDate : Time) (partition : Duration)
    (st : BuildState) :
    processWindow (env.withGateway g) cid enc false msgs topics endDate partition st
      = processWindow env cid enc false msgs topics endDate partition st := by
  unfold processWindow
  have hsel : selectMessages (env.withGateway g) false msgs topics st.from_ st.to_
      = selectMessages env false msgs topics st.from_ st.to_ := rfl
  rw [hsel]
  split
  · rfl
  · split
    · rfl
    · rw [encodeChunks_withGateway]
      rfl

theorem windowLoop_withGateway (env : Env)
    (g : List Bytes → Nat → Nat → Option (List Message)) (cid : Bytes) (enc : Bool)
    (msgs : List Message) (topics : List Bytes) (endDate : Time) (partition : Duration)
    (fuel : Nat) :
    ∀ st, windowLoop (env.withGateway g) cid enc false msgs topics endDate partition fuel st
      = windowLoop env cid enc false msgs topics endDate partition fuel st := by
  induction fuel with
  | zero => intro st; rfl
  | succ n ih =>
    intro st
    unfold windowLoop
    rw [processWindow_withGateway]
    split
    · rfl
    · split
      · rfl
      · exact ih _

/-- With a non-empty explicit list the builder does not depend on the gateway. -/
theorem build_withGateway (env : Env)
    (g : List Bytes → Nat → Nat → Option (List Message)) (fuel : Nat) (w : World) (cid : Bytes)
    (msgs : List Message) (topics : List Bytes) (startDate endDate : Time)
    (partition : Duration) (enc : Bool) (hmsgs : msgs ≠ []) :
    createHistoryArchiveTorrent (env.withGateway g) fuel w cid msgs topics startDate endDate
        partition enc
      = createHistoryArchiveTorrent env fuel w cid msgs topics startDate endDate partition enc := by
  have hexp : decide (msgs.length = 0) = false := by
    cases msgs with
    | nil => exact absurd rfl hmsgs
    | cons _ _ => simp
  unfold createHistoryArchiveTorrent
  dsimp only
  rw [hexp]
  have hsetup : setup (env.withGateway g) w cid startDate endDate partition
      = setup env w cid startDate endDate partition := rfl
  rw [hsetup]
  split
  · rfl
  · rw [windowLoop_withGateway]
    rfl

/-! ## The loop variable at exit and the cursor -/

/-- Every pass keeps `from` and `to` at or before `endDate`. -/
theorem windowLoop_from_le (env : Env) (cid : Bytes) (enc : Bool) (loadFromDB : Bool)
    (msgs : List Message) (topics : List Bytes) (endDate : Time) (partition : Duration)
    (fuel : Nat) (st st1 : BuildState) (hfrom : st.from_ ≤ endDate) (hto : st.to_ ≤ endDate)
    (h : windowLoop env cid enc loadFromDB msgs topics endDate partition fuel st
      = some (st1, none)) :
    st1.from_ ≤ endDate := by
  have key := windowLoop_invariant_ok env cid enc loadFromDB msgs topics endDate partition
    (fun s => s.from_ ≤ endDate ∧ s.to_ ≤ endDate)
    (by
      intro s s1 hs _ hstep
      obtain ⟨h1, h2⟩ := processWindow_times env cid enc loadFromDB msgs topics endDate
        partition s s1 hstep
      refine ⟨by rw [h1]; exact hs.2, ?_⟩
      rw [h2]
      split
      · exact le_refl _
      · rename_i hafter
        simp [Time.After, Time.Add] at hafter ⊢
        exact hafter)
    fuel st st1 ⟨hfrom, hto⟩ h
  exact key.1

theorem initialState_to_le (startDate endDate : Time) (partition : Duration) :
    (initialState startDate endDate partition).to_ ≤ endDate := by
  show (if Time.After (Time.Add startDate partition) endDate then endDate
        else Time.Add startDate partition) ≤ endDate
  split
  · exact le_refl _
  · rename_i hafter
    simp [Time.After, Time.Add] at hafter ⊢
    exact hafter

/-- After a call without error for a range that is not empty, `from` is `endDate`. -/
theorem build_final_from_lt (env : Env) (fuel : Nat) (w : World) (cid : Bytes)
    (msgs : List Message) (topics : List Bytes) (startDate endDate : Time)
    (partition : Duration) (enc : Bool) (r : BuildResult)
    (h : createHistoryArchiveTorrent env fuel w cid msgs topics startDate endDate partition enc
      = some r) (hok : r.err = none) (hle : startDate ≤ endDate) :
    r.final.from_ = endDate := by
  obtain ⟨w1, st1, w2, hsetup, hloop, _, _, _⟩ := build_success env fuel w cid msgs topics
    startDate endDate partition enc r h hok
  obtain ⟨idx, _, hst1, _⟩ := setup_ok env w w1 cid startDate endDate partition st1 hsetup
  have hfrom : st1.from_ ≤ endDate := by rw [hst1]; exact hle
  have hto : st1.to_ ≤ endDate := by
    rw [hst1]; exact initialState_to_le startDate endDate partition
  have h1 := windowLoop_from_le env cid enc _ msgs topics endDate partition fuel st1 r.final
    hfrom hto hloop
  have h2 := windowLoop_exit env cid enc _ msgs topics endDate partition fuel st1 r.final hloop
  exact le_antisymm h1 h2

/-- After a call without error for an empty range, `from` is still `startDate`. -/
theorem build_final_from_ge (env : Env) (fuel : Nat) (w : World) (cid : Bytes)
    (msgs : List Message) (topics : List Bytes) (startDate endDate : Time)
    (partition : Duration) (enc : Bool) (r : BuildResult)
    (h : createHistoryArchiveTorrent env fuel w cid msgs topics startDate endDate partition enc
      = some r) (hok : r.err = none) (hge : endDate ≤ startDate) :
    r.final.from_ = startDate := by
  obtain ⟨w1, st1, w2, hsetup, hloop, _, _, _⟩ := build_success env fuel w cid msgs topics
    startDate endDate partition enc r h hok
  obtain ⟨idx, _, hst1, _⟩ := setup_ok env w w1 cid startDate endDate partition st1 hsetup
  have hfrom : st1.from_ = startDate := by rw [hst1]; rfl
  cases fuel with
  | zero => simp [windowLoop] at hloop
  | succ n =>
    unfold windowLoop at hloop
    have hexit : (Time.Equal st1.from_ endDate || Time.After st1.from_ endDate) = true := by
      rw [hfrom]
      simp [Time.Equal, Time.After]
      unfold Time at *
      omega
    rw [if_pos hexit] at hloop
    simp only [Option.some.injEq, Prod.mk.injEq, and_true] at hloop
    rw [← hloop, hfrom]

/-- The cursor a call without error persists is `uint64(from.Unix())`. -/
theorem build_cursor (env : Env) (fuel : Nat) (w : World) (cid : Bytes)
    (msgs : List Message) (topics : List Bytes) (startDate endDate : Time)
    (partition : Duration) (enc : Bool) (r : BuildResult)
    (h : createHistoryArchiveTorrent env fuel w cid msgs topics startDate endDate partition enc
      = some r) (hok : r.err = none) :
    r.world.lastMessageArchiveEndDate = some (uint64 (Time.Unix r.final.from_)) := by
  obtain ⟨w1, st1, w2, _, _, _, _, hsave⟩ := build_success env fuel w cid msgs topics
    startDate endDate partition enc r h hok
  rw [saveCursor_ok env w2 r.world _ hsave]

/-! ## Errors of the window loop -/

theorem encryptBytes_err (env : Env) (cid : Bytes) (enc : Bool) (plain : Bytes) (e : BuildError)
    (h : encryptBytes env cid enc plain = .error e) :
    e = .buildHashRatchetMessage ∨ e = .marshalProtocolMessage := by
  unfold encryptBytes at h
  split at h
  · split at h
    · simp only [Except.error.injEq] at h; exact Or.inl h.symm
    · split at h
      · simp only [Except.error.injEq] at h; exact Or.inr h.symm
      · simp at h
  · simp at h

theorem encodeChunk_err_kind (env : Env) (cid : Bytes) (enc : Bool) (topics : List Bytes)
    (st st1 : BuildState) (ms : List Message) (e : BuildError)
    (h : encodeChunk env cid enc topics st ms = (st1, some e)) : e.inLoop := by
  unfold encodeChunk at h
  dsimp only at h
  unfold BuildError.inLoop
  split at h
  · simp only [Prod.mk.injEq, Option.some.injEq] at h
    exact Or.inr (Or.inl h.2.symm)
  · split at h
    · rename_i e1 he
      simp only [Prod.mk.injEq, Option.some.injEq] at h
      rw [← h.2]
      rcases encryptBytes_err env cid enc _ e1 he with h1 | h1
      · exact Or.inr (Or.inr (Or.inl h1))
      · exact Or.inr (Or.inr (Or.inr (Or.inl h1)))
    · split at h
      · simp only [Prod.mk.injEq, Option.some.injEq] at h
        exact Or.inr (Or.inr (Or.inr (Or.inr h.2.symm)))
      · simp at h

theorem encodeChunks_err_kind (env : Env) (cid : Bytes) (enc : Bool) (topics : List Bytes)
    (chunks : List (List Message)) :
    ∀ (st st1 : BuildState) (e : BuildError),
      encodeChunks env cid enc topics chunks st = (st1, some e) → e.inLoop := by
  induction chunks with
  | nil => intro st st1 e h; simp [encodeChunks] at h
  | cons c cs ih =>
    intro st st1 e h
    unfold encodeChunks at h
    split at h
    · rename_i st2 e2 h2
      simp only [Prod.mk.injEq, Option.some.injEq] at h
      rw [← h.2]
      exact encodeChunk_err_kind env cid enc topics st st2 c e2 h2
    · exact ih _ st1 e h

theorem processWindow_err_kind (env : Env) (cid : Bytes) (enc : Bool) (loadFromDB : Bool)
    (msgs : List Message) (topics : List Bytes) (endDate : Time) (partition : Duration)
    (st st1 : BuildState) (e : BuildError)
    (h : processWindow env cid enc loadFromDB msgs topics endDate partition st = (st1, some e)) :
    e.inLoop := by
  unfold processWindow at h
  split at h
  · rename_i e1 hsel
    simp only [Prod.mk.injEq, Option.some.injEq] at h
    rw [← h.2]
    unfold selectMessages at hsel
    split at hsel
    · split at hsel
      · simp only [Except.error.injEq] at hsel
        exact Or.inl hsel.symm
      · simp at hsel
    · simp at hsel
  · split at h
    · simp at h
    · split at h
      · rename_i st2 e2 h2
        simp only [Prod.mk.injEq, Option.some.injEq] at h
        rw [← h.2]
        exact encodeChunks_err_kind env cid enc _ _ st st2 e2 h2
      · simp at h

/-- An error of the window loop is one of loading, serialising or encrypting. -/
theorem windowLoop_err_kind (env : Env) (cid : Bytes) (enc : Bool) (loadFromDB : Bool)
    (msgs : List Message) (topics : List Bytes) (endDate : Time) (partition : Duration)
    (fuel : Nat) :
    ∀ (st st1 : BuildState) (e : BuildError),
      windowLoop env cid enc loadFromDB msgs topics endDate partition fuel st
        = some (st1, some e) → e.inLoop := by
  induction fuel with
  | zero => intro st st1 e h; simp [windowLoop] at h
  | succ n ih =>
    intro st st1 e h
    unfold windowLoop at h
    split at h
    · simp at h
    · split at h
      · rename_i st2 e2 h2
        simp only [Option.some.injEq, Prod.mk.injEq] at h
        rw [← h.2]
        exact processWindow_err_kind env cid enc loadFromDB msgs topics endDate partition st st2
          e2 h2
      · exact ih _ st1 e h

/-! ## Errors of the write phase -/

/-- Where the write phase can stop, and what it has written by then. -/
theorem writeArchives_err (env : Env) (cid : Bytes) (enc : Bool) (startDate endDate : Time)
    (w w2 : World) (st : BuildState) (err : BuildError)
    (h : writeArchives env cid enc startDate endDate w st = (w2, some err)) :
    w2 = w ∨
    (st.encodedArchives ≠ [] ∧ ∃ plain indexBytes,
      env.marshalIndex st.wakuMessageArchiveIndex = some plain ∧
      encryptBytes env cid enc plain = .ok indexBytes ∧
      ((err = .openData ∧ w2 = { w with indexFile := some indexBytes }) ∨
       (err = .writeData ∧
         w2 = { w with indexFile := some indexBytes, dataFile := some (w.dataFile.getD []) }) ∨
       ((err = .buildTorrent ∨ err = .writeTorrent) ∧
         w2 = { w with
                indexFile := some indexBytes
                dataFile := some (w.dataFile.getD [] ++ dataBytes st.encodedArchives) }))) := by
  unfold writeArchives at h
  split at h
  · rename_i hlen
    have hne : st.encodedArchives ≠ [] := by
      intro he; rw [he] at hlen; simp at hlen
    split at h
    · simp only [Prod.mk.injEq] at h; exact Or.inl h.1.symm
    · rename_i plain hplain
      split at h
      · simp only [Prod.mk.injEq] at h; exact Or.inl h.1.symm
      · rename_i indexBytes henc
        split at h
        · simp only [Prod.mk.injEq] at h; exact Or.inl h.1.symm
        · dsimp only at h
          refine Or.inr ⟨hne, plain, indexBytes, hplain, henc, ?_⟩
          split at h
          · simp only [Prod.mk.injEq, Option.some.injEq] at h
            exact Or.inl ⟨h.2.symm, h.1.symm⟩
          · split at h
            · simp only [Prod.mk.injEq, Option.some.injEq] at h
              exact Or.inr (Or.inl ⟨h.2.symm, h.1.symm⟩)
            · split at h
              · simp only [Prod.mk.injEq, Option.some.injEq] at h
                refine Or.inr (Or.inr ⟨Or.inl h.2.symm, ?_⟩)
                rw [← h.1]; simp
              · split at h
                · simp only [Prod.mk.injEq, Option.some.injEq] at h
                  refine Or.inr (Or.inr ⟨Or.inr h.2.symm, ?_⟩)
                  rw [← h.1]; simp
                · simp at h
  · simp at h

theorem saveCursor_err (env : Env) (w w3 : World) (from_ : Time) (err : BuildError)
    (h : saveCursor env w from_ = (w3, some err)) : w3 = w := by
  unfold saveCursor at h
  split at h
  · simp only [Prod.mk.injEq] at h; exact h.1.symm
  · dsimp only at h
    split at h
    · simp only [Prod.mk.injEq] at h; exact h.1.symm
    · split at h <;> simp at h

/-! ## The order of the existing index map -/

theorem mapInsert_perm {V : Type} (m m' : List (String × V)) (k : String) (v : V)
    (h : m'.Perm m) : (mapInsert m' k v).Perm (mapInsert m k v) := by
  unfold mapInsert
  exact (h.filter _).append_right _

theorem SameMap_refl (st : BuildState) : st.SameMap st := ⟨rfl, List.Perm.refl _⟩

theorem SameMap_fields (st st' : BuildState) (h : st.SameMap st') :
    st'.from_ = st.from_ ∧ st'.to_ = st.to_ ∧ st'.offset = st.offset ∧
      st'.archiveIDs = st.archiveIDs ∧ st'.encodedArchives = st.encodedArchives ∧
      st'.produced = st.produced := by
  obtain ⟨hf, _⟩ := h
  obtain ⟨f, t, o, ids, idx, encs, prod⟩ := st
  obtain ⟨f', t', o', ids', idx', encs', prod'⟩ := st'
  simp only [BuildState.forget, BuildState.mk.injEq] at hf
  obtain ⟨h1, h2, h3, h4, _, h5, h6⟩ := hf
  exact ⟨h1, h2, h3, h4, h5, h6⟩

theorem SameMap_advance (endDate : Time) (partition : Duration) (st st' : BuildState)
    (h : st.SameMap st') : (advance endDate partition st).SameMap (advance endDate partition st') := by
  obtain ⟨hf, hp⟩ := h
  obtain ⟨f, t, o, ids, idx, encs, prod⟩ := st
  obtain ⟨f', t', o', ids', idx', encs', prod'⟩ := st'
  simp only [BuildState.forget, BuildState.mk.injEq] at hf
  obtain ⟨rfl, rfl, rfl, rfl, _, rfl, rfl⟩ := hf
  exact ⟨rfl, hp⟩

/-- One pass of the chunk loop from two states with the same map ends with the
same error, in two states with the same map. -/
theorem encodeChunk_sameMap (env : Env) (cid : Bytes) (enc : Bool) (topics : List Bytes)
    (st st' st1 : BuildState) (e : Option BuildError) (c : List Message)
    (hR : st.SameMap st') (h : encodeChunk env cid enc topics st c = (st1, e)) :
    ∃ st1', encodeChunk env cid enc topics st' c = (st1', e) ∧ st1.SameMap st1' := by
  obtain ⟨hf, hp⟩ := hR
  obtain ⟨f, t, o, ids, idx, encs, prod⟩ := st
  obtain ⟨f', t', o', ids', idx', encs', prod'⟩ := st'
  simp only [BuildState.forget, BuildState.mk.injEq] at hf
  obtain ⟨rfl, rfl, rfl, rfl, _, rfl, rfl⟩ := hf
  unfold encodeChunk at h ⊢
  dsimp only at h ⊢
  cases hm : env.marshalArchive (createWakuMessageArchive f' t' c topics) with
  | none =>
    simp only [hm, Prod.mk.injEq] at h ⊢
    refine ⟨_, ⟨rfl, h.2⟩, ?_⟩
    rw [← h.1]; exact ⟨rfl, hp⟩
  | some plain =>
    simp only [hm] at h ⊢
    cases he : encryptBytes env cid enc plain with
    | error e1 =>
      simp only [he, Prod.mk.injEq] at h ⊢
      refine ⟨_, ⟨rfl, h.2⟩, ?_⟩
      rw [← h.1]; exact ⟨rfl, hp⟩
    | ok encodedArchive =>
      simp only [he] at h ⊢
      cases hi : env.marshalIndexMetadata
          (indexEntry env (createWakuMessageArchive f' t' c topics).Metadata o' encodedArchive) with
      | none =>
        simp only [hi, Prod.mk.injEq] at h ⊢
        refine ⟨_, ⟨rfl, h.2⟩, ?_⟩
        rw [← h.1]; exact ⟨rfl, hp⟩
      | some entryBytes =>
        simp only [hi, Prod.mk.injEq] at h ⊢
        refine ⟨_, ⟨rfl, h.2⟩, ?_⟩
        rw [← h.1]
        exact ⟨rfl, mapInsert_perm _ _ _ _ hp⟩

theorem encodeChunks_sameMap (env : Env) (cid : Bytes) (enc : Bool) (topics : List Bytes)
    (chunks : List (List Message)) :
    ∀ (st st' st1 : BuildState) (e : Option BuildError), st.SameMap st' →
      encodeChunks env cid enc topics chunks st = (st1, e) →
      ∃ st1', encodeChunks env cid enc topics chunks st' = (st1', e) ∧ st1.SameMap st1' := by
  induction chunks with
  | nil =>
    intro st st' st1 e hR h
    simp only [encodeChunks, Prod.mk.injEq] at h ⊢
    exact ⟨st', ⟨rfl, h.2⟩, by rw [← h.1]; exact hR⟩
  | cons c cs ih =>
    intro st st' st1 e hR h
    unfold encodeChunks at h ⊢
    cases hc : encodeChunk env cid enc topics st c with
    | mk st2 e2 =>
      obtain ⟨st2', hc', hR2⟩ := encodeChunk_sameMap env cid enc topics st st' st2 e2 c hR hc
      rw [hc] at h
      rw [hc']
      cases e2 with
      | some err =>
        simp only [Prod.mk.injEq] at h ⊢
        exact ⟨st2', ⟨rfl, h.2⟩, by rw [← h.1]; exact hR2⟩
      | none => exact ih st2 st2' st1 e hR2 h

theorem processWindow_sameMap (env : Env) (cid : Bytes) (enc : Bool) (loadFromDB : Bool)
    (msgs : List Message) (topics : List Bytes) (endDate : Time) (partition : Duration)
    (st st' st1 : BuildState) (e : Option BuildError) (hR : st.SameMap st')
    (h : processWindow env cid enc loadFromDB msgs topics endDate partition st = (st1, e)) :
    ∃ st1', processWindow env cid enc loadFromDB msgs topics endDate partition st' = (st1', e) ∧
      st1.SameMap st1' := by
  obtain ⟨hf, ht, _⟩ := SameMap_fields st st' hR
  unfold processWindow at h ⊢
  rw [hf, ht]
  cases hs : selectMessages env loadFromDB msgs topics st.from_ st.to_ with
  | error e1 =>
    simp only [hs, Prod.mk.injEq] at h ⊢
    exact ⟨st', ⟨rfl, h.2⟩, by rw [← h.1]; exact hR⟩
  | ok messages =>
    simp only [hs] at h ⊢
    by_cases hlen : messages.length = 0
    · simp only [hlen, if_true, Prod.mk.injEq] at h ⊢
      exact ⟨_, ⟨rfl, h.2⟩, by rw [← h.1]; exact SameMap_advance endDate partition st st' hR⟩
    · simp only [hlen, if_false] at h ⊢
      cases hc : encodeChunks env cid enc (topicsAsByteArrays topics)
          (chunkMessages env.maxArchiveSizeInBytes messages) st with
      | mk st2 e2 =>
        obtain ⟨st2', hc', hR2⟩ := encodeChunks_sameMap env cid enc _ _ st st' st2 e2 hR hc
        rw [hc] at h
        rw [hc']
        cases e2 with
        | some err =>
          simp only [Prod.mk.injEq] at h ⊢
          exact ⟨st2', ⟨rfl, h.2⟩, by rw [← h.1]; exact hR2⟩
        | none =>
          simp only [Prod.mk.injEq] at h ⊢
          exact ⟨_, ⟨rfl, h.2⟩, by
            rw [← h.1]; exact SameMap_advance endDate partition st2 st2' hR2⟩

/-- The window loop from two states with the same map ends with the same error,
in two states with the same map. -/
theorem windowLoop_sameMap (env : Env) (cid : Bytes) (enc : Bool) (loadFromDB : Bool)
    (msgs : List Message) (topics : List Bytes) (endDate : Time) (partition : Duration)
    (fuel : Nat) :
    ∀ (st st' st1 : BuildState) (e : Option BuildError), st.SameMap st' →
      windowLoop env cid enc loadFromDB msgs topics endDate partition fuel st = some (st1, e) →
      ∃ st1', windowLoop env cid enc loadFromDB msgs topics endDate partition fuel st'
          = some (st1', e) ∧ st1.SameMap st1' := by
  induction fuel with
  | zero => intro st st' st1 e _ h; simp [windowLoop] at h
  | succ n ih =>
    intro st st' st1 e hR h
    obtain ⟨hf, _⟩ := SameMap_fields st st' hR
    unfold windowLoop at h ⊢
    rw [hf]
    by_cases hexit : (Time.Equal st.from_ endDate || Time.After st.from_ endDate) = true
    · rw [if_pos hexit] at h ⊢
      simp only [Option.some.injEq, Prod.mk.injEq] at h ⊢
      exact ⟨st', ⟨rfl, h.2⟩, by rw [← h.1]; exact hR⟩
    · rw [if_neg hexit] at h ⊢
      cases hc : processWindow env cid enc loadFromDB msgs topics endDate partition st with
      | mk st2 e2 =>
        obtain ⟨st2', hc', hR2⟩ := processWindow_sameMap env cid enc loadFromDB msgs topics
          endDate partition st st' st2 e2 hR hc
        rw [hc] at h
        rw [hc']
        cases e2 with
        | some err =>
          simp only [Option.some.injEq, Prod.mk.injEq] at h ⊢
          exact ⟨st2', ⟨rfl, h.2⟩, by rw [← h.1]; exact hR2⟩
        | none => exact ih st2 st2' st1 e hR2 h

theorem windowLoop_withIndexOrder (env : Env)
    (reorder : WakuMessageArchiveIndex → WakuMessageArchiveIndex) (cid : Bytes) (enc : Bool)
    (loadFromDB : Bool) (msgs : List Message) (topics : List Bytes) (endDate : Time)
    (partition : Duration) (fuel : Nat) :
    ∀ st : BuildState,
      windowLoop (env.withIndexOrder reorder) cid enc loadFromDB msgs topics endDate partition
          fuel st
        = windowLoop env cid enc loadFromDB msgs topics endDate partition fuel st := by
  induction fuel with
  | zero => intro st; rfl
  | succ n ih =>
    intro st
    unfold windowLoop
    have hp : processWindow (env.withIndexOrder reorder) cid enc loadFromDB msgs topics endDate
        partition st = processWindow env cid enc loadFromDB msgs topics endDate partition st := by
      unfold processWindow
      have hs : selectMessages (env.withIndexOrder reorder) loadFromDB msgs topics st.from_ st.to_
          = selectMessages env loadFromDB msgs topics st.from_ st.to_ := rfl
      rw [hs]
      split
      · rfl
      · split
        · rfl
        · have hcs : ∀ (chunks : List (List Message)) (s : BuildState),
              encodeChunks (env.withIndexOrder reorder) cid enc (topicsAsByteArrays topics) chunks s
                = encodeChunks env cid enc (topicsAsByteArrays topics) chunks s := by
            intro chunks
            induction chunks with
            | nil => intro s; rfl
            | cons c cs ihc =>
              intro s
              unfold encodeChunks
              have hc : encodeChunk (env.withIndexOrder reorder) cid enc
                  (topicsAsByteArrays topics) s c
                    = encodeChunk env cid enc (topicsAsByteArrays topics) s c := rfl
              rw [hc]
              split
              · rfl
              · exact ihc _
          show (match encodeChunks (env.withIndexOrder reorder) cid enc (topicsAsByteArrays topics)
              (chunkMessages env.maxArchiveSizeInBytes _) st with
            | (st1, some e) => (st1, some e)
            | (st1, none) => (advance endDate partition st1, none)) = _
          rw [hcs]
    rw [hp]
    split
    · rfl
    · split
      · rfl
      · exact ih _

/-- The index the builder starts from, read with another iteration order, is a
rearrangement of the one read with the original order. -/
theorem existingArchives_withIndexOrder (env : Env)
    (reorder : WakuMessageArchiveIndex → WakuMessageArchiveIndex)
    (hperm : ∀ l, (reorder l).Perm l) (w : World) (cid : Bytes) (idx : WakuMessageArchiveIndex)
    (h : existingArchives env w cid = .ok idx) :
    ∃ idx', existingArchives (env.withIndexOrder reorder) w cid = .ok idx' ∧ idx'.Perm idx := by
  unfold existingArchives at h ⊢
  split at h
  · rename_i hsome
    rw [if_pos hsome]
    unfold LoadHistoryArchiveIndexFromFile at h ⊢
    have hfails : (env.withIndexOrder reorder).fails = env.fails := rfl
    rw [hfails]
    split at h
    · simp at h
    · rename_i indexData hdata
      have hu : ∀ d, (env.withIndexOrder reorder).unmarshalIndex d
          = (env.unmarshalIndex d).map reorder := fun _ => rfl
      rw [hu]
      split at h
      · simp at h
      · rename_i archives harch
        rw [harch]
        dsimp only [Option.map]
        have hlen : (reorder archives).length = archives.length := (hperm archives).length_eq
        rw [hlen]
        split at h
        · rename_i hcond
          rw [if_pos hcond]
          have h1 : (env.withIndexOrder reorder).unmarshalProtocolMessage
              = env.unmarshalProtocolMessage := rfl
          have h2 : (env.withIndexOrder reorder).decompressPubkey = env.decompressPubkey := rfl
          have h3 : (env.withIndexOrder reorder).handleMessage = env.handleMessage := rfl
          rw [h1, h2, h3]
          split at h
          · simp at h
          · rename_i pm hpm
            split at h
            · simp at h
            · rename_i pk hpk
              split at h
              · simp at h
              · rename_i dec hdec
                rw [hu]
                split at h
                · simp at h
                · rename_i decrypted hdecr
                  rw [hdecr]
                  simp only [Except.ok.injEq] at h
                  rw [← h]
                  exact ⟨_, rfl, hperm _⟩
        · rename_i hcond
          rw [if_neg hcond]
          simp only [Except.ok.injEq] at h
          rw [← h]
          exact ⟨_, rfl, hperm _⟩
  · rename_i hnone
    rw [if_neg hnone]
    simp only [Except.ok.injEq] at h
    exact ⟨[], rfl, by rw [← h]⟩

/-! ## The write phase and the order of the map -/

theorem writeArchives_congr (env : Env) (cid : Bytes) (enc : Bool) (startDate endDate : Time)
    (w : World) (st st' : BuildState)
    (h1 : st'.encodedArchives = st.encodedArchives)
    (h2 : env.marshalIndex st'.wakuMessageArchiveIndex
      = env.marshalIndex st.wakuMessageArchiveIndex) :
    writeArchives env cid enc startDate endDate w st'
      = writeArchives env cid enc startDate endDate w st := by
  unfold writeArchives
  rw [h1, h2]

/-- Two calls that differ in the order in which the existing index map is
iterated, and return without error, end the window loop in states with the
same map. -/
theorem build_sameMap (env : Env)
    (reorder : WakuMessageArchiveIndex → WakuMessageArchiveIndex)
    (hperm : ∀ l, (reorder l).Perm l) (fuel : Nat) (w : World) (cid : Bytes)
    (msgs : List Message) (topics : List Bytes) (startDate endDate : Time)
    (partition : Duration) (enc : Bool) (idx : WakuMessageArchiveIndex) (r r' : BuildResult)
    (hidx : existingArchives env w cid = .ok idx) (hnodup : (idx.map Prod.fst).Nodup)
    (h : createHistoryArchiveTorrent env fuel w cid msgs topics startDate endDate partition enc
      = some r)
    (h' : createHistoryArchiveTorrent (env.withIndexOrder reorder) fuel w cid msgs topics
      startDate endDate partition enc = some r')
    (hok : r.err = none) (hok' : r'.err = none) :
    r.final.SameMap r'.final := by
  obtain ⟨w1, st1, w2, hsetup, hloop, _, _, _⟩ := build_success env fuel w cid msgs topics
    startDate endDate partition enc r h hok
  obtain ⟨w1', st1', w2', hsetup', hloop', _, _, _⟩ := build_success _ fuel w cid msgs topics
    startDate endDate partition enc r' h' hok'
  obtain ⟨idx0, hidx0, hst1, _⟩ := setup_ok env w w1 cid startDate endDate partition st1 hsetup
  obtain ⟨idx0', hidx0', hst1', _⟩ := setup_ok _ w w1' cid startDate endDate partition st1' hsetup'
  rw [hidx] at hidx0
  simp only [Except.ok.injEq] at hidx0
  subst hidx0
  obtain ⟨idx', hidx', hp⟩ := existingArchives_withIndexOrder env reorder hperm w cid idx hidx
  rw [hidx'] at hidx0'
  simp only [Except.ok.injEq] at hidx0'
  subst hidx0'
  have hnodup' : (idx'.map Prod.fst).Nodup := (hp.map Prod.fst).nodup_iff.2 hnodup
  have hR : st1.SameMap st1' := by
    rw [hst1, hst1']
    refine ⟨?_, ?_⟩
    · simp only [BuildState.forget, existingIndex_fst_perm idx idx' hp]
    · show (existingIndex idx').2.Perm (existingIndex idx).2
      rw [existingIndex_snd idx hnodup, existingIndex_snd idx' hnodup']
      exact hp
  rw [windowLoop_withIndexOrder] at hloop'
  obtain ⟨st2', hl2, hR2⟩ := windowLoop_sameMap env cid enc _ msgs topics endDate partition fuel
    st1 st1' r.final none hR hloop
  rw [hloop'] at hl2
  simp only [Option.some.injEq, Prod.mk.injEq, and_true] at hl2
  rw [hl2]
  exact hR2

/-! ## The task registry -/

theorem runScheduler_append (calls : List SchedulerCall) (x : SchedulerCall) :
    runScheduler (calls ++ [x]) = schedulerStep (runScheduler calls) x := by
  unfold runScheduler
  rw [List.foldl_append]; rfl

theorem startedNotStopped_append (calls : List SchedulerCall) (x : SchedulerCall) (c : Bytes) :
    startedNotStopped (calls ++ [x]) c = activeStep c (startedNotStopped calls c) x := by
  unfold startedNotStopped
  rw [List.foldl_append]; rfl

theorem foldl_stop (ks : List Bytes) :
    ∀ registry : TaskRegistry,
      ks.foldl StopHistoryArchiveTasksInterval registry
        = registry.filter (fun p => decide (p.1 ∉ ks)) := by
  induction ks with
  | nil => intro registry; simp
  | cons k ks ih =>
    intro registry
    rw [List.foldl_cons, ih]
    unfold StopHistoryArchiveTasksInterval
    rw [List.filter_filter]
    congr 1
    funext p
    by_cases h1 : p.1 = k <;> by_cases h2 : p.1 ∈ ks <;> simp [h1, h2]

/-- Stopping every registered community empties the registry. -/
theorem stopAll_empty (registry : TaskRegistry) :
    stopHistoryArchiveTasksIntervals registry = [] := by
  unfold stopHistoryArchiveTasksIntervals
  rw [foldl_stop, List.filter_eq_nil_iff]
  intro p hp
  have : p.1 ∈ registry.map Prod.fst := List.mem_map.2 ⟨p, hp, rfl⟩
  simp [this]

theorem start_running (registry : TaskRegistry) (community : Bytes) (task : Nat)
    (h : community ∈ registry.map Prod.fst) :
    StartHistoryArchiveTasksInterval registry community task = registry := by
  unfold StartHistoryArchiveTasksInterval
  have : registry.any (fun p => p.1 == community) = true := by
    rw [List.any_eq_true]
    obtain ⟨p, hp, he⟩ := List.mem_map.1 h
    exact ⟨p, hp, by simp [he]⟩
  rw [if_pos this]

theorem start_idle (registry : TaskRegistry) (community : Bytes) (task : Nat)
    (h : community ∉ registry.map Prod.fst) :
    StartHistoryArchiveTasksInterval registry community task = registry ++ [(community, task)] := by
  unfold StartHistoryArchiveTasksInterval
  have : ¬ registry.any (fun p => p.1 == community) = true := by
    rw [List.any_eq_true]
    rintro ⟨p, hp, he⟩
    exact h (List.mem_map.2 ⟨p, hp, by simpa using he⟩)
  rw [if_neg this]

/-- In every reachable registry the communities are distinct, and they are the
ones started and not stopped since. -/
theorem registry_invariant (calls : List SchedulerCall) :
    ((runScheduler calls).map Prod.fst).Nodup ∧
      ∀ c, c ∈ (runScheduler calls).map Prod.fst ↔ startedNotStopped calls c = true := by
  induction calls using List.reverseRecOn with
  | nil => exact ⟨List.nodup_nil, fun c => by simp [runScheduler, startedNotStopped]⟩
  | append_singleton calls x ih =>
    obtain ⟨hnd, hmem⟩ := ih
    rw [runScheduler_append]
    simp only [startedNotStopped_append]
    cases x with
    | start c0 task =>
      show ((StartHistoryArchiveTasksInterval (runScheduler calls) c0 task).map Prod.fst).Nodup ∧
        ∀ c, c ∈ (StartHistoryArchiveTasksInterval (runScheduler calls) c0 task).map Prod.fst ↔
          (startedNotStopped calls c || (c0 == c)) = true
      by_cases hin : c0 ∈ (runScheduler calls).map Prod.fst
      · rw [start_running _ _ _ hin]
        refine ⟨hnd, fun c => ?_⟩
        by_cases hc : c0 = c
        · subst hc; simp [hin]
        · simp [hc, hmem c]
      · rw [start_idle _ _ _ hin]
        refine ⟨?_, fun c => ?_⟩
        · rw [List.map_append, List.nodup_append]
          refine ⟨hnd, by simp, ?_⟩
          intro a ha hb
          simp only [List.map_cons, List.map_nil, List.mem_singleton] at hb
          exact hin (hb ▸ ha)
        · rw [List.map_append, List.mem_append, hmem c]
          simp only [List.map_cons, List.map_nil, List.mem_singleton, Bool.or_eq_true,
            beq_iff_eq]
          exact ⟨fun h => h.imp id Eq.symm, fun h => h.imp id Eq.symm⟩
    | stop c0 =>
      show ((StopHistoryArchiveTasksInterval (runScheduler calls) c0).map Prod.fst).Nodup ∧
        ∀ c, c ∈ (StopHistoryArchiveTasksInterval (runScheduler calls) c0).map Prod.fst ↔
          (startedNotStopped calls c && !(c0 == c)) = true
      have hkeys : (StopHistoryArchiveTasksInterval (runScheduler calls) c0).map Prod.fst
          = ((runScheduler calls).map Prod.fst).filter (fun k => !(k == c0)) := by
        unfold StopHistoryArchiveTasksInterval
        rw [List.filter_map]
        rfl
      rw [hkeys]
      refine ⟨hnd.filter _, fun c => ?_⟩
      rw [List.mem_filter, hmem c]
      by_cases hc : c0 = c
      · subst hc; simp
      · have hc' : ¬ c = c0 := fun h => hc h.symm
        simp [hc, hc']
    | stopAll =>
      show ((stopHistoryArchiveTasksIntervals (runScheduler calls)).map Prod.fst).Nodup ∧
        ∀ c, c ∈ (stopHistoryArchiveTasksIntervals (runScheduler calls)).map Prod.fst ↔
          false = true
      rw [stopAll_empty]
      exact ⟨List.nodup_nil, fun c => by simp⟩

/-- A community that is started and not stopped was started. -/
theorem started_of_active (calls : List SchedulerCall) (c : Bytes) :
    startedNotStopped calls c = true → c ∈ startedCommunities calls := by
  induction calls using List.reverseRecOn with
  | nil => intro h; simp [startedNotStopped] at h
  | append_singleton calls x ih =>
    intro h
    rw [startedNotStopped_append] at h
    unfold startedCommunities at ih ⊢
    rw [List.filterMap_append, List.mem_append]
    cases x with
    | start c0 task =>
      have h' : (startedNotStopped calls c || (c0 == c)) = true := h
      rw [Bool.or_eq_true] at h'
      rcases h' with h1 | h1
      · exact Or.inl (ih h1)
      · right
        have : c0 = c := by simpa using h1
        simp [this]
    | stop c0 =>
      have h' : (startedNotStopped calls c && !(c0 == c)) = true := h
      rw [Bool.and_eq_true] at h'
      exact Or.inl (ih h'.1)
    | stopAll =>
      have h' : false = true := h
      simp at h'

/-! ## The tiling of the range -/

theorem subWindow_shift (startDate endDate : Time) (partition : Duration) (k : Nat) :
    subWindow (startDate + partition) endDate partition k
      = subWindow startDate endDate partition (k + 1) := by
  unfold subWindow
  have e : startDate + partition + (k : Int) * partition
      = startDate + ((k + 1 : Nat) : Int) * partition := by push_cast; ring
  rw [e]

/-- The first sub-window, then the sub-windows of the rest of the range. -/
theorem tiling_cons (from_ endDate : Time) (partition : Duration) (hp : 0 < partition)
    (hlt : from_ < endDate) :
    tiling from_ endDate partition
      = (from_, if endDate < from_ + partition then endDate else from_ + partition) ::
        tiling (if endDate < from_ + partition then endDate else from_ + partition) endDate
          partition := by
  unfold tiling
  rw [← windowCount_step from_ endDate partition hp hlt, List.range_succ_eq_map, List.map_cons,
    List.map_map]
  congr 1
  · simp [subWindow]
  · split
    · rw [windowCount_of_le endDate endDate partition hp (le_refl _)]
      rfl
    · apply List.map_congr_left
      intro k _
      exact (subWindow_shift from_ endDate partition k).symm

theorem tiling_nil (from_ endDate : Time) (partition : Duration) (hp : 0 < partition)
    (hle : endDate ≤ from_) : tiling from_ endDate partition = [] := by
  unfold tiling
  rw [windowCount_of_le from_ endDate partition hp hle]
  rfl

theorem Clipped_to (endDate : Time) (partition : Duration) (st : BuildState)
    (hc : Clipped endDate partition st) :
    st.to_ = if endDate < st.from_ + partition then endDate else st.from_ + partition := by
  rw [hc]; simp [Time.After, Time.Add]

theorem not_exit_lt (from_ endDate : Time)
    (h : ¬ (Time.Equal from_ endDate || Time.After from_ endDate) = true) : from_ < endDate := by
  simp [Time.Equal, Time.After] at h
  unfold Time at *
  omega

theorem exit_le (from_ endDate : Time)
    (h : (Time.Equal from_ endDate || Time.After from_ endDate) = true) : endDate ≤ from_ := by
  simp [Time.Equal, Time.After] at h
  unfold Time at *
  omega

/-- The sub-windows iterated are an initial part of the tiling, and the whole
tiling when the loop ends without error. -/
theorem iteratedWindows_tiling (env : Env) (cid : Bytes) (enc : Bool) (loadFromDB : Bool)
    (msgs : List Message) (topics : List Bytes) (endDate : Time) (partition : Duration)
    (hp : 0 < partition) (fuel : Nat) :
    ∀ st : BuildState, Clipped endDate partition st →
      iteratedWindows env cid enc loadFromDB msgs topics endDate partition fuel st
          <+: tiling st.from_ endDate partition ∧
      ∀ st2, windowLoop env cid enc loadFromDB msgs topics endDate partition fuel st
          = some (st2, none) →
        iteratedWindows env cid enc loadFromDB msgs topics endDate partition fuel st
          = tiling st.from_ endDate partition := by
  induction fuel with
  | zero =>
    intro st _
    exact ⟨List.nil_prefix, fun st2 h => by simp [windowLoop] at h⟩
  | succ n ih =>
    intro st hc
    unfold iteratedWindows windowLoop
    by_cases hexit : (Time.Equal st.from_ endDate || Time.After st.from_ endDate) = true
    · rw [if_pos hexit, if_pos hexit, tiling_nil st.from_ endDate partition hp (exit_le _ _ hexit)]
      exact ⟨List.nil_prefix, fun _ _ => rfl⟩
    · rw [if_neg hexit, if_neg hexit]
      have hlt := not_exit_lt _ _ hexit
      rw [tiling_cons st.from_ endDate partition hp hlt, ← Clipped_to endDate partition st hc]
      cases hpw : processWindow env cid enc loadFromDB msgs topics endDate partition st with
      | mk st1 e =>
        cases e with
        | some err =>
          refine ⟨?_, fun st2 h => by simp at h⟩
          exact ⟨_, rfl⟩
        | none =>
          obtain ⟨h1, _⟩ := processWindow_times env cid enc loadFromDB msgs topics endDate
            partition st st1 hpw
          have hc1 := processWindow_clipped env cid enc loadFromDB msgs topics endDate partition
            st st1 hpw
          obtain ⟨ih1, ih2⟩ := ih st1 hc1
          rw [h1] at ih1 ih2
          dsimp only
          refine ⟨?_, fun st2 h => ?_⟩
          · obtain ⟨t, ht⟩ := ih1
            exact ⟨t, by rw [← ht]; rfl⟩
          · rw [ih2 st2 h]

/-- The archives a window loop without error creates: those of its sub-windows,
in order. -/
theorem windowLoop_archives (env : Env) (cid : Bytes) (enc : Bool) (loadFromDB : Bool)
    (msgs : List Message) (topics : List Bytes) (endDate : Time) (partition : Duration)
    (fuel : Nat) :
    ∀ st st2 : BuildState,
      windowLoop env cid enc loadFromDB msgs topics endDate partition fuel st = some (st2, none) →
      st2.produced.map (·.archive) = st.produced.map (·.archive) ++
        (iteratedWindows env cid enc loadFromDB msgs topics endDate partition fuel st).flatMap
          fun window => windowArchives env topics window.1 window.2
            (windowSelection env loadFromDB msgs topics window) := by
  induction fuel with
  | zero => intro st st2 h; simp [windowLoop] at h
  | succ n ih =>
    intro st st2 h
    unfold windowLoop at h
    unfold iteratedWindows
    by_cases hexit : (Time.Equal st.from_ endDate || Time.After st.from_ endDate) = true
    · rw [if_pos hexit] at h ⊢
      simp only [Option.some.injEq, Prod.mk.injEq, and_true] at h
      rw [h]; simp
    · rw [if_neg hexit] at h ⊢
      cases hpw : processWindow env cid enc loadFromDB msgs topics endDate partition st with
      | mk st1 e =>
        rw [hpw] at h
        cases e with
        | some err => simp at h
        | none =>
          dsimp only at h ⊢
          rw [ih st1 st2 h]
          rcases processWindow_archives env cid enc loadFromDB msgs topics endDate partition st
            st1 none hpw with ⟨err, _, _, he⟩ | ⟨selected, new, hsel, _, hnew, hprod⟩
          · simp at he
          · rw [hprod, hnew rfl]
            have hws : windowSelection env loadFromDB msgs topics (st.from_, st.to_) = selected := by
              unfold windowSelection
              rw [hsel]
            rw [List.flatMap_cons, hws, List.append_assoc]

/-- The loop of a call without error iterates the tiling of its range, and the
archives of the call are those of the sub-windows. -/
theorem build_windows (env : Env) (fuel : Nat) (w : World) (cid : Bytes) (msgs : List Message)
    (topics : List Bytes) (startDate endDate : Time) (partition : Duration) (enc : Bool)
    (r : BuildResult) (hp : 0 < partition)
    (h : createHistoryArchiveTorrent env fuel w cid msgs topics startDate endDate partition enc
      = some r) (hok : r.err = none) :
    callWindows env fuel w cid msgs topics startDate endDate partition enc
        = tiling startDate endDate partition ∧
      r.archives = (tiling startDate endDate partition).flatMap fun window =>
        windowArchives env topics window.1 window.2
          (windowSelection env (decide (msgs.length = 0)) msgs topics window) := by
  obtain ⟨w1, st1, w2, hsetup, hloop, _, _, _⟩ := build_success env fuel w cid msgs topics
    startDate endDate partition enc r h hok
  obtain ⟨idx, _, hst1, _⟩ := setup_ok env w w1 cid startDate endDate partition st1 hsetup
  have hc : Clipped endDate partition st1 := by rw [hst1]; rfl
  have hfrom : st1.from_ = startDate := by rw [hst1]; rfl
  have hprod : st1.produced = [] := by rw [hst1]; rfl
  have ht := (iteratedWindows_tiling env cid enc _ msgs topics endDate partition hp fuel st1 hc).2
    r.final hloop
  rw [hfrom] at ht
  have ha := windowLoop_archives env cid enc _ msgs topics endDate partition fuel st1 r.final hloop
  rw [hprod, ht] at ha
  refine ⟨?_, ?_⟩
  · unfold callWindows
    rw [hsetup]
    exact ht
  · show r.final.produced.map (·.archive) = _
    rw [ha]; simp

/-! ## Arithmetic of the tiling -/

/-- The number of sub-windows is the quotient of the range by the partition,
rounded up. -/
theorem windowCount_ceil (startDate endDate : Int) (partition : Int) (hp : 0 < partition)
    (hlt : startDate < endDate) :
    ((windowCount startDate endDate partition : Nat) : Int) * partition
        < endDate - startDate + partition ∧
      endDate - startDate ≤ ((windowCount startDate endDate partition : Nat) : Int) * partition := by
  have hpos := windowCount_pos startDate endDate partition hp hlt
  unfold windowCount at hpos ⊢
  have h1 : 1 ≤ (endDate - startDate + partition - 1) / partition := by
    rw [Int.le_ediv_iff_mul_le hp]; omega
  rw [Int.toNat_of_nonneg (by omega)]
  have ha := Int.ediv_mul_le (endDate - startDate + partition - 1) (ne_of_gt hp)
  have hb := Int.lt_ediv_add_one_mul_self (endDate - startDate + partition - 1) hp
  have e : ((endDate - startDate + partition - 1) / partition + 1) * partition
      = (endDate - startDate + partition - 1) / partition * partition + partition := by ring
  constructor
  · omega
  · omega

/-- A sub-window of the tiling starts before `endDate`. -/
theorem subWindow_start_lt (startDate endDate : Int) (partition : Int) (hp : 0 < partition)
    (hlt : startDate < endDate) (k : Nat) (hk : k < windowCount startDate endDate partition) :
    startDate + (k : Int) * partition < endDate := by
  obtain ⟨h1, _⟩ := windowCount_ceil startDate endDate partition hp hlt
  have hk' : ((k : Int) + 1) ≤ (windowCount startDate endDate partition : Nat) := by
    exact_mod_cast hk
  have := Int.mul_le_mul_of_nonneg_right hk' (le_of_lt hp)
  have e : ((k : Int) + 1) * partition = (k : Int) * partition + partition := by ring
  omega

/-! ## Shape of the sub-windows -/

theorem subWindow_fst (startDate endDate : Time) (partition : Duration) (k : Nat) :
    (subWindow startDate endDate partition k).1 = startDate + (k : Int) * partition := rfl

theorem subWindow_snd (startDate endDate : Time) (partition : Duration) (k : Nat) :
    (subWindow startDate endDate partition k).2
      = min (startDate + ((k : Int) + 1) * partition) endDate := by
  unfold subWindow
  have e : startDate + ((k : Int) + 1) * partition = startDate + (k : Int) * partition + partition := by
    ring
  rw [e]
  dsimp only
  split
  · rename_i h; rw [min_eq_right (le_of_lt h)]
  · rename_i h; rw [min_eq_left (not_lt.1 h)]

/-- Every instant of the range lies in exactly one sub-window of the tiling. -/
theorem tiling_covers (startDate endDate : Int) (partition : Int) (hp : 0 < partition)
    (hlt : startDate < endDate) (t : Int) (h1 : startDate ≤ t) (h2 : t < endDate) :
    ∃! k : Nat, k < windowCount startDate endDate partition ∧
      startDate + (k : Int) * partition ≤ t ∧
      t < min (startDate + ((k : Int) + 1) * partition) endDate := by
  obtain ⟨_, hc2⟩ := windowCount_ceil startDate endDate partition hp hlt
  have hq0 : 0 ≤ (t - startDate) / partition := Int.ediv_nonneg (by omega) (le_of_lt hp)
  have hq := (ediv_eq_iff_of_pos (t - startDate) partition _ hp).1 rfl
  refine ⟨((t - startDate) / partition).toNat, ⟨?_, ?_, ?_⟩, ?_⟩
  · by_contra hcon
    have hle : ((windowCount startDate endDate partition : Nat) : Int)
        ≤ (t - startDate) / partition := by
      have := not_lt.1 hcon
      have h3 : ((windowCount startDate endDate partition : Nat) : Int)
          ≤ (((t - startDate) / partition).toNat : Int) := by exact_mod_cast this
      rw [Int.toNat_of_nonneg hq0] at h3
      exact h3
    have := Int.mul_le_mul_of_nonneg_right hle (le_of_lt hp)
    omega
  · rw [Int.toNat_of_nonneg hq0]; omega
  · rw [Int.toNat_of_nonneg hq0, lt_min_iff]
    exact ⟨by omega, h2⟩
  · rintro k ⟨_, hk1, hk2⟩
    rw [lt_min_iff] at hk2
    have : (t - startDate) / partition = (k : Int) :=
      (ediv_eq_iff_of_pos (t - startDate) partition k hp).2 ⟨by omega, by omega⟩
    rw [this]
    simp

/-! ## A partition that is not positive -/

/-- With a partition that is zero or negative the window loop never leaves
through its exit test. -/
theorem windowLoop_no_exit (env : Env) (cid : Bytes) (enc : Bool) (loadFromDB : Bool)
    (msgs : List Message) (topics : List Bytes) (endDate : Time) (partition : Duration)
    (hp : partition ≤ 0) (fuel : Nat) (st st2 : BuildState)
    (hfrom : st.from_ < endDate) (hto : st.to_ < endDate) :
    windowLoop env cid enc loadFromDB msgs topics endDate partition fuel st ≠ some (st2, none) := by
  intro h
  have key := windowLoop_invariant_ok env cid enc loadFromDB msgs topics endDate partition
    (fun s => s.from_ < endDate ∧ s.to_ < endDate)
    (by
      intro s s1 hs _ hstep
      obtain ⟨h1, h2⟩ := processWindow_times env cid enc loadFromDB msgs topics endDate
        partition s s1 hstep
      refine ⟨by rw [h1]; exact hs.2, ?_⟩
      rw [h2]
      have := hs.2
      simp only [Time.After, Time.Add]
      split
      · rename_i hafter
        simp only [decide_eq_true_eq] at hafter
        unfold Time Duration at *
        omega
      · unfold Time Duration at *
        omega)
    fuel st st2 ⟨hfrom, hto⟩ h
  have := windowLoop_exit env cid enc loadFromDB msgs topics endDate partition fuel st st2 h
  have := key.1
  unfold Time at *
  omega

theorem iteratedWindows_length_ok (env : Env) (cid : Bytes) (enc : Bool) (loadFromDB : Bool)
    (msgs : List Message) (topics : List Bytes) (endDate : Time) (partition : Duration)
    (hp : 0 < partition) (fuel : Nat) (st : BuildState) (hc : Clipped endDate partition st) :
    (iteratedWindows env cid enc loadFromDB msgs topics endDate partition fuel st).length
        ≤ windowCount st.from_ endDate partition ∧
      ∀ st2, windowLoop env cid enc loadFromDB msgs topics endDate partition fuel st
          = some (st2, none) →
        (iteratedWindows env cid enc loadFromDB msgs topics endDate partition fuel st).length
          = windowCount st.from_ endDate partition := by
  obtain ⟨h1, h2⟩ := iteratedWindows_tiling env cid enc loadFromDB msgs topics endDate partition
    hp fuel st hc
  have hl : (tiling st.from_ endDate partition).length = windowCount st.from_ endDate partition := by
    simp [tiling]
  refine ⟨by rw [← hl]; exact h1.length_le, fun st2 h => by rw [h2 st2 h, hl]⟩

/-- The starts of the sub-windows of the tiling increase strictly. -/
theorem tiling_starts_increase (startDate endDate : Time) (partition : Duration)
    (hp : 0 < partition) :
    ((tiling startDate endDate partition).map Prod.fst).Pairwise (fun a b => a < b) := by
  unfold tiling
  rw [List.map_map, List.pairwise_map]
  refine List.Pairwise.imp ?_ (List.pairwise_lt_range _)
  intro a b hab
  show startDate + (a : Int) * partition < startDate + (b : Int) * partition
  have h1 : (a : Int) + 1 ≤ (b : Int) := by exact_mod_cast hab
  have := Int.mul_le_mul_of_nonneg_right h1 (le_of_lt hp)
  have e : ((a : Int) + 1) * partition = (a : Int) * partition + partition := by ring
  unfold Time Duration at *
  omega

/-! ## The trace of a window loop that starts from `setup` -/

theorem setup_trace (env : Env) (w w1 : World) (cid : Bytes) (startDate endDate : Time)
    (partition : Duration) (enc : Bool) (st1 : BuildState)
    (h : setup env w cid startDate endDate partition = .ok (w1, st1)) :
    ∃ idx, existingArchives env w cid = .ok idx ∧
      TraceInv env cid enc (existingIndex idx).2 (existingIndex idx).1 st1 := by
  obtain ⟨idx, hidx, hst1, _⟩ := setup_ok env w w1 cid startDate endDate partition st1 h
  refine ⟨idx, hidx, ?_⟩
  rw [hst1]
  exact ⟨rfl, rfl, rfl, by simp [initialState], trivial, by simp [initialState]⟩

/-- Encoded archives and archives of a loop state are as many. -/
theorem TraceInv_nonempty (env : Env) (cid : Bytes) (enc : Bool)
    (idx0 : WakuMessageArchiveIndex) (off0 : Nat) (st : BuildState)
    (h : TraceInv env cid enc idx0 off0 st) :
    (st.encodedArchives ≠ [] ↔ st.produced.map (·.archive) ≠ []) ∧
      (st.encodedArchives ≠ [] ↔ st.archiveIDs ≠ []) := by
  obtain ⟨h1, h2, _⟩ := h
  rw [h1, h2]
  simp

/-! ## The archive ID and the content of the messages -/

theorem indexEntry_length (env : Env) (metadata : WakuMessageArchiveMetadata) (offset : Nat)
    (b b' : Bytes) (h : b.length = b'.length) :
    indexEntry env metadata offset b = indexEntry env metadata offset b' := by
  unfold indexEntry
  rw [h]

theorem encryptBytes_plain (env : Env) (cid : Bytes) (plain b : Bytes)
    (h : encryptBytes env cid false plain = .ok b) : b = plain := by
  simp [encryptBytes] at h
  exact h.symm

/-- Trace records laid out from the same offset whose archives have the same
metadata and serialise to the same lengths have the same entries and IDs. -/
theorem entries_of_shapes (env : Env) (cid : Bytes) :
    ∀ (ps ps' : List Produced) (o : Nat), OffsetsFrom o ps → OffsetsFrom o ps' →
      (∀ p ∈ ps, p.WellFormed env cid false) → (∀ p ∈ ps', p.WellFormed env cid false) →
      ps.map (fun p => archiveShape env p.archive) = ps'.map (fun p => archiveShape env p.archive) →
      ps.map (·.entry) = ps'.map (·.entry) ∧ ps.map (·.archiveID) = ps'.map (·.archiveID) := by
  intro ps
  induction ps with
  | nil =>
    intro ps' o _ _ _ _ hsh
    cases ps' with
    | nil => exact ⟨rfl, rfl⟩
    | cons _ _ => simp at hsh
  | cons p ps ih =>
    intro ps' o ho ho' hwf hwf' hsh
    cases ps' with
    | nil => simp at hsh
    | cons p' ps' =>
      simp only [List.map_cons, List.cons.injEq] at hsh
      obtain ⟨hshape, hrest⟩ := hsh
      obtain ⟨hoff, hnext⟩ := ho
      obtain ⟨hoff', hnext'⟩ := ho'
      obtain ⟨e1, pad1, ⟨plain, hpl, henc⟩, ⟨eb, heb, hid⟩⟩ := hwf p (by simp)
      obtain ⟨e1', pad1', ⟨plain', hpl', henc'⟩, ⟨eb', heb', hid'⟩⟩ := hwf' p' (by simp)
      have hb := encryptBytes_plain env cid plain _ henc
      have hb' := encryptBytes_plain env cid plain' _ henc'
      simp only [archiveShape, Prod.mk.injEq] at hshape
      obtain ⟨hmd, hlen⟩ := hshape
      rw [hpl, hpl'] at hlen
      simp only [Option.map_some', Option.some.injEq] at hlen
      have hlen2 : p.encoded.bytes.length = p'.encoded.bytes.length := by rw [hb, hb', hlen]
      have hentry : p.entry = p'.entry := by
        rw [e1, e1', hoff, hoff', hmd]
        exact indexEntry_length env _ _ _ _ hlen2
      have hwritten : p.written = p'.written := by
        unfold Produced.written
        rw [pad1, pad1', hlen2]
      have hidEq : p.archiveID = p'.archiveID := by
        rw [hid, hid']
        rw [hentry, heb'] at heb
        simp only [Option.some.injEq] at heb
        rw [heb]
      rw [hwritten] at hnext
      obtain ⟨ih1, ih2⟩ := ih ps' _ hnext hnext' (fun q hq => hwf q (by simp [hq]))
        (fun q hq => hwf' q (by simp [hq])) hrest
      simp only [List.map_cons]
      exact ⟨by rw [hentry, ih1], by rw [hidEq, ih2]⟩

/-! ## The reader after the lookup -/

theorem lookup_none_iff {V : Type} (m : List (String × V)) (k : String) :
    m.lookup k = none ↔ k ∉ m.map Prod.fst := by
  induction m with
  | nil => simp
  | cons p m ih =>
    obtain ⟨a, b⟩ := p
    rw [List.lookup_cons]
    by_cases hk : k = a
    · subst hk; simp
    · have : (k == a) = false := by simpa using hk
      rw [this]
      simp only [List.map_cons, List.mem_cons, not_or]
      rw [ih]
      exact ⟨fun h => ⟨hk, h⟩, fun h => h.2⟩

theorem decryptArchive_not_nil (env : Env) (cid : Bytes) (data : Bytes) :
    decryptArchive env cid data ≠ .nilDereference := by
  unfold decryptArchive
  split
  · simp
  · split
    · simp
    · split
      · simp
      · split <;> simp

/-- The reader up to the lookup: with the index loaded and the data file open
the outcome is decided by the entry of the archive ID. -/
theorem extract_after_load (env : Env) (w : World) (cid : Bytes) (archiveID : String)
    (index : WakuMessageArchiveIndex) (file : Bytes)
    (hload : LoadHistoryArchiveIndexFromFile env w cid = .ok index)
    (hopen : env.fails .openDataForRead = false) (hfile : w.dataFile = some file) :
    ExtractMessagesFromHistoryArchive env w cid archiveID
      = match index.lookup archiveID with
        | none => .nilDereference
        | some metadata =>
          if metadata.Offset ≥ 9223372036854775808 then .error .seekData
          else if metadata.Size < metadata.Padding then .lenOutOfRange
          else
            match readAt file metadata.Offset (metadata.Size - metadata.Padding) with
            | none => .error .readData
            | some data =>
              match env.unmarshalArchive data with
              | some archive => .messages archive.Messages
              | none => decryptArchive env cid data := by
  unfold ExtractMessagesFromHistoryArchive
  rw [hload]
  dsimp only
  rw [hopen, hfile]
  rfl

/-- The reader once the bytes of the entry are read. -/
theorem extract_after_read (env : Env) (w : World) (cid : Bytes) (archiveID : String)
    (index : WakuMessageArchiveIndex) (file : Bytes) (metadata : WakuMessageArchiveIndexMetadata)
    (data : Bytes)
    (hload : LoadHistoryArchiveIndexFromFile env w cid = .ok index)
    (hopen : env.fails .openDataForRead = false) (hfile : w.dataFile = some file)
    (hentry : index.lookup archiveID = some metadata)
    (hoff : metadata.Offset < 9223372036854775808) (hpad : metadata.Padding ≤ metadata.Size)
    (hread : readAt file metadata.Offset (metadata.Size - metadata.Padding) = some data) :
    ExtractMessagesFromHistoryArchive env w cid archiveID
      = match env.unmarshalArchive data with
        | some archive => .messages archive.Messages
        | none => decryptArchive env cid data := by
  rw [extract_after_load env w cid archiveID index file hload hopen hfile, hentry]
  dsimp only
  rw [if_neg (by omega), if_neg (by omega), hread]

/-! ## The statements of `SetTopics` -/

theorem mem_mapInsert {V : Type} (m : List (String × V)) (k : String) (v : V) (p : String)
    (c : V) : (p, c) ∈ mapInsert m k v ↔ ((p, c) ∈ m ∧ p ≠ k) ∨ (p = k ∧ c = v) := by
  unfold mapInsert
  simp only [List.mem_append, List.mem_filter, List.mem_singleton, Prod.mk.injEq,
    Bool.not_eq_true', beq_eq_false_iff_ne, ne_eq]

theorem lookup_none_of_not_key {V : Type} (m : List (String × V)) (k : String)
    (h : ∀ v, (k, v) ∉ m) : m.lookup k = none := by
  cases hl : m.lookup k with
  | none => rfl
  | some v => exact absurd (mem_of_lookup m k v hl) (h v)

theorem topicsMap_step (m : List (String × List String)) (fs : List Filter) (f : Filter)
    (h : TopicsMapOf m fs) :
    TopicsMapOf
      (mapInsert m f.PubsubTopic
        (if f.ContentTopic ∈ (m.lookup f.PubsubTopic).getD [] then (m.lookup f.PubsubTopic).getD []
         else (m.lookup f.PubsubTopic).getD [] ++ [f.ContentTopic]))
      (fs ++ [f]) := by
  obtain ⟨h1, h2⟩ := h
  have hold : ∀ t, t ∈ (m.lookup f.PubsubTopic).getD [] ↔
      ∃ g ∈ fs, g.PubsubTopic = f.PubsubTopic ∧ g.ContentTopic = t := by
    intro t
    cases hl : m.lookup f.PubsubTopic with
    | none =>
      simp only [Option.getD_none, List.not_mem_nil, false_iff]
      rintro ⟨g, hg, hgp, _⟩
      obtain ⟨cts, hc⟩ := h2 g hg
      rw [hgp] at hc
      have := (lookup_none_iff m f.PubsubTopic).1 hl
      exact this (List.mem_map.2 ⟨_, hc, rfl⟩)
    | some cts =>
      simp only [Option.getD_some]
      exact (h1 _ _ (mem_of_lookup m _ _ hl)).2 t
  have hnew : ∀ t, t ∈ (if f.ContentTopic ∈ (m.lookup f.PubsubTopic).getD []
        then (m.lookup f.PubsubTopic).getD []
        else (m.lookup f.PubsubTopic).getD [] ++ [f.ContentTopic]) ↔
      ∃ g ∈ fs ++ [f], g.PubsubTopic = f.PubsubTopic ∧ g.ContentTopic = t := by
    intro t
    constructor
    · intro ht
      split at ht
      · obtain ⟨g, hg, hgp⟩ := (hold t).1 ht
        exact ⟨g, List.mem_append_left _ hg, hgp⟩
      · rcases List.mem_append.1 ht with ht | ht
        · obtain ⟨g, hg, hgp⟩ := (hold t).1 ht
          exact ⟨g, List.mem_append_left _ hg, hgp⟩
        · simp only [List.mem_singleton] at ht
          exact ⟨f, by simp, rfl, ht.symm⟩
    · rintro ⟨g, hg, hgp, hgt⟩
      rcases List.mem_append.1 hg with hg | hg
      · have := (hold t).2 ⟨g, hg, hgp, hgt⟩
        split
        · exact this
        · exact List.mem_append_left _ this
      · simp only [List.mem_singleton] at hg
        subst hg
        split
        · rename_i hin; rw [← hgt]; exact hin
        · rw [← hgt]; simp
  constructor
  · intro p cts hp
    rw [mem_mapInsert] at hp
    rcases hp with ⟨hp, hne⟩ | ⟨hpk, hc⟩
    · obtain ⟨⟨g, hg, hgp⟩, hts⟩ := h1 p cts hp
      refine ⟨⟨g, List.mem_append_left _ hg, hgp⟩, fun t => ?_⟩
      rw [hts t]
      constructor
      · rintro ⟨g', hg', h'⟩
        exact ⟨g', List.mem_append_left _ hg', h'⟩
      · rintro ⟨g', hg', hgp', hgt'⟩
        rcases List.mem_append.1 hg' with hg' | hg'
        · exact ⟨g', hg', hgp', hgt'⟩
        · simp only [List.mem_singleton] at hg'
          subst hg'
          exact absurd hgp'.symm hne
    · subst hpk
      subst hc
      exact ⟨⟨f, by simp, rfl⟩, hnew⟩
  · intro g hg
    rcases List.mem_append.1 hg with hg | hg
    · obtain ⟨cts, hc⟩ := h2 g hg
      by_cases hk : g.PubsubTopic = f.PubsubTopic
      · exact ⟨_, (mem_mapInsert _ _ _ _ _).2 (Or.inr ⟨hk, rfl⟩)⟩
      · exact ⟨cts, (mem_mapInsert _ _ _ _ _).2 (Or.inl ⟨hc, hk⟩)⟩
    · simp only [List.mem_singleton] at hg
      subst hg
      exact ⟨_, (mem_mapInsert _ _ _ _ _).2 (Or.inr ⟨rfl, rfl⟩)⟩

/-- The first loop of `SetTopics` builds the map of its filters. -/
theorem contentTopicsPerPubsubTopic_spec (filters : List Filter) :
    TopicsMapOf (contentTopicsPerPubsubTopic filters) filters := by
  have key : ∀ (fs : List Filter) (m : List (String × List String)) (done : List Filter),
      TopicsMapOf m done →
      TopicsMapOf (fs.foldl (fun m filter =>
        let contentTopics := (m.lookup filter.PubsubTopic).getD []
        mapInsert m filter.PubsubTopic
          (if filter.ContentTopic ∈ contentTopics then contentTopics
           else contentTopics ++ [filter.ContentTopic])) m) (done ++ fs) := by
    intro fs
    induction fs with
    | nil => intro m done h; simpa using h
    | cons f fs ih =>
      intro m done h
      rw [List.foldl_cons]
      have := ih _ (done ++ [f]) (topicsMap_step m done f h)
      simpa using this
  have := key filters [] [] ⟨fun p cts hp => by simp at hp, fun f hf => by simp at hf⟩
  simpa using this

theorem mem_deleteOtherTopics (rows : List MailserverTopic) (p : String) (cts : List String)
    (r : MailserverTopic) :
    r ∈ deleteOtherTopics rows p cts ↔ r ∈ rows ∧ (r.PubsubTopic = p → r.ContentTopic ∈ cts) := by
  unfold deleteOtherTopics
  rw [List.mem_filter]
  by_cases h1 : r.PubsubTopic = p <;> by_cases h2 : r.ContentTopic ∈ cts <;> simp [h1, h2]

/-- The rows the `DELETE` statements leave when none of them fails. -/
theorem deleteLoop_spec (fails : SqlStep → Bool) (hdel : ∀ p, fails (.deleteTopics p) = false)
    (m : List (String × List String)) :
    ∀ (rows : List MailserverTopic) (err : Option SetTopicsError) (r : MailserverTopic),
      r ∈ (deleteLoop fails m rows err).1 ↔
        r ∈ rows ∧ ∀ p cts, (p, cts) ∈ m → r.PubsubTopic = p → r.ContentTopic ∈ cts := by
  induction m with
  | nil => intro rows err r; simp [deleteLoop]
  | cons e m ih =>
    obtain ⟨p0, cts0⟩ := e
    intro rows err r
    unfold deleteLoop
    rw [hdel p0]
    simp only [Bool.false_eq_true, if_false]
    rw [ih, mem_deleteOtherTopics]
    constructor
    · rintro ⟨⟨h1, h2⟩, h3⟩
      refine ⟨h1, fun p cts hp hrp => ?_⟩
      rcases List.mem_cons.1 hp with hp | hp
      · simp only [Prod.mk.injEq] at hp
        rw [hp.2]; exact h2 (hrp.trans hp.1)
      · exact h3 p cts hp hrp
    · rintro ⟨h1, h2⟩
      exact ⟨⟨h1, fun hrp => h2 p0 cts0 (List.mem_cons_self _ _) hrp⟩,
        fun p cts hp hrp => h2 p cts (List.mem_cons_of_mem _ hp) hrp⟩

/-- The rows after the loop "insert if not existing", when it ends without error. -/
theorem insertMissing_spec (fails : SqlStep → Bool) (lastRequest : Int) (fs : List Filter) :
    ∀ (rows rows1 : List MailserverTopic) (err : Option SetTopicsError),
      insertMissing fails lastRequest fs rows err = (rows1, none) →
      (∀ r ∈ rows, r ∈ rows1) ∧
      (∀ r ∈ rows1, r ∈ rows ∨
        (r.LastRequest = lastRequest ∧
          ∃ f ∈ fs, f.PubsubTopic = r.PubsubTopic ∧ f.ContentTopic = r.ContentTopic)) ∧
      ∀ f ∈ fs, ∃ r ∈ rows1, r.PubsubTopic = f.PubsubTopic ∧ r.ContentTopic = f.ContentTopic := by
  induction fs with
  | nil =>
    intro rows rows1 err h
    simp only [insertMissing, Prod.mk.injEq] at h
    rw [← h.1]
    exact ⟨fun r hr => hr, fun r hr => Or.inl hr, fun f hf => by simp at hf⟩
  | cons f fs ih =>
    intro rows rows1 err h
    unfold insertMissing at h
    split at h
    · simp at h
    · split at h
      · rename_i hfound
        obtain ⟨a, b, c⟩ := ih rows rows1 none h
        refine ⟨a, fun r hr => ?_, fun g hg => ?_⟩
        · rcases b r hr with hb | ⟨hb1, g, hg, hb2⟩
          · exact Or.inl hb
          · exact Or.inr ⟨hb1, g, List.mem_cons_of_mem _ hg, hb2⟩
        · rcases List.mem_cons.1 hg with hg | hg
          · subst hg
            rw [List.any_eq_true] at hfound
            obtain ⟨r, hr, hrk⟩ := hfound
            simp only [Bool.and_eq_true, beq_iff_eq] at hrk
            exact ⟨r, a r hr, hrk.2, hrk.1⟩
          · exact c g hg
      · split at h
        · simp at h
        · obtain ⟨a, b, c⟩ := ih _ rows1 none h
          refine ⟨fun r hr => a r (List.mem_append_left _ hr), fun r hr => ?_, fun g hg => ?_⟩
          · rcases b r hr with hb | ⟨hb1, g, hg, hb2⟩
            · rcases List.mem_append.1 hb with hb | hb
              · exact Or.inl hb
              · simp only [List.mem_singleton] at hb
                subst hb
                exact Or.inr ⟨rfl, f, List.mem_cons_self _ _, rfl, rfl⟩
            · exact Or.inr ⟨hb1, g, List.mem_cons_of_mem _ hg, hb2⟩
          · rcases List.mem_cons.1 hg with hg | hg
            · subst hg
              exact ⟨{ PubsubTopic := g.PubsubTopic, ContentTopic := g.ContentTopic, ChatIDs := [],
                       LastRequest := lastRequest, Discovery := g.Discovery,
                       Negotiated := g.Negotiated },
                a _ (List.mem_append_right _ (List.mem_singleton_self _)), rfl, rfl⟩
            · exact c g hg

/-- How a call of `SetTopics` without error is made up. -/
theorem SetTopics_ok (fails : SqlStep → Bool) (now : Time) (db db1 : List MailserverTopic)
    (filters : List Filter) (h : SetTopics fails now db filters = (db1, none)) :
    (filters = [] → db1 = db) ∧
    (filters ≠ [] →
      insertMissing fails (Time.Unix (Time.Add now (-24 * 3600000000000))) filters
        (deleteLoop fails (contentTopicsPerPubsubTopic filters) db none).1
        (deleteLoop fails (contentTopicsPerPubsubTopic filters) db none).2 = (db1, none)) := by
  unfold SetTopics at h
  split at h
  · simp at h
  · dsimp only at h
    constructor
    · intro hf
      subst hf
      simp only [List.length_nil, if_true] at h
      split at h
      · simp at h
      · simp only [Prod.mk.injEq, and_true] at h
        exact h.symm
    · intro hf
      have hlen : ¬ filters.length = 0 := fun h0 => hf (List.length_eq_zero.1 h0)
      rw [if_neg hlen] at h
      split at h
      · rename_i hb
        split at h
        · simp at h
        · simp only [Prod.mk.injEq, and_true] at h
          exact Prod.ext h hb
      · simp at h

/-! ## The clause of `ReadMultiTransactions` -/

theorem withSeparators_append (l1 l2 : List String) (sep : String) :
    withSeparators (l1 ++ l2) sep = withSeparators l1 sep ++ withSeparators l2 sep := by
  unfold withSeparators
  induction l1 with
  | nil => simp
  | cons a l ih =>
    simp only [List.cons_append, List.foldr_cons]
    rw [ih, String.append_assoc, String.append_assoc, String.append_assoc]

theorem addFilters_addFilters (q : String × List SqlArg) (f g : List (String × List SqlArg)) :
    addFilters (addFilters q f) g = addFilters q (f ++ g) := by
  unfold addFilters
  simp only [List.map_append, List.flatten_append, withSeparators_append, String.append_assoc,
    List.append_assoc]

theorem addFilters_nil (q : String × List SqlArg) : addFilters q [] = q := by
  unfold addFilters withSeparators
  simp

/-- One `if` of the code adds the condition of its filter, when it is set. -/
theorem addFilters_step (b : Prop) [Decidable b] (q : String × List SqlArg) (c c' : String)
    (as : List SqlArg) (hc : c' = c ++ " AND ") :
    (if b then (q.1 ++ c', q.2 ++ as) else q) = addFilters q (if b then [(c, as)] else []) := by
  split
  · subst hc
    unfold addFilters withSeparators
    simp
  · exact (addFilters_nil q).symm

/-- The clause and the arguments before the trimming. -/
theorem ReadMultiTransactions_eq (invalid : Nat) (d : MultiTxDetails) :
    ReadMultiTransactions invalid (some d)
      = if ((addFilters ("", []) (activeFilters invalid d)).1.length : Int) - 5 < 0 then
          .sliceOutOfRange (((addFilters ("", []) (activeFilters invalid d)).1.length : Int) - 5)
        else
          .prepared
            (String.mk ((addFilters ("", []) (activeFilters invalid d)).1.data.take
              ((addFilters ("", []) (activeFilters invalid d)).1.length - 5)))
            (addFilters ("", []) (activeFilters invalid d)).2 := by
  have e0 : ∀ j : String, "id in (" ++ j ++ ") AND " = ("id in (" ++ j ++ ")") ++ " AND " := by
    intro j
    rw [String.append_assoc ("id in (" ++ j) ")" " AND "]
    rfl
  have s1 := fun (q : String × List SqlArg) => addFilters_step (d.IDs.length > 0) q
    ("id in (" ++ stringsJoin (d.IDs.map fun _ => "?") "," ++ ")")
    ("id in (" ++ stringsJoin (d.IDs.map fun _ => "?") "," ++ ") AND ")
    (d.IDs.map SqlArg.id) (e0 _)
  have s2 := fun (q : String × List SqlArg) => addFilters_step (d.AnyAddress ≠ 0) q
    "(from_address=? OR to_address=?)" "(from_address=? OR to_address=?) AND "
    [SqlArg.address d.AnyAddress, SqlArg.address d.AnyAddress] (by decide)
  have s3 := fun (q : String × List SqlArg) => addFilters_step (d.FromAddress ≠ 0) q
    "from_address=?" "from_address=? AND " [SqlArg.address d.FromAddress] (by decide)
  have s4 := fun (q : String × List SqlArg) => addFilters_step (d.ToAddress ≠ 0) q
    "to_address=?" "to_address=? AND " [SqlArg.address d.ToAddress] (by decide)
  have s5 := fun (q : String × List SqlArg) => addFilters_step (d.ToChainID ≠ 0) q
    "to_network_id=?" "to_network_id=? AND " [SqlArg.chainID d.ToChainID] (by decide)
  have s6 := fun (q : String × List SqlArg) => addFilters_step (d.CrossTxID ≠ "") q
    "cross_tx_id=?" "cross_tx_id=? AND " [SqlArg.text d.CrossTxID] (by decide)
  have s7 := fun (q : String × List SqlArg) => addFilters_step
    (d.Type_ ≠ MultiTransactionDBTypeInvalid) q
    "type=?" "type=? AND " [SqlArg.txType (mtDBTypeToMTType invalid d.Type_)] (by decide)
  have s1' : (if d.IDs.length > 0 then
      ("" ++ ("id in (" ++ stringsJoin (d.IDs.map fun _ => "?") "," ++ ") AND "),
       [] ++ d.IDs.map SqlArg.id)
      else (("", []) : String × List SqlArg)) = _ := s1 ("", [])
  unfold ReadMultiTransactions activeFilters
  dsimp only
  rw [s1', s2, s3, s4, s5, s6, s7]
  simp only [addFilters_addFilters]


theorem addFilters_empty (filters : List (String × List SqlArg)) :
    addFilters ("", []) filters
      = (withSeparators (filters.map Prod.fst) " AND ", (filters.map Prod.snd).flatten) := by
  unfold addFilters
  simp

/-- Conditions each followed by the separator are the joined conditions and
one more separator. -/
theorem withSeparators_join (sep : String) :
    ∀ conditions : List String, conditions ≠ [] →
      withSeparators conditions sep = stringsJoin conditions sep ++ sep
  | [], h => absurd rfl h
  | [a], _ => by simp [withSeparators, stringsJoin]
  | a :: b :: rest, _ => by
    have ih := withSeparators_join sep (b :: rest) (by simp)
    show a ++ sep ++ withSeparators (b :: rest) sep = a ++ sep ++ stringsJoin (b :: rest) sep ++ sep
    rw [ih, String.append_assoc (a ++ sep)]

theorem withSeparators_nil (sep : String) : withSeparators [] sep = "" := rfl

/-- Cutting the last five bytes removes the final separator. -/
theorem trim_separator (x sep : String) (h : sep.length = 5) :
    String.mk ((x ++ sep).data.take ((x ++ sep).length - 5)) = x := by
  have hl : (x ++ sep).length = x.data.length + 5 := by
    rw [String.length_append, ← h]; rfl
  rw [hl, String.data_append]
  simp

theorem activeFilters_ne_nil (invalid : Nat) (d : MultiTxDetails) :
    activeFilters invalid d ≠ [] ↔ anyFilterSet d := by
  unfold activeFilters anyFilterSet
  have hid : d.IDs.length > 0 ↔ d.IDs ≠ [] := by
    rw [gt_iff_lt, List.length_pos]
  by_cases h1 : d.IDs ≠ []
  · simp [hid.2 h1, h1]
  · have h1' : ¬ d.IDs.length > 0 := fun h => h1 (hid.1 h)
    by_cases h2 : d.AnyAddress ≠ 0
    · simp [h2]
    · by_cases h3 : d.FromAddress ≠ 0
      · simp [h3]
      · by_cases h4 : d.ToAddress ≠ 0
        · simp [h4]
        · by_cases h5 : d.ToChainID ≠ 0
          · simp [h5]
          · by_cases h6 : d.CrossTxID ≠ ""
            · simp [h6]
            · by_cases h7 : d.Type_ ≠ MultiTransactionDBTypeInvalid
              · simp [h7]
              · simp only [h1', h1, h2, h3, h4, h5, h6, h7, if_false, List.append_nil,
                  or_self, ne_eq, not_true_eq_false]

theorem placeholders_append (a b : String) :
    placeholders (a ++ b) = placeholders a + placeholders b := by
  unfold placeholders
  rw [String.data_append, List.count_append]

/-- Joining with a separator that has no placeholder adds up the placeholders. -/
theorem placeholders_join (sep : String) (hsep : placeholders sep = 0) :
    ∀ l : List String, placeholders (stringsJoin l sep) = (l.map placeholders).sum
  | [] => rfl
  | [a] => by simp [stringsJoin]
  | a :: b :: rest => by
    have ih := placeholders_join sep hsep (b :: rest)
    show placeholders (a ++ sep ++ stringsJoin (b :: rest) sep) = _
    rw [placeholders_append, placeholders_append, hsep, ih]
    simp

/-- Every condition has as many placeholders as arguments. -/
theorem activeFilters_placeholders (invalid : Nat) (d : MultiTxDetails) :
    ∀ f ∈ activeFilters invalid d, placeholders f.1 = f.2.length := by
  have hids : placeholders ("id in (" ++ stringsJoin (d.IDs.map fun _ => "?") "," ++ ")")
      = (d.IDs.map SqlArg.id).length := by
    rw [placeholders_append, placeholders_append, placeholders_join "," (by decide)]
    have h1 : placeholders "id in (" = 0 := by decide
    have h2 : placeholders ")" = 0 := by decide
    have h3 : ∀ l : List Int, ((l.map fun _ => "?").map placeholders).sum = l.length := by
      intro l
      induction l with
      | nil => rfl
      | cons a l ih =>
        simp only [List.map_cons, List.sum_cons, List.length_cons, ih]
        have : placeholders "?" = 1 := by decide
        omega
    rw [h1, h2, h3]
    simp
  intro f hf
  unfold activeFilters at hf
  simp only [List.mem_append] at hf
  rcases hf with (((((hf | hf) | hf) | hf) | hf) | hf) | hf
  all_goals
    split at hf
    · simp only [List.mem_singleton] at hf
      subst hf
      first
        | exact hids
        | (simp only [List.length_cons, List.length_nil]; decide)
    · simp at hf

/-- Every condition ends in a character that is not a blank. -/
theorem activeFilters_last (invalid : Nat) (d : MultiTxDetails) :
    ∀ f ∈ activeFilters invalid d, ∃ init c, f.1.data = init ++ [c] ∧ c ≠ ' ' := by
  intro f hf
  unfold activeFilters at hf
  simp only [List.mem_append] at hf
  rcases hf with (((((hf | hf) | hf) | hf) | hf) | hf) | hf
  · split at hf
    · simp only [List.mem_singleton] at hf
      subst hf
      exact ⟨("id in (" ++ stringsJoin (d.IDs.map fun _ => "?") ",").data, ')',
        String.data_append _ _, by decide⟩
    · simp at hf
  · split at hf
    · simp only [List.mem_singleton] at hf
      subst hf
      exact ⟨"(from_address=? OR to_address=?".data, ')',
        show "(from_address=? OR to_address=?)".data = "(from_address=? OR to_address=?".data ++ [')'] from by decide, by decide⟩
    · simp at hf
  · split at hf
    · simp only [List.mem_singleton] at hf
      subst hf
      exact ⟨"from_address=".data, '?',
        show "from_address=?".data = "from_address=".data ++ ['?'] from by decide, by decide⟩
    · simp at hf
  · split at hf
    · simp only [List.mem_singleton] at hf
      subst hf
      exact ⟨"to_address=".data, '?',
        show "to_address=?".data = "to_address=".data ++ ['?'] from by decide, by decide⟩
    · simp at hf
  · split at hf
    · simp only [List.mem_singleton] at hf
      subst hf
      exact ⟨"to_network_id=".data, '?',
        show "to_network_id=?".data = "to_network_id=".data ++ ['?'] from by decide, by decide⟩
    · simp at hf
  · split at hf
    · simp only [List.mem_singleton] at hf
      subst hf
      exact ⟨"cross_tx_id=".data, '?',
        show "cross_tx_id=?".data = "cross_tx_id=".data ++ ['?'] from by decide, by decide⟩
    · simp at hf
  · split at hf
    · simp only [List.mem_singleton] at hf
      subst hf
      exact ⟨"type=".data, '?',
        show "type=?".data = "type=".data ++ ['?'] from by decide, by decide⟩
    · simp at hf

/-- Joined conditions end as the last condition does. -/
theorem stringsJoin_last (sep : String) :
    ∀ l : List String, l ≠ [] → (∀ s ∈ l, ∃ init c, s.data = init ++ [c] ∧ c ≠ ' ') →
      ∃ init c, (stringsJoin l sep).data = init ++ [c] ∧ c ≠ ' '
  | [], h, _ => absurd rfl h
  | [a], _, h => h a (by simp)
  | a :: b :: rest, _, h => by
    obtain ⟨init, c, hd, hc⟩ := stringsJoin_last sep (b :: rest) (by simp)
      (fun s hs => h s (List.mem_cons_of_mem _ hs))
    refine ⟨(a ++ sep).data ++ init, c, ?_, hc⟩
    show (a ++ sep ++ stringsJoin (b :: rest) sep).data = _
    rw [String.data_append, hd, List.append_assoc]

theorem not_suffix_of_last (s : String) (init : List Char) (c : Char)
    (hd : s.data = init ++ [c]) (hc : c ≠ ' ') : ¬ (" AND ".data <:+ s.data) := by
  rintro ⟨t, ht⟩
  rw [hd] at ht
  have e : (" AND ".data : List Char) = [' ', 'A', 'N', 'D'] ++ [' '] := by decide
  rw [e, ← List.append_assoc] at ht
  have := List.append_inj_right' ht rfl
  simp only [List.cons.injEq, and_true] at this
  exact hc this.symm

/-! ## Ranges of offsets and lengths -/

/-- Entries laid out back to back from `o` end at most at `o` plus the sum of
their sizes. -/
theorem ChainFrom_upper (l : List WakuMessageArchiveIndexMetadata) :
    ∀ o, ChainFrom o l → ∀ e ∈ l, e.Offset + e.Size ≤ o + (l.map (·.Size)).sum := by
  induction l with
  | nil => intro o _ e he; simp at he
  | cons a l ih =>
    intro o h e he
    obtain ⟨h1, h2⟩ := h
    rw [List.map_cons, List.sum_cons]
    rcases List.mem_cons.1 he with he | he
    · subst he; omega
    · have := ih _ h2 e he; omega

/-- A read that returns fills the whole buffer: the result has the length asked for. -/
theorem readAt_length (file : Bytes) (offset n : Nat) (data : Bytes)
    (h : readAt file offset n = some data) : data.length = n := by
  unfold readAt at h
  dsimp only at h
  split at h
  · exact Option.noConfusion h
  · simp only [Option.some.injEq] at h
    rw [← h, List.length_append, List.length_replicate]
    have : ((file.drop offset).take n).length ≤ n := by
      rw [List.length_take]; omega
    omega

/-! ## C1: archived messages lie in their window -/

/-- C1: a call of `CreateHistoryArchiveTorrentFromMessages` with a non-empty
explicit list, `startDate < endDate` and a positive partition returns, given
more fuel than sub-windows, and every message of every archive it created has a
timestamp `t` with `Metadata.From <= t < Metadata.To` and
`startDate.Unix() <= t < endDate.Unix()`; a listed message whose timestamp is
outside that range is in no archive.  The dates are at or after the Unix epoch
and within `int64` seconds, the range in which `uint64(t.Unix())` is
`t.Unix()`. -/
theorem archived_messages_in_window (env : Env) (fuel : Nat) (w : World) (communityID : Bytes)
    (msgs : List Message) (topics : List Bytes) (startDate endDate : Time)
    (partition : Duration) (encrypt : Bool)
    (hmsgs : msgs ≠ []) (hlt : startDate < endDate) (hp : 0 < partition)
    (hstart : 0 ≤ startDate) (hend : Time.Unix endDate < 9223372036854775808)
    (hfuel : windowCount startDate endDate partition < fuel) :
    ∃ r, CreateHistoryArchiveTorrentFromMessages env fuel w communityID msgs topics startDate
        endDate partition encrypt = some r ∧
      (∀ a ∈ r.archives, ∀ m ∈ a.Messages,
        a.Metadata.From ≤ m.Timestamp ∧ m.Timestamp < a.Metadata.To ∧
        Time.Unix startDate ≤ (m.Timestamp : Int) ∧ (m.Timestamp : Int) < Time.Unix endDate) ∧
      (∀ msg ∈ msgs,
        ((msg.Timestamp : Int) < Time.Unix startDate ∨ Time.Unix endDate ≤ (msg.Timestamp : Int)) →
        ∀ a ∈ r.archives, toWakuMessage msg ∉ a.Messages) := by
  obtain ⟨r, hr⟩ := build_returns env fuel w communityID msgs topics startDate endDate partition
    encrypt hp hfuel
  have hexp : decide (msgs.length = 0) = false := by
    cases msgs with
    | nil => exact absurd rfl hmsgs
    | cons _ _ => simp
  have hinv : ∀ a ∈ r.archives, InWindow startDate endDate a := by
    rcases build_cases env fuel w communityID msgs topics startDate endDate partition encrypt r hr
      with ⟨w1, e, _, hr1⟩ | ⟨w1, st1, st2, e, hs, hl, hf, _, _⟩
    · intro a ha; rw [hr1] at ha; simp [BuildResult.archives, initialState] at ha
    · obtain ⟨idx, _, hst1, _⟩ := setup_ok env w w1 communityID startDate endDate partition st1 hs
      have h0 : WindowInv startDate endDate st1 := by
        rw [hst1]
        refine ⟨⟨le_refl _, ?_, ?_⟩, by simp [initialState]⟩
        · simp only [initialState, Time.After, Time.Add, decide_eq_true_eq]
          unfold Time Duration at *
          split <;> omega
        · simp only [initialState, Time.After, Time.Add, decide_eq_true_eq]
          unfold Time Duration at *
          split <;> omega
      rw [hexp] at hl
      have := windowLoop_invariant env communityID encrypt false msgs topics endDate partition
        (WindowInv startDate endDate)
        (fun st st1 e hst _ h => processWindow_windowInv env communityID encrypt msgs topics
          startDate endDate partition hstart hend hlt hp st st1 e hst h)
        fuel st1 st2 e h0 hl
      intro a ha
      unfold BuildResult.archives at ha
      rw [hf] at ha
      exact this.2 a ha
  refine ⟨r, hr, hinv, ?_⟩
  intro msg _ hout a ha hin
  obtain ⟨_, _, h3, h4⟩ := hinv a ha (toWakuMessage msg) hin
  simp only [toWakuMessage] at h3 h4
  omega

theorem archived_messages_in_window_witness :
    ∃ r, demoRun = some r ∧
      (∀ a ∈ r.archives, ∀ m ∈ a.Messages,
        a.Metadata.From ≤ m.Timestamp ∧ m.Timestamp < a.Metadata.To ∧
        Time.Unix 0 ≤ (m.Timestamp : Int) ∧ (m.Timestamp : Int) < Time.Unix 21000000000) ∧
      (∀ msg ∈ demoMessages,
        ((msg.Timestamp : Int) < Time.Unix 0 ∨ Time.Unix 21000000000 ≤ (msg.Timestamp : Int)) →
        ∀ a ∈ r.archives, toWakuMessage msg ∉ a.Messages) :=
  archived_messages_in_window (demoEnv 4 16) 5 demoWorld [7] demoMessages [[0, 0, 0, 1]] 0
    21000000000 7000000000 false (by decide) (by decide) (by decide) (by decide) (by decide)
    (by decide)

/-! ## C2: every eligible message is archived once, in the archive of its window -/

/-- C2: after a successful call of `CreateHistoryArchiveTorrentFromMessages`
with a non-empty explicit list and a positive partition, for every `k` the
messages of the archives whose `Metadata.From` is `startDate + k * partition`
are exactly, in order and with multiplicity, the listed messages with
`startDate <= timestamp < endDate`,
`len(payload) + len(sig) <= maxArchiveSizeInBytes` and
`floor((timestamp - startDate) / partition) = k`.  So each such message is in
one archive only, an archive of its window, and the number of messages over the
archives of a window is the number of such messages in it.  All quantities are
in seconds: `startDate` and `partition` are whole seconds, and the dates are at
or after the Unix epoch and within `int64` seconds. -/
theorem eligible_messages_archived_once (env : Env) (fuel : Nat) (w : World)
    (communityID : Bytes) (msgs : List Message) (topics : List Bytes)
    (startDate endDate : Time) (partition : Duration) (encrypt : Bool) (r : BuildResult)
    (hmsgs : msgs ≠ []) (hp : 0 < partition)
    (hstart : 0 ≤ startDate) (hend : Time.Unix endDate < 9223372036854775808)
    (hs : startDate % 1000000000 = 0) (hps : partition % 1000000000 = 0)
    (hrun : CreateHistoryArchiveTorrentFromMessages env fuel w communityID msgs topics startDate
      endDate partition encrypt = some r)
    (hok : r.err = none) :
    ∀ k : Nat,
      messagesFrom r.archives (Time.Unix startDate + k * (partition / 1000000000))
        = (eligible env msgs startDate endDate partition k).map toWakuMessage := by
  have hexp : decide (msgs.length = 0) = false := by
    cases msgs with
    | nil => exact absurd rfl hmsgs
    | cons _ _ => simp
  obtain ⟨w1, st1, w2, hsetup, hloop, _, _, _⟩ := build_success env fuel w communityID msgs topics
    startDate endDate partition encrypt r hrun hok
  rw [hexp] at hloop
  obtain ⟨idx, _, hst1, _⟩ := setup_ok env w w1 communityID startDate endDate partition st1 hsetup
  have h0 : AssignInv env msgs startDate endDate partition st1 := by
    refine ⟨0, Or.inl ?_, ?_, ?_⟩
    · rw [hst1]; simp [initialState]
    · rw [hst1]; rfl
    · intro k; rw [hst1]; simp [initialState, messagesFrom]
  obtain ⟨j, hj, _, hk⟩ := windowLoop_invariant_ok env communityID encrypt false msgs topics
    endDate partition (AssignInv env msgs startDate endDate partition)
    (fun st st1 hst hfrom h => processWindow_assignInv env communityID encrypt msgs topics
      startDate endDate partition hstart hend hp hs hps st st1 hst hfrom h)
    fuel st1 r.final h0 hloop
  have hexit := windowLoop_exit env communityID encrypt false msgs topics endDate partition fuel
    st1 r.final hloop
  have hge : endDate ≤ startDate + j * partition := by
    rcases hj with hj | ⟨_, hj⟩
    · rw [← hj]; exact hexit
    · exact hj
  intro k
  unfold BuildResult.archives
  rw [hk k]
  split
  · rfl
  · rename_i hkj
    -- no listed message belongs to a window at or after the end
    obtain ⟨s, hsE⟩ : ∃ s : Int, startDate = 1000000000 * s := ⟨startDate / 1000000000, by
      unfold Time at *; omega⟩
    obtain ⟨ps, hpsE⟩ : ∃ ps : Int, partition = 1000000000 * ps := ⟨partition / 1000000000, by
      unfold Duration at *; omega⟩
    have hps0 : 0 < ps := by unfold Duration at *; omega
    have hUs : Time.Unix startDate = s := by rw [hsE, Unix_whole]
    have hUp : partition / 1000000000 = ps := by
      rw [hpsE]; exact Int.mul_ediv_cancel_left ps (by norm_num)
    have hUe : Time.Unix endDate ≤ s + j * ps := by
      have := Unix_mono _ _ hge
      rw [hsE, hpsE, Unix_window] at this
      exact this
    have hjk : (j : Int) * ps ≤ (k : Int) * ps :=
      mul_le_mul_of_nonneg_right (by exact_mod_cast Nat.le_of_not_lt hkj) (le_of_lt hps0)
    symm
    rw [List.map_eq_nil_iff]
    unfold eligible
    rw [List.filter_eq_nil_iff]
    intro m _
    rw [hUs, hUp]
    simp only [Bool.and_eq_true, decide_eq_true_eq, not_and]
    intro ⟨⟨_, h2⟩, _⟩
    rw [ediv_eq_iff_of_pos _ _ _ hps0]
    intro ⟨h3, _⟩
    omega

theorem eligible_messages_archived_once_witness :
    demoRun = some demoResult ∧ demoResult.archives.length = 3 ∧
      (messagesFrom demoResult.archives 0).length = 2 ∧
      (messagesFrom demoResult.archives 7).length = 1 ∧
      (messagesFrom demoResult.archives 14).length = 1 ∧
      ∀ k : Nat,
        messagesFrom demoResult.archives (Time.Unix 0 + k * (7000000000 / 1000000000))
          = (eligible (demoEnv 4 16) demoMessages 0 21000000000 7000000000 k).map
              toWakuMessage :=
  ⟨by decide, by decide, by decide, by decide, by decide,
    eligible_messages_archived_once (demoEnv 4 16) 5 demoWorld [7] demoMessages [[0, 0, 0, 1]] 0
      21000000000 7000000000 false demoResult (by decide) (by decide) (by decide) (by decide)
      (by decide) (by decide) (by decide) (by decide)⟩

/-! ## C3: size and padding of an index entry -/

/-- C3: for a raw encoded length `r` and a piece length `p > 0` the entry has,
when `r > p`, `size = r + p - r mod p` and `padding = size - r`, and otherwise
`padding = p - r` and `size = p`; so `size` is a positive multiple of `p`,
`size = r + padding`, `padding <= p`, `size - padding = r` without underflow,
and `padding = 0` exactly when `r = p`. -/
theorem index_entry_size_and_padding (env : Env) (metadata : WakuMessageArchiveMetadata)
    (offset : Nat) (encodedArchive : Bytes) (hp : 0 < env.pieceLength) :
    ((encodedArchive.length : Int) > env.pieceLength →
      ((indexEntry env metadata offset encodedArchive).Size : Int)
        = encodedArchive.length + env.pieceLength - encodedArchive.length % env.pieceLength ∧
      ((indexEntry env metadata offset encodedArchive).Padding : Int)
        = (indexEntry env metadata offset encodedArchive).Size - encodedArchive.length) ∧
    ((encodedArchive.length : Int) ≤ env.pieceLength →
      ((indexEntry env metadata offset encodedArchive).Padding : Int)
        = env.pieceLength - encodedArchive.length ∧
      ((indexEntry env metadata offset encodedArchive).Size : Int) = env.pieceLength) ∧
    env.pieceLength ∣ ((indexEntry env metadata offset encodedArchive).Size : Int) ∧
    0 < (indexEntry env metadata offset encodedArchive).Size ∧
    (indexEntry env metadata offset encodedArchive).Size
      = encodedArchive.length + (indexEntry env metadata offset encodedArchive).Padding ∧
    ((indexEntry env metadata offset encodedArchive).Padding : Int) ≤ env.pieceLength ∧
    (indexEntry env metadata offset encodedArchive).Size
      - (indexEntry env metadata offset encodedArchive).Padding = encodedArchive.length ∧
    ((indexEntry env metadata offset encodedArchive).Padding = 0 ↔
      (encodedArchive.length : Int) = env.pieceLength) :=
  indexEntry_spec env metadata offset encodedArchive hp

theorem index_entry_size_and_padding_witness :
    (0 : Int) < (demoEnv 4 16).pieceLength ∧
    (16 : Int) ∣ ((indexEntry (demoEnv 4 16) { From := 0, To := 7, ContentTopic := [] } 0
      (List.replicate 39 0)).Size : Int) ∧
    (indexEntry (demoEnv 4 16) { From := 0, To := 7, ContentTopic := [] } 0
      (List.replicate 39 0)).Size = 48 ∧
    (indexEntry (demoEnv 4 16) { From := 0, To := 7, ContentTopic := [] } 0
      (List.replicate 39 0)).Size
      - (indexEntry (demoEnv 4 16) { From := 0, To := 7, ContentTopic := [] } 0
          (List.replicate 39 0)).Padding = (List.replicate 39 0).length :=
  ⟨by decide,
    (index_entry_size_and_padding (demoEnv 4 16) { From := 0, To := 7, ContentTopic := [] } 0
      (List.replicate 39 0) (by decide)).2.2.1,
    by decide,
    (index_entry_size_and_padding (demoEnv 4 16) { From := 0, To := 7, ContentTopic := [] } 0
      (List.replicate 39 0) (by decide)).2.2.2.2.2.2.1⟩

/-! ## C4: offsets stay contiguous -/

/-- C4: offsets stay contiguous.  If the entries of the existing index lie back
to back from offset 0, then after a successful call (positive piece length, no
collision of archive IDs) so do the entries of the merged index, which are the
existing entries followed by the new ones.  The first new entry starts at the
sum of the existing sizes, in whatever order the existing map is iterated, and
every later new entry starts where the previous one ends.  Every new size is
positive; in offset order the byte ranges `[offset, offset + size)` are
pairwise disjoint, and the offsets strictly increase when the existing sizes
are positive too.  The sizes of the existing and of the new entries add up to
less than `2^64` (`hrange`): the running offset of the code is a `uint64`, and
under this bound none of its additions at lines 96 and 220 wraps, so that the
sums taken here are the values the code computes.  The final offset is that
total, and every entry of the merged index ends at or before it, below
`2^64`. -/
theorem offsets_stay_contiguous (env : Env) (fuel : Nat) (w : World) (communityID : Bytes)
    (msgs : List Message) (topics : List Bytes) (startDate endDate : Time)
    (partition : Duration) (encrypt : Bool) (r : BuildResult) (idx : WakuMessageArchiveIndex)
    (hp : 0 < env.pieceLength)
    (hidx : existingArchives env w communityID = .ok idx)
    (hcont : Contiguous idx)
    (hrun : createHistoryArchiveTorrent env fuel w communityID msgs topics startDate endDate
      partition encrypt = some r)
    (hok : r.err = none)
    (hfresh : (idx.map Prod.fst ++ r.archiveIDs).Nodup)
    (hrange : (idx.map (·.2.Size)).sum + (r.entries.map (·.Size)).sum
      < 18446744073709551616) :
    Contiguous r.final.wakuMessageArchiveIndex ∧
    r.final.wakuMessageArchiveIndex.map Prod.snd = idx.map Prod.snd ++ r.entries ∧
    ChainFrom ((idx.map (·.2.Size)).sum) r.entries ∧
    (∀ idx' : WakuMessageArchiveIndex, idx'.Perm idx →
      (existingIndex idx').1 = (idx.map (·.2.Size)).sum) ∧
    (∀ e ∈ r.entries, 0 < e.Size) ∧
    (r.final.offset = (idx.map (·.2.Size)).sum + (r.entries.map (·.Size)).sum ∧
      r.final.offset < 18446744073709551616 ∧
      ∀ e ∈ r.final.wakuMessageArchiveIndex.map Prod.snd,
        e.Offset + e.Size ≤ r.final.offset ∧ e.Offset + e.Size < 18446744073709551616) ∧
    ∃ l : List WakuMessageArchiveIndexMetadata,
      l.Perm (r.final.wakuMessageArchiveIndex.map Prod.snd) ∧ ChainFrom 0 l ∧
      l.Pairwise (fun a b => a.Offset + a.Size ≤ b.Offset) ∧
      ((∀ p ∈ idx, 0 < p.2.Size) → l.Pairwise (fun a b => a.Offset < b.Offset)) := by
  obtain ⟨_, hI, hC, hO, _, hW⟩ := build_index env fuel w communityID msgs topics startDate endDate
    partition encrypt r idx hp hidx hrun hok hfresh
  have hmap : r.final.wakuMessageArchiveIndex.map Prod.snd = idx.map Prod.snd ++ r.entries := by
    rw [hI]; simp [BuildResult.entries, Function.comp_def]
  have hpos : ∀ e ∈ r.entries, 0 < e.Size := by
    intro e he
    obtain ⟨p, hp', hpe⟩ := List.mem_map.1 he
    rw [← hpe]
    exact (WellFormed_sizes env communityID encrypt p hp (hW p hp')).2.2.1
  obtain ⟨l0, hperm, hchain⟩ := hcont
  have hsum : (l0.map (·.Size)).sum = (idx.map (·.2.Size)).sum := by
    have := (hperm.map (·.Size)).sum_eq
    rw [this]; simp [Function.comp_def]
  have hl : ChainFrom 0 (l0 ++ r.entries) := by
    rw [ChainFrom_append]
    exact ⟨hchain, by rw [Nat.zero_add, hsum]; exact hC⟩
  have hlp : (l0 ++ r.entries).Perm (r.final.wakuMessageArchiveIndex.map Prod.snd) := by
    rw [hmap]; exact hperm.append_right _
  have hsizes : r.entries.map (·.Size) = r.final.produced.map Produced.written := by
    unfold BuildResult.entries
    rw [List.map_map]
    exact List.map_congr_left fun p hp' =>
      (WellFormed_sizes env communityID encrypt p hp (hW p hp')).1
  have hoffset : r.final.offset
      = (idx.map (·.2.Size)).sum + (r.entries.map (·.Size)).sum := by
    rw [hO, hsizes]
  have hends : ∀ e ∈ r.final.wakuMessageArchiveIndex.map Prod.snd,
      e.Offset + e.Size ≤ r.final.offset := by
    intro e he
    have h1 := ChainFrom_upper _ 0 hl e (hlp.symm.subset he)
    rw [List.map_append, List.sum_append, hsum, Nat.zero_add] at h1
    rw [hoffset]
    exact h1
  refine ⟨⟨_, hlp, hl⟩, hmap, hC, ?_, hpos, ⟨hoffset, by rw [hoffset]; exact hrange, ?_⟩,
    _, hlp, hl, ChainFrom_disjoint _ _ hl, ?_⟩
  · intro idx' hperm'
    rw [existingIndex_fst_perm idx idx' hperm', existingIndex_fst]
  · intro e he
    have h1 := hends e he
    exact ⟨h1, Nat.lt_of_le_of_lt h1 (by rw [hoffset]; exact hrange)⟩
  · intro hidxpos
    refine (ChainFrom_disjoint _ _ hl).imp_of_mem ?_
    intro a b ha _ hab
    have : 0 < a.Size := by
      rcases List.mem_append.1 ha with ha | ha
      · obtain ⟨q, hq, hqa⟩ := List.mem_map.1 (hperm.subset ha)
        rw [← hqa]; exact hidxpos q hq
      · exact hpos a ha
    omega

theorem offsets_stay_contiguous_witness :
    demoRun2 = some demoResult2 ∧ demoResult2.entries.map (·.Offset) = [112] ∧
      (demoIndex1.map (·.2.Size)).sum + (demoResult2.entries.map (·.Size)).sum = 144 ∧
      Contiguous demoResult2.final.wakuMessageArchiveIndex ∧
      ChainFrom ((demoIndex1.map (·.2.Size)).sum) demoResult2.entries :=
  ⟨by decide, by decide, by decide,
    (offsets_stay_contiguous (demoEnv 4 16) 5 demoWorld1 [7] demoMessages [[0, 0, 0, 1]]
      21000000000 42000000000 7000000000 false demoResult2 demoIndex1 (by decide)
      (by rfl) ⟨demoIndex1.map Prod.snd, List.Perm.refl _, by decide⟩
      (by decide) (by decide) (by decide) (by decide)).1,
    (offsets_stay_contiguous (demoEnv 4 16) 5 demoWorld1 [7] demoMessages [[0, 0, 0, 1]]
      21000000000 42000000000 7000000000 false demoResult2 demoIndex1 (by decide)
      (by rfl) ⟨demoIndex1.map Prod.snd, List.Perm.refl _, by decide⟩
      (by decide) (by decide) (by decide) (by decide)).2.2.1⟩

/-! ## C5: what is written reads back -/

/-- C5: after a successful call with `encrypt = false` on a data file whose
length is the sum of the sizes of the existing entries, for every archive the
call created, with entry `e`: the bytes `data[e.Offset, e.Offset + e.Size -
e.Padding)` are the serialisation of the archive, the next `e.Padding` bytes are
zero, and parsing the bytes gives the archive back when the parser inverts the
serialiser on it; the archive's messages are the conversion, field by field
and in order, of a sublist of the explicit input list; and
`ExtractMessagesFromHistoryArchive` returns them for the entry's archive ID
when the written index loads back, the data file opens, it is shorter than
`2^63` bytes and no archive IDs collide. -/
theorem archives_read_back (env : Env) (fuel : Nat) (w : World) (communityID : Bytes)
    (msgs : List Message) (topics : List Bytes) (startDate endDate : Time)
    (partition : Duration) (r : BuildResult) (idx : WakuMessageArchiveIndex)
    (hp : 0 < env.pieceLength)
    (hidx : existingArchives env w communityID = .ok idx)
    (hlen : (w.dataFile.getD []).length = (idx.map (·.2.Size)).sum)
    (hrun : createHistoryArchiveTorrent env fuel w communityID msgs topics startDate endDate
      partition false = some r)
    (hok : r.err = none)
    (hcodec : ∀ p ∈ r.final.produced, ∀ bs, env.marshalArchive p.archive = some bs →
      env.unmarshalArchive bs = some p.archive) :
    ∀ p ∈ r.final.produced,
      p.entry.Offset + p.entry.Size ≤ (r.world.dataFile.getD []).length ∧
      env.marshalArchive p.archive
        = some (((r.world.dataFile.getD []).drop p.entry.Offset).take
            (p.entry.Size - p.entry.Padding)) ∧
      ((r.world.dataFile.getD []).drop (p.entry.Offset + (p.entry.Size - p.entry.Padding))).take
          p.entry.Padding = List.replicate p.entry.Padding 0 ∧
      env.unmarshalArchive (((r.world.dataFile.getD []).drop p.entry.Offset).take
          (p.entry.Size - p.entry.Padding)) = some p.archive ∧
      (∃ ms : List Message, p.archive.Messages = ms.map toWakuMessage ∧
        (msgs ≠ [] → ms.Sublist msgs)) ∧
      (LoadHistoryArchiveIndexFromFile env r.world communityID
          = .ok r.final.wakuMessageArchiveIndex →
        env.fails .openDataForRead = false →
        (r.world.dataFile.getD []).length < 9223372036854775808 →
        (idx.map Prod.fst ++ r.archiveIDs).Nodup →
        ExtractMessagesFromHistoryArchive env r.world communityID p.archiveID
          = .messages p.archive.Messages) := by
  intro p hp'
  obtain ⟨data, hdata, _, hbound, hslice, hzero⟩ := build_layout env fuel w communityID msgs
    topics startDate endDate partition false r idx hp hidx hlen hrun hok p hp'
  obtain ⟨_, _, _, _, _, t6⟩ := build_trace env fuel w communityID msgs topics startDate endDate
    partition false r idx hidx hrun hok
  obtain ⟨_, _, ⟨plain, hplain, hbytes⟩, _⟩ := t6 p hp'
  simp only [encryptBytes, Bool.false_eq_true, if_false, Except.ok.injEq] at hbytes
  subst hbytes
  have hparse := hcodec p hp' _ hplain
  rw [hdata]
  simp only [Option.getD_some]
  rw [hslice]
  refine ⟨hbound, hplain, hzero, hparse, ?_, ?_⟩
  · obtain ⟨f, t, ms, ha, hsub⟩ := build_fromInput env fuel w communityID msgs topics startDate
      endDate partition false r hrun p.archive (List.mem_map.2 ⟨p, hp', rfl⟩)
    refine ⟨ms, by rw [ha]; rfl, ?_⟩
    intro hne
    apply hsub
    cases msgs with
    | nil => exact absurd rfl hne
    | cons _ _ => simp
  · intro hload hopen hlt hfresh
    obtain ⟨_, hI, _, _, _, hW⟩ := build_index env fuel w communityID msgs topics startDate
      endDate partition false r idx hp hidx hrun hok hfresh
    obtain ⟨hids, _⟩ := build_index env fuel w communityID msgs topics startDate
      endDate partition false r idx hp hidx hrun hok hfresh
    have hkeys : (r.final.wakuMessageArchiveIndex.map Prod.fst).Nodup := by
      rw [hI]
      rw [hids] at hfresh
      simpa [Function.comp_def] using hfresh
    have hmem : (p.archiveID, p.entry) ∈ r.final.wakuMessageArchiveIndex := by
      rw [hI]
      exact List.mem_append_right _ (List.mem_map.2 ⟨p, hp', rfl⟩)
    refine extract_of_lookup env r.world communityID p.archiveID _ data p.entry p.archive hload
      hopen hdata (lookup_of_mem _ hkeys _ _ hmem) hbound hlt
      (WellFormed_sizes env communityID false p hp (hW p hp')).2.2.2.2 ?_
    rw [hslice]; exact hparse

set_option maxRecDepth 100000 in
theorem archives_read_back_witness :
    demoRun2 = some demoResult2 ∧ demoResult2.final.produced.length = 1 ∧
      ∀ p ∈ demoResult2.final.produced,
        ExtractMessagesFromHistoryArchive (demoEnv 4 16) demoResult2.world [7] p.archiveID
          = .messages p.archive.Messages ∧
        p.archive.Messages = [toWakuMessage (demoMessage 30 5)] :=
  ⟨by decide, by decide, fun p hp =>
    ⟨(archives_read_back (demoEnv 4 16) 5 demoWorld1 [7] demoMessages [[0, 0, 0, 1]]
      21000000000 42000000000 7000000000 demoResult2 demoIndex1 (by decide)
      (by rfl) (by decide) (by decide) (by decide)
      (fun q hq bs hbs => by
        have hall : ∀ q ∈ demoResult2.final.produced,
            demoUnmarshalArchive (demoMarshalArchive q.archive) = some q.archive := by decide
        simp only [demoEnv, Option.some.injEq] at hbs
        rw [← hbs]
        exact hall q hq)
      p hp).2.2.2.2.2 (by rfl) (by decide) (by decide) (by decide),
     (by decide : ∀ q ∈ demoResult2.final.produced,
        q.archive.Messages = [toWakuMessage (demoMessage 30 5)]) p hp⟩⟩

/-! ## C6: a call appends -/

/-- C6: after a successful call that created `n >= 1` archives on an existing
index of `m` entries (positive piece length, no collision of archive IDs), the
index that is serialised into the index file has `m + n` entries: every
existing entry under its key, unchanged, every new entry under its archive ID,
and nothing else; and the data file is the former data file followed by the
new archives, each with its padding of zero bytes. -/
theorem build_appends (env : Env) (fuel : Nat) (w : World) (communityID : Bytes)
    (msgs : List Message) (topics : List Bytes) (startDate endDate : Time)
    (partition : Duration) (encrypt : Bool) (r : BuildResult) (idx : WakuMessageArchiveIndex)
    (hp : 0 < env.pieceLength)
    (hidx : existingArchives env w communityID = .ok idx)
    (hrun : createHistoryArchiveTorrent env fuel w communityID msgs topics startDate endDate
      partition encrypt = some r)
    (hok : r.err = none)
    (hn : r.archiveIDs ≠ [])
    (hfresh : (idx.map Prod.fst ++ r.archiveIDs).Nodup) :
    r.final.wakuMessageArchiveIndex.length = idx.length + r.archiveIDs.length ∧
    (∀ k e, (k, e) ∈ idx → r.final.wakuMessageArchiveIndex.lookup k = some e) ∧
    (∀ p ∈ r.final.produced, r.final.wakuMessageArchiveIndex.lookup p.archiveID = some p.entry) ∧
    (∀ k e, r.final.wakuMessageArchiveIndex.lookup k = some e →
      (k, e) ∈ idx ∨ ∃ p ∈ r.final.produced, k = p.archiveID ∧ e = p.entry) ∧
    (∃ plain indexBytes, env.marshalIndex r.final.wakuMessageArchiveIndex = some plain ∧
      encryptBytes env communityID encrypt plain = .ok indexBytes ∧
      r.world.indexFile = some indexBytes) ∧
    r.world.dataFile = some (w.dataFile.getD [] ++
      r.final.produced.flatMap fun p => p.encoded.bytes ++ List.replicate p.entry.Padding 0) := by
  obtain ⟨hids, hI, _, _, _, hW⟩ := build_index env fuel w communityID msgs topics startDate
    endDate partition encrypt r idx hp hidx hrun hok hfresh
  obtain ⟨_, t2, _⟩ := build_trace env fuel w communityID msgs topics startDate endDate
    partition encrypt r idx hidx hrun hok
  have hkeys : (r.final.wakuMessageArchiveIndex.map Prod.fst).Nodup := by
    rw [hI]
    rw [hids] at hfresh
    simpa [Function.comp_def] using hfresh
  have hne : r.final.encodedArchives ≠ [] := by
    rw [t2]; intro he
    rw [List.map_eq_nil_iff] at he
    rw [hids, he] at hn; exact hn rfl
  refine ⟨?_, ?_, ?_, ?_, ?_, ?_⟩
  · rw [hI, hids]; simp
  · intro k e hke
    exact lookup_of_mem _ hkeys k e (by rw [hI]; exact List.mem_append_left _ hke)
  · intro p hp'
    exact lookup_of_mem _ hkeys _ _
      (by rw [hI]; exact List.mem_append_right _ (List.mem_map.2 ⟨p, hp', rfl⟩))
  · intro k e hke
    have := mem_of_lookup _ k e hke
    rw [hI] at this
    rcases List.mem_append.1 this with h1 | h1
    · exact Or.inl h1
    · obtain ⟨p, hp', hpe⟩ := List.mem_map.1 h1
      simp only [Prod.mk.injEq] at hpe
      exact Or.inr ⟨p, hp', hpe.1.symm, hpe.2.symm⟩
  · rcases build_files env fuel w communityID msgs topics startDate endDate partition encrypt r
      hrun hok with ⟨he, _⟩ | ⟨_, plain, indexBytes, _, h1, h2, h3, _⟩
    · exact absurd he hne
    · exact ⟨plain, indexBytes, h1, h2, h3⟩
  · rcases build_files env fuel w communityID msgs topics startDate endDate partition encrypt r
      hrun hok with ⟨he, _⟩ | ⟨_, _, _, _, _, _, _, hdata, _⟩
    · exact absurd he hne
    · rw [hdata, dataBytes_eq, t2, List.flatMap_map]
      congr 2
      apply List.flatMap_congr
      intro p hp'
      rw [(WellFormed_sizes env communityID encrypt p hp (hW p hp')).2.1]

set_option maxRecDepth 100000 in
theorem build_appends_witness :
    demoRun2 = some demoResult2 ∧ demoIndex1.length = 3 ∧ demoResult2.archiveIDs.length = 1 ∧
      demoResult2.final.wakuMessageArchiveIndex.length = 3 + 1 ∧
      demoResult2.world.dataFile = some (demoWorld1.dataFile.getD [] ++
        demoResult2.final.produced.flatMap fun p =>
          p.encoded.bytes ++ List.replicate p.entry.Padding 0) :=
  ⟨by decide, by decide, by decide,
    (build_appends (demoEnv 4 16) 5 demoWorld1 [7] demoMessages [[0, 0, 0, 1]]
      21000000000 42000000000 7000000000 false demoResult2 demoIndex1 (by decide)
      (by rfl) (by decide) (by decide) (by decide) (by decide)).1,
    (build_appends (demoEnv 4 16) 5 demoWorld1 [7] demoMessages [[0, 0, 0, 1]]
      21000000000 42000000000 7000000000 false demoResult2 demoIndex1 (by decide)
      (by rfl) (by decide) (by decide) (by decide) (by decide)).2.2.2.2.2⟩

/-! ## C7: a repeated call appends the same archives again -/

/-- C7, as the code behaves: two calls in a row with the same community,
explicit or stored messages, topics, range, partition and `encrypt = false`,
both successful, create the same archives.  The second call adds them anew, at
new offsets: if the index file holds `N` entries after the first call, the
index has `N + n` entries after the second, `n` being the number of archives of
each call (no archive IDs colliding), and the data file grows by as many bytes
as in the first call.  When `n > 0` the index and the data file are strictly
larger after the second call. -/
theorem repeated_call_appends_again (env : Env) (fuel fuel2 : Nat) (w : World)
    (communityID : Bytes) (msgs : List Message) (topics : List Bytes)
    (startDate endDate : Time) (partition : Duration) (r1 r2 : BuildResult)
    (idx2 : WakuMessageArchiveIndex)
    (hp : 0 < env.pieceLength)
    (hrun1 : createHistoryArchiveTorrent env fuel w communityID msgs topics startDate endDate
      partition false = some r1)
    (hok1 : r1.err = none)
    (hidx2 : existingArchives env r1.world communityID = .ok idx2)
    (hrun2 : createHistoryArchiveTorrent env fuel2 r1.world communityID msgs topics startDate
      endDate partition false = some r2)
    (hok2 : r2.err = none)
    (hfresh2 : (idx2.map Prod.fst ++ r2.archiveIDs).Nodup) :
    r2.archives = r1.archives ∧
    r2.final.wakuMessageArchiveIndex.length = idx2.length + r1.archives.length ∧
    (r2.world.dataFile.getD []).length
      = (r1.world.dataFile.getD []).length
        + ((r1.world.dataFile.getD []).length - (w.dataFile.getD []).length) ∧
    (r1.archives ≠ [] →
      idx2.length < r2.final.wakuMessageArchiveIndex.length ∧
      (r1.world.dataFile.getD []).length < (r2.world.dataFile.getD []).length) := by
  have hsame := build_same_archives env fuel fuel2 w r1.world communityID msgs topics startDate
    endDate partition false r1 r2 hrun1 hok1 hrun2 hok2
  obtain ⟨w1, st1, _, hs, _⟩ := build_success env fuel w communityID msgs topics startDate endDate
    partition false r1 hrun1 hok1
  obtain ⟨idx1, hidx1, _, _⟩ := setup_ok env w w1 communityID startDate endDate partition st1 hs
  obtain ⟨_, a2, _, _, _, a6⟩ := build_trace env fuel w communityID msgs topics startDate endDate
    partition false r1 idx1 hidx1 hrun1 hok1
  obtain ⟨_, b2, _, _, _, b6⟩ := build_trace env fuel2 r1.world communityID msgs topics startDate
    endDate partition false r2 idx2 hidx2 hrun2 hok2
  obtain ⟨hids, hI, _⟩ := build_index env fuel2 r1.world communityID msgs topics startDate endDate
    partition false r2 idx2 hp hidx2 hrun2 hok2 hfresh2
  have henc : r2.final.encodedArchives = r1.final.encodedArchives := by
    rw [a2, b2]
    exact map_encoded_of_archives env communityID _ _ b6 a6 hsame
  have hd1 := build_data_length env fuel w communityID msgs topics startDate endDate partition
    false r1 hrun1 hok1
  have hd2 := build_data_length env fuel2 r1.world communityID msgs topics startDate endDate
    partition false r2 hrun2 hok2
  rw [henc] at hd2
  have hlen : r2.final.wakuMessageArchiveIndex.length = idx2.length + r1.archives.length := by
    rw [hI, ← hsame]; simp [BuildResult.archives]
  refine ⟨hsame, hlen, by omega, ?_⟩
  intro hne
  have hne1 : r1.final.produced ≠ [] := by
    intro he; apply hne; simp [BuildResult.archives, he]
  have hpos := dataBytes_length_pos env communityID false r1.final.produced hp a6 hne1
  rw [← a2] at hpos
  have hlpos : 0 < r1.archives.length := List.length_pos.2 hne
  omega

set_option maxRecDepth 100000 in
theorem repeated_call_appends_again_witness :
    demoRun = some demoResult ∧ demoRun3 = some demoResult3 ∧
      demoResult3.archives = demoResult.archives ∧
      demoResult3.final.wakuMessageArchiveIndex.length = demoIndex1.length + 3 :=
  ⟨by decide, by decide,
    (repeated_call_appends_again (demoEnv 4 16) 5 5 demoWorld [7] demoMessages [[0, 0, 0, 1]] 0
      21000000000 7000000000 demoResult demoResult3 demoIndex1 (by decide) (by decide)
      (by decide) (by rfl) (by decide) (by decide) (by decide)).1,
    (repeated_call_appends_again (demoEnv 4 16) 5 5 demoWorld [7] demoMessages [[0, 0, 0, 1]] 0
      21000000000 7000000000 demoResult demoResult3 demoIndex1 (by decide) (by decide)
      (by decide) (by rfl) (by decide) (by decide) (by decide)).2.1⟩

set_option maxRecDepth 100000 in
/-- C7, as stated, fails: the example call made twice on a fresh community
leaves 3 index entries after the first call and 6 after the second, and a data
file twice as long. -/
theorem repeated_call_duplicates_entries :
    demoRun = some demoResult ∧ demoResult.err = none ∧
      CreateHistoryArchiveTorrentFromMessages (demoEnv 4 16) 5 demoResult.world [7] demoMessages
        [[0, 0, 0, 1]] 0 21000000000 7000000000 false = some demoResult3 ∧
      demoResult3.err = none ∧
      indexCount (demoEnv 4 16) demoResult.world [7] = some 3 ∧
      indexCount (demoEnv 4 16) demoResult3.world [7] = some 6 ∧
      (demoResult.world.dataFile.getD []).length = 112 ∧
      (demoResult3.world.dataFile.getD []).length = 224 := by
  refine ⟨by decide, by decide, by decide, by decide, by decide, by decide, by decide, by decide⟩

/-! ## C8: windows without messages -/

/-- C8: a call with a positive partition and enough fuel in which no
sub-window of `[startDate, endDate)` selects a message, whose directories exist
or can be created, whose existing index (if any) loads and whose two cursor
calls succeed, returns an empty list of archive IDs and no error; the index
file, the data file and the swarm descriptor are as before the call, and the
events published are `CreatingHistoryArchivesSignal` followed by
`NoHistoryArchivesCreatedSignal` with the range of the call. -/
theorem no_messages_no_archives (env : Env) (fuel : Nat) (w : World) (communityID : Bytes)
    (msgs : List Message) (topics : List Bytes) (startDate endDate : Time)
    (partition : Duration) (encrypt : Bool) (idx : WakuMessageArchiveIndex)
    (hp : 0 < partition)
    (hfuel : windowCount startDate endDate partition < fuel)
    (hd1 : w.archiveDirExists = true ∨ env.fails .mkdirArchiveDir = false)
    (hd2 : w.torrentDirExists = true ∨ env.fails .mkdirTorrentDir = false)
    (hidx : existingArchives env w communityID = .ok idx)
    (hsel : ∀ k : Nat, (subWindow startDate endDate partition k).1 < endDate →
      selectMessages env (decide (msgs.length = 0)) msgs topics
        (subWindow startDate endDate partition k).1
        (subWindow startDate endDate partition k).2 = .ok [])
    (hget : env.fails .getLastMessageArchiveEndDate = false)
    (hsave : env.fails .saveLastMessageArchiveEndDate = false) :
    ∃ r, createHistoryArchiveTorrent env fuel w communityID msgs topics startDate endDate
        partition encrypt = some r ∧
      r.archiveIDs = [] ∧ r.err = none ∧
      r.world.indexFile = w.indexFile ∧ r.world.dataFile = w.dataFile ∧
      r.world.torrentFile = w.torrentFile ∧
      r.world.published = w.published ++
        [Signal.CreatingHistoryArchivesSignal communityID,
         Signal.NoHistoryArchivesCreatedSignal communityID (Time.Unix startDate)
           (Time.Unix endDate)] := by
  obtain ⟨st1, hloop, _, h2, _, h4, _⟩ := windowLoop_empty env communityID encrypt
    (decide (msgs.length = 0)) msgs topics startDate endDate partition hp hsel fuel
    { initialState startDate endDate partition with
      offset := (existingIndex idx).1
      wakuMessageArchiveIndex := (existingIndex idx).2 }
    rfl (Or.inr ⟨0, by simp [initialState]⟩) hfuel
  unfold createHistoryArchiveTorrent
  dsimp only
  rw [setup_succeeds env w communityID startDate endDate partition idx hd1 hd2 hidx]
  dsimp only
  rw [hloop]
  dsimp only
  rw [writeArchives_none env communityID encrypt startDate endDate _ st1 h4]
  dsimp only
  rw [saveCursor_succeeds env _ _ hget hsave]
  exact ⟨_, rfl, h2, rfl, rfl, rfl, rfl, by simp⟩

theorem no_messages_no_archives_witness :
    ∃ r, CreateHistoryArchiveTorrentFromDB (demoEnv 4 16) 5 demoWorld [7] [[0, 0, 0, 1]] 0
        21000000000 7000000000 false = some r ∧
      r.archiveIDs = [] ∧ r.err = none ∧
      r.world.indexFile = none ∧ r.world.dataFile = none ∧ r.world.torrentFile = none ∧
      r.world.published =
        [Signal.CreatingHistoryArchivesSignal [7],
         Signal.NoHistoryArchivesCreatedSignal [7] 0 21] :=
  no_messages_no_archives (demoEnv 4 16) 5 demoWorld [7] [] [[0, 0, 0, 1]] 0 21000000000
    7000000000 false [] (by decide) (by decide) (Or.inr rfl) (Or.inr rfl) rfl
    (fun _ _ => rfl) rfl rfl

/-! ## C9: chunks respect the size bound -/

/-- C9: for every list of selected messages and every
`maxArchiveSizeInBytes >= 0`, each chunk of the chunking loop has a total of
`len(payload) + len(sig)` of at most `maxArchiveSizeInBytes`, and is made of
whole input messages: it is a sublist of the input. -/
theorem chunks_within_size_bound (maxArchiveSizeInBytes : Int)
    (hmx : 0 ≤ maxArchiveSizeInBytes) (messages : List Message) :
    ∀ c ∈ chunkMessages maxArchiveSizeInBytes messages,
      chunkSize c ≤ maxArchiveSizeInBytes ∧ c.Sublist messages := by
  intro c hc
  refine ⟨chunkMessages_bound maxArchiveSizeInBytes hmx messages c hc, ?_⟩
  have h1 : c.Sublist (chunkMessages maxArchiveSizeInBytes messages).flatten :=
    List.sublist_flatten_of_mem hc
  rw [chunkMessages_flatten] at h1
  exact h1.trans (List.filter_sublist _)

theorem chunks_within_size_bound_witness :
    (0 : Int) ≤ 4 ∧ (chunkMessages 4 demoMessages).length = 3 ∧
    ∀ c ∈ chunkMessages 4 demoMessages, chunkSize c ≤ 4 ∧ c.Sublist demoMessages :=
  ⟨by decide, by decide, chunks_within_size_bound 4 (by decide) demoMessages⟩

/-! ## C10: chunking is the greedy split -/

/-- C10: the chunks, concatenated in order, are the input list without the
messages whose `len(payload) + len(sig)` exceeds `maxArchiveSizeInBytes`, and
every chunk boundary is forced: the first message of a chunk does not fit into
the chunk before it. -/
theorem chunking_is_greedy (maxArchiveSizeInBytes : Int) (messages : List Message) :
    (chunkMessages maxArchiveSizeInBytes messages).flatten
      = messages.filter (fun m => decide (msgSize m ≤ maxArchiveSizeInBytes)) ∧
    List.Chain' (Forced maxArchiveSizeInBytes) (chunkMessages maxArchiveSizeInBytes messages) :=
  ⟨chunkMessages_flatten maxArchiveSizeInBytes messages,
    chunkMessages_forced maxArchiveSizeInBytes messages⟩

/-! ## C11: an archive without messages -/

/-- C11, the code at the failing input: a call whose only window selects one message, of 6
bytes against a bound of 4, returns without error with one archive that holds
no message, one archive ID, one index entry of one piece, and 16 bytes in the
data file. -/
theorem oversized_window_yields_empty_archive :
    demoRunOversized = some demoResultOversized ∧ demoResultOversized.err = none ∧
      msgSize demoOversized > (demoEnv 4 16).maxArchiveSizeInBytes ∧
      demoResultOversized.archives
        = [{ Metadata := { From := 0, To := 7, ContentTopic := [[0, 0, 0, 1]] }, Messages := [] }] ∧
      demoResultOversized.archiveIDs.length = 1 ∧
      demoResultOversized.final.wakuMessageArchiveIndex.map (fun p => (p.2.Offset, p.2.Size))
        = [(0, 16)] ∧
      (demoResultOversized.world.dataFile.getD []).length = 16 := by
  refine ⟨by decide, by decide, by decide, by decide, by decide, by decide, by decide⟩

/-! ## C12: the explicit list and the gateway -/

/-- C12, as the code behaves: a call of `CreateHistoryArchiveTorrentFromMessages`
with a non-empty explicit list gives the same result whatever the persistence
gateway is, also one that fails, so `GetWakuMessagesByFilterTopic` is not
invoked, and the messages of every archive are the conversion of a sublist of
the explicit list.  With the empty list the call is the call of
`CreateHistoryArchiveTorrentFromDB`, which takes its messages from the
gateway. -/
theorem explicit_list_skips_gateway (env : Env) (fuel : Nat) (w : World) (communityID : Bytes)
    (msgs : List Message) (topics : List Bytes) (startDate endDate : Time)
    (partition : Duration) (encrypt : Bool) (hmsgs : msgs ≠ []) :
    (∀ gateway : List Bytes → Nat → Nat → Option (List Message),
      CreateHistoryArchiveTorrentFromMessages (env.withGateway gateway) fuel w communityID msgs
          topics startDate endDate partition encrypt
        = CreateHistoryArchiveTorrentFromMessages env fuel w communityID msgs topics startDate
            endDate partition encrypt) ∧
    (∀ r, CreateHistoryArchiveTorrentFromMessages env fuel w communityID msgs topics startDate
        endDate partition encrypt = some r →
      ∀ a ∈ r.archives, ∃ ms : List Message, a.Messages = ms.map toWakuMessage ∧
        ms.Sublist msgs) ∧
    CreateHistoryArchiveTorrentFromMessages env fuel w communityID [] topics startDate endDate
        partition encrypt
      = CreateHistoryArchiveTorrentFromDB env fuel w communityID topics startDate endDate
          partition encrypt := by
  refine ⟨?_, ?_, rfl⟩
  · intro g
    exact build_withGateway env g fuel w communityID msgs topics startDate endDate partition
      encrypt hmsgs
  · intro r hr a ha
    obtain ⟨f, t, ms, hms, hsub⟩ := build_fromInput env fuel w communityID msgs topics startDate
      endDate partition encrypt r hr a ha
    refine ⟨ms, by rw [hms]; rfl, hsub ?_⟩
    cases msgs with
    | nil => exact absurd rfl hmsgs
    | cons _ _ => simp

theorem explicit_list_skips_gateway_witness :
    demoMessages ≠ [] ∧
      CreateHistoryArchiveTorrentFromMessages ((demoEnv 4 16).withGateway fun _ _ _ => none) 5
          demoWorld [7] demoMessages [[0, 0, 0, 1]] 0 21000000000 7000000000 false
        = demoRun :=
  ⟨by decide,
    (explicit_list_skips_gateway (demoEnv 4 16) 5 demoWorld [7] demoMessages [[0, 0, 0, 1]] 0
      21000000000 7000000000 false (by decide)).1 _⟩

/-- C12, as stated, fails for the empty list: the call archives the message the
gateway stores, which is not of the list, and with a failing gateway the call
returns the gateway's error. -/
theorem empty_list_reads_gateway :
    (demoRunEmptyList demoGateway).map (fun r => (r.archives, r.err))
      = some ([{ Metadata := { From := 0, To := 7, ContentTopic := [[0, 0, 0, 1]] }
                 Messages := [toWakuMessage (demoMessage 1 1)] }], none) ∧
    (demoRunEmptyList fun _ _ _ => none).map (fun r => (r.archives, r.err))
      = some ([], some .getWakuMessages) := by
  refine ⟨by decide, by decide⟩

/-! ## C13: the size is not always the next multiple -/

/-- C13, as the code behaves: for a piece length `p > 0` the size of an entry is
a multiple of `p` and at least the raw length `r`.  It is `p` when `r <= p`, and
the smallest multiple of `p` strictly above `r` when `r > p`.  So it is the
smallest multiple of `p` that is `>= r` when `r` is not a multiple of `p` or
is `p` itself, and it is `r + p`, a whole piece more, when `r` is another
multiple of `p`. -/
theorem index_entry_size_rounding (env : Env) (metadata : WakuMessageArchiveMetadata)
    (offset : Nat) (encodedArchive : Bytes) (hp : 0 < env.pieceLength) :
    env.pieceLength ∣ ((indexEntry env metadata offset encodedArchive).Size : Int) ∧
    encodedArchive.length ≤ (indexEntry env metadata offset encodedArchive).Size ∧
    ((encodedArchive.length : Int) ≤ env.pieceLength →
      ((indexEntry env metadata offset encodedArchive).Size : Int) = env.pieceLength) ∧
    (env.pieceLength < (encodedArchive.length : Int) →
      encodedArchive.length < (indexEntry env metadata offset encodedArchive).Size ∧
      ∀ m : Int, env.pieceLength ∣ m → (encodedArchive.length : Int) < m →
        ((indexEntry env metadata offset encodedArchive).Size : Int) ≤ m) ∧
    ((¬ env.pieceLength ∣ (encodedArchive.length : Int) ∨
        (encodedArchive.length : Int) = env.pieceLength) →
      ∀ m : Int, env.pieceLength ∣ m → (encodedArchive.length : Int) ≤ m →
        ((indexEntry env metadata offset encodedArchive).Size : Int) ≤ m) ∧
    (env.pieceLength ∣ (encodedArchive.length : Int) →
      (encodedArchive.length : Int) ≠ env.pieceLength →
      ((indexEntry env metadata offset encodedArchive).Size : Int)
        = encodedArchive.length + env.pieceLength) := by
  obtain ⟨c1, c2, c3, c4, c5, c6, c7, c8⟩ :=
    indexEntry_spec env metadata offset encodedArchive hp
  generalize (indexEntry env metadata offset encodedArchive).Size = S at *
  generalize (indexEntry env metadata offset encodedArchive).Padding = P at *
  generalize hr : (encodedArchive.length : Int) = r at *
  generalize env.pieceLength = p at *
  have hr0 : 0 ≤ r := by rw [← hr]; exact Int.ofNat_nonneg _
  have hmod0 := Int.emod_nonneg r (ne_of_gt hp)
  have hmodlt := Int.emod_lt_of_pos r hp
  -- a multiple of p strictly above r is at least p * (r / p + 1)
  have habove : ∀ m : Int, p ∣ m → r < m → r + p - r % p ≤ m := by
    intro m ⟨k, hk⟩ hlt
    have hdiv := Int.emod_add_ediv r p
    have hk1 : r / p < k := by
      by_contra hcon
      have hle : k ≤ r / p := by omega
      have := Int.mul_le_mul_of_nonneg_left hle (le_of_lt hp)
      rw [← hk] at this
      omega
    have := Int.mul_le_mul_of_nonneg_left (show r / p + 1 ≤ k by omega) (le_of_lt hp)
    rw [← hk] at this
    have e : p * (r / p + 1) = p * (r / p) + p := by ring
    omega
  refine ⟨c3, by omega, fun h => (c2 h).2, ?_, ?_, ?_⟩
  · intro h
    obtain ⟨h1, _⟩ := c1 h
    refine ⟨by omega, ?_⟩
    intro m hm hlt
    rw [h1]; exact habove m hm hlt
  · intro hcase m hm hle
    by_cases hrp : r ≤ p
    · rw [(c2 hrp).2]
      -- a multiple of p that is >= r > 0, or >= r = p, is at least p
      obtain ⟨k, hk⟩ := hm
      have hrpos : 0 < r := by
        rcases hcase with h | h
        · by_contra hcon
          have : r = 0 := by omega
          exact h (this ▸ dvd_zero p)
        · omega
      have hk1 : 0 < k := by
        by_contra hcon
        have hle0 : k ≤ 0 := by omega
        have := Int.mul_le_mul_of_nonneg_left hle0 (le_of_lt hp)
        rw [← hk] at this
        omega
      have := Int.mul_le_mul_of_nonneg_left (show 1 ≤ k by omega) (le_of_lt hp)
      rw [← hk] at this
      omega
    · have hgt : p < r := by omega
      obtain ⟨h1, _⟩ := c1 hgt
      rw [h1]
      have hne : r ≠ m := by
        intro he
        rcases hcase with h | h
        · exact h (he ▸ hm)
        · omega
      exact habove m hm (by omega)
  · intro hdvd hne
    by_cases hrp : r ≤ p
    · rw [(c2 hrp).2]
      obtain ⟨k, hk⟩ := hdvd
      have hk0 : k ≤ 0 := by
        by_contra hcon
        have := Int.mul_le_mul_of_nonneg_left (show 1 ≤ k by omega) (le_of_lt hp)
        rw [← hk] at this
        omega
      have := Int.mul_le_mul_of_nonneg_left hk0 (le_of_lt hp)
      rw [← hk] at this
      omega
    · obtain ⟨h1, _⟩ := c1 (by omega)
      rw [h1, Int.emod_eq_zero_of_dvd hdvd]
      omega

theorem index_entry_size_rounding_witness :
    (0 : Int) < (demoEnv 4 16).pieceLength ∧
      ((indexEntry (demoEnv 4 16) { From := 0, To := 7, ContentTopic := [] } 0
        (List.replicate 39 0)).Size : Int) = 48 ∧
      ∀ m : Int, (demoEnv 4 16).pieceLength ∣ m → ((List.replicate 39 0).length : Int) < m →
        ((indexEntry (demoEnv 4 16) { From := 0, To := 7, ContentTopic := [] } 0
          (List.replicate 39 0)).Size : Int) ≤ m :=
  ⟨by decide, by decide,
    ((index_entry_size_rounding (demoEnv 4 16) { From := 0, To := 7, ContentTopic := [] } 0
      (List.replicate 39 0) (by decide)).2.2.2.1 (by decide)).2⟩

/-- C13, as stated, fails: an encoded archive of 32 bytes with pieces of 16
bytes gets the size 48, although 32 is a multiple of 16 that is at least 32. -/
theorem size_is_not_least_multiple :
    (indexEntry (demoEnv 4 16) { From := 0, To := 7, ContentTopic := [] } 0
        (List.replicate 32 0)).Size = 48 ∧
      (demoEnv 4 16).pieceLength = 16 ∧ (List.replicate 32 0).length = 32 ∧
      (16 : Int) ∣ 32 ∧ (32 : Int) ≥ 32 ∧ (32 : Int) < 48 := by
  refine ⟨by decide, by decide, by decide, by decide, by decide, by decide⟩

/-! ## C14: the cursor after trailing windows without messages -/

/-- C14, as the code behaves: after a successful build with
`startDate < endDate` the loop variable `from` is `endDate`, the end and not the
start of the final sub-window iterated, and the value persisted as the cursor
is `uint64(endDate.Unix())`, whether or not the trailing sub-windows contain
messages; for `endDate.Unix()` in the range of `uint64` the cursor is
`endDate.Unix()` and so not less than it. -/
theorem cursor_is_end_of_range (env : Env) (fuel : Nat) (w : World) (communityID : Bytes)
    (msgs : List Message) (topics : List Bytes) (startDate endDate : Time)
    (partition : Duration) (encrypt : Bool) (r : BuildResult)
    (h : createHistoryArchiveTorrent env fuel w communityID msgs topics startDate endDate
      partition encrypt = some r)
    (hok : r.err = none) (hlt : startDate < endDate) :
    r.final.from_ = endDate ∧
    r.world.lastMessageArchiveEndDate = some (uint64 (Time.Unix endDate)) ∧
    (0 ≤ Time.Unix endDate → Time.Unix endDate < 18446744073709551616 →
      ∃ c : Nat, r.world.lastMessageArchiveEndDate = some c ∧ (c : Int) = Time.Unix endDate ∧
        ¬ ((c : Int) < Time.Unix endDate)) := by
  have hfrom := build_final_from_lt env fuel w communityID msgs topics startDate endDate
    partition encrypt r h hok (le_of_lt hlt)
  have hcur := build_cursor env fuel w communityID msgs topics startDate endDate partition
    encrypt r h hok
  rw [hfrom] at hcur
  refine ⟨hfrom, hcur, fun h0 h1 => ⟨_, hcur, uint64_of_range _ h0 h1, ?_⟩⟩
  rw [uint64_of_range _ h0 h1]
  exact lt_irrefl _

set_option maxRecDepth 100000 in
theorem cursor_is_end_of_range_witness :
    demoResultTrailing.err = none ∧ (0 : Time) < 21000000000 ∧
      demoResultTrailing.final.from_ = 21000000000 ∧
      demoResultTrailing.world.lastMessageArchiveEndDate
        = some (uint64 (Time.Unix 21000000000)) :=
  have h := cursor_is_end_of_range (demoEnv 4 16) 5 demoWorld [7] [demoMessage 1 1]
    [[0, 0, 0, 1]] 0 21000000000 7000000000 false demoResultTrailing (by decide) (by decide)
    (by decide)
  ⟨by decide, by decide, h.1, h.2.1⟩

set_option maxRecDepth 100000 in
/-- C14, as stated, fails: a successful call for `[0 s, 21 s)` in windows of 7
seconds whose message lies in the first window, so that the two trailing
windows select no message, persists the cursor 21, which is `endDate.Unix()` and
not less; the final sub-window iterated starts at second 14. -/
theorem trailing_windows_cursor_is_end :
    demoRunTrailing = some demoResultTrailing ∧ demoResultTrailing.err = none ∧
      demoResultTrailing.archives.map (fun a => a.Metadata.From) = [0] ∧
      (subWindow 0 21000000000 7000000000 2).1 < 21000000000 ∧
      ¬ ((subWindow 0 21000000000 7000000000 3).1 < 21000000000) ∧
      Time.Unix (subWindow 0 21000000000 7000000000 2).1 = 14 ∧
      Time.Unix 21000000000 = 21 ∧
      demoResultTrailing.world.lastMessageArchiveEndDate = some 21 := by
  refine ⟨by decide, by decide, by decide, by decide, by decide, by decide, by decide, by decide⟩

/-! ## C15: the cursor can move back -/

/-- C15, as the code behaves: a successful call stores `uint64(from.Unix())`
without comparing it with the stored cursor.  When the stored cursor (0 if
there is none) is at most `startDate.Unix()`, and the Unix seconds of both
dates are in the range of `uint64`, the cursor persisted by the call is at
least the value persisted before it; for `startDate < endDate` the new cursor
is `endDate.Unix()`, so it is at least the previous one exactly when
`endDate.Unix()` is. -/
theorem cursor_forward_from_start (env : Env) (fuel : Nat) (w : World) (communityID : Bytes)
    (msgs : List Message) (topics : List Bytes) (startDate endDate : Time)
    (partition : Duration) (encrypt : Bool) (r : BuildResult)
    (h : createHistoryArchiveTorrent env fuel w communityID msgs topics startDate endDate
      partition encrypt = some r)
    (hok : r.err = none)
    (hstart : Time.Unix startDate < 18446744073709551616)
    (hend : Time.Unix endDate < 18446744073709551616) :
    (((w.lastMessageArchiveEndDate.getD 0 : Nat) : Int) ≤ Time.Unix startDate →
      ∃ c : Nat, r.world.lastMessageArchiveEndDate = some c ∧
        w.lastMessageArchiveEndDate.getD 0 ≤ c) ∧
    (startDate < endDate → 0 ≤ Time.Unix endDate →
      ∃ c : Nat, r.world.lastMessageArchiveEndDate = some c ∧ (c : Int) = Time.Unix endDate ∧
        (w.lastMessageArchiveEndDate.getD 0 ≤ c ↔
          ((w.lastMessageArchiveEndDate.getD 0 : Nat) : Int) ≤ Time.Unix endDate)) := by
  have hcur := build_cursor env fuel w communityID msgs topics startDate endDate partition
    encrypt r h hok
  constructor
  · intro hprev
    have h0 : 0 ≤ Time.Unix startDate := le_trans (Int.ofNat_nonneg _) hprev
    refine ⟨_, hcur, ?_⟩
    rcases lt_or_le startDate endDate with hlt | hge
    · rw [build_final_from_lt env fuel w communityID msgs topics startDate endDate partition
        encrypt r h hok (le_of_lt hlt)]
      have hm := Unix_mono startDate endDate (le_of_lt hlt)
      have := uint64_of_range (Time.Unix endDate) (le_trans h0 hm) hend
      omega
    · rw [build_final_from_ge env fuel w communityID msgs topics startDate endDate partition
        encrypt r h hok hge]
      have := uint64_of_range (Time.Unix startDate) h0 hstart
      omega
  · intro hlt h0
    rw [build_final_from_lt env fuel w communityID msgs topics startDate endDate partition
      encrypt r h hok (le_of_lt hlt)] at hcur
    have hu := uint64_of_range (Time.Unix endDate) h0 hend
    refine ⟨_, hcur, hu, ?_⟩
    omega

set_option maxRecDepth 100000 in
theorem cursor_forward_from_start_witness :
    demoResult2.err = none ∧
      ((demoWorld1.lastMessageArchiveEndDate.getD 0 : Nat) : Int) ≤ Time.Unix 21000000000 ∧
      ∃ c : Nat, demoResult2.world.lastMessageArchiveEndDate = some c ∧
        demoWorld1.lastMessageArchiveEndDate.getD 0 ≤ c :=
  ⟨by decide, by decide,
    (cursor_forward_from_start (demoEnv 4 16) 5 demoWorld1 [7] demoMessages [[0, 0, 0, 1]]
      21000000000 42000000000 7000000000 false demoResult2 (by decide) (by decide) (by decide)
      (by decide)).1 (by decide)⟩

set_option maxRecDepth 100000 in
/-- C15, as stated, fails: on the community whose cursor is 21 after the example
call, a successful call for `[0 s, 7 s)` persists the cursor 7. -/
theorem earlier_range_moves_cursor_back :
    demoRun = some demoResult ∧ demoResult.err = none ∧ demoResult.world = demoWorld1 ∧
      demoWorld1.lastMessageArchiveEndDate = some 21 ∧
      demoRunEarlier = some demoResultEarlier ∧ demoResultEarlier.err = none ∧
      demoResultEarlier.world.lastMessageArchiveEndDate = some 7 ∧ (7 : Nat) < 21 := by
  refine ⟨by decide, by decide, by decide, by decide, by decide, by decide, by decide, by decide⟩

/-! ## C16: an error in the window loop -/

/-- C16: when the window loop of a call ends with an error, in any sub-window
and whatever was encoded in memory before, the error is one of loading the
messages, serialising an archive or an index entry, encrypting; the call
returns that error with the archive IDs collected so far, and the index file,
the data file, the swarm descriptor and the persisted cursor are exactly as
before the call. -/
theorem loop_failure_commits_nothing (env : Env) (fuel : Nat) (w : World) (communityID : Bytes)
    (msgs : List Message) (topics : List Bytes) (startDate endDate : Time)
    (partition : Duration) (encrypt : Bool) (w1 : World) (st1 st2 : BuildState)
    (err : BuildError)
    (hsetup : setup env w communityID startDate endDate partition = .ok (w1, st1))
    (hloop : windowLoop env communityID encrypt (decide (msgs.length = 0)) msgs topics endDate
      partition fuel st1 = some (st2, some err)) :
    err.inLoop ∧
    ∃ r, createHistoryArchiveTorrent env fuel w communityID msgs topics startDate endDate
        partition encrypt = some r ∧
      r.err = some err ∧ r.archiveIDs = st2.archiveIDs ∧ r.final = st2 ∧
      r.world.indexFile = w.indexFile ∧ r.world.dataFile = w.dataFile ∧
      r.world.torrentFile = w.torrentFile ∧
      r.world.lastMessageArchiveEndDate = w.lastMessageArchiveEndDate := by
  refine ⟨windowLoop_err_kind env communityID encrypt _ msgs topics endDate partition fuel st1
    st2 err hloop, ?_⟩
  obtain ⟨idx, _, _, hw1⟩ := setup_ok env w w1 communityID startDate endDate partition st1 hsetup
  refine ⟨{ world := w1, archiveIDs := st2.archiveIDs, err := some err, final := st2 }, ?_,
    rfl, rfl, rfl, ?_, ?_, ?_, ?_⟩
  · unfold createHistoryArchiveTorrent
    dsimp only
    rw [hsetup]
    dsimp only
    rw [hloop]
  all_goals rw [hw1]

set_option maxRecDepth 100000 in
theorem loop_failure_commits_nothing_witness :
    BuildError.marshalIndexMetadata.inLoop ∧
    ∃ r, createHistoryArchiveTorrent demoEnvEntryFails 5 demoWorld [7] demoMessages
        [[0, 0, 0, 1]] 0 21000000000 7000000000 false = some r ∧
      r.err = some .marshalIndexMetadata ∧
      r.archiveIDs = (demoRunEntryFails.getD demoNoResult).final.archiveIDs ∧
      r.final = (demoRunEntryFails.getD demoNoResult).final ∧
      r.world.indexFile = demoWorld.indexFile ∧ r.world.dataFile = demoWorld.dataFile ∧
      r.world.torrentFile = demoWorld.torrentFile ∧
      r.world.lastMessageArchiveEndDate = demoWorld.lastMessageArchiveEndDate :=
  loop_failure_commits_nothing demoEnvEntryFails 5 demoWorld [7] demoMessages [[0, 0, 0, 1]] 0
    21000000000 7000000000 false
    { demoWorld with
      archiveDirExists := true
      torrentDirExists := true
      published := demoWorld.published ++ [Signal.CreatingHistoryArchivesSignal [7]] }
    (initialState 0 21000000000 7000000000)
    (demoRunEntryFails.getD demoNoResult).final .marshalIndexMetadata (by rfl) (by decide)

/-! ## C17: the index file is written before the data file -/

/-- C17, as the code behaves: the files are written at the end of the call, the
index file first and the data file after it, without rollback.  For every call
that returns an error, either the index file and the data file are both as
before the call, or both contain the new archives (the index file is the merged
index serialised, the data file the old bytes followed by the new ones), or the
error is from opening or appending to the data file and then the index file
lists the new entries while the data file has no byte more than before. -/
theorem write_is_index_then_data (env : Env) (fuel : Nat) (w : World) (communityID : Bytes)
    (msgs : List Message) (topics : List Bytes) (startDate endDate : Time)
    (partition : Duration) (encrypt : Bool) (r : BuildResult) (err : BuildError)
    (h : createHistoryArchiveTorrent env fuel w communityID msgs topics startDate endDate
      partition encrypt = some r)
    (herr : r.err = some err) :
    (r.world.indexFile = w.indexFile ∧ r.world.dataFile = w.dataFile) ∨
    (r.final.encodedArchives ≠ [] ∧ ∃ plain indexBytes,
      env.marshalIndex r.final.wakuMessageArchiveIndex = some plain ∧
      encryptBytes env communityID encrypt plain = .ok indexBytes ∧
      r.world.indexFile = some indexBytes ∧
      (r.world.dataFile = some (w.dataFile.getD [] ++ dataBytes r.final.encodedArchives) ∨
       ((err = .openData ∨ err = .writeData) ∧
         r.world.dataFile.getD [] = w.dataFile.getD []))) := by
  rcases build_cases env fuel w communityID msgs topics startDate endDate partition encrypt r h
    with ⟨w1, e, hs, hr⟩ | ⟨w1, st1, st2, e, hs, hl, hf, hids, hrest⟩
  · obtain ⟨h1, h2, _⟩ := setup_error env w w1 communityID startDate endDate partition e hs
    left
    rw [hr]
    exact ⟨h1, h2⟩
  · obtain ⟨_, _, _, hw1⟩ := setup_ok env w w1 communityID startDate endDate partition st1 hs
    rcases hrest with ⟨e1, _, _, hwd⟩ | ⟨_, w2, e2, hw, hrest⟩
    · left
      rw [hwd, hw1]
      exact ⟨rfl, rfl⟩
    · rcases hrest with ⟨e1, he2, he1, hwd⟩ | ⟨he2, w3, e3, hc, he3, hwd⟩
      · rw [he2] at hw
        rw [herr] at he1
        simp only [Option.some.injEq] at he1
        rcases writeArchives_err env communityID encrypt startDate endDate w1 w2 st2 e1 hw with
          hsame | ⟨hne, plain, indexBytes, hplain, henc, hcase⟩
        · left
          rw [hwd, hsame, hw1]
          exact ⟨rfl, rfl⟩
        · right
          rw [hf]
          refine ⟨hne, plain, indexBytes, hplain, henc, ?_⟩
          rcases hcase with ⟨hk, hw2⟩ | ⟨hk, hw2⟩ | ⟨_, hw2⟩
          · rw [hwd, hw2, hw1]
            exact ⟨rfl, Or.inr ⟨Or.inl (he1.trans hk), rfl⟩⟩
          · rw [hwd, hw2, hw1]
            exact ⟨rfl, Or.inr ⟨Or.inr (he1.trans hk), rfl⟩⟩
          · rw [hwd, hw2, hw1]
            exact ⟨rfl, Or.inl rfl⟩
      · rw [he2] at hw
        rw [herr] at he3
        rw [← he3] at hc
        have hw3 := saveCursor_err env w2 w3 _ err hc
        rcases writeArchives_ok env communityID encrypt startDate endDate w1 w2 st2 hw with
          ⟨_, hw2⟩ | ⟨hne, plain, indexBytes, metaInfoBytes, hplain, henc, hw2⟩
        · left
          rw [hwd, hw3, hw2, hw1]
          exact ⟨rfl, rfl⟩
        · right
          rw [hf]
          refine ⟨hne, plain, indexBytes, hplain, henc, ?_⟩
          rw [hwd, hw3, hw2, hw1]
          exact ⟨rfl, Or.inl rfl⟩

set_option maxRecDepth 100000 in
theorem write_is_index_then_data_witness :
    demoResultWriteFails.err = some .writeData ∧
    ((demoResultWriteFails.world.indexFile = demoWorld.indexFile ∧
        demoResultWriteFails.world.dataFile = demoWorld.dataFile) ∨
     (demoResultWriteFails.final.encodedArchives ≠ [] ∧ ∃ plain indexBytes,
        demoEnvWriteFails.marshalIndex demoResultWriteFails.final.wakuMessageArchiveIndex
          = some plain ∧
        encryptBytes demoEnvWriteFails [7] false plain = .ok indexBytes ∧
        demoResultWriteFails.world.indexFile = some indexBytes ∧
        (demoResultWriteFails.world.dataFile
            = some (demoWorld.dataFile.getD [] ++
                dataBytes demoResultWriteFails.final.encodedArchives) ∨
         ((BuildError.writeData = .openData ∨ BuildError.writeData = .writeData) ∧
           demoResultWriteFails.world.dataFile.getD [] = demoWorld.dataFile.getD [])))) :=
  ⟨by decide,
    write_is_index_then_data demoEnvWriteFails 5 demoWorld [7] demoMessages [[0, 0, 0, 1]] 0
      21000000000 7000000000 false demoResultWriteFails .writeData (by decide) (by decide)⟩

set_option maxRecDepth 100000 in
/-- C17, as stated, fails: when appending to the data file fails, the example
call returns that error after it has written an index file that lists three
entries, and the data file holds no byte. -/
theorem index_written_without_data :
    demoRunWriteFails = some demoResultWriteFails ∧
      demoResultWriteFails.err = some .writeData ∧
      demoWorld.indexFile = none ∧ demoWorld.dataFile = none ∧
      indexCount demoEnvWriteFails demoResultWriteFails.world [7] = some 3 ∧
      demoResultWriteFails.world.dataFile = some [] ∧
      (dataBytes demoResultWriteFails.final.encodedArchives).length = 112 := by
  refine ⟨by decide, by decide, by decide, by decide, by decide, by decide, by decide⟩

/-! ## C18: loading the index file -/

/-- C18: for an index file that can be read, `LoadHistoryArchiveIndexFromFile`
returns the plain-parsed index when the plain parse gives at least one entry or
the file is empty, and then the result is the same with any other decryptor;
when the plain parse gives no entry on non-empty bytes it returns the index
behind the encrypted envelope, `decryptedIndex`, or the error of the envelope
parse, the key decompression, the decryption or the re-parse; when the plain
parse fails it returns that error. -/
theorem load_index_plain_or_encrypted (env : Env) (w : World) (communityID : Bytes)
    (indexData : Bytes) (hfile : w.indexFile = some indexData)
    (hread : env.fails .readIndex = false) :
    (∀ archives, env.unmarshalIndex indexData = some archives →
      (archives ≠ [] ∨ indexData = []) →
      LoadHistoryArchiveIndexFromFile env w communityID = .ok archives ∧
      ∀ (u : Bytes → Option ProtocolMessage) (d : Bytes → Option Bytes)
        (hm : Bytes → ProtocolMessage → Option Bytes),
        LoadHistoryArchiveIndexFromFile (env.withDecryptor u d hm) w communityID
          = .ok archives) ∧
    (env.unmarshalIndex indexData = some [] → indexData ≠ [] →
      LoadHistoryArchiveIndexFromFile env w communityID
        = decryptedIndex env communityID indexData) ∧
    (env.unmarshalIndex indexData = none →
      LoadHistoryArchiveIndexFromFile env w communityID = .error .unmarshalIndex) := by
  have hsrc : (if env.fails .readIndex then none else w.indexFile) = some indexData := by
    rw [hread, hfile]; rfl
  refine ⟨?_, ?_, ?_⟩
  · intro archives hparse hcase
    have hcond : ¬ (archives.length = 0 ∧ indexData.length > 0) := by
      rintro ⟨h1, h2⟩
      rcases hcase with hne | hemp
      · exact hne (List.length_eq_zero.1 h1)
      · rw [hemp] at h2; simp at h2
    have key : ∀ env' : Env, env'.fails = env.fails → env'.unmarshalIndex = env.unmarshalIndex →
        LoadHistoryArchiveIndexFromFile env' w communityID = .ok archives := by
      intro env' hf hu
      unfold LoadHistoryArchiveIndexFromFile
      rw [hf, hu, hsrc]
      dsimp only
      rw [hparse]
      dsimp only
      rw [if_neg hcond]
    exact ⟨key env rfl rfl, fun u d hm => key _ rfl rfl⟩
  · intro hparse hne
    have hcond : ([] : WakuMessageArchiveIndex).length = 0 ∧ indexData.length > 0 :=
      ⟨rfl, List.length_pos.2 hne⟩
    unfold LoadHistoryArchiveIndexFromFile decryptedIndex
    rw [hsrc]
    dsimp only
    rw [hparse]
    dsimp only
    rw [if_pos hcond]
  · intro hparse
    unfold LoadHistoryArchiveIndexFromFile
    rw [hsrc]
    dsimp only
    rw [hparse]

set_option maxRecDepth 100000 in
theorem load_index_plain_or_encrypted_witness :
    demoWorld1.indexFile = some (demoWorld1.indexFile.getD []) ∧
      (demoEnv 4 16).fails .readIndex = false ∧ demoIndex1.length = 3 ∧
      LoadHistoryArchiveIndexFromFile (demoEnv 4 16) demoWorld1 [7] = .ok demoIndex1 :=
  ⟨by decide, rfl, by decide,
    ((load_index_plain_or_encrypted (demoEnv 4 16) demoWorld1 [7] (demoWorld1.indexFile.getD [])
      (by decide) rfl).1 demoIndex1 (by decide) (Or.inl (by decide))).1⟩

/-! ## C19: the order of the existing index map -/

/-- C19: for `encrypt = false`, two successful runs of the build on the same
community and files, with the same `communityID`, messages, topics,
`startDate`, `endDate` and `partition`, which differ only in the order in which
the existing index map (a map, so with distinct keys) is iterated, return the
same archive IDs in the same order, create the same entries and append the same
bytes to the data file, leave the same cursor, and hold the same merged index
map; when the serialiser gives the same bytes for the two enumerations of that
map, the two runs leave the same files and events. -/
theorem build_independent_of_map_order (env : Env)
    (reorder : WakuMessageArchiveIndex → WakuMessageArchiveIndex)
    (hperm : ∀ l, (reorder l).Perm l) (fuel : Nat) (w : World) (communityID : Bytes)
    (msgs : List Message) (topics : List Bytes) (startDate endDate : Time)
    (partition : Duration) (idx : WakuMessageArchiveIndex) (r r' : BuildResult)
    (hidx : existingArchives env w communityID = .ok idx) (hnodup : (idx.map Prod.fst).Nodup)
    (h : createHistoryArchiveTorrent env fuel w communityID msgs topics startDate endDate
      partition false = some r)
    (h' : createHistoryArchiveTorrent (env.withIndexOrder reorder) fuel w communityID msgs topics
      startDate endDate partition false = some r')
    (hok : r.err = none) (hok' : r'.err = none) :
    r'.archiveIDs = r.archiveIDs ∧
    r'.entries = r.entries ∧
    dataBytes r'.final.encodedArchives = dataBytes r.final.encodedArchives ∧
    r'.world.dataFile = r.world.dataFile ∧
    r'.world.lastMessageArchiveEndDate = r.world.lastMessageArchiveEndDate ∧
    r'.final.wakuMessageArchiveIndex.Perm r.final.wakuMessageArchiveIndex ∧
    (env.marshalIndex r'.final.wakuMessageArchiveIndex
        = env.marshalIndex r.final.wakuMessageArchiveIndex → r'.world = r.world) := by
  have hR := build_sameMap env reorder hperm fuel w communityID msgs topics startDate endDate
    partition false idx r r' hidx hnodup h h' hok hok'
  obtain ⟨hfrom, _, _, hids, hencs, hprod⟩ := SameMap_fields r.final r'.final hR
  obtain ⟨w1, st1, w2, hsetup, _, hid, hwrite, hsave⟩ := build_success env fuel w communityID
    msgs topics startDate endDate partition false r h hok
  obtain ⟨w1', st1', w2', hsetup', _, hid', hwrite', hsave'⟩ := build_success _ fuel w
    communityID msgs topics startDate endDate partition false r' h' hok'
  obtain ⟨_, _, _, hw1⟩ := setup_ok env w w1 communityID startDate endDate partition st1 hsetup
  obtain ⟨_, _, _, hw1'⟩ := setup_ok _ w w1' communityID startDate endDate partition st1' hsetup'
  have hcur := build_cursor env fuel w communityID msgs topics startDate endDate partition false
    r h hok
  have hcur' := build_cursor _ fuel w communityID msgs topics startDate endDate partition false
    r' h' hok'
  have hdata : r'.world.dataFile = r.world.dataFile := by
    rcases build_files env fuel w communityID msgs topics startDate endDate partition false r h
      hok with ⟨he, _, hd, _⟩ | ⟨hne, _, _, _, _, _, _, hd, _⟩
    · rcases build_files _ fuel w communityID msgs topics startDate endDate partition false r'
        h' hok' with ⟨_, _, hd', _⟩ | ⟨hne', _⟩
      · rw [hd, hd']
      · exact absurd (hencs ▸ he) hne'
    · rcases build_files _ fuel w communityID msgs topics startDate endDate partition false r'
        h' hok' with ⟨he', _⟩ | ⟨_, _, _, _, _, _, _, hd', _⟩
      · exact absurd (hencs ▸ he') hne
      · rw [hd, hd', hencs]
  refine ⟨by rw [hid, hid', hids], ?_, by rw [hencs], hdata, by rw [hcur, hcur', hfrom],
    hR.2, ?_⟩
  · show r'.final.produced.map (·.entry) = r.final.produced.map (·.entry)
    rw [hprod]
  · intro hmar
    have hwa : writeArchives (env.withIndexOrder reorder) communityID false startDate endDate w1'
        r'.final = writeArchives env communityID false startDate endDate w1 r.final := by
      rw [hw1', hw1]
      exact writeArchives_congr env communityID false startDate endDate _ r.final r'.final hencs
        hmar
    rw [hwa, hwrite] at hwrite'
    simp only [Prod.mk.injEq, and_true] at hwrite'
    have hsc : saveCursor (env.withIndexOrder reorder) w2' r'.final.from_
        = saveCursor env w2 r.final.from_ := by
      rw [← hwrite', hfrom]; rfl
    rw [hsc, hsave] at hsave'
    simp only [Prod.mk.injEq, and_true] at hsave'
    exact hsave'.symm

set_option maxRecDepth 100000 in
theorem build_independent_of_map_order_witness :
    (∀ l : WakuMessageArchiveIndex, l.reverse.Perm l) ∧
      existingArchives (demoEnv 4 16) demoWorld1 [7] = .ok demoIndex1 ∧
      (demoIndex1.map Prod.fst).Nodup ∧ demoIndex1.reverse ≠ demoIndex1 ∧
      demoResult2.err = none ∧ demoResultReversed.err = none ∧
      demoResultReversed.archiveIDs = demoResult2.archiveIDs ∧
      demoResultReversed.world.dataFile = demoResult2.world.dataFile ∧
      demoResultReversed.final.wakuMessageArchiveIndex.Perm
        demoResult2.final.wakuMessageArchiveIndex :=
  have t := build_independent_of_map_order (demoEnv 4 16) List.reverse
    (fun l => List.reverse_perm l) 5 demoWorld1 [7] demoMessages [[0, 0, 0, 1]] 21000000000
    42000000000 7000000000 demoIndex1 demoResult2 demoResultReversed (by rfl) (by decide)
    (by decide) (by decide) (by decide) (by decide)
  ⟨fun l => List.reverse_perm l, by rfl, by decide, by decide, by decide, by decide, t.1,
    t.2.2.2.1, t.2.2.2.2.2.1⟩

/-! ## C20: one task per community -/

/-- C20: in every registry reachable by calls of `StartHistoryArchiveTasksInterval`,
`StopHistoryArchiveTasksInterval` and `stopHistoryArchiveTasksIntervals` from the
empty one, a community has at most one registered task; a start for a community
that is registered leaves the registry unchanged; the registered communities
are those started and not stopped since, so the task count is the number of
distinct communities started and not stopped; it is 1 after a start, also a
repeated one, and 0 after the stop. -/
theorem scheduler_single_flight (calls : List SchedulerCall) :
    ((runScheduler calls).map Prod.fst).Nodup ∧
    (∀ (c : Bytes) (task : Nat), c ∈ (runScheduler calls).map Prod.fst →
      StartHistoryArchiveTasksInterval (runScheduler calls) c task = runScheduler calls) ∧
    (∀ c, c ∈ (runScheduler calls).map Prod.fst ↔ startedNotStopped calls c = true) ∧
    getHistoryTasksCount (runScheduler calls)
      = ((startedCommunities calls).dedup.filter (startedNotStopped calls)).length ∧
    (∀ (c : Bytes) (task task' : Nat),
      getHistoryTasksCount (runScheduler [.start c task]) = 1 ∧
      getHistoryTasksCount (runScheduler [.start c task, .start c task']) = 1 ∧
      getHistoryTasksCount (runScheduler [.start c task, .start c task', .stop c]) = 0) := by
  obtain ⟨hnd, hmem⟩ := registry_invariant calls
  refine ⟨hnd, fun c task h => start_running _ c task h, hmem, ?_, ?_⟩
  · have hnd2 : ((startedCommunities calls).dedup.filter (startedNotStopped calls)).Nodup :=
      (List.nodup_dedup _).filter _
    have hperm : ((runScheduler calls).map Prod.fst).Perm
        ((startedCommunities calls).dedup.filter (startedNotStopped calls)) := by
      rw [List.perm_ext_iff_of_nodup hnd hnd2]
      intro c
      rw [hmem c, List.mem_filter, List.mem_dedup]
      exact ⟨fun h => ⟨started_of_active calls c h, h⟩, fun h => h.2⟩
    unfold getHistoryTasksCount
    rw [← hperm.length_eq, List.length_map]
  · intro c task task'
    simp [getHistoryTasksCount, runScheduler, schedulerStep, StartHistoryArchiveTasksInterval,
      StopHistoryArchiveTasksInterval]

/-! ## C21: the sub-windows tile the range -/

/-- C21: for `startDate < endDate` and `partition > 0` the sub-windows a call
without error iterates are `[startDate + k*partition, min(startDate +
(k+1)*partition, endDate))` for `k = 0 .. n - 1`, where `n` is
`(endDate - startDate)/partition` rounded up; they are not empty, consecutive,
only the last one is clipped and ends at `endDate`, and every instant of
`[startDate, endDate)` lies in exactly one of them.  The archives of the call
are those of the sub-windows in order, and every archive of sub-window `k`,
whatever its chunk, has `Metadata.From = from_k.Unix()`, `Metadata.To =
to_k.Unix()` (as `uint64`, the plain value for a range at or after the epoch)
and the content topics of the call. -/
theorem windows_tile_the_range (env : Env) (fuel : Nat) (w : World) (communityID : Bytes)
    (msgs : List Message) (topics : List Bytes) (startDate endDate : Time)
    (partition : Duration) (encrypt : Bool) (r : BuildResult)
    (hp : 0 < partition) (hlt : startDate < endDate)
    (h : createHistoryArchiveTorrent env fuel w communityID msgs topics startDate endDate
      partition encrypt = some r) (hok : r.err = none) :
    callWindows env fuel w communityID msgs topics startDate endDate partition encrypt
      = (List.range (windowCount startDate endDate partition)).map
          (subWindow startDate endDate partition) ∧
    (((windowCount startDate endDate partition : Nat) : Int) - 1) * partition
      < endDate - startDate ∧
    endDate - startDate ≤ ((windowCount startDate endDate partition : Nat) : Int) * partition ∧
    (∀ k : Nat, k < windowCount startDate endDate partition →
      (subWindow startDate endDate partition k).1 = startDate + (k : Int) * partition ∧
      (subWindow startDate endDate partition k).2
        = min (startDate + ((k : Int) + 1) * partition) endDate ∧
      (subWindow startDate endDate partition k).1 < (subWindow startDate endDate partition k).2) ∧
    (∀ k : Nat, k + 1 < windowCount startDate endDate partition →
      (subWindow startDate endDate partition k).2
        = (subWindow startDate endDate partition (k + 1)).1 ∧
      (subWindow startDate endDate partition k).2 = startDate + ((k : Int) + 1) * partition) ∧
    (subWindow startDate endDate partition 0).1 = startDate ∧
    (subWindow startDate endDate partition
      (windowCount startDate endDate partition - 1)).2 = endDate ∧
    (∀ t : Time, startDate ≤ t → t < endDate →
      ∃! k : Nat, k < windowCount startDate endDate partition ∧
        (subWindow startDate endDate partition k).1 ≤ t ∧
        t < (subWindow startDate endDate partition k).2) ∧
    r.archives = (tiling startDate endDate partition).flatMap (fun window =>
      windowArchives env topics window.1 window.2
        (windowSelection env (decide (msgs.length = 0)) msgs topics window)) ∧
    (∀ k : Nat, k < windowCount startDate endDate partition →
      ∀ a ∈ windowArchives env topics (subWindow startDate endDate partition k).1
          (subWindow startDate endDate partition k).2
          (windowSelection env (decide (msgs.length = 0)) msgs topics
            (subWindow startDate endDate partition k)),
        a.Metadata =
          { From := uint64 (Time.Unix (subWindow startDate endDate partition k).1)
            To := uint64 (Time.Unix (subWindow startDate endDate partition k).2)
            ContentTopic := topicsAsByteArrays topics } ∧
        (0 ≤ startDate → Time.Unix endDate < 18446744073709551616 →
          (a.Metadata.From : Int) = Time.Unix (subWindow startDate endDate partition k).1 ∧
          (a.Metadata.To : Int) = Time.Unix (subWindow startDate endDate partition k).2)) := by
  obtain ⟨hw, ha⟩ := build_windows env fuel w communityID msgs topics startDate endDate partition
    encrypt r hp h hok
  obtain ⟨hc1, hc2⟩ := windowCount_ceil startDate endDate partition hp hlt
  have hpos := windowCount_pos startDate endDate partition hp hlt
  have hstart : ∀ k : Nat, k < windowCount startDate endDate partition →
      startDate + (k : Int) * partition < endDate :=
    fun k hk => subWindow_start_lt startDate endDate partition hp hlt k hk
  refine ⟨hw, ?_, hc2, ?_, ?_, ?_, ?_, ?_, ha, ?_⟩
  · have e : (((windowCount startDate endDate partition : Nat) : Int) - 1) * partition
        = ((windowCount startDate endDate partition : Nat) : Int) * partition - partition := by
      ring
    unfold Time Duration at *
    omega
  · intro k hk
    refine ⟨rfl, subWindow_snd startDate endDate partition k, ?_⟩
    rw [subWindow_snd, subWindow_fst, lt_min_iff]
    have e : startDate + ((k : Int) + 1) * partition
        = startDate + (k : Int) * partition + partition := by ring
    have := hstart k hk
    unfold Time Duration at *
    exact ⟨by omega, this⟩
  · intro k hk
    have h1 := hstart (k + 1) hk
    have e : startDate + ((k : Int) + 1) * partition
        = startDate + ((k + 1 : Nat) : Int) * partition := by push_cast; ring
    have hs : (subWindow startDate endDate partition k).2
        = startDate + ((k : Int) + 1) * partition := by
      rw [subWindow_snd, e]
      exact min_eq_left (le_of_lt h1)
    refine ⟨?_, hs⟩
    rw [hs, subWindow_fst, e]
  · simp [subWindow]
  · rw [subWindow_snd]
    apply min_eq_right
    have e : ((windowCount startDate endDate partition - 1 : Nat) : Int)
        = ((windowCount startDate endDate partition : Nat) : Int) - 1 := by omega
    rw [e]
    have e2 : startDate + (((windowCount startDate endDate partition : Nat) : Int) - 1 + 1)
        * partition = startDate + ((windowCount startDate endDate partition : Nat) : Int)
          * partition := by ring
    rw [e2]
    unfold Time Duration at *
    omega
  · intro t h1 h2
    have := tiling_covers startDate endDate partition hp hlt t h1 h2
    simpa only [subWindow_fst, subWindow_snd] using this
  · intro k hk a ha
    obtain ⟨c, _, hac⟩ := mem_windowArchives env topics _ _ _ a ha
    refine ⟨by rw [hac]; rfl, fun h0 hend => ?_⟩
    have hk1 : (subWindow startDate endDate partition k).1 < endDate := hstart k hk
    have hk0 : startDate ≤ (subWindow startDate endDate partition k).1 := by
      rw [subWindow_fst]
      have : 0 ≤ (k : Int) * partition := Int.mul_nonneg (Int.ofNat_nonneg k) (le_of_lt hp)
      unfold Time Duration at *
      omega
    have hk2 : (subWindow startDate endDate partition k).2 ≤ endDate := by
      rw [subWindow_snd]; exact min_le_right _ _
    have hk3 : startDate ≤ (subWindow startDate endDate partition k).2 := by
      have : (subWindow startDate endDate partition k).1
          < (subWindow startDate endDate partition k).2 := by
        rw [subWindow_snd, subWindow_fst, lt_min_iff]
        have e : startDate + ((k : Int) + 1) * partition
            = startDate + (k : Int) * partition + partition := by ring
        have := hstart k hk
        unfold Time Duration at *
        exact ⟨by omega, this⟩
      exact le_of_lt (lt_of_le_of_lt hk0 this)
    have u0 : (0 : Int) ≤ Time.Unix startDate := by
      unfold Time.Unix; exact Int.ediv_nonneg h0 (by norm_num)
    rw [hac]
    constructor
    · show (uint64 (Time.Unix (subWindow startDate endDate partition k).1) : Int) = _
      exact uint64_of_range _ (le_trans u0 (Unix_mono _ _ hk0))
        (lt_of_le_of_lt (Unix_mono _ _ (le_of_lt hk1)) hend)
    · show (uint64 (Time.Unix (subWindow startDate endDate partition k).2) : Int) = _
      exact uint64_of_range _ (le_trans u0 (Unix_mono _ _ hk3))
        (lt_of_le_of_lt (Unix_mono _ _ hk2) hend)

set_option maxRecDepth 100000 in
theorem windows_tile_the_range_witness :
    demoResult.err = none ∧
      callWindows (demoEnv 4 16) 5 demoWorld [7] demoMessages [[0, 0, 0, 1]] 0 21000000000
          7000000000 false
        = [(0, 7000000000), (7000000000, 14000000000), (14000000000, 21000000000)] ∧
      windowCount 0 21000000000 7000000000 = 3 ∧
      demoResult.archives.map (fun a => (a.Metadata.From, a.Metadata.To)) = [(0, 7), (7, 14), (14, 21)] :=
  have t := windows_tile_the_range (demoEnv 4 16) 5 demoWorld [7] demoMessages [[0, 0, 0, 1]] 0
    21000000000 7000000000 false demoResult (by decide) (by decide) (by decide) (by decide)
  ⟨by decide, t.1.trans (by decide), by decide, by decide⟩

/-! ## C22: the completion signal -/

/-- C22: a call whose setup, window loop and write phase end without error
returns (with the error of the cursor update, if any) after it has published
exactly two events: `CreatingHistoryArchivesSignal` and then one completion
signal, which is `HistoryArchivesCreatedSignal` if at least one archive was
encoded in this call and `NoHistoryArchivesCreatedSignal` if none was; both
carry `startDate.Unix()` and `endDate.Unix()` of the call. -/
theorem completion_signal (env : Env) (fuel : Nat) (w w1 w2 : World) (communityID : Bytes)
    (msgs : List Message) (topics : List Bytes) (startDate endDate : Time)
    (partition : Duration) (encrypt : Bool) (st1 st2 : BuildState)
    (hsetup : setup env w communityID startDate endDate partition = .ok (w1, st1))
    (hloop : windowLoop env communityID encrypt (decide (msgs.length = 0)) msgs topics endDate
      partition fuel st1 = some (st2, none))
    (hwrite : writeArchives env communityID encrypt startDate endDate w1 st2 = (w2, none)) :
    ∃ r, createHistoryArchiveTorrent env fuel w communityID msgs topics startDate endDate
        partition encrypt = some r ∧ r.final = st2 ∧
      (st2.encodedArchives ≠ [] ↔ r.archives ≠ []) ∧
      (st2.encodedArchives ≠ [] ↔ r.archiveIDs ≠ []) ∧
      (st2.encodedArchives ≠ [] →
        r.world.published = w.published ++
          [Signal.CreatingHistoryArchivesSignal communityID,
           Signal.HistoryArchivesCreatedSignal communityID (Time.Unix startDate)
             (Time.Unix endDate)]) ∧
      (st2.encodedArchives = [] →
        r.world.published = w.published ++
          [Signal.CreatingHistoryArchivesSignal communityID,
           Signal.NoHistoryArchivesCreatedSignal communityID (Time.Unix startDate)
             (Time.Unix endDate)]) := by
  obtain ⟨_, _, _, hw1⟩ := setup_ok env w w1 communityID startDate endDate partition st1 hsetup
  obtain ⟨idx, _, htr1⟩ := setup_trace env w w1 communityID startDate endDate partition encrypt
    st1 hsetup
  have htr := windowLoop_trace env communityID encrypt _ msgs topics endDate partition _ _ fuel
    st1 st2 none htr1 hloop
  obtain ⟨hne1, hne2⟩ := TraceInv_nonempty env communityID encrypt _ _ st2 htr
  have hpub : (st2.encodedArchives ≠ [] →
      w2.published = w.published ++
        [Signal.CreatingHistoryArchivesSignal communityID,
         Signal.HistoryArchivesCreatedSignal communityID (Time.Unix startDate)
           (Time.Unix endDate)]) ∧
    (st2.encodedArchives = [] →
      w2.published = w.published ++
        [Signal.CreatingHistoryArchivesSignal communityID,
         Signal.NoHistoryArchivesCreatedSignal communityID (Time.Unix startDate)
           (Time.Unix endDate)]) := by
    rcases writeArchives_ok env communityID encrypt startDate endDate w1 w2 st2 hwrite with
      ⟨he, hw2⟩ | ⟨hne, _, _, _, _, _, hw2⟩
    · refine ⟨fun h => absurd he h, fun _ => ?_⟩
      rw [hw2, hw1]; simp
    · refine ⟨fun _ => ?_, fun h => absurd h hne⟩
      rw [hw2, hw1]; simp
  have hcall : ∀ w3 e3, saveCursor env w2 st2.from_ = (w3, e3) →
      createHistoryArchiveTorrent env fuel w communityID msgs topics startDate endDate
        partition encrypt
        = some { world := w3, archiveIDs := st2.archiveIDs, err := e3, final := st2 } := by
    intro w3 e3 hc
    unfold createHistoryArchiveTorrent
    dsimp only
    rw [hsetup]
    dsimp only
    rw [hloop]
    dsimp only
    rw [hwrite]
    dsimp only
    rw [hc]
    cases e3 <;> rfl
  cases hc : saveCursor env w2 st2.from_ with
  | mk w3 e3 =>
    have hw3 : w3.published = w2.published := by
      cases e3 with
      | none => rw [saveCursor_ok env w2 w3 _ hc]
      | some err => rw [saveCursor_err env w2 w3 _ err hc]
    refine ⟨_, hcall w3 e3 hc, rfl, hne1, hne2, ?_, ?_⟩
    · intro h; show w3.published = _; rw [hw3]; exact hpub.1 h
    · intro h; show w3.published = _; rw [hw3]; exact hpub.2 h

set_option maxRecDepth 100000 in
theorem completion_signal_witness :
    demoRun = some demoResult ∧ demoResult.final.encodedArchives ≠ [] ∧
      ∃ r, createHistoryArchiveTorrent (demoEnv 4 16) 5 demoWorld [7] demoMessages
          [[0, 0, 0, 1]] 0 21000000000 7000000000 false = some r ∧ r.final = demoResult.final ∧
        (demoResult.final.encodedArchives ≠ [] →
          r.world.published = demoWorld.published ++
            [Signal.CreatingHistoryArchivesSignal [7],
             Signal.HistoryArchivesCreatedSignal [7] (Time.Unix 0) (Time.Unix 21000000000)]) :=
  have t := completion_signal (demoEnv 4 16) 5 demoWorld
    { demoWorld with
      archiveDirExists := true
      torrentDirExists := true
      published := demoWorld.published ++ [Signal.CreatingHistoryArchivesSignal [7]] }
    { demoResult.world with lastMessageArchiveEndDate := none }
    [7] demoMessages [[0, 0, 0, 1]] 0 21000000000 7000000000 false
    (initialState 0 21000000000 7000000000) demoResult.final (by rfl) (by decide) (by decide)
  ⟨by decide, by decide, t.imp fun _ h => ⟨h.1, h.2.1, h.2.2.2.2.1⟩⟩

/-! ## C23: reading an archive, plain or encrypted -/

/-- C23: for an archive ID present in the loaded index, with an entry whose
offset is below `2^63`, whose padding is at most its size and whose length
`size - padding` is below `2^31`, `ExtractMessagesFromHistoryArchive` reads
`size - padding` bytes at `offset`.  The bound on the length (`hlen`) is what
`make([]byte, size - padding)` at line 438 needs on every platform: a length
that does not fit the platform's `int` or its address space is a run-time
error there, and such an entry is outside this statement.  The buffer read
has that length.  If its bytes parse as an archive the function returns that
archive's messages, and so it does with any other decryptor that loads the
same index.  Only if that parse fails it parses the bytes as an encrypted
envelope, decompresses the community key, decrypts and parses again: it
returns the messages of the decrypted archive, or the error of the first of
these four steps that fails. -/
theorem extract_plain_or_encrypted (env : Env) (w : World) (communityID : Bytes)
    (archiveID : String) (index : WakuMessageArchiveIndex) (file : Bytes)
    (metadata : WakuMessageArchiveIndexMetadata) (data : Bytes)
    (hload : LoadHistoryArchiveIndexFromFile env w communityID = .ok index)
    (hopen : env.fails .openDataForRead = false) (hfile : w.dataFile = some file)
    (hentry : index.lookup archiveID = some metadata)
    (hoff : metadata.Offset < 9223372036854775808) (hpad : metadata.Padding ≤ metadata.Size)
    (hlen : metadata.Size - metadata.Padding < 2147483648)
    (hread : readAt file metadata.Offset (metadata.Size - metadata.Padding) = some data) :
    (data.length = metadata.Size - metadata.Padding ∧ data.length < 2147483648) ∧
    (metadata.Offset + (metadata.Size - metadata.Padding) ≤ file.length →
      data = (file.drop metadata.Offset).take (metadata.Size - metadata.Padding)) ∧
    (∀ archive, env.unmarshalArchive data = some archive →
      ExtractMessagesFromHistoryArchive env w communityID archiveID
        = .messages archive.Messages ∧
      ∀ (u : Bytes → Option ProtocolMessage) (d : Bytes → Option Bytes)
        (hm : Bytes → ProtocolMessage → Option Bytes),
        LoadHistoryArchiveIndexFromFile (env.withDecryptor u d hm) w communityID = .ok index →
        ExtractMessagesFromHistoryArchive (env.withDecryptor u d hm) w communityID archiveID
          = .messages archive.Messages) ∧
    (env.unmarshalArchive data = none →
      (env.unmarshalProtocolMessage data = none →
        ExtractMessagesFromHistoryArchive env w communityID archiveID
          = .error .unmarshalProtocolMessage) ∧
      (∀ envelope, env.unmarshalProtocolMessage data = some envelope →
        (env.decompressPubkey communityID = none →
          ExtractMessagesFromHistoryArchive env w communityID archiveID
            = .error .decompressPubkey) ∧
        ∀ pk, env.decompressPubkey communityID = some pk →
          (env.handleMessage pk envelope = none →
            ExtractMessagesFromHistoryArchive env w communityID archiveID
              = .error .handleMessage) ∧
          ∀ plain, env.handleMessage pk envelope = some plain →
            (env.unmarshalArchive plain = none →
              ExtractMessagesFromHistoryArchive env w communityID archiveID
                = .error .unmarshalArchive) ∧
            ∀ archive, env.unmarshalArchive plain = some archive →
              ExtractMessagesFromHistoryArchive env w communityID archiveID
                = .messages archive.Messages)) := by
  have key := extract_after_read env w communityID archiveID index file metadata data hload hopen
    hfile hentry hoff hpad hread
  have hdata := readAt_length file _ _ data hread
  refine ⟨⟨hdata, by rw [hdata]; exact hlen⟩, ?_, ?_, ?_⟩
  · intro hin
    rw [readAt_within file _ _ hin] at hread
    simp only [Option.some.injEq] at hread
    exact hread.symm
  · intro archive hparse
    refine ⟨by rw [key, hparse], fun u d hm hload' => ?_⟩
    have key' := extract_after_read (env.withDecryptor u d hm) w communityID archiveID index file
      metadata data hload' hopen hfile hentry hoff hpad hread
    rw [key']
    have : (env.withDecryptor u d hm).unmarshalArchive data = some archive := hparse
    rw [this]
  · intro hparse
    rw [key, hparse]
    dsimp only
    unfold decryptArchive
    refine ⟨fun h1 => by rw [h1], fun envelope h1 => ?_⟩
    rw [h1]
    dsimp only
    refine ⟨fun h2 => by rw [h2], fun pk h2 => ?_⟩
    rw [h2]
    dsimp only
    refine ⟨fun h3 => by rw [h3], fun plain h3 => ?_⟩
    rw [h3]
    dsimp only
    exact ⟨fun h4 => by rw [h4], fun archive h4 => by rw [h4]⟩

set_option maxRecDepth 100000 in
theorem extract_plain_or_encrypted_witness :
    demoIndex1.lookup demoArchiveID = some demoEntry ∧
      (demoEntry.Offset, demoEntry.Size, demoEntry.Padding) = (0, 48, 9) ∧
      demoArchiveData.length = 39 ∧
      (demoEnv 4 16).unmarshalArchive demoArchiveData = demoResult.archives.head? ∧
      ExtractMessagesFromHistoryArchive (demoEnv 4 16) demoWorld1 [7] demoArchiveID
        = .messages ((demoResult.archives.headD ⟨⟨0, 0, []⟩, []⟩).Messages) :=
  have t := (extract_plain_or_encrypted (demoEnv 4 16) demoWorld1 [7] demoArchiveID demoIndex1
    (demoWorld1.dataFile.getD []) demoEntry demoArchiveData (by rfl) rfl (by decide) (by decide)
    (by decide) (by decide) (by decide) (by decide)).2.2.1
    (demoResult.archives.headD ⟨⟨0, 0, []⟩, []⟩) (by decide)
  ⟨by decide, by decide, by decide, by decide, t.1⟩

/-! ## C24: parsing an app state -/

/-- C24: `ParseAppState(s)` returns no error if and only if the lower-cased,
trimmed `s` is one of "inactive", "background", "active"; it then returns that
string as the state, and the state is valid.  Otherwise it returns
`AppStateInvalid`, which is not valid, with the error "could not parse app
state: " followed by the cleaned string.  The valid states are those three,
and `ParseAppState(st.String()) = st` for every valid state `st` (lower-casing
and trimming leave the three lower-case words as they are). -/
theorem parse_app_state (ToLower TrimSpace : String → String) (s : String) :
    ((ParseAppState ToLower TrimSpace s).2 = none ↔
      ToLower (TrimSpace s) ∈ ["inactive", "background", "active"]) ∧
    ((ParseAppState ToLower TrimSpace s).2 = none →
      (ParseAppState ToLower TrimSpace s).1 = ToLower (TrimSpace s) ∧
      AppState.IsValid (ParseAppState ToLower TrimSpace s).1 = true) ∧
    ((ParseAppState ToLower TrimSpace s).2 ≠ none →
      (ParseAppState ToLower TrimSpace s).1 = AppStateInvalid ∧
      (ParseAppState ToLower TrimSpace s).2
        = some ("could not parse app state: " ++ ToLower (TrimSpace s))) ∧
    AppState.IsValid AppStateInvalid = false ∧
    (∀ st : AppState, AppState.IsValid st = true ↔ st ∈ ["inactive", "background", "active"]) ∧
    (∀ st : AppState, AppState.IsValid st = true →
      ToLower (TrimSpace (AppState.String st)) = AppState.String st →
      ParseAppState ToLower TrimSpace (AppState.String st) = (st, none)) := by
  have hvalid : ∀ st : AppState, AppState.IsValid st = true ↔
      st ∈ ["inactive", "background", "active"] := by
    intro st
    simp [AppState.IsValid, validAppStates, AppStateInactive, AppStateBackground,
      AppStateForeground]
  have hparse : ∀ c : String,
      (c ∈ ["inactive", "background", "active"] →
        validAppStates.find? (fun state => c == AppState.String state) = some c) ∧
      (c ∉ ["inactive", "background", "active"] →
        validAppStates.find? (fun state => c == AppState.String state) = none) := by
    intro c
    constructor
    · intro hc
      simp only [List.mem_cons, List.mem_singleton, List.not_mem_nil, or_false] at hc
      rcases hc with h | h | h <;> subst h <;> decide
    · intro hc
      simp only [List.mem_cons, List.mem_singleton, List.not_mem_nil, or_false, not_or] at hc
      obtain ⟨h1, h2, h3⟩ := hc
      have e1 : (c == "inactive") = false := by simpa using h1
      have e2 : (c == "background") = false := by simpa using h2
      have e3 : (c == "active") = false := by simpa using h3
      simp only [validAppStates, AppStateInactive, AppStateBackground, AppStateForeground,
        AppState.String, List.find?, e1, e2, e3]
  have hcases : ∀ t : String,
      (ToLower (TrimSpace t) ∈ ["inactive", "background", "active"] →
        ParseAppState ToLower TrimSpace t = (ToLower (TrimSpace t), none)) ∧
      (ToLower (TrimSpace t) ∉ ["inactive", "background", "active"] →
        ParseAppState ToLower TrimSpace t
          = (AppStateInvalid, some ("could not parse app state: " ++ ToLower (TrimSpace t)))) := by
    intro t
    constructor
    · intro h
      unfold ParseAppState
      dsimp only
      rw [(hparse _).1 h]
    · intro h
      unfold ParseAppState
      dsimp only
      rw [(hparse _).2 h]
  by_cases hc : ToLower (TrimSpace s) ∈ ["inactive", "background", "active"]
  · have hp := (hcases s).1 hc
    refine ⟨by rw [hp]; simp [hc], fun _ => ?_, fun h => ?_, by decide, hvalid, ?_⟩
    · rw [hp]; exact ⟨rfl, (hvalid _).2 hc⟩
    · rw [hp] at h; simp at h
    · intro st hst hfix
      have := (hcases (AppState.String st)).1 (by rw [hfix]; exact (hvalid st).1 hst)
      rw [this, hfix]; rfl
  · have hp := (hcases s).2 hc
    refine ⟨by rw [hp]; simp [hc], fun h => ?_, fun _ => ?_, by decide, hvalid, ?_⟩
    · rw [hp] at h; simp at h
    · rw [hp]; exact ⟨rfl, rfl⟩
    · intro st hst hfix
      have := (hcases (AppState.String st)).1 (by rw [hfix]; exact (hvalid st).1 hst)
      rw [this, hfix]; rfl

theorem parse_app_state_witness :
    ParseAppState asciiToLower asciiTrimSpace "  Active  " = (AppStateForeground, none) ∧
      ParseAppState asciiToLower asciiTrimSpace "foreground"
        = (AppStateInvalid, some "could not parse app state: foreground") ∧
      ParseAppState asciiToLower asciiTrimSpace (AppState.String AppStateBackground)
        = (AppStateBackground, none) :=
  ⟨by decide, by decide,
    (parse_app_state asciiToLower asciiTrimSpace "").2.2.2.2.2 AppStateBackground (by decide)
      (by decide)⟩

/-! ## C25: the topics `SetTopics` leaves -/

/-- What `SetTopics` leaves in the table, for every input: after a call that
returns no error and whose `DELETE` statements succeeded, the table is as
before when `filters` is empty; otherwise the stored pairs of pubsub topic and content topic are the
pairs the filters name together with the pairs stored before under a pubsub
topic that no filter names.  The rows that were present under a named pair are
kept as they were, `last_request` included, and every other row of the result
that is new has `last_request` set to one day before now. -/
theorem set_topics_per_pubsub_topic (fails : SqlStep → Bool) (now : Time)
    (db db1 : List MailserverTopic) (filters : List Filter)
    (h : SetTopics fails now db filters = (db1, none))
    (hdel : ∀ p, fails (.deleteTopics p) = false) :
    (filters = [] → db1 = db) ∧
    (filters ≠ [] →
      (∀ pair, pair ∈ storedPairs db1 ↔
        pair ∈ namedPairs filters ∨
          (pair ∈ storedPairs db ∧ pair.1 ∉ filters.map (·.PubsubTopic))) ∧
      (∀ row ∈ db, (row.PubsubTopic, row.ContentTopic) ∈ namedPairs filters → row ∈ db1) ∧
      (∀ row ∈ db1, row ∈ db ∨
        row.LastRequest = Time.Unix (Time.Add now (-24 * 3600000000000)))) := by
  obtain ⟨hempty, hrun⟩ := SetTopics_ok fails now db db1 filters h
  refine ⟨hempty, fun hne => ?_⟩
  obtain ⟨hm1, hm2⟩ := contentTopicsPerPubsubTopic_spec filters
  have hdelr := deleteLoop_spec fails hdel (contentTopicsPerPubsubTopic filters) db none
  obtain ⟨ha, hb, hc⟩ := insertMissing_spec fails _ filters _ db1 _ (hrun hne)
  have hnamed : ∀ p t, (p, t) ∈ namedPairs filters ↔
      ∃ f ∈ filters, f.PubsubTopic = p ∧ f.ContentTopic = t := by
    intro p t
    simp [namedPairs]
  have hstored : ∀ (rows : List MailserverTopic) p t, (p, t) ∈ storedPairs rows ↔
      ∃ r ∈ rows, r.PubsubTopic = p ∧ r.ContentTopic = t := by
    intro rows p t
    simp [storedPairs]
  have hkeep : ∀ r ∈ db, (∃ f ∈ filters, f.PubsubTopic = r.PubsubTopic ∧
      f.ContentTopic = r.ContentTopic) → r ∈ db1 := by
    intro r hr hf
    apply ha
    rw [hdelr]
    refine ⟨hr, fun p cts hp hrp => ?_⟩
    rw [(hm1 p cts hp).2]
    obtain ⟨f, hf1, hf2, hf3⟩ := hf
    exact ⟨f, hf1, hf2.trans hrp, hf3⟩
  refine ⟨?_, ?_, ?_⟩
  · rintro ⟨p, t⟩
    rw [hstored, hnamed, hstored]
    constructor
    · rintro ⟨r, hr, hrp, hrt⟩
      rcases hb r hr with hold | ⟨_, f, hf, hfp, hft⟩
      · rw [hdelr] at hold
        obtain ⟨hdb, hall⟩ := hold
        by_cases hex : ∃ f ∈ filters, f.PubsubTopic = p
        · obtain ⟨f, hf, hfp⟩ := hex
          obtain ⟨cts, hcts⟩ := hm2 f hf
          rw [hfp] at hcts
          have := hall p cts hcts hrp
          rw [(hm1 p cts hcts).2] at this
          obtain ⟨g, hg, hgp, hgt⟩ := this
          exact Or.inl ⟨g, hg, hgp, hgt.trans hrt⟩
        · refine Or.inr ⟨⟨r, hdb, hrp, hrt⟩, ?_⟩
          intro hin
          obtain ⟨f, hf, hfp⟩ := List.mem_map.1 hin
          exact hex ⟨f, hf, hfp⟩
      · exact Or.inl ⟨f, hf, hfp.trans hrp, hft.trans hrt⟩
    · rintro (⟨f, hf, hfp, hft⟩ | ⟨⟨r, hr, hrp, hrt⟩, hnot⟩)
      · obtain ⟨r, hr, h1, h2⟩ := hc f hf
        exact ⟨r, hr, h1.trans hfp, h2.trans hft⟩
      · refine ⟨r, ha r ?_, hrp, hrt⟩
        rw [hdelr]
        refine ⟨hr, fun p' cts hp' hrp' => ?_⟩
        exfalso
        obtain ⟨f, hf, hfp⟩ := (hm1 p' cts hp').1
        apply hnot
        exact List.mem_map.2 ⟨f, hf, by rw [hfp, ← hrp', hrp]⟩
  · intro row hrow hn
    exact hkeep row hrow ((hnamed _ _).1 hn)
  · intro row hrow
    rcases hb row hrow with hold | ⟨hl, _⟩
    · rw [hdelr] at hold
      exact Or.inl hold.1
    · exact Or.inr hl

theorem set_topics_per_pubsub_topic_witness :
    SetTopics sqlNeverFails 100000000000000
        [demoTopic "p2" "t2" 5, demoTopic "p1" "t0" 6, demoTopic "p1" "t1" 7]
        [demoFilter "p1" "t1", demoFilter "p1" "t3"]
      = ([demoTopic "p2" "t2" 5, demoTopic "p1" "t1" 7, demoTopic "p1" "t3" 13600], none) ∧
    ∀ row ∈ [demoTopic "p2" "t2" 5, demoTopic "p1" "t0" 6, demoTopic "p1" "t1" 7],
      (row.PubsubTopic, row.ContentTopic)
          ∈ namedPairs [demoFilter "p1" "t1", demoFilter "p1" "t3"] →
        row ∈ [demoTopic "p2" "t2" 5, demoTopic "p1" "t1" 7, demoTopic "p1" "t3" 13600] :=
  ⟨by decide,
    ((set_topics_per_pubsub_topic sqlNeverFails 100000000000000
      [demoTopic "p2" "t2" 5, demoTopic "p1" "t0" 6, demoTopic "p1" "t1" 7]
      [demoTopic "p2" "t2" 5, demoTopic "p1" "t1" 7, demoTopic "p1" "t3" 13600]
      [demoFilter "p1" "t1", demoFilter "p1" "t3"] (by decide) (fun _ => rfl)).2
        (by decide)).2.1⟩

/-- C25, the code at the failing inputs.  The comment above `SetTopics`
(lines 397-398) says that it deletes all topics except the ones set.  With no
filter the call returns no error and keeps the stored topic `(p1, t1)`, by
the early return of lines 413-415; with the one filter `(p1, t1)` it keeps
the topic `(p2, t2)`, stored under a pubsub topic that the filter does not
name, since the `DELETE` of line 437 is restricted to the pubsub topics of the
filters. -/
theorem set_topics_keeps_unnamed_rows :
    SetTopics sqlNeverFails 100000000000000 [demoTopic "p1" "t1" 5] []
        = ([demoTopic "p1" "t1" 5], none) ∧
      namedPairs [] = [] ∧
      storedPairs [demoTopic "p1" "t1" 5] = [("p1", "t1")] ∧
      SetTopics sqlNeverFails 100000000000000 [demoTopic "p2" "t2" 5] [demoFilter "p1" "t1"]
        = ([demoTopic "p2" "t2" 5, demoTopic "p1" "t1" 13600], none) ∧
      ("p2", "t2") ∉ namedPairs [demoFilter "p1" "t1"] := by
  refine ⟨by decide, by decide, by decide, by decide, by decide⟩

/-! ## C26: the cursor of a successful call -/

/-- C26: a successful call with `startDate < endDate` persists the cursor
`uint64(endDate.Unix())`, which is `endDate.Unix()` when that is in the range of
`uint64`, whichever sub-windows were empty or produced archives; a successful
call with `startDate >= endDate` runs no pass of the loop, creates no archive
and persists `uint64(startDate.Unix())`. -/
theorem cursor_is_end_or_start (env : Env) (fuel : Nat) (w : World) (communityID : Bytes)
    (msgs : List Message) (topics : List Bytes) (startDate endDate : Time)
    (partition : Duration) (encrypt : Bool) (r : BuildResult)
    (h : createHistoryArchiveTorrent env fuel w communityID msgs topics startDate endDate
      partition encrypt = some r) (hok : r.err = none) :
    (startDate < endDate →
      r.world.lastMessageArchiveEndDate = some (uint64 (Time.Unix endDate)) ∧
      (0 ≤ Time.Unix endDate → Time.Unix endDate < 18446744073709551616 →
        r.world.lastMessageArchiveEndDate.map Int.ofNat = some (Time.Unix endDate))) ∧
    (endDate ≤ startDate →
      callWindows env fuel w communityID msgs topics startDate endDate partition encrypt = [] ∧
      r.archives = [] ∧ r.archiveIDs = [] ∧
      r.world.lastMessageArchiveEndDate = some (uint64 (Time.Unix startDate)) ∧
      (0 ≤ Time.Unix startDate → Time.Unix startDate < 18446744073709551616 →
        r.world.lastMessageArchiveEndDate.map Int.ofNat = some (Time.Unix startDate))) := by
  have hcur := build_cursor env fuel w communityID msgs topics startDate endDate partition
    encrypt r h hok
  constructor
  · intro hlt
    rw [build_final_from_lt env fuel w communityID msgs topics startDate endDate partition
      encrypt r h hok (le_of_lt hlt)] at hcur
    refine ⟨hcur, fun h0 h1 => ?_⟩
    rw [hcur, Option.map_some']
    exact congrArg some (uint64_of_range _ h0 h1)
  · intro hge
    rw [build_final_from_ge env fuel w communityID msgs topics startDate endDate partition
      encrypt r h hok hge] at hcur
    obtain ⟨w1, st1, w2, hsetup, hloop, hids, _, _⟩ := build_success env fuel w communityID msgs
      topics startDate endDate partition encrypt r h hok
    obtain ⟨idx, _, hst1, _⟩ := setup_ok env w w1 communityID startDate endDate partition st1
      hsetup
    have hfrom : st1.from_ = startDate := by rw [hst1]; rfl
    have hexit : (Time.Equal st1.from_ endDate || Time.After st1.from_ endDate) = true := by
      rw [hfrom]
      simp [Time.Equal, Time.After]
      unfold Time at *
      omega
    have hfinal : r.final = st1 := by
      cases fuel with
      | zero => simp [windowLoop] at hloop
      | succ n =>
        unfold windowLoop at hloop
        rw [if_pos hexit] at hloop
        simp only [Option.some.injEq, Prod.mk.injEq, and_true] at hloop
        exact hloop.symm
    refine ⟨?_, ?_, ?_, hcur, fun h0 h1 => ?_⟩
    · unfold callWindows
      rw [hsetup]
      cases fuel with
      | zero => rfl
      | succ n =>
        show iteratedWindows env communityID encrypt _ msgs topics endDate partition (n + 1) st1 = []
        unfold iteratedWindows
        rw [if_pos hexit]
    · show r.final.produced.map (·.archive) = []
      rw [hfinal, hst1]; rfl
    · rw [hids, hfinal, hst1]; rfl
    · rw [hcur, Option.map_some']
      exact congrArg some (uint64_of_range _ h0 h1)

set_option maxRecDepth 100000 in
theorem cursor_is_end_or_start_witness :
    demoResultEmptyRange.err = none ∧ (21000000000 : Time) ≤ 30000000000 ∧
      demoResultEmptyRange.archives = [] ∧
      demoResultEmptyRange.world.lastMessageArchiveEndDate
        = some (uint64 (Time.Unix 30000000000)) ∧
      Time.Unix 30000000000 = 30 :=
  have t := (cursor_is_end_or_start (demoEnv 4 16) 5 demoWorld1 [7] demoMessages [[0, 0, 0, 1]]
    30000000000 21000000000 7000000000 false demoResultEmptyRange (by decide) (by decide)).2
    (by decide)
  ⟨by decide, by decide, t.2.1, t.2.2.2.1, by decide⟩

/-! ## C27: the window loop terminates -/

/-- C27: for `startDate < endDate` the window loop of a call whose setup
succeeds returns when `partition > 0` (more fuel than sub-windows is enough):
it runs `(endDate - startDate)/partition` rounded up passes and leaves through
its exit test with `from >= endDate`, or fewer passes when one of them ends
with an error; from pass to pass `from` increases strictly and stays below
`endDate`.  With `partition <= 0` the loop never leaves through its exit test,
whatever the fuel. -/
theorem window_loop_terminates (env : Env) (fuel : Nat) (w w1 : World) (communityID : Bytes)
    (msgs : List Message) (topics : List Bytes) (startDate endDate : Time)
    (partition : Duration) (encrypt : Bool) (st1 : BuildState)
    (hlt : startDate < endDate)
    (hsetup : setup env w communityID startDate endDate partition = .ok (w1, st1)) :
    (0 < partition → windowCount startDate endDate partition < fuel →
      (((windowCount startDate endDate partition : Nat) : Int) - 1) * partition
        < endDate - startDate ∧
      endDate - startDate ≤ ((windowCount startDate endDate partition : Nat) : Int) * partition ∧
      ∃ st2 e, windowLoop env communityID encrypt (decide (msgs.length = 0)) msgs topics endDate
          partition fuel st1 = some (st2, e) ∧
        (iteratedWindows env communityID encrypt (decide (msgs.length = 0)) msgs topics endDate
          partition fuel st1).length ≤ windowCount startDate endDate partition ∧
        (e = none →
          (iteratedWindows env communityID encrypt (decide (msgs.length = 0)) msgs topics endDate
            partition fuel st1).length = windowCount startDate endDate partition ∧
          endDate ≤ st2.from_) ∧
        ((iteratedWindows env communityID encrypt (decide (msgs.length = 0)) msgs topics endDate
          partition fuel st1).map Prod.fst).Pairwise (fun a b => a < b) ∧
        ∀ window ∈ iteratedWindows env communityID encrypt (decide (msgs.length = 0)) msgs topics
          endDate partition fuel st1, startDate ≤ window.1 ∧ window.1 < endDate) ∧
    (partition ≤ 0 → ∀ (fuel' : Nat) (st2 : BuildState),
      windowLoop env communityID encrypt (decide (msgs.length = 0)) msgs topics endDate
        partition fuel' st1 ≠ some (st2, none)) := by
  obtain ⟨idx, _, hst1, _⟩ := setup_ok env w w1 communityID startDate endDate partition st1 hsetup
  have hc : Clipped endDate partition st1 := by rw [hst1]; rfl
  have hfrom : st1.from_ = startDate := by rw [hst1]; rfl
  constructor
  · intro hp hfuel
    obtain ⟨hc1, hc2⟩ := windowCount_ceil startDate endDate partition hp hlt
    obtain ⟨⟨st2, e⟩, hl⟩ := windowLoop_terminates env communityID encrypt
      (decide (msgs.length = 0)) msgs topics endDate partition hp fuel st1 hc
      (by rw [hfrom]; exact hfuel)
    obtain ⟨hlen1, hlen2⟩ := iteratedWindows_length_ok env communityID encrypt
      (decide (msgs.length = 0)) msgs topics endDate partition hp fuel st1 hc
    obtain ⟨hpre, _⟩ := iteratedWindows_tiling env communityID encrypt
      (decide (msgs.length = 0)) msgs topics endDate partition hp fuel st1 hc
    rw [hfrom] at hlen1 hlen2 hpre
    refine ⟨?_, hc2, st2, e, hl, hlen1, ?_, ?_, ?_⟩
    · have e1 : (((windowCount startDate endDate partition : Nat) : Int) - 1) * partition
          = ((windowCount startDate endDate partition : Nat) : Int) * partition - partition := by
        ring
      unfold Time Duration at *
      omega
    · intro he
      subst he
      exact ⟨hlen2 st2 hl, windowLoop_exit env communityID encrypt _ msgs topics endDate
        partition fuel st1 st2 hl⟩
    · have hsub : ((iteratedWindows env communityID encrypt (decide (msgs.length = 0)) msgs topics
          endDate partition fuel st1).map Prod.fst).Sublist
            ((tiling startDate endDate partition).map Prod.fst) :=
        (hpre.sublist).map _
      exact (tiling_starts_increase startDate endDate partition hp).sublist hsub
    · intro window hwin
      have hmem : window ∈ tiling startDate endDate partition := hpre.subset hwin
      unfold tiling at hmem
      obtain ⟨k, hk, hkw⟩ := List.mem_map.1 hmem
      rw [List.mem_range] at hk
      rw [← hkw, subWindow_fst]
      have h1 := subWindow_start_lt startDate endDate partition hp hlt k hk
      have h2 : 0 ≤ (k : Int) * partition := Int.mul_nonneg (Int.ofNat_nonneg k) (le_of_lt hp)
      unfold Time Duration at *
      exact ⟨by omega, h1⟩
  · intro hp fuel' st2
    apply windowLoop_no_exit env communityID encrypt _ msgs topics endDate partition hp fuel' st1
      st2 (by rw [hfrom]; exact hlt)
    rw [Clipped_to endDate partition st1 hc, hfrom]
    unfold Time Duration at *
    split <;> omega

set_option maxRecDepth 100000 in
theorem window_loop_terminates_witness :
    (0 : Time) < 21000000000 ∧ windowCount 0 21000000000 7000000000 = 3 ∧
      ∃ st2 e, windowLoop (demoEnv 4 16) [7] false (decide (demoMessages.length = 0)) demoMessages
          [[0, 0, 0, 1]] 21000000000 7000000000 5 (initialState 0 21000000000 7000000000)
            = some (st2, e) ∧
        (iteratedWindows (demoEnv 4 16) [7] false (decide (demoMessages.length = 0)) demoMessages
          [[0, 0, 0, 1]] 21000000000 7000000000 5
            (initialState 0 21000000000 7000000000)).length ≤ windowCount 0 21000000000 7000000000 :=
  have t := (window_loop_terminates (demoEnv 4 16) 5 demoWorld
    { demoWorld with
      archiveDirExists := true
      torrentDirExists := true
      published := demoWorld.published ++ [Signal.CreatingHistoryArchivesSignal [7]] }
    [7] demoMessages [[0, 0, 0, 1]] 0 21000000000 7000000000 false
    (initialState 0 21000000000 7000000000) (by decide) (by rfl)).1 (by decide) (by decide)
  ⟨by decide, by decide, t.2.2.imp fun _ h => h.imp fun _ h2 => ⟨h2.1, h2.2.1⟩⟩

/-! ## C28: an archive ID that is not in the index -/

/-- C28: with the index loaded and the data file open, the lookup of
`ExtractMessagesFromHistoryArchive` is not guarded: for an archive ID that is
not a key of the index the entry is nil and reading its offset is a nil
dereference, so the call returns neither a message list nor an error value;
the call gets past the lookup if and only if the archive ID is a key of the
index. -/
theorem extract_missing_entry_faults (env : Env) (w : World) (communityID : Bytes)
    (archiveID : String) (index : WakuMessageArchiveIndex) (file : Bytes)
    (hload : LoadHistoryArchiveIndexFromFile env w communityID = .ok index)
    (hopen : env.fails .openDataForRead = false) (hfile : w.dataFile = some file) :
    (archiveID ∈ index.map Prod.fst ↔ ∃ metadata, index.lookup archiveID = some metadata) ∧
    (ExtractMessagesFromHistoryArchive env w communityID archiveID ≠ .nilDereference ↔
      archiveID ∈ index.map Prod.fst) ∧
    (archiveID ∉ index.map Prod.fst →
      ExtractMessagesFromHistoryArchive env w communityID archiveID = .nilDereference ∧
      (∀ msgs, ExtractMessagesFromHistoryArchive env w communityID archiveID ≠ .messages msgs) ∧
      ∀ e, ExtractMessagesFromHistoryArchive env w communityID archiveID ≠ .error e) := by
  have key := extract_after_load env w communityID archiveID index file hload hopen hfile
  have hmem : archiveID ∈ index.map Prod.fst ↔
      ∃ metadata, index.lookup archiveID = some metadata := by
    have := lookup_none_iff index archiveID
    constructor
    · intro h
      cases hl : index.lookup archiveID with
      | none => exact absurd h (this.1 hl)
      | some md => exact ⟨md, rfl⟩
    · rintro ⟨md, hmd⟩
      by_contra hcon
      rw [this.2 hcon] at hmd
      simp at hmd
  have hnone : archiveID ∉ index.map Prod.fst →
      ExtractMessagesFromHistoryArchive env w communityID archiveID = .nilDereference := by
    intro h
    rw [key, (lookup_none_iff index archiveID).2 h]
  refine ⟨hmem, ⟨?_, ?_⟩, fun h => ?_⟩
  · intro hne
    by_contra hcon
    exact hne (hnone hcon)
  · intro hin
    obtain ⟨md, hmd⟩ := hmem.1 hin
    rw [key, hmd]
    dsimp only
    split
    · simp
    · split
      · simp
      · split
        · simp
        · split
          · simp
          · exact decryptArchive_not_nil env communityID _
  · rw [hnone h]
    exact ⟨rfl, fun msgs hm => ExtractOutcome.noConfusion hm,
      fun e he => ExtractOutcome.noConfusion he⟩

set_option maxRecDepth 100000 in
theorem extract_missing_entry_faults_witness :
    "missing" ∉ demoIndex1.map Prod.fst ∧
      ExtractMessagesFromHistoryArchive (demoEnv 4 16) demoWorld1 [7] "missing"
        = .nilDereference :=
  have t := (extract_missing_entry_faults (demoEnv 4 16) demoWorld1 [7] "missing" demoIndex1
    (demoWorld1.dataFile.getD []) (by rfl) rfl (by decide)).2.2 (by decide)
  ⟨by decide, t.1⟩

/-! ## C29: what the archive ID depends on -/

/-- C29: the ID of every archive of a successful call is the hash of the
serialised entry made of `Metadata.From`, `Metadata.To`, the content topics,
the offset, the size and the padding, which are the metadata of the archive and
the layout of its encoded bytes.  Two successful builds with `encrypt = false`
from the same community files, window and topics, whose message lists differ
but give archives with the same metadata that serialise to the same lengths,
create the same entries and return the same archive IDs. -/
theorem archive_id_ignores_content (env : Env) (fuel : Nat) (w : World) (communityID : Bytes)
    (msgs msgs' : List Message) (topics : List Bytes) (startDate endDate : Time)
    (partition : Duration) (r r' : BuildResult)
    (h : createHistoryArchiveTorrent env fuel w communityID msgs topics startDate endDate
      partition false = some r)
    (h' : createHistoryArchiveTorrent env fuel w communityID msgs' topics startDate endDate
      partition false = some r')
    (hok : r.err = none) (hok' : r'.err = none)
    (hshape : r.archives.map (archiveShape env) = r'.archives.map (archiveShape env)) :
    r.archiveIDs = r'.archiveIDs ∧ r.entries = r'.entries ∧
    ∀ p ∈ r.final.produced,
      p.entry.Metadata = p.archive.Metadata ∧
      p.entry.Size = (sizeAndPadding (p.encoded.bytes.length : Int) env.pieceLength).1.toNat ∧
      p.entry.Padding = (sizeAndPadding (p.encoded.bytes.length : Int) env.pieceLength).2.toNat ∧
      archiveIDOf env p.entry.Metadata.From p.entry.Metadata.To p.entry.Metadata.ContentTopic
        p.entry.Offset p.entry.Size p.entry.Padding = some p.archiveID := by
  obtain ⟨w1, st1, _, hsetup, _, _, _, _⟩ := build_success env fuel w communityID msgs topics
    startDate endDate partition false r h hok
  obtain ⟨idx, hidx, _, _⟩ := setup_ok env w w1 communityID startDate endDate partition st1 hsetup
  obtain ⟨t1, _, _, _, t5, t6⟩ := build_trace env fuel w communityID msgs topics startDate endDate
    partition false r idx hidx h hok
  obtain ⟨t1', _, _, _, t5', t6'⟩ := build_trace env fuel w communityID msgs' topics startDate
    endDate partition false r' idx hidx h' hok'
  obtain ⟨he, hi⟩ := entries_of_shapes env communityID r.final.produced r'.final.produced _ t5 t5'
    t6 t6' (by
      have : r.archives.map (archiveShape env) = r'.archives.map (archiveShape env) := hshape
      simpa [BuildResult.archives, List.map_map, Function.comp] using this)
  obtain ⟨_, _, _, hid, _⟩ := build_success env fuel w communityID msgs topics
    startDate endDate partition false r h hok
  obtain ⟨_, _, _, _, _, hid', _⟩ := build_success env fuel w communityID msgs' topics
    startDate endDate partition false r' h' hok'
  refine ⟨?_, he, ?_⟩
  · obtain ⟨_, _, _, _, _, hida, _⟩ := build_success env fuel w communityID msgs topics
      startDate endDate partition false r h hok
    rw [hida, hid', t1, t1', hi]
  · intro p hp
    obtain ⟨e1, _, _, ⟨eb, heb, hidp⟩⟩ := t6 p hp
    refine ⟨by rw [e1]; rfl, by rw [e1]; rfl, by rw [e1]; rfl, ?_⟩
    unfold archiveIDOf
    have : ({ Metadata := { From := p.entry.Metadata.From, To := p.entry.Metadata.To,
                            ContentTopic := p.entry.Metadata.ContentTopic }
              Offset := p.entry.Offset, Size := p.entry.Size, Padding := p.entry.Padding } :
            WakuMessageArchiveIndexMetadata) = p.entry := rfl
    rw [this, heb, hidp]
    rfl

set_option maxRecDepth 100000 in
theorem archive_id_ignores_content_witness :
    demoResult.err = none ∧ demoResultAlt.err = none ∧
      demoResult.archives ≠ demoResultAlt.archives ∧
      demoResult.archives.map (archiveShape (demoEnv 4 16)) = demoShapes ∧
      demoResultAlt.archives.map (archiveShape (demoEnv 4 16)) = demoShapes ∧
      demoResult.archiveIDs.length = 3 ∧
      demoResult.archiveIDs = demoResultAlt.archiveIDs ∧
      demoResult.entries = demoResultAlt.entries :=
  have s1 : demoResult.archives.map (archiveShape (demoEnv 4 16)) = demoShapes := by decide
  have s2 : demoResultAlt.archives.map (archiveShape (demoEnv 4 16)) = demoShapes := by decide
  have t := archive_id_ignores_content (demoEnv 4 16) 5 demoWorld [7] demoMessages demoMessagesAlt
    [[0, 0, 0, 1]] 0 21000000000 7000000000 demoResult demoResultAlt (by decide) (by decide)
    (by decide) (by decide) (s1.trans s2.symm)
  ⟨by decide, by decide, by decide, s1, s2, by decide, t.1, t.2.1⟩

/-! ## C30: the clause of `ReadMultiTransactions` -/

/-- C30: `ReadMultiTransactions` returns the error "details is nil" for nil
details.  For details that are not nil the slice `whereClause[:len(whereClause)-5]`
is within bounds, and the statement is prepared, if and only if at least one of
the filters `IDs`, `AnyAddress`, `FromAddress`, `ToAddress`, `ToChainID`,
`CrossTxID`, `Type` is set; the clause is then the conditions of the filters
that are set joined by " AND ", it does not end in " AND ", and it has as many
placeholders `?` as arguments are bound.  With no filter set, as for
`NewMultiTxDetails()`, the upper bound of the slice is -5: the run-time error
of a slice out of range, and no statement is prepared. -/
theorem read_multi_transactions_clause (MultiTransactionTypeInvalid : Nat) :
    ReadMultiTransactions MultiTransactionTypeInvalid none = .error "details is nil" ∧
    (∀ d : MultiTxDetails,
      (∃ whereClause args, ReadMultiTransactions MultiTransactionTypeInvalid (some d)
        = .prepared whereClause args) ↔ anyFilterSet d) ∧
    (∀ d : MultiTxDetails, anyFilterSet d →
      ReadMultiTransactions MultiTransactionTypeInvalid (some d)
        = .prepared
            (stringsJoin ((activeFilters MultiTransactionTypeInvalid d).map Prod.fst) " AND ")
            ((activeFilters MultiTransactionTypeInvalid d).map Prod.snd).flatten ∧
      placeholders
          (stringsJoin ((activeFilters MultiTransactionTypeInvalid d).map Prod.fst) " AND ")
        = ((activeFilters MultiTransactionTypeInvalid d).map Prod.snd).flatten.length ∧
      ¬ (" AND ".data <:+
        (stringsJoin ((activeFilters MultiTransactionTypeInvalid d).map Prod.fst) " AND ").data)) ∧
    (∀ d : MultiTxDetails, ¬ anyFilterSet d →
      ReadMultiTransactions MultiTransactionTypeInvalid (some d) = .sliceOutOfRange (-5)) ∧
    ReadMultiTransactions MultiTransactionTypeInvalid (some NewMultiTxDetails)
      = .sliceOutOfRange (-5) := by
  have hset : ∀ d : MultiTxDetails, anyFilterSet d →
      ReadMultiTransactions MultiTransactionTypeInvalid (some d)
        = .prepared
            (stringsJoin ((activeFilters MultiTransactionTypeInvalid d).map Prod.fst) " AND ")
            ((activeFilters MultiTransactionTypeInvalid d).map Prod.snd).flatten := by
    intro d hd
    have hne : (activeFilters MultiTransactionTypeInvalid d).map Prod.fst ≠ [] := by
      intro h
      exact (activeFilters_ne_nil MultiTransactionTypeInvalid d).2 hd (List.map_eq_nil_iff.1 h)
    rw [ReadMultiTransactions_eq, addFilters_empty]
    dsimp only
    rw [withSeparators_join " AND " _ hne]
    have hlen : ¬ (((stringsJoin ((activeFilters MultiTransactionTypeInvalid d).map Prod.fst)
        " AND " ++ " AND ").length : Int) - 5 < 0) := by
      rw [String.length_append]
      have : (" AND " : String).length = 5 := by decide
      rw [this]
      push_cast
      omega
    rw [if_neg hlen, trim_separator _ " AND " (by decide)]
  have hunset : ∀ d : MultiTxDetails, ¬ anyFilterSet d →
      ReadMultiTransactions MultiTransactionTypeInvalid (some d) = .sliceOutOfRange (-5) := by
    intro d hd
    have hnil : activeFilters MultiTransactionTypeInvalid d = [] := by
      by_contra h
      exact hd ((activeFilters_ne_nil MultiTransactionTypeInvalid d).1 h)
    rw [ReadMultiTransactions_eq, addFilters_empty, hnil]
    rfl
  refine ⟨rfl, fun d => ⟨?_, fun hd => ⟨_, _, hset d hd⟩⟩, fun d hd => ⟨hset d hd, ?_, ?_⟩,
    hunset, hunset _ (by unfold anyFilterSet NewMultiTxDetails; decide)⟩
  · rintro ⟨c, a, h⟩
    by_contra hd
    rw [hunset d hd] at h
    exact ReadOutcome.noConfusion h
  · rw [placeholders_join " AND " (by decide), List.length_flatten, List.map_map, List.map_map]
    congr 1
    apply List.map_congr_left
    intro f hf
    exact activeFilters_placeholders MultiTransactionTypeInvalid d f hf
  · have hne : (activeFilters MultiTransactionTypeInvalid d).map Prod.fst ≠ [] := by
      intro h
      exact (activeFilters_ne_nil MultiTransactionTypeInvalid d).2 hd (List.map_eq_nil_iff.1 h)
    obtain ⟨init, c, hdat, hc⟩ := stringsJoin_last " AND " _ hne (by
      intro s hs
      obtain ⟨f, hf, hfs⟩ := List.mem_map.1 hs
      rw [← hfs]
      exact activeFilters_last MultiTransactionTypeInvalid d f hf)
    exact not_suffix_of_last _ init c hdat hc

theorem read_multi_transactions_clause_witness :
    anyFilterSet demoDetails ∧
      ReadMultiTransactions 255 (some demoDetails)
        = .prepared "id in (?,?,?) AND to_address=?"
            [SqlArg.id 4, SqlArg.id 5, SqlArg.id 6, SqlArg.address 9] ∧
      ReadMultiTransactions 255 (some demoDetails)
        = .prepared (stringsJoin ((activeFilters 255 demoDetails).map Prod.fst) " AND ")
            ((activeFilters 255 demoDetails).map Prod.snd).flatten :=
  ⟨by unfold anyFilterSet demoDetails; decide, by decide,
    ((read_multi_transactions_clause 255).2.2.1 demoDetails
      (by unfold anyFilterSet demoDetails; decide)).1⟩

end Communities
